import Mathlib

/-!
Verification of the propositional- and predicate-logic engine
(`propositions/` and `predicates/` packages) against its specification.

Python strings are modelled as `List Char` (`Str`).  Python `dict`s are
modelled as association lists, Python `set`s as lists used only through
membership (and, where the source iterates over a set, iteration order is
modelled as list order; every place where this matters is noted).  A Python
function that can raise an exception is modelled as returning `Option`/`Except`
with `none`/`.error` for the raising executions.

The classes `Proof`, `InferenceRule` (propositions/proofs.py), the axiom
tables (propositions/axiomatic_systems.py), the predicate-logic `Proof`,
`Schema` and `Prover` (predicates/proofs.py, predicates/prover.py), the
predicate `Model` (predicates/semantics.py) and `logic_utils` are not part of
the sources; they are modelled from the specification and are each marked
`Modelled from the spec:` in their doc string.
-/

set_option maxHeartbeats 1000000
set_option synthInstance.maxHeartbeats 1000000

abbrev Str : Type := List Char

/-- Embeds propositions/syntax.py `is_variable`: first character between `p`
and `z`, and either a single character or the tail all digits. -/
def isPropVariable (s : Str) : Bool :=
  match s with
  | [] => false
  | c :: rest => ('p' ≤ c && c ≤ 'z') && (rest.isEmpty || rest.all Char.isDigit)

/-- Embeds propositions/syntax.py `is_constant`: exactly `"T"` or `"F"`. -/
def isPropConstant (s : Str) : Bool :=
  s == ['T'] || s == ['F']

/-- Embeds propositions/syntax.py `is_unary` (and the identical
predicates/syntax.py `is_unary`): exactly `"~"`. -/
def isUnaryOp (s : Str) : Bool :=
  s == ['~']

/-- Embeds propositions/syntax.py `is_binary` (and the identical
predicates/syntax.py `is_binary`): `"&"`, `"|"` or `"->"`. -/
def isBinaryOp (s : Str) : Bool :=
  s == ['&'] || s == ['|'] || s == ['-', '>']

/-- The tree of a propositional `Formula` (propositions/syntax.py).  The
`root` is kept as a string exactly as in the source; the three constructors
correspond to the three storage shapes of `Formula.__init__` (leaf operand-less
node, node with `first` only, node with `first` and `second`). -/
inductive PropFormula where
  | leaf (root : Str)
  | un (root : Str) (first : PropFormula)
  | bin (root : Str) (first second : PropFormula)
deriving DecidableEq, Repr

/-- The invariants enforced by the asserts of `Formula.__init__`
(propositions/syntax.py): a leaf is a variable or a constant, a one-operand
node has a unary root, a two-operand node has a binary root. -/
def PropFormula.wf : PropFormula → Bool
  | .leaf r => isPropVariable r || isPropConstant r
  | .un r f => isUnaryOp r && f.wf
  | .bin r f g => isBinaryOp r && f.wf && g.wf

/-- Embeds `Formula.__repr__` (propositions/syntax.py): a leaf prints its
root, a unary node prints root followed by operand, a binary node prints
`(first root second)`.  (The source dispatches on the classification of the
root, which under the constructor invariants agrees with the tree shape.) -/
def PropFormula.repr : PropFormula → Str
  | .leaf r => r
  | .un r f => r ++ f.repr
  | .bin r f g => '(' :: (f.repr ++ r ++ g.repr ++ [')'])

/-- Embeds `Formula.variables` (propositions/syntax.py), with the sets of the
source represented as lists used through membership. -/
def PropFormula.vars : PropFormula → List Str
  | .leaf r => if isPropVariable r then [r] else []
  | .un _ f => f.vars
  | .bin _ f g => f.vars ++ g.vars

/-- Embeds `Formula.operators` (propositions/syntax.py): all operators,
including the constants `T` and `F`. -/
def PropFormula.operators : PropFormula → List Str
  | .leaf r => if isPropVariable r then [] else [r]
  | .un r f => r :: f.operators
  | .bin r f g => r :: (f.operators ++ g.operators)

/-- A propositional model (propositions/semantics.py `Model`): a mapping from
variable names to truth values, modelled as an association list. -/
abbrev PropModel : Type := List (Str × Bool)

def lookupStr {α : Type} (m : List (Str × α)) (k : Str) : Option α :=
  match m with
  | [] => none
  | (k', v) :: rest => if k' == k then some v else lookupStr rest k

/-- Embeds `evaluate` (propositions/semantics.py).  A missing model entry
(Python `KeyError`) and the implicit `return None` fall-through of the binary
dispatch are both modelled as `none`. -/
def evaluate (f : PropFormula) (m : PropModel) : Option Bool :=
  match f with
  | .leaf r =>
      if isPropConstant r then some (r == ['T'])
      else if isPropVariable r then lookupStr m r
      else none
  | .un _ f1 =>
      match evaluate f1 m with
      | none => none
      | some b => some (!b)
  | .bin r f1 f2 =>
      match evaluate f1 m, evaluate f2 m with
      | some a, some b =>
          if r == ['&'] then some (a && b)
          else if r == ['|'] then some (a || b)
          else if r == ['-', '>'] then some (!a || b)
          else if r == ['+'] then some (if a then !b else b)
          else if r == ['<', '-', '>'] then some (if a then b else !b)
          else if r == ['-', '&'] then some (!(a && b))
          else if r == ['-', '|'] then some (!(a || b))
          else none
      | _, _ => none

/-- C10: for every formula satisfying the constructor invariants and every
model defined on all of its variables, `evaluate` returns a boolean: the
implicit `None` fall-through for an unrecognized binary operator is
unreachable. -/
theorem evaluate_total (f : PropFormula) (m : PropModel)
    (hwf : f.wf = true)
    (hm : ∀ v ∈ f.vars, (lookupStr m v).isSome = true) :
    ∃ b, evaluate f m = some b := by
  induction f with
  | leaf r =>
      by_cases hc : isPropConstant r = true
      · exact ⟨r == ['T'], by simp [evaluate, hc]⟩
      · have hv : isPropVariable r = true := by
          simp [PropFormula.wf, hc] at hwf; exact hwf
        have := hm r (by simp [PropFormula.vars, hv])
        rcases Option.isSome_iff_exists.mp this with ⟨b, hb⟩
        exact ⟨b, by simp [evaluate, hc, hv, hb]⟩
  | un r f1 ih =>
      simp only [PropFormula.wf, Bool.and_eq_true] at hwf
      rcases ih hwf.2 (fun v hv => hm v (by simpa [PropFormula.vars] using hv)) with ⟨b, hb⟩
      exact ⟨!b, by simp [evaluate, hb]⟩
  | bin r f1 f2 ih1 ih2 =>
      simp only [PropFormula.wf, Bool.and_eq_true] at hwf
      rcases ih1 hwf.1.2 (fun v hv => hm v (by simp [PropFormula.vars, hv])) with ⟨a, ha⟩
      rcases ih2 hwf.2 (fun v hv => hm v (by simp [PropFormula.vars, hv])) with ⟨b, hb⟩
      have hop : isBinaryOp r = true := hwf.1.1
      simp only [isBinaryOp, Bool.or_eq_true, beq_iff_eq] at hop
      rcases hop with (h | h) | h
      · subst h; exact ⟨a && b, by simp [evaluate, ha, hb]⟩
      · subst h; exact ⟨a || b, by simp [evaluate, ha, hb]⟩
      · subst h; exact ⟨!a || b, by simp [evaluate, ha, hb]⟩

/-- Witness for C10 at the concrete formula `(p->q)` and model
`{p: True, q: False}`. -/
theorem evaluate_total_witness :
    ∃ b, evaluate (.bin ['-', '>'] (.leaf ['p']) (.leaf ['q']))
      [(['p'], true), (['q'], false)] = some b :=
  evaluate_total _ _ (by decide) (by decide)

/-! ## The propositional parser (propositions/syntax.py `_parse_prefix`) -/

/-- Embeds the maximal-munch loop of `Formula._parse_prefix` for variable
names (the identical loop appears as `find_relevant_part` in
predicates/syntax.py): starting from `i = 1`, increment `i` while the prefix
of length `i` satisfies `f`, then return `i - 1` at the first failure, or exit
with the final `i` once `i` reaches `length + 1`. -/
def findRelevantAux (f : Str → Bool) (s : Str) : Nat → Nat → Nat
  | i, 0 => i
  | i, fuel + 1 =>
      if i < s.length + 1 then
        if f (s.take i) then findRelevantAux f s (i + 1) fuel
        else i - 1
      else i

def findRelevantPart (f : Str → Bool) (s : Str) : Nat :=
  findRelevantAux f s 1 (s.length + 1)

/-- Embeds `Formula._parse_prefix` (propositions/syntax.py).  The recursion of
the source is on a strictly shorter string at each nested call, modelled by a
fuel parameter; `propParsePfx` below supplies sufficient fuel.  On failure the
source returns `(None, error message)`; the message contents are kept. -/
def parsePropAux : Nat → Str → Option PropFormula × Str
  | 0, _ => (none, "fuel".data)
  | fuel + 1, s =>
      match s with
      | [] => (none, "Formula is empty.".data)
      | c :: rest =>
          if isPropConstant [c] then (some (.leaf [c]), rest)
          else if isPropVariable [c] then
            let i := findRelevantPart isPropVariable s
            (some (.leaf (s.take i)), s.drop i)
          else if c = '(' then
            match parsePropAux fuel rest with
            | (first, rest1) =>
                if rest1.length ≤ 1 ||
                    (!isBinaryOp (rest1.take 1) && !isBinaryOp (rest1.take 2)) then
                  (none, "Binary operators must be one of: &, |, ->".data)
                else
                  let op := if isBinaryOp (rest1.take 1) then rest1.take 1 else rest1.take 2
                  let rest2 := if isBinaryOp (rest1.take 1) then rest1.drop 1 else rest1.drop 2
                  match parsePropAux fuel rest2 with
                  | (second, rest3) =>
                      match first, second, rest3 with
                      | some f1, some f2, ')' :: rest4 => (some (.bin op f1 f2), rest4)
                      | _, _, _ =>
                          (none, "The use of binary operator is wrong.".data)
          else if isUnaryOp [c] then
            match parsePropAux fuel rest with
            | (none, _) => (none, "The use of not operator is: '~<valid formula>'".data)
            | (some f, rest1) => (some (.un [c] f), rest1)
          else (none, "Expected valid formula.".data)

def propParsePfx (s : Str) : Option PropFormula × Str :=
  parsePropAux (s.length + 1) s

/-- Embeds `Formula.parse` (propositions/syntax.py): the parsed prefix must be
a formula and the suffix must be empty (the source asserts this); a violated
assert is modelled as `none`. -/
def propParse (s : Str) : Option PropFormula :=
  match propParsePfx s with
  | (some f, []) => some f
  | _ => none

/-- Parser nesting depth of a formula: the fuel needed by `parsePropAux`. -/
def PropFormula.pdepth : PropFormula → Nat
  | .leaf _ => 0
  | .un _ f => f.pdepth + 1
  | .bin _ f g => max f.pdepth g.pdepth + 1

theorem pdepth_le_repr_length (f : PropFormula) (hwf : f.wf = true) :
    f.pdepth ≤ f.repr.length := by
  induction f with
  | leaf r => simp [PropFormula.pdepth]
  | un r f ih =>
      simp only [PropFormula.wf, Bool.and_eq_true] at hwf
      have hr : r = ['~'] := by
        have := hwf.1; simpa [isUnaryOp] using this
      have := ih hwf.2
      subst hr
      simp only [PropFormula.pdepth, PropFormula.repr, List.length_append]
      simp only [List.length_cons, List.length_nil]
      omega
  | bin r f g ihf ihg =>
      simp only [PropFormula.wf, Bool.and_eq_true] at hwf
      have h1 := ihf hwf.1.2
      have h2 := ihg hwf.2
      simp only [PropFormula.pdepth, PropFormula.repr, List.length_cons, List.length_append]
      omega

/-- A string that does not begin with a digit (so that it cannot extend a
maximally-munched variable name to its left). -/
def noDigitHead : Str → Prop
  | [] => True
  | c :: _ => c.isDigit = false

theorem take_prop_variable {v : Str} (hv : isPropVariable v = true)
    {j : Nat} (h1 : 1 ≤ j) : isPropVariable (v.take j) = true := by
  match v, hv with
  | c :: t, hv =>
    match j, h1 with
    | j + 1, _ =>
      simp only [List.take_succ_cons, isPropVariable, Bool.and_eq_true,
        Bool.or_eq_true] at hv ⊢
      refine ⟨hv.1, ?_⟩
      rcases hv.2 with h | h
      · left
        simp only [List.isEmpty_iff] at h
        subst h
        simp
      · right
        exact List.all_eq_true.mpr fun x hx =>
          List.all_eq_true.mp h x (List.mem_of_mem_take hx)

theorem var_append_not_variable {v : Str} (hv : isPropVariable v = true)
    {c : Char} (hc : c.isDigit = false) :
    isPropVariable (v ++ [c]) = false := by
  match v, hv with
  | b :: t, hv =>
    simp only [isPropVariable, Bool.and_eq_true, Bool.or_eq_true] at hv
    simp only [List.cons_append, isPropVariable, Bool.and_eq_false_iff]
    right
    simp only [Bool.or_eq_false_iff]
    refine ⟨by simp [List.isEmpty_iff], ?_⟩
    refine List.all_eq_false.mpr ⟨c, by simp, by simp [hc]⟩

theorem findRelevantAux_munch {v rest : Str} (hv : isPropVariable v = true)
    (hrest : noDigitHead rest) :
    ∀ i fuel, 1 ≤ i → i ≤ v.length + 1 → v.length + 2 - i ≤ fuel →
      findRelevantAux isPropVariable (v ++ rest) i fuel =
        (if rest.isEmpty then v.length + 1 else v.length) := by
  intro i fuel h1 h2 hfuel
  induction fuel generalizing i with
  | zero => omega
  | succ fuel ih =>
      rcases Nat.lt_or_ge i (v.length + 1) with hi | hi
      · -- still inside v: the prefix is a variable, keep going
        have hcond : i < (v ++ rest).length + 1 := by
          simp only [List.length_append]; omega
        have htake : (v ++ rest).take i = v.take i := by
          rw [List.take_append_of_le_length (by omega)]
        rw [findRelevantAux, if_pos hcond, htake,
          if_pos (take_prop_variable hv h1)]
        exact ih (i + 1) (by omega) (by omega) (by omega)
      · -- i = v.length + 1
        have hi' : i = v.length + 1 := by omega
        subst hi'
        match rest, hrest with
        | [], _ =>
            have hcond : ¬ (v.length + 1 < (v ++ ([] : Str)).length + 1) := by
              simp
            rw [findRelevantAux, if_neg hcond]
            simp
        | c :: rs, hrest =>
            have hcond : v.length + 1 < (v ++ (c :: rs)).length + 1 := by
              simp only [List.length_append, List.length_cons]; omega
            have htake : (v ++ (c :: rs)).take (v.length + 1) = v ++ [c] := by
              rw [List.take_append_eq_append_take]
              simp
            rw [findRelevantAux, if_pos hcond, htake,
              var_append_not_variable hv hrest]
            simp

theorem findRelevantPart_munch {v rest : Str} (hv : isPropVariable v = true)
    (hrest : noDigitHead rest) :
    findRelevantPart isPropVariable (v ++ rest) =
      (if rest.isEmpty then v.length + 1 else v.length) := by
  have hlen : 1 ≤ v.length := by
    match v, hv with
    | c :: t, _ => simp
  exact findRelevantAux_munch hv hrest 1 ((v ++ rest).length + 1) (by omega)
    (by omega) (by simp only [List.length_append]; omega)

theorem isPropConstant_of_var_head {c : Char} (h : ('p' ≤ c && c ≤ 'z') = true) :
    isPropConstant [c] = false := by
  simp only [Bool.and_eq_true, decide_eq_true_eq] at h
  simp only [isPropConstant, List.cons.injEq, and_true, Bool.or_eq_false_iff,
    beq_eq_false_iff_ne, ne_eq]
  constructor
  · rintro rfl; revert h; decide
  · rintro rfl; revert h; decide

theorem parsePropAux_repr (f : PropFormula) (hwf : f.wf = true) :
    ∀ (rest : Str) (fuel : Nat), noDigitHead rest → f.pdepth < fuel →
      parsePropAux fuel (f.repr ++ rest) = (some f, rest) := by
  induction f with
  | leaf r =>
      intro rest fuel hrest hfuel
      match fuel, hfuel with
      | fuel + 1, _ =>
        simp only [PropFormula.wf, Bool.or_eq_true] at hwf
        rcases hwf with hv | hc
        · -- variable leaf
          match r, hv with
          | c :: t, hv =>
            have hrange : ('p' ≤ c && c ≤ 'z') = true := by
              simp only [isPropVariable, Bool.and_eq_true] at hv
              simp [hv.1]
            have hc1 : isPropConstant [c] = false := isPropConstant_of_var_head hrange
            have hv1 : isPropVariable [c] = true := by
              simp only [isPropVariable, Bool.and_eq_true] at hv ⊢
              exact ⟨hv.1, by simp⟩
            have hmunch := @findRelevantPart_munch (c :: t) rest hv hrest
            rw [show ((c :: t) ++ rest : Str) = (c :: (t ++ rest)) by simp] at hmunch
            simp only [PropFormula.repr, List.cons_append, parsePropAux, hc1,
              Bool.false_eq_true, if_false, hv1, if_true, hmunch]
            by_cases hre : rest.isEmpty
            · rw [if_pos hre]
              simp only [List.isEmpty_iff] at hre
              subst hre
              rw [show (c :: (t ++ ([] : Str))) = ((c :: t) ++ ([] : Str)) by simp]
              rw [List.append_nil, List.take_of_length_le (by simp),
                List.drop_of_length_le (by simp)]
            · rw [if_neg hre]
              rw [show (c :: (t ++ rest) : Str) = ((c :: t) ++ rest) by simp]
              rw [List.take_left, List.drop_left]
        · -- constant leaf
          simp only [isPropConstant, Bool.or_eq_true, beq_iff_eq] at hc
          rcases hc with h | h
          · subst h; simp [PropFormula.repr, parsePropAux, isPropConstant]
          · subst h; simp [PropFormula.repr, parsePropAux, isPropConstant]
  | un r f1 ih =>
      intro rest fuel hrest hfuel
      match fuel, hfuel with
      | fuel + 1, hfuel =>
        simp only [PropFormula.wf, Bool.and_eq_true] at hwf
        have hr : r = ['~'] := by have := hwf.1; simpa [isUnaryOp] using this
        subst hr
        have hih := ih hwf.2 rest fuel hrest
          (by simp only [PropFormula.pdepth] at hfuel; omega)
        simp only [PropFormula.repr, List.cons_append, List.nil_append]
        simp only [parsePropAux, hih]
        rw [if_neg (by decide : ¬ (isPropConstant ['~'] = true)),
          if_neg (by decide : ¬ (isPropVariable ['~'] = true)),
          if_neg (by decide : ¬ ('~' = '(')),
          if_pos (by decide : isUnaryOp ['~'] = true)]
  | bin r f1 f2 ih1 ih2 =>
      intro rest fuel hrest hfuel
      match fuel, hfuel with
      | fuel + 1, hfuel =>
        simp only [PropFormula.wf, Bool.and_eq_true] at hwf
        have hop : isBinaryOp r = true := hwf.1.1
        simp only [PropFormula.pdepth] at hfuel
        simp only [isBinaryOp, Bool.or_eq_true, beq_iff_eq] at hop
        rcases hop with (h | h) | h
        · -- r = "&"
          subst h
          have hih1 := ih1 hwf.1.2 ('&' :: (f2.repr ++ ')' :: rest)) fuel
            (by simp [noDigitHead]) (by omega)
          have hih2 := ih2 hwf.2 (')' :: rest) fuel (by simp [noDigitHead])
            (by omega)
          simp only [PropFormula.repr, List.cons_append, List.nil_append,
            List.append_assoc]
          simp only [parsePropAux, hih1]
          rw [if_neg (by decide : ¬ (isPropConstant ['('] = true)),
            if_neg (by decide : ¬ (isPropVariable ['('] = true))]
          simp only [if_true]
          have ht1 : List.take 1 ('&' :: (f2.repr ++ ')' :: rest)) = ['&'] := rfl
          have hb1 : isBinaryOp (List.take 1 ('&' :: (f2.repr ++ ')' :: rest))) = true := by
            rw [ht1]; decide
          rw [if_neg (by
            simp only [hb1, Bool.not_true, Bool.false_and, Bool.and_false,
              Bool.or_false, decide_eq_true_eq, List.length_cons, List.length_append]
            omega)]
          have hops : isBinaryOp ['&'] = true := by decide
          simp only [hb1, hops, if_true, List.drop_one, List.tail_cons, hih2, ht1]
        · -- r = "|"
          subst h
          have hih1 := ih1 hwf.1.2 ('|' :: (f2.repr ++ ')' :: rest)) fuel
            (by simp [noDigitHead]) (by omega)
          have hih2 := ih2 hwf.2 (')' :: rest) fuel (by simp [noDigitHead])
            (by omega)
          simp only [PropFormula.repr, List.cons_append, List.nil_append,
            List.append_assoc]
          simp only [parsePropAux, hih1]
          rw [if_neg (by decide : ¬ (isPropConstant ['('] = true)),
            if_neg (by decide : ¬ (isPropVariable ['('] = true))]
          simp only [if_true]
          have ht1 : List.take 1 ('|' :: (f2.repr ++ ')' :: rest)) = ['|'] := rfl
          have hb1 : isBinaryOp (List.take 1 ('|' :: (f2.repr ++ ')' :: rest))) = true := by
            rw [ht1]; decide
          rw [if_neg (by
            simp only [hb1, Bool.not_true, Bool.false_and, Bool.and_false,
              Bool.or_false, decide_eq_true_eq, List.length_cons, List.length_append]
            omega)]
          have hops : isBinaryOp ['|'] = true := by decide
          simp only [hb1, hops, if_true, List.drop_one, List.tail_cons, hih2, ht1]
        · -- r = "->"
          subst h
          have hih1 := ih1 hwf.1.2 ('-' :: '>' :: (f2.repr ++ ')' :: rest)) fuel
            (by simp [noDigitHead]) (by omega)
          have hih2 := ih2 hwf.2 (')' :: rest) fuel (by simp [noDigitHead])
            (by omega)
          simp only [PropFormula.repr, List.cons_append, List.nil_append,
            List.append_assoc]
          simp only [parsePropAux, hih1]
          rw [if_neg (by decide : ¬ (isPropConstant ['('] = true)),
            if_neg (by decide : ¬ (isPropVariable ['('] = true))]
          simp only [if_true]
          have ht1 : List.take 1 ('-' :: '>' :: (f2.repr ++ ')' :: rest)) = ['-'] := rfl
          have ht2 : List.take 2 ('-' :: '>' :: (f2.repr ++ ')' :: rest)) = ['-', '>'] := rfl
          have hb1 : isBinaryOp (List.take 1 ('-' :: '>' :: (f2.repr ++ ')' :: rest))) = false := by
            rw [ht1]; decide
          have hb2 : isBinaryOp (List.take 2 ('-' :: '>' :: (f2.repr ++ ')' :: rest))) = true := by
            rw [ht2]; decide
          rw [if_neg (by
            simp only [hb1, hb2, Bool.not_true, Bool.not_false, Bool.true_and,
              Bool.and_false, Bool.or_false, decide_eq_true_eq,
              List.length_cons, List.length_append]
            omega)]
          simp only [hb1, Bool.false_eq_true, if_false, List.drop_succ_cons,
            List.drop_zero, hih2, ht2]

/-- The propositional half of C8: parsing the printed form of any
invariant-respecting formula returns an equal formula. -/
theorem propParse_repr (f : PropFormula) (hwf : f.wf = true) :
    propParse f.repr = some f := by
  have h := parsePropAux_repr f hwf [] (f.repr.length + 1) (by trivial)
    (by have := pdepth_le_repr_length f hwf; omega)
  simp only [List.append_nil] at h
  simp [propParse, propParsePfx, h]

/-! ## Propositional proofs (`propositions/proofs.py` is not among the
sources; the data structures and the validity check are modelled from the
specification, sections 3 and 4.3). -/

/-- Modelled from the spec: an `InferenceRule` is an ordered list of
assumption formulas plus one conclusion formula (missing
propositions/proofs.py). -/
structure InferenceRule where
  assumptions : List PropFormula
  conclusion : PropFormula
deriving DecidableEq, Repr

/-- Modelled from the spec: a proof line (missing propositions/proofs.py).  A
line is an assumption-use (`rule = none`) or a rule application citing earlier
line indices.  Its formula slot is an `Option` because the source language
lets `None` be stored there (which the Task-3.3 bug below actually does). -/
structure PLine where
  formula : Option PropFormula
  rule : Option InferenceRule
  citations : List Nat
deriving DecidableEq, Repr

def assumptionLine (f : PropFormula) : PLine := ⟨some f, none, []⟩

def ruleLine (f : Option PropFormula) (r : InferenceRule) (cits : List Nat) : PLine :=
  ⟨f, some r, cits⟩

/-- Modelled from the spec: a `Proof` is a statement, a set of allowed rules
(a list used through membership) and a list of lines (missing
propositions/proofs.py). -/
structure PProof where
  statement : InferenceRule
  rules : List InferenceRule
  lines : List PLine
deriving DecidableEq, Repr

/-- Modelled from the spec: the substitution that underlies rule
specialization; replaces every variable leaf that the map covers (missing
propositions/proofs.py). -/
def substVarsSpec (f : PropFormula) (m : List (Str × PropFormula)) : PropFormula :=
  match f with
  | .leaf r =>
      if isPropVariable r then
        match lookupStr m r with
        | some g => g
        | none => .leaf r
      else .leaf r
  | .un r f1 => .un r (substVarsSpec f1 m)
  | .bin r f1 f2 => .bin r (substVarsSpec f1 m) (substVarsSpec f2 m)

def mapsAgree (m1 m2 : List (Str × PropFormula)) : Bool :=
  m1.all fun kv =>
    match lookupStr m2 kv.1 with
    | none => true
    | some v2 => kv.2 == v2

def mergeSpecMaps (m1 m2 : List (Str × PropFormula)) :
    Option (List (Str × PropFormula)) :=
  if mapsAgree m1 m2 then
    some (m1 ++ m2.filter fun kv => (lookupStr m1 kv.1).isNone)
  else none

/-- Modelled from the spec, 4.3: unify a general formula position with a
special one, producing the substitution of the general formula's variables;
constants and operators must match exactly (missing propositions/proofs.py). -/
def formulaSpecMap : PropFormula → PropFormula → Option (List (Str × PropFormula))
  | .leaf r, s =>
      if isPropVariable r then some [(r, s)]
      else if s == .leaf r then some [] else none
  | .un r f, .un r' f' => if r == r' then formulaSpecMap f f' else none
  | .bin r f g, .bin r' f' g' =>
      if r == r' then
        match formulaSpecMap f f', formulaSpecMap g g' with
        | some m1, some m2 => mergeSpecMaps m1 m2
        | _, _ => none
      else none
  | _, _ => none

/-- Modelled from the spec, 4.3: all assumption/conclusion positions must be
obtainable through one consistent substitution; fails if the arity differs or
the substitution is inconsistent (missing propositions/proofs.py). -/
def ruleSpecMap (general special : InferenceRule) :
    Option (List (Str × PropFormula)) :=
  if general.assumptions.length == special.assumptions.length then do
    let m0 ← formulaSpecMap general.conclusion special.conclusion
    (general.assumptions.zip special.assumptions).foldlM
      (fun acc gs => do
        let m ← formulaSpecMap gs.1 gs.2
        mergeSpecMaps acc m)
      m0
  else none

def InferenceRule.isSpecializationOf (special general : InferenceRule) : Bool :=
  (ruleSpecMap general special).isSome

/-- Modelled from the spec: `InferenceRule.specialize` applies a substitution
map to all assumptions and the conclusion (missing propositions/proofs.py). -/
def InferenceRule.specialize (r : InferenceRule) (m : List (Str × PropFormula)) :
    InferenceRule :=
  ⟨r.assumptions.map (substVarsSpec · m), substVarsSpec r.conclusion m⟩

def citedFormulas (lines : List PLine) : List Nat → Option (List PropFormula)
  | [] => some []
  | c :: cs =>
      match (lines.get? c).bind (·.formula), citedFormulas lines cs with
      | some f, some fs => some (f :: fs)
      | _, _ => none

/-- Modelled from the spec, 4.3: a line is justified if it is an assumption
line whose formula is a stated assumption, or a rule application of a declared
rule citing earlier lines such that cited-formulas-plus-own-formula is a
specialization of the rule.  A line with no formula is never justified. -/
def lineValid (assumptions : List PropFormula) (rules : List InferenceRule)
    (lines : List PLine) (i : Nat) (l : PLine) : Bool :=
  match l.rule with
  | none =>
      match l.formula with
      | some f => assumptions.contains f
      | none => false
  | some r =>
      rules.contains r && l.citations.all (· < i) &&
      (match l.formula, citedFormulas lines l.citations with
        | some f, some cf => InferenceRule.isSpecializationOf ⟨cf, f⟩ r
        | _, _ => false)

def lineValidAt (assumptions : List PropFormula) (rules : List InferenceRule)
    (lines : List PLine) (i : Nat) : Bool :=
  match lines.get? i with
  | none => false
  | some l => lineValid assumptions rules lines i l

/-- Modelled from the spec, 4.3: a proof is valid iff every line is justified
and the final line's formula equals the stated conclusion (strict AND over all
lines; missing propositions/proofs.py `Proof.is_valid`). -/
def PProof.isValid (p : PProof) : Bool :=
  (List.range p.lines.length).all
    (lineValidAt p.statement.assumptions p.rules p.lines) &&
  (match p.lines.getLast? with
    | some l => l.formula == some p.statement.conclusion
    | none => false)

/-! Modelled from the spec, section 6: the fixed Hilbert-style axiom table of
propositions/axiomatic_systems.py (missing from the sources); the shapes of
`I0`, `I1`, `D`, `I2`, `NN`, `NI` and `R` are the ones the spec's sections 4.4
and 4.5 describe the synthesis algorithms to use. -/

def pv (s : String) : PropFormula := .leaf s.data

def pneg (f : PropFormula) : PropFormula := .un ['~'] f

def pimp (a b : PropFormula) : PropFormula := .bin ['-', '>'] a b

namespace AX

def MP : InferenceRule := ⟨[pv "p", pimp (pv "p") (pv "q")], pv "q"⟩

def I0 : InferenceRule := ⟨[], pimp (pv "p") (pv "p")⟩

def I1 : InferenceRule := ⟨[], pimp (pv "q") (pimp (pv "p") (pv "q"))⟩

def D : InferenceRule :=
  ⟨[], pimp (pimp (pv "p") (pimp (pv "q") (pv "r")))
        (pimp (pimp (pv "p") (pv "q")) (pimp (pv "p") (pv "r")))⟩

def I2 : InferenceRule := ⟨[], pimp (pneg (pv "p")) (pimp (pv "p") (pv "q"))⟩

def N : InferenceRule :=
  ⟨[], pimp (pimp (pneg (pv "q")) (pneg (pv "p"))) (pimp (pv "p") (pv "q"))⟩

def NI : InferenceRule :=
  ⟨[], pimp (pv "p") (pimp (pneg (pv "q")) (pneg (pimp (pv "p") (pv "q"))))⟩

def NN : InferenceRule := ⟨[], pimp (pv "p") (pneg (pneg (pv "p")))⟩

def R : InferenceRule :=
  ⟨[], pimp (pimp (pv "q") (pv "p"))
        (pimp (pimp (pneg (pv "q")) (pv "p")) (pv "p"))⟩

def SYSTEM : List InferenceRule := [MP, I0, I1, D, I2, N, NI, NN, R]

end AX

/-! ## Propositional proof synthesis (propositions/tautology.py) -/

/-- Embeds `Formula.substitute_variables` (propositions/syntax.py, Task 3.3).
The body of the source function consists only of its asserts and the comment
`# Task 3.3`; it falls through and returns Python `None`, modelled as
`none`. -/
def substituteVariables (_f : PropFormula) (_m : List (Str × PropFormula)) :
    Option PropFormula :=
  none

def strLt : Str → Str → Bool
  | [], [] => false
  | [], _ :: _ => true
  | _ :: _, [] => false
  | a :: as_, b :: bs => if a < b then true else if b < a then false else strLt as_ bs

def insertSorted (x : Str) : List Str → List Str
  | [] => [x]
  | y :: ys => if strLt x y then x :: y :: ys else y :: insertSorted x ys

/-- Python `sorted` on a list of strings (lexicographic order). -/
def sortStrs (l : List Str) : List Str := l.foldr insertSorted []

/-- Embeds `formulas_capturing_model` (propositions/tautology.py): the formula
`x` for ``True`` variables and `~x` for ``False`` ones, ordered alphabetically
by variable name. -/
def formulasCapturingModel (m : PropModel) : List PropFormula :=
  (sortStrs (m.map (·.1))).map fun v =>
    match lookupStr m v with
    | some true => .leaf v
    | _ => .un ['~'] (.leaf v)

/-- Python truthiness of `evaluate(f, model)` (`None` is falsy). -/
def evalTruthy (f : PropFormula) (m : PropModel) : Bool :=
  (evaluate f m).getD false

/-- Embeds `_concat_proofs` (propositions/tautology.py): the lines of the
first proof followed by the lines of the second with rule-line citations
shifted by the length of the first. -/
def concatLines (p1 p2 : PProof) : List PLine :=
  p1.lines ++ p2.lines.map fun l =>
    if l.rule == none then l
    else ⟨l.formula, l.rule, l.citations.map (· + p1.lines.length)⟩

/-- Embeds `prove_in_model` (propositions/tautology.py).  The source returns
`None` when the root is a constant (no branch matches), modelled as `none`.
In the false-implication branch, the source stores
`Formula.parse("(~q->~(p->q))").substitute_variables({'p': phi1, 'q': phi2})`
as a line formula; `substitute_variables` is unimplemented (Task 3.3) and
returns `None`. -/
def proveInModel (f : PropFormula) (m : PropModel) : Option PProof :=
  match f with
  | .leaf r =>
      if isPropVariable r then
        let value := evalTruthy f m
        let conclusion := if value then f else pneg f
        some ⟨⟨formulasCapturingModel m, conclusion⟩, AX.SYSTEM,
          [assumptionLine conclusion]⟩
      else none
  | .un _ phi =>
      let value := evalTruthy f m
      if value then proveInModel phi m
      else
        match proveInModel phi m with
        | none => none
        | some phiProof =>
            let nnphi := pneg f
            some ⟨⟨phiProof.statement.assumptions, nnphi⟩, AX.SYSTEM,
              phiProof.lines ++
                [ruleLine (some (pimp phi nnphi)) AX.NN [],
                 ruleLine (some nnphi) AX.MP
                   [phiProof.lines.length - 1, phiProof.lines.length]]⟩
  | .bin _ phi1 phi2 =>
      let value := evalTruthy f m
      let p1p2 := pimp phi1 phi2
      if value then
        if !(evalTruthy phi1 m) then
          match proveInModel phi1 m with
          | none => none
          | some np =>
              some ⟨⟨np.statement.assumptions, f⟩, AX.SYSTEM,
                np.lines ++
                  [ruleLine (some (pimp (pneg phi1) p1p2)) AX.I2 [],
                   ruleLine (some f) AX.MP [np.lines.length - 1, np.lines.length]]⟩
        else
          match proveInModel phi2 m with
          | none => none
          | some p2 =>
              some ⟨⟨p2.statement.assumptions, f⟩, AX.SYSTEM,
                p2.lines ++
                  [ruleLine (some (pimp phi2 p1p2)) AX.I1 [],
                   ruleLine (some f) AX.MP [p2.lines.length - 1, p2.lines.length]]⟩
      else
        match proveInModel phi1 m, proveInModel phi2 m with
        | some p1, some np2 =>
            let n1 := p1.lines.length
            let n2 := np2.lines.length
            some ⟨⟨p1.statement.assumptions, pneg p1p2⟩, AX.SYSTEM,
              concatLines p1 np2 ++
                [ruleLine (some ((AX.NI.specialize
                    [("p".data, phi1), ("q".data, phi2)]).conclusion)) AX.NI [],
                 ruleLine (substituteVariables
                     (pimp (pneg (pv "q")) (pneg (pimp (pv "p") (pv "q"))))
                     [("p".data, phi1), ("q".data, phi2)])
                   AX.MP [n1 - 1, n1 + n2],
                 ruleLine (some (pneg p1p2)) AX.MP [n1 + n2 - 1, n1 + n2 + 1]]⟩
        | _, _ => none

/-- Union of rule sets (Python `frozenset.union`), modelled on lists with
membership semantics. -/
def unionRules (a b : List InferenceRule) : List InferenceRule :=
  a ++ b.filter fun r => !a.contains r

def sameRuleSet (a b : List InferenceRule) : Bool :=
  a.all (b.contains ·) && b.all (a.contains ·)

/-- The loop state of `remove_assumption` (propositions/deduction.py):
the rewritten lines, the running `lines_bias`, and the processed prefix of
`lines_map`. -/
structure RAState where
  newLines : List PLine
  bias : Nat
  linesMap : List Nat
deriving Repr

/-- One iteration of the `remove_assumption` loop (propositions/deduction.py,
lines 117-140).  Executions in which the source would raise (an `MP` line that
does not cite exactly two earlier already-processed lines, or a line formula
of `None` fed to the `Formula` constructor) are modelled as `none`. -/
def removeAssumptionStep (phi : PropFormula) (newAssumptions : List PropFormula)
    (rules : List InferenceRule) (st : RAState) (iline : Nat × PLine) :
    Option RAState :=
  let i := iline.1
  let line := iline.2
  if line.formula == some phi then
    some ⟨st.newLines ++ [ruleLine (some (pimp phi phi)) AX.I0 []],
      st.bias, st.linesMap ++ [i + st.bias]⟩
  else if line.rule == some AX.MP then
    match line.citations with
    | [j, k] =>
        match st.linesMap.get? j, st.linesMap.get? k with
        | some jm, some km =>
            match (st.newLines.get? jm).bind (·.formula),
                (st.newLines.get? km).bind (·.formula), line.formula with
            | some zj, some zk, some zi =>
                let phiImpZi := pimp phi zi
                some ⟨st.newLines ++
                    [ruleLine (some (pimp zk (pimp zj phiImpZi))) AX.D [],
                     ruleLine (some (pimp zj phiImpZi)) AX.MP [km, i + st.bias],
                     ruleLine (some phiImpZi) AX.MP [jm, i + st.bias + 1]],
                  st.bias + 2, st.linesMap ++ [i + st.bias + 2]⟩
            | _, _, _ => none
        | _, _ => none
    | _ => none
  else if (match line.formula with
      | some f => newAssumptions.contains f
      | none => false) ||
      (match line.rule with
        | some r => rules.contains r
        | none => false) then
    match line.formula with
    | some zi =>
        let phiImpZi := pimp phi zi
        some ⟨st.newLines ++
            [line,
             ruleLine (some (pimp zi phiImpZi)) AX.I1 [],
             ruleLine (some phiImpZi) AX.MP [i + st.bias, i + st.bias + 1]],
          st.bias + 2, st.linesMap ++ [i + st.bias + 2]⟩
    | none => none
  else
    -- no branch of the source applies: the line is silently skipped and only
    -- `lines_map` is written
    some ⟨st.newLines, st.bias, st.linesMap ++ [i + st.bias]⟩

/-- Embeds `remove_assumption` (propositions/deduction.py).  The asserts of
the source are documented preconditions checked by the theorems below; a
source execution that raises is modelled as `none`. -/
def removeAssumption (p : PProof) : Option PProof :=
  match p.statement.assumptions.getLast? with
  | none => none
  | some phi =>
      let newAssumptions := p.statement.assumptions.dropLast
      match p.lines.enum.foldlM
          (removeAssumptionStep phi newAssumptions p.rules) ⟨[], 0, []⟩ with
      | none => none
      | some st =>
          some ⟨⟨newAssumptions, pimp phi p.statement.conclusion⟩,
            unionRules p.rules [AX.MP, AX.I0, AX.I1, AX.D], st.newLines⟩

/-- Embeds `reduce_assumption` (propositions/tautology.py); the asserts of the
source are modelled as guards. -/
def reduceAssumption (pa pn : PProof) : Option PProof := do
  guard (pa.isValid = true)
  guard (pn.isValid = true)
  guard (pa.statement.conclusion == pn.statement.conclusion)
  guard (pa.statement.assumptions.length > 0)
  guard (pn.statement.assumptions.length > 0)
  guard (pa.statement.assumptions.dropLast == pn.statement.assumptions.dropLast)
  let phi ← pa.statement.assumptions.getLast?
  let lastn ← pn.statement.assumptions.getLast?
  guard (pneg phi == lastn)
  guard (sameRuleSet pa.rules pn.rules)
  let newStatement : InferenceRule := ⟨pa.statement.assumptions.dropLast,
    pa.statement.conclusion⟩
  let newRules := unionRules pa.rules [AX.MP, AX.I0, AX.I1, AX.D, AX.R]
  let p1 ← removeAssumption pa
  let p2 ← removeAssumption pn
  let n1 := p1.lines.length
  let n2 := p2.lines.length
  let psi := pa.statement.conclusion
  let nphiPsi := p2.statement.conclusion
  let newLines := concatLines p1 p2 ++
    [ruleLine (some ((AX.R.specialize [("p".data, psi), ("q".data, phi)]).conclusion))
       AX.R [],
     ruleLine (some (pimp nphiPsi psi)) AX.MP [n1 - 1, n1 + n2],
     ruleLine (some psi) AX.MP [n1 + n2 - 1, n1 + n2 + 1]]
  pure ⟨newStatement, newRules, newLines⟩

/-- Embeds `all_models` (propositions/semantics.py): every assignment over
the given variables, `False` before `True` per position. -/
def allModels : List Str → List PropModel
  | [] => [[]]
  | v :: vs =>
      ((allModels vs).map fun m => (v, false) :: m) ++
      ((allModels vs).map fun m => (v, true) :: m)

/-- Embeds `is_tautology` (propositions/semantics.py): the conjunction of the
truth values over all models of the formula's variables. -/
def isTautology (f : PropFormula) : Bool :=
  (allModels f.vars.dedup).all fun m => evalTruthy f m

/-- Embeds `prove_tautology` (propositions/tautology.py).  The recursion of
the source adds one variable to the model at each step; it is modelled with
a fuel parameter (`proveTautologyTop` supplies enough).  The asserts are
modelled as guards, so any execution in which the source raises yields
`none`. -/
def proveTautologyAux : Nat → PropFormula → PropModel → Option PProof
  | 0, _, _ => none
  | fuel + 1, t, m => do
      let vs := sortStrs t.vars.dedup
      let keys := sortStrs (m.map (·.1))
      guard (isTautology t = true)
      guard (t.operators.all fun op => op == "->".data || op == "~".data)
      guard (m.all fun kv => isPropVariable kv.1)
      guard (vs.take m.length == keys)
      if keys == vs then proveInModel t m
      else
        match vs.get? keys.length with
        | none => none
        | some v => do
            let p1 ← proveTautologyAux fuel t (m ++ [(v, true)])
            let p2 ← proveTautologyAux fuel t (m ++ [(v, false)])
            reduceAssumption p1 p2

/-- Embeds `prove_tautology(tautology, model)` with sufficient fuel. -/
def proveTautology (t : PropFormula) (m : PropModel) : Option PProof :=
  proveTautologyAux (t.vars.dedup.length + 1) t m

/-! ## C1 and C2: the Task-3.3 bug.
`prove_in_model` stores the return value of the unimplemented
`Formula.substitute_variables` (which is `None`) as a line formula in its
false-implication branch, so on any input reaching that branch it returns an
object that is not a valid proof, and `prove_tautology` (whose
`reduce_assumption` step asserts validity of the sub-proofs) raises.  This
contradicts the source's own doc string examples (`proof.is_valid()` is
documented to be `True` for `prove_in_model(Formula.parse('(p->q7)'),
{'q7': False, 'p': True})`) and the test suite (test_chapter03.py task 3
runs `test_substitute_variables`). -/

/-- C2: evaluated at the failing input `formula = '(p->q)'`,
`model = {'p': True, 'q': False}` (a formula over `->`/`~` with the model
exactly on its variables, evaluating to `False`).  The returned object has a
line whose formula is `None` and is not a valid proof, although its stated
conclusion is `'~(p->q)'` as the claim requires.  The claim that
`prove_in_model` returns a valid proof fails here. -/
theorem prove_in_model_task33_invalid :
    (proveInModel (pimp (pv "p") (pv "q")) [("p".data, true), ("q".data, false)]).map
      (fun pr => (pr.isValid, pr.lines.any (fun l => l.formula == none),
        pr.statement.conclusion == pneg (pimp (pv "p") (pv "q")),
        pr.statement.assumptions ==
          formulasCapturingModel [("p".data, true), ("q".data, false)])) =
    some (false, true, true, true) := by
  decide

/-- C1: evaluated at the failing input `'((p->~p)->(p->~p))'`, a tautology
over `->`/`~` only.  The recursion reaches the broken false-implication
branch in the model `{'p': True}`, the sub-proof is invalid, and the
`reduce_assumption` step raises (modelled as `none`): `prove_tautology` does
not return a proof at all, let alone a valid assumptionless one. -/
theorem prove_tautology_task33_crash :
    isTautology (pimp (pimp (pv "p") (pneg (pv "p"))) (pimp (pv "p") (pneg (pv "p")))) = true ∧
    (pimp (pimp (pv "p") (pneg (pv "p"))) (pimp (pv "p") (pneg (pv "p")))).operators.all
      (fun op => op == "->".data || op == "~".data) = true ∧
    proveTautology (pimp (pimp (pv "p") (pneg (pv "p"))) (pimp (pv "p") (pneg (pv "p")))) [] =
      none := by
  refine ⟨by decide, by decide, by decide⟩


/-! ## C5 (propositional part): `remove_assumption` is a correct deduction
maneuver.  The lemmas below establish an invariant over the rewrite loop of
propositions/deduction.py. -/

theorem citedFormulas_mono {ls ext : List PLine} {cits : List Nat}
    (h : ∀ c ∈ cits, c < ls.length) :
    citedFormulas (ls ++ ext) cits = citedFormulas ls cits := by
  induction cits with
  | nil => rfl
  | cons c cs ih =>
      unfold citedFormulas
      rw [List.get?_append (h c (by simp)), ih fun x hx => h x (by simp [hx])]

theorem citedFormulas_length {ls : List PLine} :
    ∀ {cits : List Nat} {cf : List PropFormula},
      citedFormulas ls cits = some cf → cf.length = cits.length := by
  intro cits
  induction cits with
  | nil => intro cf h; simp only [citedFormulas, Option.some.injEq] at h; simp [← h]
  | cons c cs ih =>
      intro cf h
      unfold citedFormulas at h
      match h1 : (ls.get? c).bind (·.formula), h2 : citedFormulas ls cs with
      | some f, some fs =>
          rw [h1, h2] at h
          simp only [Option.some.injEq] at h
          simp [← h, ih h2]
      | some f, none => rw [h1, h2] at h; simp at h
      | none, _ => rw [h1] at h; simp at h

theorem lineValid_mono {A : List PropFormula} {R : List InferenceRule}
    {ls ext : List PLine} {i : Nat} {l : PLine}
    (h : lineValid A R ls i l = true) (hi : i ≤ ls.length) :
    lineValid A R (ls ++ ext) i l = true := by
  unfold lineValid at h ⊢
  match hr : l.rule with
  | none => rw [hr] at h; exact h
  | some r =>
      rw [hr] at h
      simp only [Bool.and_eq_true] at h ⊢
      obtain ⟨⟨h1, h2⟩, h3⟩ := h
      refine ⟨⟨h1, h2⟩, ?_⟩
      have hlt : ∀ c ∈ l.citations, c < ls.length := by
        intro c hc
        have := List.all_eq_true.mp h2 c hc
        simp only [decide_eq_true_eq] at this
        omega
      rw [citedFormulas_mono hlt]
      exact h3

theorem lineValidAt_mono {A : List PropFormula} {R : List InferenceRule}
    {ls ext : List PLine} {i : Nat} (hi : i < ls.length)
    (h : lineValidAt A R ls i = true) :
    lineValidAt A R (ls ++ ext) i = true := by
  unfold lineValidAt at h ⊢
  rw [List.get?_append hi]
  match hl : ls.get? i with
  | none => rw [hl] at h; simp at h
  | some l =>
      rw [hl] at h
      exact lineValid_mono h (by omega)

theorem mem_unionRules_left {r : InferenceRule} {a b : List InferenceRule}
    (h : r ∈ a) : r ∈ unionRules a b := by
  simp [unionRules, h]

theorem mem_unionRules_right {r : InferenceRule} {a b : List InferenceRule}
    (h : r ∈ b) : r ∈ unionRules a b := by
  by_cases ha : r ∈ a
  · exact mem_unionRules_left ha
  · simp only [unionRules, List.mem_append, List.mem_filter]
    right
    refine ⟨h, by simp [ha]⟩

theorem spec_I0 (x : PropFormula) :
    InferenceRule.isSpecializationOf ⟨[], pimp x x⟩ AX.I0 = true := by
  have hp : isPropVariable ['p'] = true := by decide
  simp only [InferenceRule.isSpecializationOf, ruleSpecMap, AX.I0, pimp, pv,
    formulaSpecMap, mergeSpecMaps, mapsAgree, lookupStr]
  simp [hp, formulaSpecMap, mergeSpecMaps, mapsAgree, lookupStr]

theorem spec_I1 (x y : PropFormula) :
    InferenceRule.isSpecializationOf ⟨[], pimp y (pimp x y)⟩ AX.I1 = true := by
  have hp : isPropVariable ['p'] = true := by decide
  have hq : isPropVariable ['q'] = true := by decide
  simp only [InferenceRule.isSpecializationOf, ruleSpecMap, AX.I1, pimp, pv,
    formulaSpecMap, mergeSpecMaps, mapsAgree, lookupStr]
  simp [hp, hq, formulaSpecMap, mergeSpecMaps, mapsAgree, lookupStr]

theorem spec_D (x y z : PropFormula) :
    InferenceRule.isSpecializationOf
      ⟨[], pimp (pimp x (pimp y z)) (pimp (pimp x y) (pimp x z))⟩ AX.D = true := by
  have hp : isPropVariable ['p'] = true := by decide
  have hq : isPropVariable ['q'] = true := by decide
  have hr : isPropVariable ['r'] = true := by decide
  simp only [InferenceRule.isSpecializationOf, ruleSpecMap, AX.D, pimp, pv,
    formulaSpecMap, mergeSpecMaps, mapsAgree, lookupStr]
  simp [hp, hq, hr, formulaSpecMap, mergeSpecMaps, mapsAgree, lookupStr]

theorem spec_MP (a b : PropFormula) :
    InferenceRule.isSpecializationOf ⟨[a, pimp a b], b⟩ AX.MP = true := by
  have hp : isPropVariable ['p'] = true := by decide
  have hq : isPropVariable ['q'] = true := by decide
  simp only [InferenceRule.isSpecializationOf, ruleSpecMap, AX.MP, pimp, pv,
    formulaSpecMap, mergeSpecMaps, mapsAgree, lookupStr]
  simp [hp, hq, formulaSpecMap, mergeSpecMaps, mapsAgree, lookupStr]

theorem spec_zero_assumptions {cf : List PropFormula} {f : PropFormula}
    {r : InferenceRule} (hr : r.assumptions = [])
    (h : InferenceRule.isSpecializationOf ⟨cf, f⟩ r = true) : cf = [] := by
  match cf with
  | [] => rfl
  | c :: cs =>
      exfalso
      simp only [InferenceRule.isSpecializationOf, ruleSpecMap, hr] at h
      simp at h

theorem spec_MP_shape {cf : List PropFormula} {f : PropFormula}
    (h : InferenceRule.isSpecializationOf ⟨cf, f⟩ AX.MP = true) :
    ∃ a, cf = [a, pimp a f] := by
  have hp : isPropVariable ['p'] = true := by decide
  have hq : isPropVariable ['q'] = true := by decide
  match cf with
  | [] =>
      exfalso
      simp only [InferenceRule.isSpecializationOf, ruleSpecMap, AX.MP] at h
      simp at h
  | [a] =>
      exfalso
      simp only [InferenceRule.isSpecializationOf, ruleSpecMap, AX.MP] at h
      simp at h
  | a :: c :: d :: rest =>
      exfalso
      simp only [InferenceRule.isSpecializationOf, ruleSpecMap, AX.MP] at h
      simp at h
  | [a, c] =>
      refine ⟨a, ?_⟩
      simp only [InferenceRule.isSpecializationOf, ruleSpecMap, AX.MP, pimp, pv,
        formulaSpecMap, mergeSpecMaps, mapsAgree, lookupStr] at h
      simp only [hp, hq, if_true] at h
      match c with
      | .leaf rc => simp [formulaSpecMap, hp, hq, lookupStr] at h
      | .un rc c1 => simp [formulaSpecMap, hp, hq, lookupStr] at h
      | .bin rc c1 c2 =>
          simp [formulaSpecMap, mergeSpecMaps, mapsAgree, lookupStr, hp, hq] at h
          by_cases hrc : (['-', '>'] : Str) = rc
          · subst hrc
            simp [lookupStr] at h
            obtain ⟨e1, e2⟩ := h
            subst e1
            subst e2
            rfl
          · simp [hrc] at h

theorem get?_append_off {α : Type} {ls ext : List α} (t : Nat) :
    (ls ++ ext).get? (ls.length + t) = ext.get? t := by
  rw [List.get?_append_right (by omega)]
  congr 1
  omega

theorem lineValid_asm_elim {A : List PropFormula} {R : List InferenceRule}
    {L : List PLine} {n : Nat} {x : PLine}
    (hx : lineValid A R L n x = true) (hr : x.rule = none) :
    ∃ g, x.formula = some g ∧ g ∈ A := by
  unfold lineValid at hx
  rw [hr] at hx
  match hf : x.formula with
  | none => rw [hf] at hx; simp at hx
  | some g =>
      rw [hf] at hx
      exact ⟨g, rfl, by simpa using hx⟩

theorem lineValid_MP_elim {A : List PropFormula} {R : List InferenceRule}
    {L : List PLine} {n : Nat} {x : PLine}
    (hx : lineValid A R L n x = true) (hmp : x.rule = some AX.MP) :
    ∃ j k a b, x.citations = [j, k] ∧ j < n ∧ k < n ∧
      x.formula = some b ∧
      (L.get? j).bind (·.formula) = some a ∧
      (L.get? k).bind (·.formula) = some (pimp a b) := by
  unfold lineValid at hx
  rw [hmp] at hx
  simp only [Bool.and_eq_true] at hx
  obtain ⟨⟨_, hcits⟩, hspec⟩ := hx
  match hf : x.formula, hcf : citedFormulas L x.citations with
  | none, _ => rw [hf] at hspec; simp at hspec
  | some b, none => rw [hf, hcf] at hspec; simp at hspec
  | some b, some cf =>
      rw [hf, hcf] at hspec
      obtain ⟨a, hshape⟩ := spec_MP_shape hspec
      subst hshape
      have hlen := citedFormulas_length hcf
      match hcits2 : x.citations with
      | [j, k] =>
          rw [hcits2] at hcf
          unfold citedFormulas at hcf
          refine ⟨j, k, a, b, rfl, ?_, ?_, rfl, ?_, ?_⟩
          · have := List.all_eq_true.mp hcits j (by rw [hcits2]; simp)
            simpa using this
          · have := List.all_eq_true.mp hcits k (by rw [hcits2]; simp)
            simpa using this
          · match h1 : (L.get? j).bind (·.formula), h2 : citedFormulas L [k] with
            | some fj, some cfk =>
                rw [h1, h2] at hcf
                simp only [Option.some.injEq, List.cons.injEq] at hcf
                rw [hcf.1]
            | some fj, none => rw [h1, h2] at hcf; simp at hcf
            | none, _ => rw [h1] at hcf; simp at hcf
          · match h1 : (L.get? j).bind (·.formula), h2 : citedFormulas L [k] with
            | some fj, some cfk =>
                rw [h1, h2] at hcf
                simp only [Option.some.injEq, List.cons.injEq] at hcf
                unfold citedFormulas at h2
                match h3 : (L.get? k).bind (·.formula) with
                | some fk =>
                    rw [h3] at h2
                    simp only [citedFormulas, Option.some.injEq] at h2
                    have hfk : fk = pimp a b := by
                      have h4 := hcf.2
                      rw [← h2] at h4
                      simpa using h4
                    rw [hfk]
                | none => rw [h3] at h2; simp at h2
            | some fj, none => rw [h1, h2] at hcf; simp at hcf
            | none, _ => rw [h1] at hcf; simp at hcf
      | [] => rw [hcits2] at hlen; simp at hlen
      | [j] => rw [hcits2] at hlen; simp at hlen
      | j :: k :: d :: rest => rw [hcits2] at hlen; simp at hlen

theorem lineValid_rule_elim {A : List PropFormula} {R : List InferenceRule}
    {L : List PLine} {n : Nat} {x : PLine} {r : InferenceRule}
    (hx : lineValid A R L n x = true) (hr : x.rule = some r)
    (hzero : r.assumptions = []) :
    x.citations = [] ∧ r ∈ R ∧
      ∃ f, x.formula = some f ∧
        InferenceRule.isSpecializationOf ⟨[], f⟩ r = true := by
  unfold lineValid at hx
  rw [hr] at hx
  simp only [Bool.and_eq_true] at hx
  obtain ⟨⟨hmem, hcits⟩, hspec⟩ := hx
  match hf : x.formula, hcf : citedFormulas L x.citations with
  | none, _ => rw [hf] at hspec; simp at hspec
  | some f, none => rw [hf, hcf] at hspec; simp at hspec
  | some f, some cf =>
      rw [hf, hcf] at hspec
      have hempty : cf = [] := spec_zero_assumptions hzero hspec
      subst hempty
      have hlen := citedFormulas_length hcf
      have hce : x.citations = [] := by
        match hc : x.citations with
        | [] => rfl
        | c :: cs => rw [hc] at hlen; simp at hlen
      exact ⟨hce, by simpa using hmem, f, rfl, hspec⟩

theorem citedFormulas_two {lines : List PLine} {c1 c2 : Nat} {a b : PropFormula}
    (h1 : (lines.get? c1).bind (·.formula) = some a)
    (h2 : (lines.get? c2).bind (·.formula) = some b) :
    citedFormulas lines [c1, c2] = some [a, b] := by
  unfold citedFormulas
  rw [h1]
  unfold citedFormulas
  rw [h2]
  rfl

theorem lineValid_ruleLine {A : List PropFormula} {R : List InferenceRule}
    {lines : List PLine} {i : Nat} {f : PropFormula} {r : InferenceRule}
    {cits : List Nat} {cf : List PropFormula}
    (hmem : r ∈ R) (hcits : ∀ c ∈ cits, c < i)
    (hcf : citedFormulas lines cits = some cf)
    (hspec : InferenceRule.isSpecializationOf ⟨cf, f⟩ r = true) :
    lineValid A R lines i (ruleLine (some f) r cits) = true := by
  unfold lineValid
  simp only [ruleLine]
  rw [hcf]
  simp only [Bool.and_eq_true]
  refine ⟨⟨List.elem_eq_true_of_mem hmem, ?_⟩, hspec⟩
  exact List.all_eq_true.mpr fun c hc => by simpa using hcits c hc

theorem lineValidAt_append_new {A : List PropFormula} {R : List InferenceRule}
    {ls ext : List PLine} (t : Nat) {l : PLine}
    (hget : ext.get? t = some l)
    (hv : lineValid A R (ls ++ ext) (ls.length + t) l = true) :
    lineValidAt A R (ls ++ ext) (ls.length + t) = true := by
  unfold lineValidAt
  rw [get?_append_off t, hget]
  exact hv

theorem lineValid_asm_intro {A : List PropFormula} {R : List InferenceRule}
    {lines : List PLine} {i : Nat} {x : PLine} {g : PropFormula}
    (hr : x.rule = none) (hfg : x.formula = some g) (hg : g ∈ A) :
    lineValid A R lines i x = true := by
  unfold lineValid
  rw [hr, hfg]
  exact List.elem_eq_true_of_mem hg

theorem lineValid_rule_intro {A : List PropFormula} {R : List InferenceRule}
    {lines : List PLine} {i : Nat} {x : PLine} {r : InferenceRule} {f : PropFormula}
    (hr : x.rule = some r) (hff : x.formula = some f) (hce : x.citations = [])
    (hmem : r ∈ R) (hspec : InferenceRule.isSpecializationOf ⟨[], f⟩ r = true) :
    lineValid A R lines i x = true := by
  unfold lineValid
  rw [hr, hff, hce]
  show ((R.contains r && true) && InferenceRule.isSpecializationOf ⟨[], f⟩ r) = true
  simp [hmem, hspec]

/-- The loop invariant of `remove_assumption`: after processing the first `n`
source lines, `lines_map` has `n` entries, the rewritten list has `n + bias`
lines, every processed source line `j` has a rewritten counterpart proving
`(phi -> formula_j)`, every rewritten line is justified, and the last map
entry points at the last rewritten line. -/
def RAInv (L : List PLine) (A' : List PropFormula) (phi : PropFormula)
    (rules : List InferenceRule) (n : Nat) (st : RAState) : Prop :=
  st.linesMap.length = n ∧
  st.newLines.length = n + st.bias ∧
  (∀ j, j < n → ∃ mj fj, st.linesMap.get? j = some mj ∧ mj < st.newLines.length ∧
      (L.get? j).bind (·.formula) = some fj ∧
      (st.newLines.get? mj).bind (·.formula) = some (pimp phi fj)) ∧
  (∀ i, i < st.newLines.length →
      lineValidAt A' (unionRules rules [AX.MP, AX.I0, AX.I1, AX.D]) st.newLines i = true) ∧
  (0 < n → st.linesMap.get? (n - 1) = some (st.newLines.length - 1))

theorem removeAssumptionStep_ok {L : List PLine} {A' : List PropFormula}
    {phi : PropFormula} {rules : List InferenceRule} {n : Nat} {x : PLine}
    {st : RAState}
    (hrules : ∀ r ∈ rules, r = AX.MP ∨ r.assumptions = [])
    (hx : L.get? n = some x)
    (hvx : lineValid (A' ++ [phi]) rules L n x = true)
    (hInv : RAInv L A' phi rules n st) :
    ∃ st1, removeAssumptionStep phi A' rules st (n, x) = some st1 ∧
      RAInv L A' phi rules (n + 1) st1 := by
  obtain ⟨hmaplen, hlinelen, hjinv, hvalid, _⟩ := hInv
  set R' := unionRules rules [AX.MP, AX.I0, AX.I1, AX.D] with hR'
  by_cases hb1 : (x.formula == some phi) = true
  · -- branch 1: the line proves phi itself; it becomes the I0 line (phi->phi)
    have hform : x.formula = some phi := by simpa using hb1
    refine ⟨_, by unfold removeAssumptionStep; rw [if_pos hb1], ?_⟩
    refine ⟨by simp [hmaplen], by simp [hlinelen]; omega, ?_, ?_, ?_⟩
    · intro j hj
      rcases Nat.lt_or_ge j n with hjn | hjn
      · obtain ⟨mj, fj, e1, e2, e3, e4⟩ := hjinv j hjn
        refine ⟨mj, fj, ?_, by simp; omega, e3, ?_⟩
        · rw [List.get?_append (by omega)]; exact e1
        · rw [List.get?_append e2]; exact e4
      · have hj2 : n = j := by omega
        subst hj2
        refine ⟨n + st.bias, phi, ?_, by simp; omega, by rw [hx]; simpa using hform, ?_⟩
        · rw [show n = st.linesMap.length from hmaplen.symm, List.get?_concat_length]
        · rw [show n + st.bias = st.newLines.length from hlinelen.symm,
            List.get?_concat_length]
          rfl
    · intro i hi
      simp only [List.length_append, List.length_cons, List.length_nil] at hi
      rcases Nat.lt_or_ge i st.newLines.length with hilt | hige
      · exact lineValidAt_mono hilt (hvalid i hilt)
      · have hieq : i = st.newLines.length := by omega
        subst hieq
        unfold lineValidAt
        rw [List.get?_concat_length]
        exact lineValid_ruleLine (mem_unionRules_right (by simp))
          (by simp) rfl (spec_I0 phi)
    · intro _
      simp only [Nat.add_sub_cancel]
      rw [show n = st.linesMap.length from hmaplen.symm, List.get?_concat_length]
      simp [hlinelen, hmaplen]
  · by_cases hb2 : (x.rule == some AX.MP) = true
    · -- branch 2: an MP line is rewritten through the D axiom
      have hmp : x.rule = some AX.MP := by simpa using hb2
      obtain ⟨j, k, a, b, hcits2, hjn, hkn, hfb, hja, hkab⟩ :=
        lineValid_MP_elim hvx hmp
      obtain ⟨jm, fja, e1j, e2j, e3j, e4j⟩ := hjinv j hjn
      obtain ⟨km, fkab, e1k, e2k, e3k, e4k⟩ := hjinv k hkn
      have hfa : fja = a := by rw [e3j] at hja; simpa using hja
      subst hfa
      have hfk : fkab = pimp fja b := by rw [e3k] at hkab; simpa using hkab
      subst hfk
      refine ⟨⟨st.newLines ++
          [ruleLine (some (pimp (pimp phi (pimp fja b))
              (pimp (pimp phi fja) (pimp phi b)))) AX.D [],
            ruleLine (some (pimp (pimp phi fja) (pimp phi b))) AX.MP
              [km, n + st.bias],
            ruleLine (some (pimp phi b)) AX.MP [jm, n + st.bias + 1]],
        st.bias + 2, st.linesMap ++ [n + st.bias + 2]⟩, ?_, ?_⟩
      · unfold removeAssumptionStep
        rw [if_neg (by simpa using hb1), if_pos hb2, hcits2]
        simp only
        rw [e1j, e1k]
        simp only
        rw [e4j, e4k, hfb]
      · constructor
        · simp [hmaplen]
        · constructor
          · simp [hlinelen]; omega
          · constructor
            · intro j2 hj2
              rcases Nat.lt_or_ge j2 n with hj2n | hj2n
              · obtain ⟨mj, fj, f1, f2, f3, f4⟩ := hjinv j2 hj2n
                refine ⟨mj, fj, ?_, by simp; omega, f3, ?_⟩
                · rw [List.get?_append (by omega)]; exact f1
                · rw [List.get?_append f2]; exact f4
              · have hj3 : n = j2 := by omega
                subst hj3
                refine ⟨n + st.bias + 2, b, ?_, by simp; omega, by rw [hx]; simp [hfb], ?_⟩
                · rw [show n = st.linesMap.length from hmaplen.symm,
                    List.get?_concat_length]
                · have : n + st.bias + 2 = st.newLines.length + 2 := by omega
                  rw [this, show st.newLines.length + 2 = st.newLines.length + 2 from rfl,
                    get?_append_off 2]
                  rfl
            · constructor
              · intro i hi
                simp only [List.length_append, List.length_cons, List.length_nil] at hi
                rcases Nat.lt_or_ge i st.newLines.length with hilt | hige
                · exact lineValidAt_mono hilt (hvalid i hilt)
                · -- the three new lines: D axiom, then two MP steps
                  have hio : i = st.newLines.length ∨ i = st.newLines.length + 1 ∨
                      i = st.newLines.length + 2 := by omega
                  have hq0 : ((st.newLines ++
                      [ruleLine (some (pimp (pimp phi (pimp fja b))
                          (pimp (pimp phi fja) (pimp phi b)))) AX.D [],
                        ruleLine (some (pimp (pimp phi fja) (pimp phi b))) AX.MP
                          [km, n + st.bias],
                        ruleLine (some (pimp phi b)) AX.MP
                          [jm, n + st.bias + 1]]).get? st.newLines.length) =
                      some (ruleLine (some (pimp (pimp phi (pimp fja b))
                          (pimp (pimp phi fja) (pimp phi b)))) AX.D []) := by
                    rw [show st.newLines.length = st.newLines.length + 0 from rfl,
                      get?_append_off 0]
                    rfl
                  have hq1 : ((st.newLines ++
                      [ruleLine (some (pimp (pimp phi (pimp fja b))
                          (pimp (pimp phi fja) (pimp phi b)))) AX.D [],
                        ruleLine (some (pimp (pimp phi fja) (pimp phi b))) AX.MP
                          [km, n + st.bias],
                        ruleLine (some (pimp phi b)) AX.MP
                          [jm, n + st.bias + 1]]).get? (st.newLines.length + 1)) =
                      some (ruleLine (some (pimp (pimp phi fja) (pimp phi b))) AX.MP
                          [km, n + st.bias]) := by
                    rw [get?_append_off 1]
                    rfl
                  have hzk : ((st.newLines ++
                      [ruleLine (some (pimp (pimp phi (pimp fja b))
                          (pimp (pimp phi fja) (pimp phi b)))) AX.D [],
                        ruleLine (some (pimp (pimp phi fja) (pimp phi b))) AX.MP
                          [km, n + st.bias],
                        ruleLine (some (pimp phi b)) AX.MP
                          [jm, n + st.bias + 1]]).get? km).bind (·.formula) =
                      some (pimp phi (pimp fja b)) := by
                    rw [List.get?_append e2k]; exact e4k
                  have hzj : ((st.newLines ++
                      [ruleLine (some (pimp (pimp phi (pimp fja b))
                          (pimp (pimp phi fja) (pimp phi b)))) AX.D [],
                        ruleLine (some (pimp (pimp phi fja) (pimp phi b))) AX.MP
                          [km, n + st.bias],
                        ruleLine (some (pimp phi b)) AX.MP
                          [jm, n + st.bias + 1]]).get? jm).bind (·.formula) =
                      some (pimp phi fja) := by
                    rw [List.get?_append e2j]; exact e4j
                  rcases hio with hieq | hieq | hieq
                  all_goals subst hieq
                  · unfold lineValidAt
                    rw [hq0]
                    exact lineValid_ruleLine (mem_unionRules_right (by simp))
                      (by simp) rfl (spec_D phi fja b)
                  · unfold lineValidAt
                    rw [hq1]
                    refine lineValid_ruleLine (mem_unionRules_right (by simp)) ?_
                      (citedFormulas_two hzk (by
                        rw [show n + st.bias = st.newLines.length + 0 from by omega,
                          get?_append_off 0]
                        rfl))
                      (spec_MP (pimp phi (pimp fja b)) (pimp (pimp phi fja) (pimp phi b)))
                    intro c hc
                    simp only [List.mem_cons, List.mem_singleton] at hc
                    rcases hc with rfl | hc
                    · omega
                    · simp only [List.mem_cons, List.not_mem_nil, or_false] at hc
                      subst hc
                      omega
                  · unfold lineValidAt
                    rw [show st.newLines.length + 2 = st.newLines.length + 2 from rfl,
                      get?_append_off 2]
                    refine lineValid_ruleLine (mem_unionRules_right (by simp)) ?_
                      (citedFormulas_two hzj (by
                        rw [show n + st.bias + 1 = st.newLines.length + 1 from by omega,
                          get?_append_off 1]
                        rfl))
                      (spec_MP (pimp phi fja) (pimp phi b))
                    intro c hc
                    simp only [List.mem_cons, List.mem_singleton] at hc
                    rcases hc with rfl | hc
                    · omega
                    · simp only [List.mem_cons, List.not_mem_nil, or_false] at hc
                      subst hc
                      omega
              · intro _
                simp only [Nat.add_sub_cancel]
                rw [show n = st.linesMap.length from hmaplen.symm, List.get?_concat_length]
                simp [hlinelen, hmaplen]
    · -- branch 3: an assumption of A' or an assumptionless-rule line, kept
      -- and then lifted through I1 and MP
      match hr : x.rule with
      | none =>
          obtain ⟨g, hfg, hgA⟩ := lineValid_asm_elim hvx hr
          have hgA' : g ∈ A' := by
            rcases List.mem_append.mp hgA with h | h
            · exact h
            · exfalso
              simp only [List.mem_singleton] at h
              subst h
              exact hb1 (by simp [hfg])
          have hcond : ((match x.formula with
              | some f => A'.contains f
              | none => false) ||
              (match x.rule with
                | some r => rules.contains r
                | none => false)) = true := by
            rw [hfg, hr]
            simp only [Bool.or_eq_true]
            exact Or.inl (List.elem_eq_true_of_mem hgA')
          refine ⟨⟨st.newLines ++
              [x, ruleLine (some (pimp g (pimp phi g))) AX.I1 [],
                ruleLine (some (pimp phi g)) AX.MP
                  [n + st.bias, n + st.bias + 1]],
            st.bias + 2, st.linesMap ++ [n + st.bias + 2]⟩, ?_, ?_⟩
          · unfold removeAssumptionStep
            rw [if_neg (by simpa using hb1), if_neg (by simpa using hb2),
              if_pos hcond, hfg]
          · refine ⟨by simp [hmaplen], by simp [hlinelen]; omega, ?_, ?_, ?_⟩
            · intro j2 hj2
              rcases Nat.lt_or_ge j2 n with hj2n | hj2n
              · obtain ⟨mj, fj, f1, f2, f3, f4⟩ := hjinv j2 hj2n
                refine ⟨mj, fj, ?_, by simp; omega, f3, ?_⟩
                · rw [List.get?_append (by omega)]; exact f1
                · rw [List.get?_append f2]; exact f4
              · have hj3 : n = j2 := by omega
                subst hj3
                refine ⟨n + st.bias + 2, g, ?_, by simp; omega, by rw [hx]; simp [hfg], ?_⟩
                · rw [show n = st.linesMap.length from hmaplen.symm,
                    List.get?_concat_length]
                · rw [show n + st.bias + 2 = st.newLines.length + 2 from by omega,
                    get?_append_off 2]
                  rfl
            · intro i hi
              simp only [List.length_append, List.length_cons, List.length_nil] at hi
              rcases Nat.lt_or_ge i st.newLines.length with hilt | hige
              · exact lineValidAt_mono hilt (hvalid i hilt)
              · have hio : i = st.newLines.length ∨ i = st.newLines.length + 1 ∨
                    i = st.newLines.length + 2 := by omega
                rcases hio with hieq | hieq | hieq
                all_goals subst hieq
                · exact lineValidAt_append_new 0 rfl
                    (lineValid_asm_intro hr hfg hgA')
                · unfold lineValidAt
                  rw [get?_append_off 1]
                  exact lineValid_ruleLine (mem_unionRules_right (by simp))
                    (by simp) rfl (spec_I1 phi g)
                · unfold lineValidAt
                  rw [get?_append_off 2]
                  refine lineValid_ruleLine (mem_unionRules_right (by simp)) ?_
                    (@citedFormulas_two _ _ _ g _ (by
                      rw [show n + st.bias = st.newLines.length + 0 from by omega,
                        get?_append_off 0]
                      simp [hfg])
                      (by
                        rw [show n + st.bias + 1 = st.newLines.length + 1 from by omega,
                          get?_append_off 1]
                        rfl))
                    (spec_MP g (pimp phi g))
                  intro c hc
                  simp only [List.mem_cons, List.mem_singleton] at hc
                  rcases hc with rfl | hc
                  · omega
                  · simp only [List.mem_cons, List.not_mem_nil, or_false] at hc
                    subst hc
                    omega
            · intro _
              simp only [Nat.add_sub_cancel]
              rw [show n = st.linesMap.length from hmaplen.symm, List.get?_concat_length]
              simp [hlinelen, hmaplen]
      | some r =>
          have hrmp : r ≠ AX.MP := by
            intro hcontra
            subst hcontra
            exact hb2 (by simp [hr])
          have hzero : r.assumptions = [] := by
            have hmem : r ∈ rules := by
              unfold lineValid at hvx
              rw [hr] at hvx
              simp only [Bool.and_eq_true] at hvx
              simpa using hvx.1.1
            rcases hrules r hmem with h | h
            · exact absurd h hrmp
            · exact h
          obtain ⟨hce, hrin, f, hff, hspec⟩ := lineValid_rule_elim hvx hr hzero
          have hcond : ((match x.formula with
              | some f => A'.contains f
              | none => false) ||
              (match x.rule with
                | some r => rules.contains r
                | none => false)) = true := by
            rw [hr]
            simp only [Bool.or_eq_true]
            exact Or.inr (List.elem_eq_true_of_mem hrin)
          refine ⟨⟨st.newLines ++
              [x, ruleLine (some (pimp f (pimp phi f))) AX.I1 [],
                ruleLine (some (pimp phi f)) AX.MP
                  [n + st.bias, n + st.bias + 1]],
            st.bias + 2, st.linesMap ++ [n + st.bias + 2]⟩, ?_, ?_⟩
          · unfold removeAssumptionStep
            rw [if_neg (by simpa using hb1), if_neg (by simpa using hb2),
              if_pos hcond, hff]
          · refine ⟨by simp [hmaplen], by simp [hlinelen]; omega, ?_, ?_, ?_⟩
            · intro j2 hj2
              rcases Nat.lt_or_ge j2 n with hj2n | hj2n
              · obtain ⟨mj, fj, f1, f2, f3, f4⟩ := hjinv j2 hj2n
                refine ⟨mj, fj, ?_, by simp; omega, f3, ?_⟩
                · rw [List.get?_append (by omega)]; exact f1
                · rw [List.get?_append f2]; exact f4
              · have hj3 : n = j2 := by omega
                subst hj3
                refine ⟨n + st.bias + 2, f, ?_, by simp; omega, by rw [hx]; simp [hff], ?_⟩
                · rw [show n = st.linesMap.length from hmaplen.symm,
                    List.get?_concat_length]
                · rw [show n + st.bias + 2 = st.newLines.length + 2 from by omega,
                    get?_append_off 2]
                  rfl
            · intro i hi
              simp only [List.length_append, List.length_cons, List.length_nil] at hi
              rcases Nat.lt_or_ge i st.newLines.length with hilt | hige
              · exact lineValidAt_mono hilt (hvalid i hilt)
              · have hio : i = st.newLines.length ∨ i = st.newLines.length + 1 ∨
                    i = st.newLines.length + 2 := by omega
                rcases hio with hieq | hieq | hieq
                all_goals subst hieq
                · exact lineValidAt_append_new 0 rfl
                    (lineValid_rule_intro hr hff hce
                      (mem_unionRules_left hrin) hspec)
                · unfold lineValidAt
                  rw [get?_append_off 1]
                  exact lineValid_ruleLine (mem_unionRules_right (by simp))
                    (by simp) rfl (spec_I1 phi f)
                · unfold lineValidAt
                  rw [get?_append_off 2]
                  refine lineValid_ruleLine (mem_unionRules_right (by simp)) ?_
                    (@citedFormulas_two _ _ _ f _ (by
                      rw [show n + st.bias = st.newLines.length + 0 from by omega,
                        get?_append_off 0]
                      simp [hff])
                      (by
                        rw [show n + st.bias + 1 = st.newLines.length + 1 from by omega,
                          get?_append_off 1]
                        rfl))
                    (spec_MP f (pimp phi f))
                  intro c hc
                  simp only [List.mem_cons, List.mem_singleton] at hc
                  rcases hc with rfl | hc
                  · omega
                  · simp only [List.mem_cons, List.not_mem_nil, or_false] at hc
                    subst hc
                    omega
            · intro _
              simp only [Nat.add_sub_cancel]
              rw [show n = st.linesMap.length from hmaplen.symm, List.get?_concat_length]
              simp [hlinelen, hmaplen]

theorem removeAssumption_fold {L : List PLine} {A' : List PropFormula}
    {phi : PropFormula} {rules : List InferenceRule}
    (hrules : ∀ r ∈ rules, r = AX.MP ∨ r.assumptions = [])
    (hvalidL : ∀ i, i < L.length →
      lineValidAt (A' ++ [phi]) rules L i = true) :
    ∀ (k n : Nat) (st : RAState), k + n = L.length →
      RAInv L A' phi rules n st →
      ∃ st1, List.foldlM (removeAssumptionStep phi A' rules) st
          (List.enumFrom n (L.drop n)) = some st1 ∧
        RAInv L A' phi rules L.length st1 := by
  intro k
  induction k with
  | zero =>
      intro n st hkn hInv
      have hdrop : L.drop n = [] := List.drop_eq_nil_of_le (by omega)
      rw [hdrop]
      exact ⟨st, rfl, by rwa [show L.length = n from by omega]⟩
  | succ k ih =>
      intro n st hkn hInv
      have hn : n < L.length := by omega
      have hget : L.get? n = some L[n] := by
        rw [List.get?_eq_getElem?, List.getElem?_eq_getElem hn]
      have hdrop : L.drop n = L[n] :: L.drop (n + 1) := List.drop_eq_getElem_cons hn
      have hlv : lineValid (A' ++ [phi]) rules L n L[n] = true := by
        have h1 := hvalidL n hn
        unfold lineValidAt at h1
        rw [hget] at h1
        exact h1
      obtain ⟨st1, hstep, hInv1⟩ := removeAssumptionStep_ok hrules hget hlv hInv
      obtain ⟨st2, hfold, hInv2⟩ := ih (n + 1) st1 (by omega) hInv1
      refine ⟨st2, ?_, hInv2⟩
      rw [hdrop]
      show ((removeAssumptionStep phi A' rules st (n, L[n])).bind fun s =>
        List.foldlM (removeAssumptionStep phi A' rules) s
          (List.enumFrom (n + 1) (L.drop (n + 1)))) = some st2
      rw [hstep]
      exact hfold

theorem removeAssumption_ok {p : PProof} {phi : PropFormula}
    (hv : p.isValid = true)
    (hrules : ∀ r ∈ p.rules, r = AX.MP ∨ r.assumptions = [])
    (hphi : p.statement.assumptions.getLast? = some phi) :
    ∃ q, removeAssumption p = some q ∧ q.isValid = true ∧
      q.statement = ⟨p.statement.assumptions.dropLast,
        pimp phi p.statement.conclusion⟩ ∧
      q.rules = unionRules p.rules [AX.MP, AX.I0, AX.I1, AX.D] := by
  have hAsm : p.statement.assumptions.dropLast ++ [phi] =
      p.statement.assumptions := List.dropLast_append_getLast? phi hphi
  unfold PProof.isValid at hv
  simp only [Bool.and_eq_true, List.all_eq_true, List.mem_range] at hv
  obtain ⟨hvl, hconc⟩ := hv
  match hlast : p.lines.getLast? with
  | none =>
      rw [hlast] at hconc
      cases hconc
  | some ll =>
      rw [hlast] at hconc
      have hcf : ll.formula = some p.statement.conclusion := by
        simpa using hconc
      have hne : p.lines ≠ [] := by
        intro h
        rw [h] at hlast
        cases hlast
      have hlen : 0 < p.lines.length := List.length_pos.mpr hne
      have hvalidL : ∀ i, i < p.lines.length →
          lineValidAt (p.statement.assumptions.dropLast ++ [phi]) p.rules
            p.lines i = true := by
        intro i hi
        rw [hAsm]
        exact hvl i hi
      have hInv0 : RAInv p.lines p.statement.assumptions.dropLast phi p.rules 0
          ⟨[], 0, []⟩ := by
        refine ⟨rfl, rfl, ?_, ?_, ?_⟩
        · intro j hj
          exact absurd hj (Nat.not_lt_zero j)
        · intro i hi
          exact absurd hi (Nat.not_lt_zero i)
        · intro h
          exact absurd h (by omega)
      obtain ⟨st1, hfold, hInv⟩ :=
        removeAssumption_fold hrules hvalidL p.lines.length 0 ⟨[], 0, []⟩
          (by omega) hInv0
      obtain ⟨hml, hll, hjinv, hvalid, hlastmap⟩ := hInv
      refine ⟨⟨⟨p.statement.assumptions.dropLast, pimp phi p.statement.conclusion⟩,
        unionRules p.rules [AX.MP, AX.I0, AX.I1, AX.D], st1.newLines⟩, ?_, ?_, rfl, rfl⟩
      · unfold removeAssumption
        simp only [hphi]
        rw [show p.lines.enum = List.enumFrom 0 (p.lines.drop 0) from rfl]
        rw [hfold]
      · unfold PProof.isValid
        simp only [Bool.and_eq_true, List.all_eq_true, List.mem_range]
        constructor
        · intro i hi
          exact hvalid i hi
        · obtain ⟨mj, fj, e1, e2, e3, e4⟩ :=
            hjinv (p.lines.length - 1) (by omega)
          have h5 := hlastmap (by omega)
          rw [e1] at h5
          have hmj : mj = st1.newLines.length - 1 := Option.some.inj h5
          have hll2 : p.lines.get? (p.lines.length - 1) = some ll := by
            rw [List.get?_eq_getElem?, ← List.getLast?_eq_getElem? p.lines, hlast]
          have hfj : fj = p.statement.conclusion := by
            rw [hll2] at e3
            have e3' : ll.formula = some fj := by simpa using e3
            rw [hcf] at e3'
            exact (Option.some.inj e3').symm
          rcases hq : st1.newLines.get? mj with _ | l
          · rw [hq] at e4
            cases e4
          · rw [hq] at e4
            have hlf : l.formula = some (pimp phi fj) := by simpa using e4
            have hgl : st1.newLines.getLast? = some l := by
              rw [List.getLast?_eq_getElem? st1.newLines, ← List.get?_eq_getElem?,
                ← hmj, hq]
            rw [hgl]
            simp [hlf, hfj]

/-! ### Predicate logic: names and syntax trees (predicates/syntax.py) -/

/-- Python `str.isalnum()`: nonempty and all characters alphanumeric. -/
def isAlnumStr (s : Str) : Bool :=
  !s.isEmpty && s.all Char.isAlphanum

/-- Embeds predicates/syntax.py `is_constant`: first character a digit or in
`a`..`d` and alphanumeric, or the single placeholder character `_`. -/
def isPredConstant (s : Str) : Bool :=
  (match s with
    | [] => false
    | c :: _ => (('0' ≤ c && c ≤ '9') || ('a' ≤ c && c ≤ 'd')) && isAlnumStr s)
  || s == ['_']

/-- Embeds predicates/syntax.py `is_variable`. -/
def isPredVariable (s : Str) : Bool :=
  match s with
  | [] => false
  | c :: _ => ('u' ≤ c && c ≤ 'z') && isAlnumStr s

/-- Embeds predicates/syntax.py `is_function`. -/
def isPredFunction (s : Str) : Bool :=
  match s with
  | [] => false
  | c :: _ => ('f' ≤ c && c ≤ 't') && isAlnumStr s

/-- Embeds predicates/syntax.py `is_relation`. -/
def isPredRelation (s : Str) : Bool :=
  match s with
  | [] => false
  | c :: _ => ('F' ≤ c && c ≤ 'T') && isAlnumStr s

/-- Embeds predicates/syntax.py `is_equality`. -/
def isEqualityStr (s : Str) : Bool :=
  s == ['=']

/-- Embeds predicates/syntax.py `is_binary` (predicate-logic version:
exactly `&`, `|`, `->`). -/
def isBinaryPred (s : Str) : Bool :=
  s == ['&'] || s == ['|'] || s == ['-', '>']

/-- Embeds predicates/syntax.py `is_quantifier`. -/
def isQuantifierStr (s : Str) : Bool :=
  s == ['A'] || s == ['E']

/-- Embeds the `Term` tree of predicates/syntax.py: a leaf holds a constant
or variable name (the source distinguishes the two only by the name's first
character), a `func` node holds a function name and its arguments. -/
inductive PTerm where
  | leaf : Str → PTerm
  | func : Str → List PTerm → PTerm
deriving Repr

mutual
def PTerm.decEqT : (a b : PTerm) → Decidable (a = b)
  | .leaf x, .leaf y =>
      match decEq x y with
      | isTrue h => isTrue (by rw [h])
      | isFalse h => isFalse (by simp [h])
  | .leaf _, .func _ _ => isFalse (by simp)
  | .func _ _, .leaf _ => isFalse (by simp)
  | .func f as_, .func g bs =>
      match decEq f g, PTerm.decEqTList as_ bs with
      | isTrue h1, isTrue h2 => isTrue (by rw [h1, h2])
      | isFalse h1, _ => isFalse (by simp [h1])
      | _, isFalse h2 => isFalse (by simp [h2])
def PTerm.decEqTList : (as_ bs : List PTerm) → Decidable (as_ = bs)
  | [], [] => isTrue rfl
  | [], _ :: _ => isFalse (by simp)
  | _ :: _, [] => isFalse (by simp)
  | a :: as_, b :: bs =>
      match PTerm.decEqT a b, PTerm.decEqTList as_ bs with
      | isTrue h1, isTrue h2 => isTrue (by rw [h1, h2])
      | isFalse h1, _ => isFalse (by simp [h1])
      | _, isFalse h2 => isFalse (by simp [h2])
end

instance : DecidableEq PTerm := PTerm.decEqT

mutual
/-- The `Term.__init__` invariants: a leaf name is a constant or variable
name, a function node has a function name and a nonempty list of well-formed
arguments. -/
def PTerm.wfT : PTerm → Bool
  | .leaf s => isPredConstant s || isPredVariable s
  | .func f args => isPredFunction f && !args.isEmpty && wfTList args
def wfTList : List PTerm → Bool
  | [] => true
  | t :: ts => t.wfT && wfTList ts
end

def commaJoin : List Str → Str
  | [] => []
  | [s] => s
  | s :: rest => s ++ [','] ++ commaJoin rest

mutual
/-- Embeds `Term.__repr__` (predicates/syntax.py, Task 7.1). -/
def PTerm.reprT : PTerm → Str
  | .leaf s => s
  | .func f args => f ++ ['('] ++ commaJoin (reprTList args) ++ [')']
def reprTList : List PTerm → List Str
  | [] => []
  | t :: ts => t.reprT :: reprTList ts
end

mutual
/-- Embeds the structural fold `Term._Term__collect_vars` behind
`Term.variables`/`Term.constants` (predicates/syntax.py, Tasks 7.5.x), as a
list of the collected names (the Python `set` is used downstream only through
membership queries). -/
def PTerm.collect (p : Str → Bool) : PTerm → List Str
  | .leaf s => if p s then [s] else []
  | .func f args =>
      (if p f then [f] else []) ++ collectList p args
def collectList (p : Str → Bool) : List PTerm → List Str
  | [] => []
  | t :: ts => t.collect p ++ collectList p ts
end

def PTerm.variablesT (t : PTerm) : List Str :=
  t.collect isPredVariable

def PTerm.constantsT (t : PTerm) : List Str :=
  t.collect isPredConstant

/-- Embeds the `Formula` tree of predicates/syntax.py: equality of two terms,
a relation application, negation, a binary connective, or a quantification
(root `A` or `E`, the quantified variable name, and the predicate). -/
inductive PFormula where
  | eq : PTerm → PTerm → PFormula
  | rel : Str → List PTerm → PFormula
  | un : PFormula → PFormula
  | bin : Str → PFormula → PFormula → PFormula
  | quant : Str → Str → PFormula → PFormula
deriving DecidableEq, Repr

/-- The `Formula.__init__` invariants (predicates/syntax.py): equality has
exactly two well-formed term arguments (the two-argument shape is structural
here); a relation node has a relation name and well-formed arguments; a
binary node has one of `&`, `|`, `->`; a quantifier node has root `A` or `E`
and a variable name. -/
def PFormula.wfF : PFormula → Bool
  | .eq t1 t2 => t1.wfT && t2.wfT
  | .rel r args => isPredRelation r && args.all PTerm.wfT
  | .un f => f.wfF
  | .bin op f g => isBinaryPred op && f.wfF && g.wfF
  | .quant q x f => isQuantifierStr q && isPredVariable x && f.wfF

/-- Embeds `Formula.__repr__` (predicates/syntax.py, Task 7.2). -/
def PFormula.reprF : PFormula → Str
  | .eq t1 t2 => t1.reprT ++ ['='] ++ t2.reprT
  | .rel r args => r ++ ['('] ++ commaJoin (reprTList args) ++ [')']
  | .un f => ['~'] ++ f.reprF
  | .bin op f g => ['('] ++ f.reprF ++ op ++ g.reprF ++ [')']
  | .quant q x f => q ++ x ++ ['['] ++ f.reprF ++ [']']

/-- Python `str.index`: position of the first occurrence of a character;
the raised `ValueError` when absent is modelled as `none`. -/
def strIndexOf : Str → Char → Option Nat
  | [], _ => none
  | c :: rest, t => if c == t then some 0 else (strIndexOf rest t).map (· + 1)

mutual
/-- Embeds `Term._parse_prefix` (predicates/syntax.py, Task 7.3.1).  The
source recurses on strictly shorter strings; this is modelled with a fuel
parameter (`termParsePfx` below supplies sufficient fuel).  Indexing an empty
string and the implicit `return None` fall-through are modelled as `none`.
`parseTermArgsAux` is the `while rest[0] == ','` loop shared with the
relation branch of `Formula._parse_prefix`. -/
def parseTermAux : Nat → Str → Option (PTerm × Str)
  | 0, _ => none
  | fuel + 1, s =>
      match s with
      | [] => none
      | c :: _ =>
          if isPredVariable [c] || isPredConstant [c] then
            let i := findRelevantPart
              (fun u => isPredConstant u || isPredVariable u) s
            some (PTerm.leaf (s.take i), s.drop i)
          else if isPredFunction [c] then
            match strIndexOf s '(' with
            | none => none
            | some i =>
                match parseTermAux fuel (s.drop (i + 1)) with
                | none => none
                | some (t, rest) =>
                    match parseTermArgsAux fuel rest with
                    | none => none
                    | some (ts, rest2) =>
                        some (PTerm.func (s.take i) (t :: ts), rest2.drop 1)
          else none

def parseTermArgsAux : Nat → Str → Option (List PTerm × Str)
  | 0, _ => none
  | fuel + 1, rest =>
      match rest with
      | [] => none
      | c :: rtail =>
          if c == ',' then
            match parseTermAux fuel rtail with
            | none => none
            | some (t, r2) =>
                match parseTermArgsAux fuel r2 with
                | none => none
                | some (ts, r3) => some (t :: ts, r3)
          else some ([], rest)
end

/-- `Term._parse_prefix` with the fuel the length of the input affords. -/
def termParsePfx (s : Str) : Option (PTerm × Str) :=
  parseTermAux (s.length + 1) s

/-- Embeds `Term.parse` (predicates/syntax.py, Task 7.3.2); the assert that
the suffix is empty is modelled as a guard. -/
def termParse (s : Str) : Option PTerm :=
  match termParsePfx s with
  | some (t, []) => some t
  | _ => none

/-- Embeds `Formula._parse_prefix` (predicates/syntax.py, Task 7.4.1), with
the same fuel treatment as `parseTermAux`.  Each branch mirrors the source:
relation (including the `()` empty-argument case), `~`, `(`-binary (taking a
one- or two-character operator by testing `is_binary(rest[0])`), quantifier
(splitting at the first `[`), and the equality fall-through, which drops one
character unconditionally where the source skips the `=`/`)`/`]`. -/
def parseFormulaAux : Nat → Str → Option (PFormula × Str)
  | 0, _ => none
  | fuel + 1, s =>
      match s with
      | [] => none
      | c :: srest =>
          if isPredRelation [c] then
            match strIndexOf s '(' with
            | none => none
            | some i =>
                if (s.drop (i + 1)).head? != some ')' then
                  match parseTermAux fuel (s.drop (i + 1)) with
                  | none => none
                  | some (t, rest) =>
                      match parseTermArgsAux fuel rest with
                      | none => none
                      | some (ts, rest2) =>
                          some (PFormula.rel (s.take i) (t :: ts), rest2.drop 1)
                else
                  some (PFormula.rel (s.take i) [], s.drop (i + 2))
          else if isUnaryOp [c] then
            match parseFormulaAux fuel srest with
            | none => none
            | some (f, rest) => some (PFormula.un f, rest)
          else if c == '(' then
            match parseFormulaAux fuel srest with
            | none => none
            | some (first, rest) =>
                let i := if isBinaryPred [rest.headD ' '] then 1 else 2
                match parseFormulaAux fuel (rest.drop i) with
                | none => none
                | some (second, rest2) =>
                    some (PFormula.bin (rest.take i) first second, rest2.drop 1)
          else if isQuantifierStr [c] then
            match strIndexOf s '[' with
            | none => none
            | some i =>
                match parseFormulaAux fuel (s.drop (i + 1)) with
                | none => none
                | some (f, rest) =>
                    some (PFormula.quant [c] ((s.take i).drop 1) f, rest.drop 1)
          else
            match parseTermAux fuel s with
            | none => none
            | some (t1, rest) =>
                match parseTermAux fuel (rest.drop 1) with
                | none => none
                | some (t2, rest2) => some (PFormula.eq t1 t2, rest2)

/-- `Formula._parse_prefix` with sufficient fuel. -/
def predParsePfx (s : Str) : Option (PFormula × Str) :=
  parseFormulaAux (s.length + 1) s

/-- Embeds `Formula.parse` (predicates/syntax.py): returns the parsed prefix
(the source only asserts the suffix is not `None`, so a trailing remainder is
discarded). -/
def predParse (s : Str) : Option PFormula :=
  (predParsePfx s).map (·.1)

/-! ### Maximal-munch facts for predicate-logic names -/

def notAlnumHead : Str → Prop
  | [] => True
  | c :: _ => c.isAlphanum = false

theorem findRelevantAux_munch_gen {P : Str → Bool} {v rest : Str}
    (htake : ∀ j, 1 ≤ j → j ≤ v.length → P (v.take j) = true)
    (hext : ∀ c, rest.head? = some c → P (v ++ [c]) = false) :
    ∀ i fuel, 1 ≤ i → i ≤ v.length + 1 → v.length + 2 - i ≤ fuel →
      findRelevantAux P (v ++ rest) i fuel =
        (if rest.isEmpty then v.length + 1 else v.length) := by
  intro i fuel h1 h2 hfuel
  induction fuel generalizing i with
  | zero => omega
  | succ fuel ih =>
      rcases Nat.lt_or_ge i (v.length + 1) with hi | hi
      · have hcond : i < (v ++ rest).length + 1 := by
          simp only [List.length_append]; omega
        have htk : (v ++ rest).take i = v.take i := by
          rw [List.take_append_of_le_length (by omega)]
        rw [findRelevantAux, if_pos hcond, htk, if_pos (htake i h1 (by omega))]
        exact ih (i + 1) (by omega) (by omega) (by omega)
      · have hi' : i = v.length + 1 := by omega
        subst hi'
        match rest, hext with
        | [], _ =>
            have hcond : ¬ (v.length + 1 < (v ++ ([] : Str)).length + 1) := by
              simp
            rw [findRelevantAux, if_neg hcond]
            simp
        | c :: rs, hext =>
            have hcond : v.length + 1 < (v ++ (c :: rs)).length + 1 := by
              simp only [List.length_append, List.length_cons]; omega
            have htk : (v ++ (c :: rs)).take (v.length + 1) = v ++ [c] := by
              rw [List.take_append_eq_append_take]
              simp
            rw [findRelevantAux, if_pos hcond, htk, hext c rfl]
            simp

theorem findRelevantPart_munch_gen {P : Str → Bool} {v rest : Str}
    (hlen : 1 ≤ v.length)
    (htake : ∀ j, 1 ≤ j → j ≤ v.length → P (v.take j) = true)
    (hext : ∀ c, rest.head? = some c → P (v ++ [c]) = false) :
    findRelevantPart P (v ++ rest) =
      (if rest.isEmpty then v.length + 1 else v.length) :=
  findRelevantAux_munch_gen htake hext 1 ((v ++ rest).length + 1) (by omega)
    (by omega) (by simp only [List.length_append]; omega)

/-- The predicate the source passes to `find_relevant_part` when parsing a
term leaf. -/
def isTermName (s : Str) : Bool :=
  isPredConstant s || isPredVariable s

theorem isAlnumStr_take {v : Str} (h : isAlnumStr v = true) {j : Nat}
    (h1 : 1 ≤ j) : isAlnumStr (v.take j) = true := by
  simp only [isAlnumStr, Bool.and_eq_true, Bool.not_eq_true',
    List.all_eq_true] at h ⊢
  obtain ⟨hne, hall⟩ := h
  refine ⟨?_, fun c hc => hall c (List.mem_of_mem_take hc)⟩
  match v, hne, j, h1 with
  | c :: t, _, j + 1, _ => simp

theorem isAlnumStr_head {c : Char} {t : Str} (h : isAlnumStr (c :: t) = true) :
    c.isAlphanum = true := by
  simp only [isAlnumStr, Bool.and_eq_true, List.all_eq_true] at h
  exact h.2 c (by simp)

theorem isAlnumStr_append_false {v : Str} {c : Char}
    (hc : c.isAlphanum = false) : isAlnumStr (v ++ [c]) = false := by
  simp only [isAlnumStr, Bool.and_eq_false_iff]
  right
  exact List.all_eq_false.mpr ⟨c, by simp, by simp [hc]⟩

theorem isTermName_take {v : Str} (hv : isTermName v = true) :
    ∀ j, 1 ≤ j → j ≤ v.length → isTermName (v.take j) = true := by
  intro j h1 h2
  simp only [isTermName, isPredConstant, isPredVariable, Bool.or_eq_true,
    beq_iff_eq] at hv ⊢
  rcases hv with hv | hv
  · rcases hv with hv | hv
    · match v, hv with
      | c :: t, hv =>
          simp only [Bool.and_eq_true] at hv
          match j, h1 with
          | j + 1, _ =>
              left; left
              simp only [List.take_succ_cons, Bool.and_eq_true]
              refine ⟨hv.1, ?_⟩
              have h3 : isAlnumStr ((c :: t).take (j + 1)) = true :=
                isAlnumStr_take hv.2 (by omega)
              rwa [List.take_succ_cons] at h3
    · subst hv
      match j, h1 with
      | 1, _ => left; right; rfl
      | j + 2, _ => simp at h2
  · match v, hv with
    | c :: t, hv =>
        simp only [Bool.and_eq_true] at hv
        match j, h1 with
        | j + 1, _ =>
            right
            simp only [List.take_succ_cons, Bool.and_eq_true]
            refine ⟨hv.1, ?_⟩
            have h3 : isAlnumStr ((c :: t).take (j + 1)) = true :=
              isAlnumStr_take hv.2 (by omega)
            rwa [List.take_succ_cons] at h3

theorem isTermName_ext {v : Str} (hlen : 1 ≤ v.length) {c : Char}
    (hc : c.isAlphanum = false) : isTermName (v ++ [c]) = false := by
  simp only [isTermName, isPredConstant, isPredVariable, Bool.or_eq_false_iff,
    beq_eq_false_iff_ne, ne_eq]
  refine ⟨⟨?_, ?_⟩, ?_⟩
  · match v, hlen with
    | b :: t, _ =>
        simp only [List.cons_append, Bool.and_eq_false_iff]
        right
        have h4 : isAlnumStr ((b :: t) ++ [c]) = false := isAlnumStr_append_false hc
        simpa using h4
  · intro h
    have : (v ++ [c]).length = 1 := by rw [h]; rfl
    simp only [List.length_append, List.length_cons, List.length_nil] at this
    omega
  · match v, hlen with
    | b :: t, _ =>
        simp only [List.cons_append, Bool.and_eq_false_iff]
        right
        have h4 : isAlnumStr ((b :: t) ++ [c]) = false := isAlnumStr_append_false hc
        simpa using h4

theorem isTermName_head {c : Char} {t : Str}
    (hv : isTermName (c :: t) = true) :
    (isPredVariable [c] || isPredConstant [c]) = true := by
  simp only [isTermName, isPredConstant, isPredVariable, Bool.or_eq_true,
    beq_iff_eq, Bool.and_eq_true] at hv ⊢
  rcases hv with (⟨hcl, hal⟩ | hv) | ⟨hcl, hal⟩
  · right; left
    exact ⟨hcl, by simp [isAlnumStr, isAlnumStr_head hal]⟩
  · right; right
    simp only [List.cons.injEq] at hv
    simp [hv.1]
  · left
    exact ⟨hcl, by simp [isAlnumStr, isAlnumStr_head hal]⟩

/-- `find_relevant_part` at a term leaf: the whole leading name, and only
it, is consumed. -/
theorem findRelevantPart_termName {v rest : Str} (hv : isTermName v = true)
    (hrest : notAlnumHead rest) :
    findRelevantPart (fun u => isPredConstant u || isPredVariable u)
        (v ++ rest) = (if rest.isEmpty then v.length + 1 else v.length) := by
  have hlen : 1 ≤ v.length := by
    match v, hv with
    | c :: t, _ => simp
  exact findRelevantPart_munch_gen hlen (isTermName_take hv)
    (by
      intro c hc
      match rest, hrest, hc with
      | c :: rs, hrest, hc =>
          have : c = c := rfl
          simp only [List.head?_cons, Option.some.injEq] at hc
          subst hc
          exact isTermName_ext hlen hrest)

theorem alnum_ne {c d : Char} (h : c.isAlphanum = true)
    (hd : d.isAlphanum = false) : (c == d) = false := by
  by_contra hcd
  simp only [Bool.not_eq_false, beq_iff_eq] at hcd
  subst hcd
  rw [h] at hd
  cases hd

theorem strIndexOf_no_hit {v : Str} {d : Char} (hv : ∀ c ∈ v, (c == d) = false) :
    ∀ r, strIndexOf (v ++ d :: r) d = some v.length := by
  induction v with
  | nil => intro r; simp [strIndexOf]
  | cons c vt ih =>
      intro r
      have hc : (c == d) = false := hv c (by simp)
      simp only [List.cons_append, strIndexOf, hc, Bool.false_eq_true, if_false,
        List.append_eq]
      rw [ih (fun x hx => hv x (by simp [hx])) r]
      rfl

theorem strIndexOf_alnum {v : Str} (hv : isAlnumStr v = true) (d : Char)
    (hd : d.isAlphanum = false) (r : Str) :
    strIndexOf (v ++ d :: r) d = some v.length := by
  refine strIndexOf_no_hit ?_ r
  intro c hc
  simp only [isAlnumStr, Bool.and_eq_true, List.all_eq_true] at hv
  exact alnum_ne (hv.2 c hc) hd

theorem funcName_head_not_leaf {c : Char} (h1 : 'f' ≤ c) (h2 : c ≤ 't') :
    (isPredVariable [c] || isPredConstant [c]) = false := by
  have hu : ('u' ≤ c : Bool) = false := by
    simp only [decide_eq_false_iff_not]
    intro hu
    exact absurd (le_trans hu h2) (by decide)
  have h9 : (c ≤ '9' : Bool) = false := by
    simp only [decide_eq_false_iff_not]
    intro h9
    exact absurd (le_trans h1 h9) (by decide)
  have hd : (c ≤ 'd' : Bool) = false := by
    simp only [decide_eq_false_iff_not]
    intro hd
    exact absurd (le_trans h1 hd) (by decide)
  have hund : ¬ (c = '_') := by
    intro he
    subst he
    exact absurd h1 (by decide)
  simp [isPredVariable, isPredConstant, hu, h9, hd, hund]

theorem funcName_head_isFunc {c : Char} {t : Str}
    (h : isPredFunction (c :: t) = true) : isPredFunction [c] = true := by
  simp only [isPredFunction, Bool.and_eq_true] at h ⊢
  exact ⟨h.1, by simp [isAlnumStr, isAlnumStr_head h.2]⟩

def joinTail : List Str → Str
  | [] => []
  | s :: rest => [','] ++ s ++ joinTail rest

theorem commaJoin_cons (x : Str) (xs : List Str) :
    commaJoin (x :: xs) = x ++ joinTail xs := by
  induction xs generalizing x with
  | nil => simp [commaJoin, joinTail]
  | cons y ys ih =>
      rw [show commaJoin (x :: y :: ys) = x ++ [','] ++ commaJoin (y :: ys) from
        rfl]
      rw [ih y, joinTail]
      simp

theorem notAlnumHead_joinTail (l : List Str) (r : Str) :
    notAlnumHead (joinTail l ++ ')' :: r) := by
  match l with
  | [] => simp [joinTail, notAlnumHead]
  | s :: rest => simp [joinTail, notAlnumHead]

theorem drop_len_succ (a : Str) (x : Char) (y : Str) :
    (a ++ x :: y).drop (a.length + 1) = y := by
  rw [show a ++ x :: y = (a ++ [x]) ++ y from by simp]
  rw [show a.length + 1 = (a ++ [x]).length from by simp]
  exact List.drop_left _ _

theorem reprT_pos (t : PTerm) (hwf : t.wfT = true) : 1 ≤ t.reprT.length := by
  match t, hwf with
  | .leaf v, hwf =>
      match v, hwf with
      | c :: vt, _ => simp [PTerm.reprT]
  | .func f args, hwf =>
      have hf : isPredFunction f = true := by
        rw [PTerm.wfT] at hwf
        simp only [Bool.and_eq_true] at hwf
        exact hwf.1.1
      match f, hf with
      | c :: ft, _ => simp [PTerm.reprT]

theorem parseTerm_roundtrip : ∀ fuel : Nat,
    (∀ (t : PTerm) (rest : Str), t.wfT = true → notAlnumHead rest →
      t.reprT.length ≤ fuel →
      parseTermAux fuel (t.reprT ++ rest) = some (t, rest)) ∧
    (∀ (ts : List PTerm) (rest : Str), wfTList ts = true →
      (joinTail (reprTList ts)).length + 1 ≤ fuel →
      parseTermArgsAux fuel (joinTail (reprTList ts) ++ ')' :: rest) =
        some (ts, ')' :: rest)) := by
  intro fuel
  induction fuel with
  | zero =>
      constructor
      · intro t rest hwf _ hb
        have h1 := reprT_pos t hwf
        omega
      · intro ts rest _ hb
        omega
  | succ fuel ih =>
      constructor
      · intro t rest hwf hrest hbound
        match t, hwf with
        | .leaf v, hwf =>
            have hv : isTermName v = true := by
              simpa [isTermName, PTerm.wfT] using hwf
            match v, hv with
            | c :: vt, hv =>
                have hs : PTerm.reprT (PTerm.leaf (c :: vt)) ++ rest =
                    c :: (vt ++ rest) := by
                  simp [PTerm.reprT]
                rw [hs]
                simp only [parseTermAux]
                rw [if_pos (isTermName_head hv)]
                have hfr : findRelevantPart
                    (fun u => isPredConstant u || isPredVariable u)
                    (c :: (vt ++ rest)) =
                    (if rest.isEmpty then (c :: vt).length + 1
                      else (c :: vt).length) := by
                  have h6 := findRelevantPart_termName hv hrest
                  simpa using h6
                simp only [hfr]
                match rest, hrest with
                | [], _ =>
                    simp only [List.isEmpty_nil, if_true]
                    rw [show c :: (vt ++ ([] : Str)) = (c :: vt) ++ [] from by simp]
                    rw [List.take_of_length_le (by simp),
                      List.drop_of_length_le (by simp)]
                    simp [PTerm.reprT]
                | r0 :: rt, _ =>
                    simp only [List.isEmpty_cons, if_false, Bool.false_eq_true]
                    have ht1 : (c :: (vt ++ r0 :: rt)).take ((c :: vt) : Str).length
                        = c :: vt := List.take_left (c :: vt) (r0 :: rt)
                    have ht2 : (c :: (vt ++ r0 :: rt)).drop ((c :: vt) : Str).length
                        = r0 :: rt := List.drop_left (c :: vt) (r0 :: rt)
                    rw [ht1, ht2]
        | .func f args, hwf =>
            rw [PTerm.wfT] at hwf
            simp only [Bool.and_eq_true, Bool.not_eq_true',
              List.isEmpty_eq_false] at hwf
            obtain ⟨⟨hf, hne⟩, hargs⟩ := hwf
            match args, hne, hargs with
            | t1 :: ts, _, hargs =>
                have hargs2 : t1.wfT = true ∧ wfTList ts = true := by
                  rw [wfTList] at hargs
                  simpa [Bool.and_eq_true] using hargs
                match f, hf with
                | c :: ft, hf =>
                    have halnum : isAlnumStr (c :: ft) = true := by
                      simp only [isPredFunction, Bool.and_eq_true] at hf
                      exact hf.2
                    have hclass : 'f' ≤ c ∧ c ≤ 't' := by
                      simp only [isPredFunction, Bool.and_eq_true,
                        decide_eq_true_eq] at hf
                      exact hf.1
                    have hs0 : PTerm.reprT (PTerm.func (c :: ft) (t1 :: ts)) =
                        c :: (ft ++ '(' ::
                          (t1.reprT ++ (joinTail (reprTList ts) ++ [')']))) := by
                      rw [PTerm.reprT]
                      rw [show reprTList (t1 :: ts) =
                        t1.reprT :: reprTList ts from rfl]
                      rw [commaJoin_cons]
                      simp
                    have hs : PTerm.reprT (PTerm.func (c :: ft) (t1 :: ts)) ++ rest =
                        c :: (ft ++ '(' ::
                          (t1.reprT ++ (joinTail (reprTList ts) ++ ')' :: rest))) := by
                      rw [hs0]
                      simp
                    rw [hs0] at hbound
                    have hpos1 := reprT_pos t1 hargs2.1
                    have hlen1 : t1.reprT.length ≤ fuel := by
                      simp only [List.length_cons, List.length_append] at hbound
                      omega
                    have hlen2 : (joinTail (reprTList ts)).length + 1 ≤ fuel := by
                      simp only [List.length_cons, List.length_append] at hbound
                      omega
                    rw [hs]
                    simp only [parseTermAux]
                    rw [if_neg (by
                      rw [funcName_head_not_leaf hclass.1 hclass.2]
                      simp)]
                    rw [if_pos (funcName_head_isFunc hf)]
                    have hidx : strIndexOf
                        (c :: (ft ++ '(' ::
                          (t1.reprT ++ (joinTail (reprTList ts) ++ ')' :: rest))))
                        '(' = some ((c :: ft) : Str).length := by
                      have h5 := strIndexOf_alnum halnum '(' (by decide)
                        (t1.reprT ++ (joinTail (reprTList ts) ++ ')' :: rest))
                      simpa using h5
                    have hdrop : (c :: (ft ++ '(' ::
                        (t1.reprT ++ (joinTail (reprTList ts) ++ ')' :: rest)))).drop
                          (((c :: ft) : Str).length + 1) =
                        t1.reprT ++ (joinTail (reprTList ts) ++ ')' :: rest) :=
                      drop_len_succ (c :: ft) '(' _
                    have htake : (c :: (ft ++ '(' ::
                        (t1.reprT ++ (joinTail (reprTList ts) ++ ')' :: rest)))).take
                          ((c :: ft) : Str).length = c :: ft := by
                      have h8 : ((c :: ft) ++ ('(' ::
                          (t1.reprT ++ (joinTail (reprTList ts) ++ ')' :: rest)))).take
                            ((c :: ft) : Str).length = c :: ft :=
                        List.take_left _ _
                      simp only [List.cons_append] at h8
                      exact h8
                    simp only [hidx, hdrop,
                      ih.1 t1 (joinTail (reprTList ts) ++ ')' :: rest) hargs2.1
                        (notAlnumHead_joinTail _ _) hlen1,
                      ih.2 ts rest hargs2.2 hlen2, htake]
                    rfl
      · intro ts rest hwf hbound
        match ts, hwf with
        | [], _ =>
            simp only [reprTList, joinTail, List.nil_append]
            simp [parseTermArgsAux]
        | t1 :: ts2, hwf =>
            have hargs2 : t1.wfT = true ∧ wfTList ts2 = true := by
              rw [wfTList] at hwf
              simpa [Bool.and_eq_true] using hwf
            have hs0 : joinTail (reprTList (t1 :: ts2)) =
                ',' :: (t1.reprT ++ joinTail (reprTList ts2)) := by
              rw [show reprTList (t1 :: ts2) = t1.reprT :: reprTList ts2 from rfl,
                joinTail]
              simp
            have hs : joinTail (reprTList (t1 :: ts2)) ++ ')' :: rest =
                ',' :: (t1.reprT ++ (joinTail (reprTList ts2) ++ ')' :: rest)) := by
              rw [hs0]
              simp
            rw [hs0] at hbound
            have hpos1 := reprT_pos t1 hargs2.1
            have hlen1 : t1.reprT.length ≤ fuel := by
              simp only [List.length_cons, List.length_append] at hbound
              omega
            have hlen2 : (joinTail (reprTList ts2)).length + 1 ≤ fuel := by
              simp only [List.length_cons, List.length_append] at hbound
              omega
            rw [hs]
            simp only [parseTermArgsAux]
            rw [if_pos (by decide)]
            simp only [ih.1 t1 (joinTail (reprTList ts2) ++ ')' :: rest) hargs2.1
              (notAlnumHead_joinTail _ _) hlen1,
              ih.2 ts2 rest hargs2.2 hlen2]

theorem termParsePfx_repr (t : PTerm) (hwf : t.wfT = true) :
    termParsePfx t.reprT = some (t, []) := by
  unfold termParsePfx
  have h1 := (parseTerm_roundtrip (t.reprT.length + 1)).1 t [] hwf
    (by simp only [notAlnumHead]) (by omega)
  simpa using h1

theorem termParse_repr (t : PTerm) (hwf : t.wfT = true) :
    termParse t.reprT = some t := by
  unfold termParse
  rw [termParsePfx_repr t hwf]

theorem relName_head_isRel {c : Char} {t : Str}
    (h : isPredRelation (c :: t) = true) : isPredRelation [c] = true := by
  simp only [isPredRelation, Bool.and_eq_true] at h ⊢
  exact ⟨h.1, by simp [isAlnumStr, isAlnumStr_head h.2]⟩

/-- Characters that can start a term (digits, `a`..`z` letters used by the
constant/variable/function alphabets, or `_`) start none of the other
`Formula._parse_prefix` branches. -/
theorem termHead_dispatch {h : Char}
    (hcase : ('0' ≤ h ∧ h ≤ '9') ∨ ('a' ≤ h ∧ h ≤ 'z') ∨ h = '_') :
    isPredRelation [h] = false ∧ isUnaryOp [h] = false ∧ (h == '(') = false ∧
      isQuantifierStr [h] = false ∧ (h == ')') = false := by
  have hne : ∀ d : Char, '9' < d → d < '_' → ¬ (h = d) := by
    intro d h9 hu he
    subst he
    rcases hcase with ⟨_, h2⟩ | ⟨h1, _⟩ | h3
    · exact absurd (lt_of_le_of_lt h2 h9) (lt_irrefl h)
    · exact absurd (lt_of_le_of_lt h1 hu) (by decide)
    · rw [h3] at hu
      exact absurd hu (by decide)
  have hlow : ∀ d : Char, d < '0' → ¬ (h = d) := by
    intro d hd he
    subst he
    rcases hcase with ⟨h1, _⟩ | ⟨h1, _⟩ | h3
    · exact absurd (lt_of_le_of_lt h1 hd) (by decide)
    · exact absurd (lt_of_le_of_lt (le_trans (by decide : ('0' : Char) ≤ 'a') h1)
        hd) (by decide)
    · rw [h3] at hd
      exact absurd hd (by decide)
  have hhigh : ∀ d : Char, 'z' < d → ¬ (h = d) := by
    intro d hd he
    subst he
    rcases hcase with ⟨_, h2⟩ | ⟨_, h2⟩ | h3
    · exact absurd (lt_of_le_of_lt (le_trans h2 (by decide : ('9' : Char) ≤ 'z'))
        hd) (lt_irrefl h)
    · exact absurd (lt_of_le_of_lt h2 hd) (lt_irrefl h)
    · rw [h3] at hd
      exact absurd hd (by decide)
  refine ⟨?_, ?_, ?_, ?_, ?_⟩
  · simp only [isPredRelation, Bool.and_eq_false_iff]
    left
    simp only [Bool.and_eq_false_iff, decide_eq_false_iff_not]
    rcases hcase with ⟨_, h2⟩ | ⟨h1, _⟩ | h3
    · left
      intro hF
      exact absurd (le_trans hF h2) (by decide)
    · right
      intro hT
      exact absurd (le_trans h1 hT) (by decide)
    · right
      rw [h3]
      decide
  · simp only [isUnaryOp, beq_eq_false_iff_ne, ne_eq, List.cons.injEq, and_true]
    exact hhigh '~' (by decide)
  · simp only [beq_eq_false_iff_ne, ne_eq]
    exact hlow '(' (by decide)
  · simp only [isQuantifierStr, Bool.or_eq_false_iff, beq_eq_false_iff_ne,
      ne_eq, List.cons.injEq, and_true]
    exact ⟨hne 'A' (by decide) (by decide), hne 'E' (by decide) (by decide)⟩
  · simp only [beq_eq_false_iff_ne, ne_eq]
    exact hlow ')' (by decide)

theorem termName_head_case {h : Char}
    (hv : (isPredVariable [h] || isPredConstant [h] || isPredFunction [h]) = true) :
    ('0' ≤ h ∧ h ≤ '9') ∨ ('a' ≤ h ∧ h ≤ 'z') ∨ h = '_' := by
  simp only [isPredVariable, isPredConstant, isPredFunction, Bool.or_eq_true,
    Bool.and_eq_true, decide_eq_true_eq, beq_iff_eq, List.cons.injEq,
    and_true] at hv
  rcases hv with (⟨⟨h1, h2⟩, _⟩ | (⟨⟨h1, h2⟩ | ⟨h1, h2⟩, _⟩ | h3)) | ⟨⟨h1, h2⟩, _⟩
  · exact Or.inr (Or.inl ⟨le_trans (by decide) h1, h2⟩)
  · exact Or.inl ⟨h1, h2⟩
  · exact Or.inr (Or.inl ⟨h1, le_trans h2 (by decide)⟩)
  · exact Or.inr (Or.inr h3)
  · exact Or.inr (Or.inl ⟨le_trans (by decide) h1, le_trans h2 (by decide)⟩)

theorem reprT_head (t : PTerm) (hwf : t.wfT = true) :
    ∃ h tl, t.reprT = h :: tl ∧
      (isPredVariable [h] || isPredConstant [h] || isPredFunction [h]) = true := by
  match t, hwf with
  | .leaf v, hwf =>
      have hv : isTermName v = true := by
        simpa [isTermName, PTerm.wfT] using hwf
      match v, hv with
      | c :: vt, hv =>
          refine ⟨c, vt, by simp [PTerm.reprT], ?_⟩
          have h1 := isTermName_head hv
          simp only [Bool.or_eq_true] at h1 ⊢
          tauto
  | .func f args, hwf =>
      have hf : isPredFunction f = true := by
        rw [PTerm.wfT] at hwf
        simp only [Bool.and_eq_true] at hwf
        exact hwf.1.1
      match f, hf with
      | c :: ft, hf =>
          refine ⟨c, ft ++ ['('] ++ commaJoin (reprTList args) ++ [')'], ?_, ?_⟩
          · simp [PTerm.reprT]
          · simp only [Bool.or_eq_true]
            right
            exact funcName_head_isFunc hf

theorem wfTList_eq_all : ∀ ts : List PTerm, wfTList ts = ts.all PTerm.wfT := by
  intro ts
  induction ts with
  | nil => rfl
  | cons t ts ih =>
      rw [wfTList, List.all_cons, ih]

theorem reprF_pos (f : PFormula) (hwf : f.wfF = true) : 1 ≤ f.reprF.length := by
  match f, hwf with
  | .eq t1 t2, hwf =>
      have h1 : t1.wfT = true := by
        rw [PFormula.wfF] at hwf
        simp only [Bool.and_eq_true] at hwf
        exact hwf.1
      have h2 := reprT_pos t1 h1
      rw [PFormula.reprF]
      simp only [List.length_append]
      omega
  | .rel r args, hwf =>
      have hr : isPredRelation r = true := by
        rw [PFormula.wfF] at hwf
        simp only [Bool.and_eq_true] at hwf
        exact hwf.1
      match r, hr with
      | c :: rt, _ => simp [PFormula.reprF]
  | .un g, _ => simp [PFormula.reprF]
  | .bin op g1 g2, _ => simp [PFormula.reprF]
  | .quant q x g, hwf =>
      have hq : isQuantifierStr q = true := by
        rw [PFormula.wfF] at hwf
        simp only [Bool.and_eq_true] at hwf
        exact hwf.1.1
      have hq2 : q = ['A'] ∨ q = ['E'] := by
        simpa [isQuantifierStr] using hq
      rcases hq2 with hq2 | hq2
      all_goals subst hq2
      all_goals simp [PFormula.reprF]

theorem parseFormula_roundtrip : ∀ (fuel : Nat) (f : PFormula) (rest : Str),
    f.wfF = true → notAlnumHead rest →
    (f.reprF ++ rest).length ≤ fuel →
    parseFormulaAux fuel (f.reprF ++ rest) = some (f, rest) := by
  intro fuel
  induction fuel with
  | zero =>
      intro f rest hwf _ hb
      have h1 := reprF_pos f hwf
      simp only [List.length_append] at hb
      omega
  | succ fuel ih =>
      intro f rest hwf hrest hbound
      match f, hwf with
      | .eq t1 t2, hwf =>
          rw [PFormula.wfF] at hwf
          simp only [Bool.and_eq_true] at hwf
          obtain ⟨hw1, hw2⟩ := hwf
          obtain ⟨h, tl, hht, hhc⟩ := reprT_head t1 hw1
          have hdisp := termHead_dispatch (termName_head_case hhc)
          have hs : PFormula.reprF (PFormula.eq t1 t2) ++ rest =
              t1.reprT ++ ('=' :: (t2.reprT ++ rest)) := by
            rw [PFormula.reprF]
            simp
          rw [hs] at hbound ⊢
          have hcons : t1.reprT ++ ('=' :: (t2.reprT ++ rest)) =
              h :: (tl ++ ('=' :: (t2.reprT ++ rest))) := by
            rw [hht]
            rfl
          rw [hcons] at hbound ⊢
          simp only [parseFormulaAux]
          rw [if_neg (by rw [hdisp.1]; simp),
            if_neg (by rw [hdisp.2.1]; simp),
            if_neg (by rw [hdisp.2.2.1]; simp),
            if_neg (by rw [hdisp.2.2.2.1]; simp)]
          rw [← hcons]
          have hlent : t1.reprT.length = tl.length + 1 := by
            rw [hht]
            rfl
          have hpos2 := reprT_pos t2 hw2
          have hp1 : parseTermAux fuel (t1.reprT ++ ('=' :: (t2.reprT ++ rest))) =
              some (t1, '=' :: (t2.reprT ++ rest)) := by
            refine (parseTerm_roundtrip fuel).1 t1 _ hw1 (by simp [notAlnumHead]) ?_
            simp only [List.length_cons, List.length_append] at hbound
            omega
          have hp2 : parseTermAux fuel (t2.reprT ++ rest) = some (t2, rest) := by
            refine (parseTerm_roundtrip fuel).1 t2 _ hw2 hrest ?_
            simp only [List.length_cons, List.length_append] at hbound
            omega
          simp only [hp1, List.drop_succ_cons, List.drop_zero, hp2]
      | .un g, hwf =>
          have hs : PFormula.reprF (PFormula.un g) ++ rest =
              '~' :: (g.reprF ++ rest) := by
            rw [PFormula.reprF]
            rfl
          rw [hs] at hbound ⊢
          simp only [parseFormulaAux]
          rw [if_neg (by decide), if_pos (by decide)]
          have hg : parseFormulaAux fuel (g.reprF ++ rest) = some (g, rest) := by
            refine ih g rest (by simpa [PFormula.wfF] using hwf) hrest ?_
            simp only [List.length_cons] at hbound
            omega
          simp only [hg]
      | .bin op g1 g2, hwf =>
          rw [PFormula.wfF] at hwf
          simp only [Bool.and_eq_true] at hwf
          obtain ⟨⟨hop, hw1⟩, hw2⟩ := hwf
          have hops : op = ['&'] ∨ op = ['|'] ∨ op = ['-', '>'] := by
            have h9 := hop
            simp only [isBinaryPred, Bool.or_eq_true, beq_iff_eq] at h9
            tauto
          have hs : PFormula.reprF (PFormula.bin op g1 g2) ++ rest =
              '(' :: (g1.reprF ++ (op ++ (g2.reprF ++ (')' :: rest)))) := by
            rw [PFormula.reprF]
            simp
          rw [hs] at hbound ⊢
          simp only [parseFormulaAux]
          rw [if_neg (by decide), if_neg (by decide), if_pos (by decide)]
          have hg1 : parseFormulaAux fuel
              (g1.reprF ++ (op ++ (g2.reprF ++ (')' :: rest)))) =
              some (g1, op ++ (g2.reprF ++ (')' :: rest))) := by
            refine ih g1 _ hw1 ?_ ?_
            · rcases hops with hop2 | hop2 | hop2
              all_goals subst hop2
              all_goals simp [notAlnumHead]
            · simp only [List.length_cons, List.length_append] at hbound ⊢
              omega
          have hg2 : parseFormulaAux fuel (g2.reprF ++ (')' :: rest)) =
              some (g2, ')' :: rest) := by
            refine ih g2 _ hw2 (by simp [notAlnumHead]) ?_
            simp only [List.length_cons, List.length_append] at hbound ⊢
            omega
          rcases hops with hop2 | hop2 | hop2
          all_goals subst hop2
          · simp only [hg1]
            rw [show (((['&'] ++ (g2.reprF ++ (')' :: rest))) : Str).headD ' ')
              = '&' from rfl]
            rw [if_pos (by decide)]
            simp only [List.drop_succ_cons, List.drop_zero, List.cons_append,
              List.nil_append, hg2]
            rfl
          · simp only [hg1]
            rw [show (((['|'] ++ (g2.reprF ++ (')' :: rest))) : Str).headD ' ')
              = '|' from rfl]
            rw [if_pos (by decide)]
            simp only [List.drop_succ_cons, List.drop_zero, List.cons_append,
              List.nil_append, hg2]
            rfl
          · simp only [hg1]
            rw [show ((((['-', '>'] : Str) ++ (g2.reprF ++ (')' :: rest))) : Str).headD ' ')
              = '-' from rfl]
            rw [if_neg (by decide)]
            simp only [List.drop_succ_cons, List.drop_zero, List.cons_append,
              List.nil_append, hg2]
            rfl
      | .quant q x g, hwf =>
          rw [PFormula.wfF] at hwf
          simp only [Bool.and_eq_true] at hwf
          obtain ⟨⟨hq, hx⟩, hwg⟩ := hwf
          have hq2 : q = ['A'] ∨ q = ['E'] := by
            simpa [isQuantifierStr] using hq
          have hxan : isAlnumStr x = true := by
            match x, hx with
            | c :: xt, hx =>
                simp only [isPredVariable, Bool.and_eq_true] at hx
                exact hx.2
          have hidx0 : ∀ qc : Char, ¬ (qc = '[') →
              strIndexOf (qc :: (x ++ '[' :: (g.reprF ++ (']' :: rest)))) '[' =
                some (1 + x.length) := by
            intro qc hqc
            have h5 : strIndexOf ((qc :: x) ++ '[' :: (g.reprF ++ (']' :: rest)))
                '[' = some ((qc :: x) : Str).length := by
              refine strIndexOf_no_hit ?_ _
              intro d hd
              simp only [List.mem_cons] at hd
              rcases hd with hd | hd
              · subst hd
                simpa using hqc
              · simp only [isAlnumStr, Bool.and_eq_true, List.all_eq_true] at hxan
                exact alnum_ne (hxan.2 d hd) (by decide)
            simp only [List.cons_append, List.length_cons] at h5
            rw [h5]
            congr 1
            omega
          rcases hq2 with hq2 | hq2
          · subst hq2
            have hs : PFormula.reprF (PFormula.quant ['A'] x g) ++ rest =
                'A' :: (x ++ '[' :: (g.reprF ++ (']' :: rest))) := by
              rw [PFormula.reprF]
              simp
            rw [hs] at hbound ⊢
            simp only [parseFormulaAux]
            rw [if_neg (by decide), if_neg (by decide), if_neg (by decide),
              if_pos (by decide)]
            have hidx : strIndexOf ('A' :: (x ++ '[' ::
                (g.reprF ++ (']' :: rest)))) '[' = some (1 + x.length) :=
              hidx0 'A' (by decide)
            have hdrop : (('A' :: (x ++ '[' :: (g.reprF ++ (']' :: rest)))) :
                Str).drop (1 + x.length + 1) = g.reprF ++ (']' :: rest) := by
              rw [show (1 + x.length + 1) = (x.length + 1) + 1 from by omega]
              simp only [List.drop_succ_cons]
              exact drop_len_succ x '[' _
            have hg : parseFormulaAux fuel (g.reprF ++ (']' :: rest)) =
                some (g, ']' :: rest) := by
              refine ih g _ hwg (by simp [notAlnumHead]) ?_
              simp only [List.length_cons, List.length_append] at hbound ⊢
              omega
            have htk : (('A' :: (x ++ '[' :: (g.reprF ++ (']' :: rest)))) :
                Str).take (1 + x.length) = 'A' :: x := by
              rw [show (1 + x.length) = x.length + 1 from by omega]
              simp only [List.take_succ_cons]
              congr 1
              exact List.take_left x _
            simp only [hidx, hdrop, hg, htk]
            rfl
          · subst hq2
            have hs : PFormula.reprF (PFormula.quant ['E'] x g) ++ rest =
                'E' :: (x ++ '[' :: (g.reprF ++ (']' :: rest))) := by
              rw [PFormula.reprF]
              simp
            rw [hs] at hbound ⊢
            simp only [parseFormulaAux]
            rw [if_neg (by decide), if_neg (by decide), if_neg (by decide),
              if_pos (by decide)]
            have hidx : strIndexOf ('E' :: (x ++ '[' ::
                (g.reprF ++ (']' :: rest)))) '[' = some (1 + x.length) :=
              hidx0 'E' (by decide)
            have hdrop : (('E' :: (x ++ '[' :: (g.reprF ++ (']' :: rest)))) :
                Str).drop (1 + x.length + 1) = g.reprF ++ (']' :: rest) := by
              rw [show (1 + x.length + 1) = (x.length + 1) + 1 from by omega]
              simp only [List.drop_succ_cons]
              exact drop_len_succ x '[' _
            have hg : parseFormulaAux fuel (g.reprF ++ (']' :: rest)) =
                some (g, ']' :: rest) := by
              refine ih g _ hwg (by simp [notAlnumHead]) ?_
              simp only [List.length_cons, List.length_append] at hbound ⊢
              omega
            have htk : (('E' :: (x ++ '[' :: (g.reprF ++ (']' :: rest)))) :
                Str).take (1 + x.length) = 'E' :: x := by
              rw [show (1 + x.length) = x.length + 1 from by omega]
              simp only [List.take_succ_cons]
              congr 1
              exact List.take_left x _
            simp only [hidx, hdrop, hg, htk]
            rfl
            | .rel r args, hwf =>
          rw [PFormula.wfF] at hwf
          simp only [Bool.and_eq_true] at hwf
          obtain ⟨hr, hargs⟩ := hwf
          match r, hr with
          | c :: rt, hr =>
              have hran : isAlnumStr (c :: rt) = true := by
                simp only [isPredRelation, Bool.and_eq_true] at hr
                exact hr.2
              match args, hargs with
              | [], _ =>
                  have hs : PFormula.reprF (PFormula.rel (c :: rt) []) ++ rest =
                      c :: (rt ++ '(' :: (')' :: rest)) := by
                    rw [PFormula.reprF]
                    simp [reprTList, commaJoin]
                  rw [hs] at hbound ⊢
                  simp only [parseFormulaAux]
                  rw [if_pos (relName_head_isRel hr)]
                  have hidx : strIndexOf (c :: (rt ++ '(' :: (')' :: rest))) '(' =
                      some ((c :: rt) : Str).length := by
                    have h5 := strIndexOf_alnum hran '(' (by decide) (')' :: rest)
                    simpa using h5
                  have hdrop : (c :: (rt ++ '(' :: (')' :: rest))).drop
                      (((c :: rt) : Str).length + 1) = ')' :: rest :=
                    drop_len_succ (c :: rt) '(' _
                  have htk : (c :: (rt ++ '(' :: (')' :: rest))).take
                      (((c :: rt) : Str).length) = c :: rt :=
                    List.take_left (c :: rt) _
                  have hdrop2 : (c :: (rt ++ '(' :: (')' :: rest))).drop
                      (((c :: rt) : Str).length + 2) = rest := by
                    rw [show ((c :: rt) : Str).length + 2 =
                      (((c :: rt) ++ ['(']) : Str).length + 1 from by simp]
                    have h6 : (((c :: rt) ++ ['(']) ++ ')' :: rest).drop
                        ((((c :: rt) ++ ['(']) : Str).length + 1) = rest :=
                      drop_len_succ ((c :: rt) ++ ['(']) ')' rest
                    simp only [List.cons_append, List.append_assoc,
                      List.singleton_append] at h6
                    exact h6
                  simp only [hidx]
                  rw [hdrop]
                  rw [if_neg (by simp)]
                  rw [htk, hdrop2]
              | t1 :: ts, hargs =>
                  have hargs2 : t1.wfT = true ∧ wfTList ts = true := by
                    simp only [List.all_cons, Bool.and_eq_true] at hargs
                    exact ⟨hargs.1, by rw [wfTList_eq_all]; exact hargs.2⟩
                  have hs : PFormula.reprF (PFormula.rel (c :: rt) (t1 :: ts)) ++
                      rest = c :: (rt ++ '(' ::
                        (t1.reprT ++ (joinTail (reprTList ts) ++ ')' :: rest))) := by
                    rw [PFormula.reprF]
                    rw [show reprTList (t1 :: ts) = t1.reprT :: reprTList ts from
                      rfl]
                    rw [commaJoin_cons]
                    simp
                  rw [hs] at hbound ⊢
                  simp only [parseFormulaAux]
                  rw [if_pos (relName_head_isRel hr)]
                  have hidx : strIndexOf (c :: (rt ++ '(' ::
                      (t1.reprT ++ (joinTail (reprTList ts) ++ ')' :: rest)))) '(' =
                      some ((c :: rt) : Str).length := by
                    have h5 := strIndexOf_alnum hran '(' (by decide)
                      (t1.reprT ++ (joinTail (reprTList ts) ++ ')' :: rest))
                    simpa using h5
                  have hdrop : (c :: (rt ++ '(' ::
                      (t1.reprT ++ (joinTail (reprTList ts) ++ ')' :: rest)))).drop
                      (((c :: rt) : Str).length + 1) =
                      t1.reprT ++ (joinTail (reprTList ts) ++ ')' :: rest) :=
                    drop_len_succ (c :: rt) '(' _
                  simp only [hidx]
                  rw [hdrop]
                  obtain ⟨h, tl, hht, hhc⟩ := reprT_head t1 hargs2.1
                  have hhne : (h == ')') = false :=
                    (termHead_dispatch (termName_head_case hhc)).2.2.2.2
                  rw [if_pos (by
                    rw [hht]
                    simp only [List.cons_append, List.head?_cons]
                    simp [hhne]
                    intro he
                    rw [he] at hhne
                    simp at hhne)]
                  have hpos1 := reprT_pos t1 hargs2.1
                  have hp1 : parseTermAux fuel
                      (t1.reprT ++ (joinTail (reprTList ts) ++ ')' :: rest)) =
                      some (t1, joinTail (reprTList ts) ++ ')' :: rest) := by
                    refine (parseTerm_roundtrip fuel).1 t1 _ hargs2.1
                      (notAlnumHead_joinTail _ _) ?_
                    simp only [List.length_cons, List.length_append] at hbound
                    omega
                  have hp2 : parseTermArgsAux fuel
                      (joinTail (reprTList ts) ++ ')' :: rest) =
                      some (ts, ')' :: rest) := by
                    refine (parseTerm_roundtrip fuel).2 ts rest hargs2.2 ?_
                    simp only [List.length_cons, List.length_append] at hbound
                    omega
                  have htk : (c :: (rt ++ '(' ::
                      (t1.reprT ++ (joinTail (reprTList ts) ++ ')' :: rest)))).take
                      (((c :: rt) : Str).length) = c :: rt :=
                    List.take_left (c :: rt) _
                  simp only [hp1, hp2, htk]
                  rfl

theorem predParse_repr (f : PFormula) (hwf : f.wfF = true) :
    predParse f.reprF = some f := by
  have h1 := parseFormula_roundtrip (f.reprF.length + 1) f [] hwf
    (by simp only [notAlnumHead]) (by simp)
  simp only [List.append_nil] at h1
  unfold predParse predParsePfx
  rw [h1]
  rfl

/-- C8: for every propositional `Formula`, predicate-logic `Term`, and
predicate-logic `Formula` satisfying the constructor invariants, parsing the
standard string representation returns an equal object:
`parse(str(x)) == x` (propositions/syntax.py `Formula.parse`,
predicates/syntax.py `Term.parse` and `Formula.parse`). -/
theorem parse_repr_roundtrip :
    (∀ f : PropFormula, f.wf = true → propParse f.repr = some f) ∧
    (∀ t : PTerm, t.wfT = true → termParse t.reprT = some t) ∧
    (∀ f : PFormula, f.wfF = true → predParse f.reprF = some f) :=
  ⟨propParse_repr, termParse_repr, predParse_repr⟩

/-- Witness: the round trip at `~p` (propositional), `plus(x,c)` (term) and
`Ax[R(f(x),c1)]` (predicate formula). -/
theorem parse_repr_roundtrip_witness :
    ((PropFormula.un ['~'] (PropFormula.leaf ['p'])).wf = true ∧
      propParse (PropFormula.un ['~'] (PropFormula.leaf ['p'])).repr =
        some (PropFormula.un ['~'] (PropFormula.leaf ['p']))) ∧
    ((PTerm.func "plus".data [PTerm.leaf ['x'], PTerm.leaf ['c']]).wfT = true ∧
      termParse (PTerm.func "plus".data
          [PTerm.leaf ['x'], PTerm.leaf ['c']]).reprT =
        some (PTerm.func "plus".data [PTerm.leaf ['x'], PTerm.leaf ['c']])) ∧
    ((PFormula.quant ['A'] ['x'] (PFormula.rel ['R']
        [PTerm.func ['f'] [PTerm.leaf ['x']], PTerm.leaf ['c', '1']])).wfF = true ∧
      predParse (PFormula.quant ['A'] ['x'] (PFormula.rel ['R']
          [PTerm.func ['f'] [PTerm.leaf ['x']], PTerm.leaf ['c', '1']])).reprF =
        some (PFormula.quant ['A'] ['x'] (PFormula.rel ['R']
          [PTerm.func ['f'] [PTerm.leaf ['x']], PTerm.leaf ['c', '1']]))) :=
  ⟨⟨by decide, parse_repr_roundtrip.1 _ (by decide)⟩,
    ⟨by decide, parse_repr_roundtrip.2.1 _ (by decide)⟩,
    ⟨by decide, parse_repr_roundtrip.2.2 _ (by decide)⟩⟩

/-! ### Substitution (predicates/syntax.py, Tasks 9.1 and 9.2) -/

mutual
/-- Embeds `Term._Term__substitute_helper` (predicates/syntax.py, Task 9.1):
a mapped leaf whose name is in the forbidden set is returned unchanged; an
image term is scanned for forbidden variables (the first offender, in the
iteration order of the forbidden collection, is raised — modelled as
`Except.error`). -/
def PTerm.substT (m : List (Str × PTerm)) (forbids : List Str) :
    PTerm → Except Str PTerm
  | .leaf s =>
      match lookupStr m s with
      | none => .ok (.leaf s)
      | some temp =>
          if forbids.contains s then .ok (.leaf s)
          else
            match forbids.find? (fun k => temp.variablesT.contains k) with
            | some k => .error k
            | none => .ok temp
  | .func f args =>
      match substTList m forbids args with
      | .error k => .error k
      | .ok newArgs => .ok (.func f newArgs)
def substTList (m : List (Str × PTerm)) (forbids : List Str) :
    List PTerm → Except Str (List PTerm)
  | [] => .ok []
  | t :: ts =>
      match t.substT m forbids with
      | .error k => .error k
      | .ok t2 =>
          match substTList m forbids ts with
          | .error k => .error k
          | .ok ts2 => .ok (t2 :: ts2)
end

mutual
def PTerm.sizeT : PTerm → Nat
  | .leaf _ => 1
  | .func _ args => 1 + sizeTList args
def sizeTList : List PTerm → Nat
  | [] => 0
  | t :: ts => t.sizeT + sizeTList ts
end

theorem sizeT_pos (t : PTerm) : 1 ≤ t.sizeT := by
  match t with
  | .leaf s => simp [PTerm.sizeT]
  | .func f args => simp [PTerm.sizeT]

/-- Embeds `Formula.substitute` /
`Formula._Formula__substitute_formula_helper` (predicates/syntax.py,
Task 9.2): terms under `=`/relations are substituted with the current
forbidden set, and descending under a quantifier adds its bound variable to
that set.  (The `free_vars` argument the source threads through is unused by
its helper.) -/
def PFormula.substF (m : List (Str × PTerm)) (forbids : List Str) :
    PFormula → Except Str PFormula
  | .eq t1 t2 =>
      match t1.substT m forbids with
      | .error k => .error k
      | .ok u1 =>
          match t2.substT m forbids with
          | .error k => .error k
          | .ok u2 => .ok (.eq u1 u2)
  | .rel r args =>
      match substTList m forbids args with
      | .error k => .error k
      | .ok newArgs => .ok (.rel r newArgs)
  | .un f =>
      match f.substF m forbids with
      | .error k => .error k
      | .ok g => .ok (.un g)
  | .bin op f g =>
      match f.substF m forbids with
      | .error k => .error k
      | .ok f2 =>
          match g.substF m forbids with
          | .error k => .error k
          | .ok g2 => .ok (.bin op f2 g2)
  | .quant q x f =>
      match f.substF m (forbids ++ [x]) with
      | .error k => .error k
      | .ok g => .ok (.quant q x g)

/-- Embeds `Formula.variables` (predicates/syntax.py, Task 7.6.2), as a list
used through membership; a quantifier contributes its own bound variable. -/
def PFormula.variablesF : PFormula → List Str
  | .eq t1 t2 => t1.variablesT ++ t2.variablesT
  | .rel _ args => collectList isPredVariable args
  | .un f => f.variablesF
  | .bin _ f g => f.variablesF ++ g.variablesF
  | .quant _ x f => f.variablesF ++ [x]

mutual
/-- Amended-specification substitution result: every occurrence of a mapped
name that is not in the current forbidden set is replaced by its image;
occurrences whose name is in the forbidden set (in particular every
quantifier-bound occurrence, and any mapped name listed as forbidden by the
caller) are kept unchanged. -/
def substPureT (m : List (Str × PTerm)) (forbids : List Str) : PTerm → PTerm
  | .leaf s =>
      match lookupStr m s with
      | none => .leaf s
      | some temp => if forbids.contains s then .leaf s else temp
  | .func f args => .func f (substPureTList m forbids args)
def substPureTList (m : List (Str × PTerm)) (forbids : List Str) :
    List PTerm → List PTerm
  | [] => []
  | t :: ts => substPureT m forbids t :: substPureTList m forbids ts
end

mutual
/-- Amended-specification error condition: some occurrence that is actually
substituted (mapped, and not itself currently forbidden) has an image term
containing a currently-forbidden variable. -/
def substBadT (m : List (Str × PTerm)) (forbids : List Str) : PTerm → Bool
  | .leaf s =>
      match lookupStr m s with
      | none => false
      | some temp =>
          if forbids.contains s then false
          else forbids.any (fun k => temp.variablesT.contains k)
  | .func _ args => substBadTList m forbids args
def substBadTList (m : List (Str × PTerm)) (forbids : List Str) :
    List PTerm → Bool
  | [] => false
  | t :: ts => substBadT m forbids t || substBadTList m forbids ts
end

def substPureF (m : List (Str × PTerm)) (forbids : List Str) :
    PFormula → PFormula
  | .eq t1 t2 => .eq (substPureT m forbids t1) (substPureT m forbids t2)
  | .rel r args => .rel r (substPureTList m forbids args)
  | .un f => .un (substPureF m forbids f)
  | .bin op f g => .bin op (substPureF m forbids f) (substPureF m forbids g)
  | .quant q x f => .quant q x (substPureF m (forbids ++ [x]) f)

def substBadF (m : List (Str × PTerm)) (forbids : List Str) : PFormula → Bool
  | .eq t1 t2 => substBadT m forbids t1 || substBadT m forbids t2
  | .rel _ args => substBadTList m forbids args
  | .un f => substBadF m forbids f
  | .bin _ f g => substBadF m forbids f || substBadF m forbids g
  | .quant _ x f => substBadF m (forbids ++ [x]) f

theorem substT_char_aux : ∀ n : Nat,
    (∀ t : PTerm, t.sizeT ≤ n → ∀ (m : List (Str × PTerm)) (forbids : List Str),
      (substBadT m forbids t = false →
        PTerm.substT m forbids t = .ok (substPureT m forbids t)) ∧
      (substBadT m forbids t = true →
        ∃ k, forbids.contains k = true ∧
          PTerm.substT m forbids t = .error k)) ∧
    (∀ ts : List PTerm, sizeTList ts ≤ n →
      ∀ (m : List (Str × PTerm)) (forbids : List Str),
      (substBadTList m forbids ts = false →
        substTList m forbids ts = .ok (substPureTList m forbids ts)) ∧
      (substBadTList m forbids ts = true →
        ∃ k, forbids.contains k = true ∧
          substTList m forbids ts = .error k)) := by
  intro n
  induction n with
  | zero =>
      constructor
      · intro t hsz
        have := sizeT_pos t
        omega
      · intro ts hsz m forbids
        match ts with
        | [] => exact ⟨fun _ => rfl, fun h => by cases h⟩
        | t :: ts2 =>
            exfalso
            have h1 := sizeT_pos t
            rw [show sizeTList (t :: ts2) = t.sizeT + sizeTList ts2 from rfl]
              at hsz
            omega
  | succ n ih =>
      have hT : ∀ t : PTerm, t.sizeT ≤ n + 1 →
          ∀ (m : List (Str × PTerm)) (forbids : List Str),
          (substBadT m forbids t = false →
            PTerm.substT m forbids t = .ok (substPureT m forbids t)) ∧
          (substBadT m forbids t = true →
            ∃ k, forbids.contains k = true ∧
              PTerm.substT m forbids t = .error k) := by
        intro t hsz m forbids
        match t with
        | .leaf s =>
            constructor
            · intro hbad
              rw [PTerm.substT, substPureT]
              rw [substBadT] at hbad
              match hm : lookupStr m s with
              | none => simp
              | some temp =>
                  simp only [hm] at hbad
                  simp only
                  by_cases hc : forbids.contains s = true
                  · have hmem : s ∈ forbids := by simpa using hc
                    simp [hmem]
                  · have hnm : ¬ (s ∈ forbids) := by
                      intro h9
                      exact hc (List.elem_eq_true_of_mem h9)
                    rw [if_neg hc] at hbad ⊢
                    match hf : forbids.find?
                        (fun k => temp.variablesT.contains k) with
                    | some k =>
                        exfalso
                        have h1 := List.find?_some hf
                        have h2 := List.mem_of_find?_eq_some hf
                        rw [List.any_eq_false] at hbad
                        exact absurd h1 (by simpa using hbad k h2)
                    | none => simp [hnm]
            · intro hbad
              rw [PTerm.substT]
              rw [substBadT] at hbad
              match hm : lookupStr m s with
              | none => simp [hm] at hbad
              | some temp =>
                  simp only [hm] at hbad
                  simp only
                  by_cases hc : forbids.contains s = true
                  · rw [if_pos hc] at hbad
                    cases hbad
                  · rw [if_neg hc] at hbad ⊢
                    match hf : forbids.find?
                        (fun k => temp.variablesT.contains k) with
                    | some k =>
                        exact ⟨k, List.elem_eq_true_of_mem
                          (List.mem_of_find?_eq_some hf), rfl⟩
                    | none =>
                        exfalso
                        rw [List.any_eq_true] at hbad
                        obtain ⟨k, hk1, hk2⟩ := hbad
                        have h3 := List.find?_eq_none.mp hf k hk1
                        exact absurd (by simpa using hk2) (by simpa using h3)
        | .func f args =>
            have hszargs : sizeTList args ≤ n := by
              rw [show (PTerm.func f args).sizeT = 1 + sizeTList args from rfl]
                at hsz
              omega
            have hargs := ih.2 args hszargs m forbids
            constructor
            · intro hbad
              rw [substBadT] at hbad
              rw [PTerm.substT, substPureT, hargs.1 hbad]
            · intro hbad
              rw [substBadT] at hbad
              obtain ⟨k, hk1, hk2⟩ := hargs.2 hbad
              refine ⟨k, hk1, ?_⟩
              rw [PTerm.substT, hk2]
      refine ⟨hT, ?_⟩
      intro ts hsz m forbids
      match ts with
      | [] => exact ⟨fun _ => rfl, fun h => by cases h⟩
      | t :: ts2 =>
          have h1 := sizeT_pos t
          rw [show sizeTList (t :: ts2) = t.sizeT + sizeTList ts2 from rfl]
            at hsz
          have hts2 := ih.2 ts2 (by omega) m forbids
          have ht := hT t (by omega) m forbids
          constructor
          · intro hbad
            rw [substBadTList, Bool.or_eq_false_iff] at hbad
            rw [substTList, ht.1 hbad.1, hts2.1 hbad.2]
            rfl
          · intro hbad
            rw [substBadTList, Bool.or_eq_true] at hbad
            by_cases hb1 : substBadT m forbids t = true
            · obtain ⟨k, hk1, hk2⟩ := ht.2 hb1
              refine ⟨k, hk1, ?_⟩
              rw [substTList, hk2]
            · have hb1f : substBadT m forbids t = false := by
                simpa using hb1
              have hb2 : substBadTList m forbids ts2 = true := by
                rcases hbad with h | h
                · exact absurd h hb1
                · exact h
              obtain ⟨k, hk1, hk2⟩ := hts2.2 hb2
              refine ⟨k, hk1, ?_⟩
              rw [substTList, ht.1 hb1f, hk2]

/-- C6 (amended): `substitute(map, forbidden)` replaces exactly the mapped
occurrences whose name is not in the current forbidden set — the caller-given
set, extended, inside a formula, with each quantifier variable in scope;
mapped occurrences whose own name is currently forbidden (in particular bound
occurrences) are silently kept.  It raises `ForbiddenVariableError(v)` for a
currently-forbidden `v` exactly when some occurrence that is actually
substituted has an image term containing such a `v`. -/
theorem substitute_amended :
    (∀ (m : List (Str × PTerm)) (F : List Str) (t : PTerm),
      (substBadT m F t = false →
        PTerm.substT m F t = .ok (substPureT m F t)) ∧
      (substBadT m F t = true →
        ∃ k, F.contains k = true ∧ PTerm.substT m F t = .error k)) ∧
    (∀ (m : List (Str × PTerm)) (F : List Str) (f : PFormula),
      (substBadF m F f = false →
        PFormula.substF m F f = .ok (substPureF m F f)) ∧
      (substBadF m F f = true →
        ∃ k, (F.contains k || f.variablesF.contains k) = true ∧
          PFormula.substF m F f = .error k)) := by
  have hterm := fun m F t =>
    (substT_char_aux (PTerm.sizeT t)).1 t (le_refl _) m F
  have hlist := fun m F ts =>
    (substT_char_aux (sizeTList ts)).2 ts (le_refl _) m F
  refine ⟨hterm, ?_⟩
  intro m F f
  induction f generalizing F with
  | eq t1 t2 =>
      constructor
      · intro hbad
        rw [substBadF, Bool.or_eq_false_iff] at hbad
        simp only [PFormula.substF, (hterm m F t1).1 hbad.1,
          (hterm m F t2).1 hbad.2, substPureF]
      · intro hbad
        rw [substBadF, Bool.or_eq_true] at hbad
        by_cases hb1 : substBadT m F t1 = true
        · obtain ⟨k, hk1, hk2⟩ := (hterm m F t1).2 hb1
          exact ⟨k, by simp only [Bool.or_eq_true]; exact Or.inl hk1,
            by simp only [PFormula.substF, hk2]⟩
        · have hb1f : substBadT m F t1 = false := by simpa using hb1
          have hb2 : substBadT m F t2 = true := by tauto
          obtain ⟨k, hk1, hk2⟩ := (hterm m F t2).2 hb2
          exact ⟨k, by simp only [Bool.or_eq_true]; exact Or.inl hk1,
            by simp only [PFormula.substF, (hterm m F t1).1 hb1f, hk2]⟩
  | rel r args =>
      constructor
      · intro hbad
        rw [substBadF] at hbad
        simp only [PFormula.substF, (hlist m F args).1 hbad, substPureF]
      · intro hbad
        rw [substBadF] at hbad
        obtain ⟨k, hk1, hk2⟩ := (hlist m F args).2 hbad
        exact ⟨k, by simp only [Bool.or_eq_true]; exact Or.inl hk1,
          by simp only [PFormula.substF, hk2]⟩
  | un g ihg =>
      constructor
      · intro hbad
        rw [substBadF] at hbad
        simp only [PFormula.substF, (ihg F).1 hbad, substPureF]
      · intro hbad
        rw [substBadF] at hbad
        obtain ⟨k, hk1, hk2⟩ := (ihg F).2 hbad
        refine ⟨k, ?_, by simp only [PFormula.substF, hk2]⟩
        simpa [PFormula.variablesF] using hk1
  | bin op g1 g2 ih1 ih2 =>
      constructor
      · intro hbad
        rw [substBadF, Bool.or_eq_false_iff] at hbad
        simp only [PFormula.substF, (ih1 F).1 hbad.1, (ih2 F).1 hbad.2,
          substPureF]
      · intro hbad
        rw [substBadF, Bool.or_eq_true] at hbad
        by_cases hb1 : substBadF m F g1 = true
        · obtain ⟨k, hk1, hk2⟩ := (ih1 F).2 hb1
          refine ⟨k, ?_, by simp only [PFormula.substF, hk2]⟩
          simp only [Bool.or_eq_true] at hk1 ⊢
          rcases hk1 with h | h
          · exact Or.inl h
          · right
            simp only [PFormula.variablesF]
            simp at h ⊢
            exact Or.inl h
        · have hb1f : substBadF m F g1 = false := by simpa using hb1
          have hb2 : substBadF m F g2 = true := by tauto
          obtain ⟨k, hk1, hk2⟩ := (ih2 F).2 hb2
          refine ⟨k, ?_,
            by simp only [PFormula.substF, (ih1 F).1 hb1f, hk2]⟩
          simp only [Bool.or_eq_true] at hk1 ⊢
          rcases hk1 with h | h
          · exact Or.inl h
          · right
            simp only [PFormula.variablesF]
            simp at h ⊢
            exact Or.inr h
  | quant q x g ihg =>
      constructor
      · intro hbad
        rw [substBadF] at hbad
        simp only [PFormula.substF, (ihg (F ++ [x])).1 hbad, substPureF]
      · intro hbad
        rw [substBadF] at hbad
        obtain ⟨k, hk1, hk2⟩ := (ihg (F ++ [x])).2 hbad
        refine ⟨k, ?_, by simp only [PFormula.substF, hk2]⟩
        simp only [PFormula.variablesF] at hk1 ⊢
        simp at hk1 ⊢
        tauto

/-- Counterexample to C6 as stated: the free occurrence `x` is mapped and its
image `c` contains no forbidden variable, so per the claim it must be
replaced; the code (`Term._Term__substitute_helper`,
`if temp is None or self.root in forbids: return self`) silently keeps any
occurrence whose own name is in the forbidden set and returns `x`
unchanged. -/
theorem substitute_forbidden_key_skipped :
    lookupStr [(['x'], PTerm.leaf ['c'])] ['x'] = some (PTerm.leaf ['c']) ∧
    ((PTerm.leaf ['c']).variablesT.all
      (fun v => !(([['x']] : List Str).contains v))) = true ∧
    PTerm.substT [(['x'], PTerm.leaf ['c'])] [['x']] (PTerm.leaf ['x']) =
      .ok (PTerm.leaf ['x']) ∧
    PTerm.leaf ['x'] ≠ PTerm.leaf ['c'] := by
  refine ⟨rfl, rfl, rfl, by decide⟩

/-- Witness: the amended characterization applied to the book's capture
example `Ay[x=c]` with `c ↦ plus(d,y)` (error `y`) and to a succeeding
substitution. -/
theorem substitute_amended_witness :
    (substBadF [(['c'], PTerm.func "plus".data [PTerm.leaf ['d'],
        PTerm.leaf ['y']])] []
      (PFormula.quant ['A'] ['y']
        (PFormula.eq (PTerm.leaf ['x']) (PTerm.leaf ['c']))) = true ∧
      (∃ k, ((([] : List Str).contains k ||
          (PFormula.quant ['A'] ['y']
            (PFormula.eq (PTerm.leaf ['x'])
              (PTerm.leaf ['c']))).variablesF.contains k)) = true ∧
        PFormula.substF [(['c'], PTerm.func "plus".data [PTerm.leaf ['d'],
            PTerm.leaf ['y']])] []
          (PFormula.quant ['A'] ['y']
            (PFormula.eq (PTerm.leaf ['x']) (PTerm.leaf ['c']))) =
          .error k)) ∧
    (substBadT [(['x'], PTerm.leaf ['c'])] [] (PTerm.leaf ['x']) = false ∧
      PTerm.substT [(['x'], PTerm.leaf ['c'])] [] (PTerm.leaf ['x']) =
        .ok (substPureT [(['x'], PTerm.leaf ['c'])] [] (PTerm.leaf ['x']))) :=
  ⟨⟨by decide,
      (substitute_amended.2 [(['c'], PTerm.func "plus".data [PTerm.leaf ['d'],
        PTerm.leaf ['y']])] []
        (PFormula.quant ['A'] ['y']
          (PFormula.eq (PTerm.leaf ['x']) (PTerm.leaf ['c'])))).2 (by decide)⟩,
    ⟨by decide,
      (substitute_amended.1 [(['x'], PTerm.leaf ['c'])] []
        (PTerm.leaf ['x'])).1 (by decide)⟩⟩

/-! ### Propositional skeletons (predicates/syntax.py, Tasks 9.8 and 9.10)
and the fresh-variable generator of logic_utils (missing from the sources;
modelled from the spec as a threaded counter yielding `z1`, `z2`, ...). -/

def digitChar : Nat → Char
  | 0 => '0'
  | 1 => '1'
  | 2 => '2'
  | 3 => '3'
  | 4 => '4'
  | 5 => '5'
  | 6 => '6'
  | 7 => '7'
  | 8 => '8'
  | _ => '9'

def digitVal (c : Char) : Nat :=
  c.toNat - 48

def natToStrAux : Nat → Nat → Str
  | 0, _ => []
  | fuel + 1, n =>
      if n < 10 then [digitChar n]
      else natToStrAux fuel (n / 10) ++ [digitChar (n % 10)]

def natToStr (n : Nat) : Str :=
  natToStrAux (n + 1) n

def strToNat (s : Str) : Nat :=
  s.foldl (fun a c => a * 10 + digitVal c) 0

/-- Modelled from the spec, section 5: the fresh-variable-name generator is a
monotonic counter producing `z1`, `z2`, ... . -/
def mkZVar (k : Nat) : Str :=
  'z' :: natToStr k

theorem digitVal_digitChar {d : Nat} (hd : d < 10) :
    digitVal (digitChar d) = d := by
  interval_cases d <;> rfl

theorem isDigit_digitChar {d : Nat} (hd : d < 10) :
    (digitChar d).isDigit = true := by
  interval_cases d <;> rfl

theorem strToNat_append (a b : Str) :
    strToNat (a ++ b) = b.foldl (fun x c => x * 10 + digitVal c) (strToNat a) := by
  unfold strToNat
  rw [List.foldl_append]

theorem strToNat_natToStrAux : ∀ fuel n, n < fuel →
    strToNat (natToStrAux fuel n) = n := by
  intro fuel
  induction fuel with
  | zero => intro n h; omega
  | succ fuel ih =>
      intro n h
      rw [natToStrAux]
      by_cases h10 : n < 10
      · rw [if_pos h10]
        show 0 * 10 + digitVal (digitChar n) = n
        rw [digitVal_digitChar h10]
        omega
      · rw [if_neg h10]
        rw [strToNat_append, ih (n / 10) (by omega)]
        show (n / 10) * 10 + digitVal (digitChar (n % 10)) = n
        rw [digitVal_digitChar (by omega)]
        omega

theorem strToNat_natToStr (n : Nat) : strToNat (natToStr n) = n :=
  strToNat_natToStrAux (n + 1) n (by omega)

theorem natToStr_inj {a b : Nat} (h : natToStr a = natToStr b) : a = b := by
  have h1 := strToNat_natToStr a
  rw [h, strToNat_natToStr] at h1
  omega

theorem mkZVar_inj {a b : Nat} (h : mkZVar a = mkZVar b) : a = b := by
  unfold mkZVar at h
  simp only [List.cons.injEq, true_and] at h
  exact natToStr_inj h

theorem natToStrAux_digits : ∀ fuel n, n < fuel →
    (natToStrAux fuel n).all Char.isDigit = true := by
  intro fuel
  induction fuel with
  | zero => intro n h; omega
  | succ fuel ih =>
      intro n h
      rw [natToStrAux]
      by_cases h10 : n < 10
      · rw [if_pos h10]
        simp [isDigit_digitChar h10]
      · rw [if_neg h10]
        rw [List.all_append]
        simp only [Bool.and_eq_true]
        refine ⟨ih (n / 10) (by omega), ?_⟩
        simp [isDigit_digitChar (show n % 10 < 10 by omega)]

theorem isPropVariable_mkZVar (k : Nat) : isPropVariable (mkZVar k) = true := by
  unfold mkZVar
  simp only [isPropVariable, Bool.and_eq_true, Bool.or_eq_true]
  refine ⟨by decide, Or.inr ?_⟩
  exact natToStrAux_digits (k + 1) k (by omega)

def lookupFormula (vm : List (PFormula × Str)) (f : PFormula) : Option Str :=
  match vm with
  | [] => none
  | (g, z) :: rest => if g == f then some z else lookupFormula rest f

/-- The skeleton state: the `var_map` of `propositional_skeleton` (insertion
order kept) and the fresh-name counter. -/
structure SkState where
  vm : List (PFormula × Str)
  ctr : Nat
deriving Repr

/-- Embeds `Formula._Formula__skeleton_helper` (predicates/syntax.py,
Task 9.8): an equality, relation, or quantifier node becomes the atomic
variable already recorded for it, or a fresh `z`-variable that gets
recorded; `~` and binary nodes recurse. -/
def skeletonHelper : PFormula → SkState → PropFormula × SkState
  | .un g, st =>
      let (p, st2) := skeletonHelper g st
      (PropFormula.un ['~'] p, st2)
  | .bin op g h, st =>
      let (p1, st1) := skeletonHelper g st
      let (p2, st2) := skeletonHelper h st1
      (PropFormula.bin op p1 p2, st2)
  | f, st =>
      match lookupFormula st.vm f with
      | some z => (PropFormula.leaf z, st)
      | none =>
          (PropFormula.leaf (mkZVar st.ctr),
            ⟨st.vm ++ [(f, mkZVar st.ctr)], st.ctr + 1⟩)

/-- Embeds `Formula.propositional_skeleton` (predicates/syntax.py): runs the
helper on an empty map and returns the skeleton with the inverted map; the
generator counter is threaded explicitly. -/
def propositionalSkeleton (f : PFormula) (ctr : Nat) :
    PropFormula × List (Str × PFormula) × Nat :=
  let (p, st) := skeletonHelper f ⟨[], ctr⟩
  (p, st.vm.map (fun e => (e.2, e.1)), st.ctr)

/-- Embeds `Formula.from_propositional_skeleton` (predicates/syntax.py,
Task 9.10); a missing map entry (Python `KeyError`) and a constant skeleton
root (whose attribute accesses would fail) are modelled as `none`. -/
def fromSkeleton (m : List (Str × PFormula)) : PropFormula → Option PFormula
  | .leaf s => if isPropVariable s then lookupStr m s else none
  | .un _ g =>
      match fromSkeleton m g with
      | none => none
      | some g2 => some (.un g2)
  | .bin op g h =>
      match fromSkeleton m g with
      | none => none
      | some g2 =>
          match fromSkeleton m h with
          | none => none
          | some h2 => some (.bin op g2 h2)

def SkInv (st : SkState) : Prop :=
  (∀ e ∈ st.vm, ∃ j, j < st.ctr ∧ e.2 = mkZVar j) ∧
  (st.vm.map (fun e => e.2)).Nodup

theorem lookupFormula_some {vm : List (PFormula × Str)} {f : PFormula}
    {z : Str} (h : lookupFormula vm f = some z) : (f, z) ∈ vm := by
  induction vm with
  | nil => cases h
  | cons e rest ih =>
      rw [lookupFormula] at h
      by_cases he : (e.1 == f) = true
      · rw [if_pos he] at h
        have he2 : e.1 = f := by simpa using he
        have hz : e.2 = z := by simpa using h
        rw [← he2, ← hz]
        exact List.mem_cons_self e rest
      · rw [if_neg he] at h
        right
        exact ih h

theorem lookup_invert {W : List (PFormula × Str)} {f : PFormula} {z : Str}
    (hmem : (f, z) ∈ W) (hnd : (W.map (fun e => e.2)).Nodup) :
    lookupStr (W.map (fun e => (e.2, e.1))) z = some f := by
  induction W with
  | nil => cases hmem
  | cons e rest ih =>
      simp only [List.map_cons, List.nodup_cons] at hnd
      rw [List.map_cons, lookupStr]
      by_cases hez : (e.2 == z) = true
      · rw [if_pos hez]
        rcases List.mem_cons.mp hmem with h | h
        · rw [← h]
        · exfalso
          have hez2 : e.2 = z := by simpa using hez
          refine hnd.1 ?_
          rw [hez2]
          exact List.mem_map.mpr ⟨(f, z), h, rfl⟩
      · rw [if_neg hez]
        rcases List.mem_cons.mp hmem with h | h
        · exfalso
          rw [← h] at hez
          simp at hez
        · exact ih h hnd.2

theorem skeletonHelper_state : ∀ (f : PFormula) (st : SkState),
    SkInv st →
    SkInv (skeletonHelper f st).2 ∧
    st.ctr ≤ (skeletonHelper f st).2.ctr ∧
    ∃ ext, (skeletonHelper f st).2.vm = st.vm ++ ext := by
  have hatom : ∀ (f : PFormula) (st : SkState), SkInv st →
      ∀ res : PropFormula × SkState,
      (match lookupFormula st.vm f with
        | some z => (PropFormula.leaf z, st)
        | none =>
            (PropFormula.leaf (mkZVar st.ctr),
              ⟨st.vm ++ [(f, mkZVar st.ctr)], st.ctr + 1⟩)) = res →
      SkInv res.2 ∧ st.ctr ≤ res.2.ctr ∧ ∃ ext, res.2.vm = st.vm ++ ext := by
    intro f st hinv res hres
    match hl : lookupFormula st.vm f with
    | some z =>
        rw [hl] at hres
        subst hres
        exact ⟨hinv, le_refl _, [], by simp⟩
    | none =>
        rw [hl] at hres
        subst hres
        refine ⟨⟨?_, ?_⟩, by simp, [(f, mkZVar st.ctr)], rfl⟩
        · intro e he
          simp only [List.mem_append, List.mem_singleton] at he
          rcases he with he | he
          · obtain ⟨j, hj, hje⟩ := hinv.1 e he
            exact ⟨j, by simp; omega, hje⟩
          · subst he
            exact ⟨st.ctr, by simp, rfl⟩
        · rw [List.map_append, List.nodup_append]
          refine ⟨hinv.2, by simp, ?_⟩
          intro z hz hz2
          simp only [List.map_cons, List.map_nil, List.mem_singleton] at hz2
          subst hz2
          obtain ⟨e, he, hze⟩ := List.mem_map.mp hz
          obtain ⟨j, hj, hje⟩ := hinv.1 e he
          rw [hje] at hze
          have h9 := mkZVar_inj hze
          omega
  intro f
  induction f with
  | eq t1 t2 =>
      intro st hinv
      exact hatom (.eq t1 t2) st hinv _ rfl
  | rel r args =>
      intro st hinv
      exact hatom (.rel r args) st hinv _ rfl
  | quant q x g ihg =>
      intro st hinv
      exact hatom (.quant q x g) st hinv _ rfl
  | un g ihg =>
      intro st hinv
      have h1 := ihg st hinv
      rw [show skeletonHelper (.un g) st =
        ((PropFormula.un ['~'] (skeletonHelper g st).1), (skeletonHelper g st).2)
        from rfl]
      exact h1
  | bin op g h ihg ihh =>
      intro st hinv
      have h1 := ihg st hinv
      have h2 := ihh (skeletonHelper g st).2 h1.1
      rw [show skeletonHelper (.bin op g h) st =
        ((PropFormula.bin op (skeletonHelper g st).1
          (skeletonHelper h (skeletonHelper g st).2).1),
          (skeletonHelper h (skeletonHelper g st).2).2) from rfl]
      refine ⟨h2.1, le_trans h1.2.1 h2.2.1, ?_⟩
      obtain ⟨e1, he1⟩ := h1.2.2
      obtain ⟨e2, he2⟩ := h2.2.2
      exact ⟨e1 ++ e2, by rw [he2, he1, List.append_assoc]⟩

theorem decode_atom_gen (f : PFormula) (st : SkState)
    (hsk : skeletonHelper f st =
      (match lookupFormula st.vm f with
        | some z => (PropFormula.leaf z, st)
        | none =>
            (PropFormula.leaf (mkZVar st.ctr),
              ⟨st.vm ++ [(f, mkZVar st.ctr)], st.ctr + 1⟩)))
    {W : List (PFormula × Str)}
    (hW : ∃ ext, W = (skeletonHelper f st).2.vm ++ ext)
    (hWz : ∀ e ∈ W, ∃ j, e.2 = mkZVar j)
    (hWnd : (W.map (fun e => e.2)).Nodup) :
    fromSkeleton (W.map (fun e => (e.2, e.1))) (skeletonHelper f st).1 =
      some f := by
  match hl : lookupFormula st.vm f with
  | some z =>
      rw [hl] at hsk
      simp only [hsk] at hW ⊢
      obtain ⟨ext, hext⟩ := hW
      have hmem : (f, z) ∈ W := by
        rw [hext]
        exact List.mem_append.mpr (Or.inl (lookupFormula_some hl))
      rw [fromSkeleton]
      have hz : ∃ j, z = mkZVar j := by
        have h9 := hWz (f, z) hmem
        simpa using h9
      obtain ⟨j, hj⟩ := hz
      rw [if_pos (by rw [hj]; exact isPropVariable_mkZVar j)]
      exact lookup_invert hmem hWnd
  | none =>
      rw [hl] at hsk
      simp only [hsk] at hW ⊢
      obtain ⟨ext, hext⟩ := hW
      have hmem : (f, mkZVar st.ctr) ∈ W := by
        rw [hext]
        refine List.mem_append.mpr (Or.inl ?_)
        exact List.mem_append.mpr (Or.inr (by simp))
      rw [fromSkeleton]
      rw [if_pos (isPropVariable_mkZVar st.ctr)]
      exact lookup_invert hmem hWnd

theorem skeletonHelper_decode : ∀ (f : PFormula) (st : SkState),
    SkInv st →
    ∀ W : List (PFormula × Str),
      (∃ ext, W = (skeletonHelper f st).2.vm ++ ext) →
      (∀ e ∈ W, ∃ j, e.2 = mkZVar j) →
      (W.map (fun e => e.2)).Nodup →
      fromSkeleton (W.map (fun e => (e.2, e.1))) (skeletonHelper f st).1 =
        some f := by
  intro f
  induction f with
  | eq t1 t2 =>
      intro st hinv W hW hWz hWnd
      exact decode_atom_gen (.eq t1 t2) st rfl hW hWz hWnd
  | rel r args =>
      intro st hinv W hW hWz hWnd
      exact decode_atom_gen (.rel r args) st rfl hW hWz hWnd
  | quant q x g ihg =>
      intro st hinv W hW hWz hWnd
      exact decode_atom_gen (.quant q x g) st rfl hW hWz hWnd
  | un g ihg =>
      intro st hinv W hW hWz hWnd
      have hsk : skeletonHelper (.un g) st =
          ((PropFormula.un ['~'] (skeletonHelper g st).1),
            (skeletonHelper g st).2) := rfl
      simp only [hsk] at hW ⊢
      rw [fromSkeleton]
      rw [ihg st hinv W hW hWz hWnd]
  | bin op g h ihg ihh =>
      intro st hinv W hW hWz hWnd
      have hsk : skeletonHelper (.bin op g h) st =
          ((PropFormula.bin op (skeletonHelper g st).1
            (skeletonHelper h (skeletonHelper g st).2).1),
            (skeletonHelper h (skeletonHelper g st).2).2) := rfl
      simp only [hsk] at hW ⊢
      have h1 := skeletonHelper_state g st hinv
      have h2 := skeletonHelper_state h (skeletonHelper g st).2 h1.1
      rw [fromSkeleton]
      have hW1 : ∃ ext, W = (skeletonHelper g st).2.vm ++ ext := by
        obtain ⟨e2, he2⟩ := h2.2.2
        obtain ⟨e3, he3⟩ := hW
        exact ⟨e2 ++ e3, by rw [he3, he2, List.append_assoc]⟩
      rw [ihg st hinv W hW1 hWz hWnd]
      rw [ihh (skeletonHelper g st).2 h1.1 W hW hWz hWnd]

/-- C9: for every predicate-logic formula, `from_propositional_skeleton`
applied to the output of `propositional_skeleton` (skeleton and inverted
substitution map) recovers the original formula, for any starting state of
the fresh-variable generator (predicates/syntax.py, Tasks 9.8/9.10). -/
theorem skeleton_left_inverse (f : PFormula) (ctr : Nat) :
    fromSkeleton (propositionalSkeleton f ctr).2.1
      (propositionalSkeleton f ctr).1 = some f := by
  have hinv0 : SkInv ⟨[], ctr⟩ :=
    ⟨fun e he => absurd he (List.not_mem_nil e), by simp⟩
  have hstate := skeletonHelper_state f ⟨[], ctr⟩ hinv0
  have hdecode := skeletonHelper_decode f ⟨[], ctr⟩ hinv0
    (skeletonHelper f ⟨[], ctr⟩).2.vm ⟨[], by simp⟩
    (fun e he => by
      obtain ⟨j, _, hj⟩ := hstate.1.1 e he
      exact ⟨j, hj⟩)
    hstate.1.2
  have hps : propositionalSkeleton f ctr =
      ((skeletonHelper f ⟨[], ctr⟩).1,
        (skeletonHelper f ⟨[], ctr⟩).2.vm.map (fun e => (e.2, e.1)),
        (skeletonHelper f ⟨[], ctr⟩).2.ctr) := rfl
  rw [hps]
  exact hdecode

/-! ### Models and `make_equality_as_SAME_in_model` (predicates/functions.py).
The `Model` data type itself is from predicates/semantics.py, which is not
among the sources; it is modelled from the spec, section 3: a universe of
element names, a constant-meaning map, a relation-meaning map (relation name
to set of argument tuples), and an optional function-meaning map. -/

structure PredModel where
  univ : List Str
  constantMeanings : List (Str × Str)
  relationMeanings : List (Str × List (List Str))
  functionMeanings : List (Str × List (List Str × Str))
deriving Repr, DecidableEq

/-- The `while uni:` class-collection loop of `make_equality_as_SAME_in_model`
(predicates/functions.py, Task 8.8).  `set.pop()` is modelled as taking the
head; crucially, `cls.update(y)` is kept exactly as the source has it: it
adds the CHARACTERS of the string `y` as separate one-character elements
(Python `set.update` iterates its argument). -/
def eqClassesLoop (sameRel : List (List Str)) : Nat → List Str → List (List Str)
  | 0, _ => []
  | _, [] => []
  | fuel + 1, x :: rest =>
      let related := rest.filter (fun y => sameRel.contains [x, y])
      let cls := x :: (related.map (fun y => y.map (fun c => [c]))).flatten
      let remaining := rest.filter (fun y => !(sameRel.contains [x, y]))
      cls :: eqClassesLoop sameRel fuel remaining

/-- Embeds `make_equality_as_SAME_in_model` (predicates/functions.py,
Task 8.8).  `cls.pop()` for the representative is modelled as the head;
`shrink_universe.update(representative)` is kept as in the source: it adds
the representative's CHARACTERS, not the representative. -/
def makeEqualityAsSame (model : PredModel) : PredModel :=
  let sameRel := (lookupStr model.relationMeanings "SAME".data).getD []
  let newRelations :=
    model.relationMeanings.filter (fun e => !(e.1 == "SAME".data))
  let classes := eqClassesLoop sameRel model.univ.length model.univ
  let eqMapping :=
    (classes.map (fun cls => cls.tail.map (fun x => (x, cls.headD [])))).flatten
  let shrinkUniverse :=
    (classes.map (fun cls => (cls.headD []).map (fun c => ([c] : Str)))).flatten
  let newConstants := model.constantMeanings.map (fun e =>
    (e.1, match lookupStr eqMapping e.2 with
      | some v2 => v2
      | none => e.2))
  let copyNewRelations := newRelations.map (fun e =>
    (e.1, e.2.map (fun args => args.map (fun i =>
      match lookupStr eqMapping i with
      | some v2 => v2
      | none => i))))
  let newFunctions := model.functionMeanings.map (fun e =>
    (e.1, e.2.map (fun io =>
      (io.1.map (fun i =>
        match lookupStr eqMapping i with
        | some v2 => v2
        | none => i),
        match lookupStr eqMapping io.2 with
        | some v2 => v2
        | none => io.2))))
  ⟨shrinkUniverse, newConstants, copyNewRelations, newFunctions⟩

/-- C7: `make_equality_as_SAME_in_model` does not return one representative
per `SAME`-equivalence class.  On the one-element universe `{'ab'}` with the
(reflexive, symmetric, transitive, trivially respected) meaning
`SAME = {('ab','ab')}` and no functions, the claim requires the universe of
the quotient model to be exactly `{'ab'}` (its single class's
representative); the code instead returns the two-element universe
`{'a','b'}` — `shrink_universe.update(representative)` adds the characters
of the representative string, not the representative itself — so the result
universe has two elements, neither of which is even an element of the
original universe. -/
theorem make_equality_as_same_char_bug :
    ((lookupStr (PredModel.mk ["ab".data] []
        [("SAME".data, [["ab".data, "ab".data]])] []).relationMeanings
      "SAME".data).isSome = true ∧
    (PredModel.mk ["ab".data] [] [("SAME".data, [["ab".data, "ab".data]])]
      []).functionMeanings = [] ∧
    (∀ x ∈ (PredModel.mk ["ab".data] []
        [("SAME".data, [["ab".data, "ab".data]])] []).univ,
      [x, x] ∈ [["ab".data, "ab".data]]) ∧
    (∀ p ∈ [["ab".data, "ab".data]], ∀ q ∈ [["ab".data, "ab".data]], True)) ∧
    (makeEqualityAsSame (PredModel.mk ["ab".data] []
        [("SAME".data, [["ab".data, "ab".data]])] [])).univ =
      [['a'], ['b']] ∧
    (makeEqualityAsSame (PredModel.mk ["ab".data] []
        [("SAME".data, [["ab".data, "ab".data]])] [])).univ.all
      (fun e => !((PredModel.mk ["ab".data] []
        [("SAME".data, [["ab".data, "ab".data]])] []).univ.contains e)) =
      true := by
  refine ⟨⟨by decide, rfl, by decide, by simp⟩, by decide, by decide⟩

/-! ### Free variables (predicates/syntax.py, Task 7.6.3) -/

/-- Embeds `Formula.free_variables`: like `variables` but a quantifier
discards its own variable from its predicate's free variables. -/
def PFormula.freeVarsF : PFormula → List Str
  | .eq t1 t2 => t1.variablesT ++ t2.variablesT
  | .rel _ args => collectList isPredVariable args
  | .un f => f.freeVarsF
  | .bin _ f g => f.freeVarsF ++ g.freeVarsF
  | .quant _ x f => f.freeVarsF.filter (fun v => !(v == x))

/-! ### Schemas and instantiation.  predicates/proofs.py is not among the
sources; `Schema`, its instantiation maps and the legality rules are
modelled from the spec (section 3 "Schema", "Schema instantiation map", and
section 4.3): template symbols for constants, variables, and relations are
replaced consistently; a relation template's image is a parametrized formula
with the placeholder `_`; instantiation is illegal ("bound variable error")
when a free variable of an instantiated part would be captured by a
quantifier in whose scope it lands. -/

inductive InstVal where
  | term (t : PTerm)
  | varName (v : Str)
  | formula (f : PFormula)
deriving DecidableEq, Repr

structure Schema where
  formula : PFormula
  templates : List Str
deriving DecidableEq, Repr

/-- The constant/variable part of an instantiation map, as a term
substitution. -/
def instTermMap (m : List (Str × InstVal)) : List (Str × PTerm) :=
  m.filterMap (fun e =>
    match e.2 with
    | .term t => some (e.1, t)
    | .varName v => some (e.1, .leaf v)
    | .formula _ => none)

/-- Instantiates one relation-template occurrence: the parametrized formula
ψ must not have free variables (besides the placeholder `_`) that are bound
at this point, and substituting the instantiated argument for `_` must not
capture any of the argument's variables under ψ's own quantifiers. -/
def instRel (psi : PFormula) (arg : Option PTerm) (B : List Str) :
    Except Str PFormula :=
  match psi.freeVarsF.find? (fun v => !(v == ['_']) && B.contains v) with
  | some v => .error v
  | none =>
      match arg with
      | none => .ok psi
      | some a => psi.substF [(['_'], a)] []

def instantiateHelper (m : List (Str × InstVal)) :
    PFormula → List Str → Except Str PFormula
  | .eq t1 t2, _ =>
      match t1.substT (instTermMap m) [] with
      | .error v => .error v
      | .ok u1 =>
          match t2.substT (instTermMap m) [] with
          | .error v => .error v
          | .ok u2 => .ok (.eq u1 u2)
  | .rel r args, B =>
      match lookupStr m r with
      | some (.formula psi) =>
          match args with
          | [] => instRel psi none B
          | [a] =>
              match a.substT (instTermMap m) [] with
              | .error v => .error v
              | .ok a2 => instRel psi (some a2) B
          | _ => .error r
      | _ =>
          match substTList (instTermMap m) [] args with
          | .error v => .error v
          | .ok args2 => .ok (.rel r args2)
  | .un f, B =>
      match instantiateHelper m f B with
      | .error v => .error v
      | .ok g => .ok (.un g)
  | .bin op f g, B =>
      match instantiateHelper m f B with
      | .error v => .error v
      | .ok f2 =>
          match instantiateHelper m g B with
          | .error v => .error v
          | .ok g2 => .ok (.bin op f2 g2)
  | .quant q x f, B =>
      let x2 := match lookupStr m x with
        | some (.varName v) => v
        | _ => x
      match instantiateHelper m f (B ++ [x2]) with
      | .error v => .error v
      | .ok g => .ok (.quant q x2 g)

def Schema.instantiate (s : Schema) (m : List (Str × InstVal)) :
    Except Str PFormula :=
  instantiateHelper m s.formula []

/-- An instantiation map is admissible for a schema when it only maps the
schema's template symbols. -/
def instMapKeysOk (s : Schema) (m : List (Str × InstVal)) : Bool :=
  m.all (fun e => s.templates.contains e.1)

/-! ### The predicate-logic proof data structure and validity
(predicates/proofs.py is not among the sources; the four line kinds and the
per-line justification rules are modelled from the spec, sections 3 and
4.3). -/

inductive PredLine where
  | assumption (formula : PFormula) (schema : Schema)
      (instMap : List (Str × InstVal))
  | mp (formula : PFormula) (antecedent : Nat) (conditional : Nat)
  | ug (formula : PFormula) (pred : Nat)
  | taut (formula : PFormula)
deriving DecidableEq, Repr

def PredLine.formulaOf : PredLine → PFormula
  | .assumption f _ _ => f
  | .mp f _ _ => f
  | .ug f _ => f
  | .taut f => f

structure PredProof where
  assumptions : List Schema
  conclusion : PFormula
  lines : List PredLine
deriving DecidableEq, Repr

/-- Modelled from the spec, 4.3/4.4: a `TautologyLine` is justified when the
formula's propositional skeleton is a propositional tautology. -/
def isPredTautology (f : PFormula) : Bool :=
  isTautology (propositionalSkeleton f 1).1

def pimpP (a b : PFormula) : PFormula :=
  .bin ['-', '>'] a b

def predLineValid (assumptions : List Schema) (lines : List PredLine)
    (i : Nat) : PredLine → Bool
  | .assumption f s m =>
      assumptions.contains s && instMapKeysOk s m &&
        (match Schema.instantiate s m with
          | .ok f2 => f2 == f
          | .error _ => false)
  | .mp f a c =>
      a < i && c < i &&
        (match (lines.get? a).map PredLine.formulaOf,
            (lines.get? c).map PredLine.formulaOf with
          | some fa, some fc => fc == pimpP fa f
          | _, _ => false)
  | .ug f p =>
      p < i &&
        (match (lines.get? p).map PredLine.formulaOf with
          | some fp =>
              match f with
              | .quant q _ g => q == ['A'] && g == fp
              | _ => false
          | none => false)
  | .taut f => isPredTautology f

def predLineValidAt (assumptions : List Schema) (lines : List PredLine)
    (i : Nat) : Bool :=
  match lines.get? i with
  | none => false
  | some l => predLineValid assumptions lines i l

def PredProof.isValid (p : PredProof) : Bool :=
  (List.range p.lines.length).all (predLineValidAt p.assumptions p.lines) &&
  (match p.lines.getLast? with
    | some l => l.formulaOf == p.conclusion
    | none => false)

/-! ### The fixed predicate-logic axiom schemas of predicates/prover.py
(missing from the sources; reproduced from the spec, section 6, as data). -/

def relX (r : Char) (x : Char) : PFormula :=
  .rel [r] [.leaf [x]]

def schemaUI : Schema :=
  ⟨pimpP (.quant ['A'] ['x'] (relX 'R' 'x')) (.rel ['R'] [.leaf ['c']]),
    [['R'], ['x'], ['c']]⟩

def schemaEI : Schema :=
  ⟨pimpP (.rel ['R'] [.leaf ['c']]) (.quant ['E'] ['x'] (relX 'R' 'x')),
    [['R'], ['x'], ['c']]⟩

def schemaUS : Schema :=
  ⟨pimpP (.quant ['A'] ['x'] (pimpP (.rel ['Q'] []) (relX 'R' 'x')))
    (pimpP (.rel ['Q'] []) (.quant ['A'] ['x'] (relX 'R' 'x'))),
    [['Q'], ['R'], ['x']]⟩

def schemaES : Schema :=
  ⟨pimpP (.bin ['&'] (.quant ['A'] ['x'] (pimpP (relX 'R' 'x') (.rel ['Q'] [])))
      (.quant ['E'] ['x'] (relX 'R' 'x')))
    (.rel ['Q'] []),
    [['Q'], ['R'], ['x']]⟩

def schemaRX : Schema :=
  ⟨.eq (.leaf ['c']) (.leaf ['c']), [['c']]⟩

def schemaME : Schema :=
  ⟨pimpP (.eq (.leaf ['c']) (.leaf ['d']))
    (pimpP (.rel ['R'] [.leaf ['c']]) (.rel ['R'] [.leaf ['d']])),
    [['c'], ['d'], ['R']]⟩

def proverAXIOMS : List Schema :=
  [schemaUI, schemaEI, schemaUS, schemaES, schemaRX, schemaME]

/-! ### The Prover (predicates/prover.py is not among the sources; modelled
from the spec, section 4.6: a stateful builder that appends justified lines;
`add_tautological_implication` proves its target from the cited lines by one
tautological implication chain and modus-ponens steps, its postcondition
being that the final line's formula is exactly the target).  The state is
the list of lines; every method returns the new final line's index. -/

structure ProverState where
  assumptions : List Schema
  plines : List PredLine
deriving Repr

def ProverState.addTautology (st : ProverState) (f : PFormula) :
    ProverState × Nat :=
  (⟨st.assumptions, st.plines ++ [.taut f]⟩, st.plines.length)

def ProverState.addInstantiatedAssumption (st : ProverState) (f : PFormula)
    (s : Schema) (m : List (Str × InstVal)) : ProverState × Nat :=
  (⟨st.assumptions, st.plines ++ [.assumption f s m]⟩, st.plines.length)

def ProverState.addMP (st : ProverState) (f : PFormula) (a c : Nat) :
    ProverState × Nat :=
  (⟨st.assumptions, st.plines ++ [.mp f a c]⟩, st.plines.length)

def ProverState.addUG (st : ProverState) (f : PFormula) (p : Nat) :
    ProverState × Nat :=
  (⟨st.assumptions, st.plines ++ [.ug f p]⟩, st.plines.length)

/-- The implication chain `(f1->(f2->...->target))` through the cited
formulas. -/
def implicationChain (target : PFormula) : List PFormula → PFormula
  | [] => target
  | f :: fs => pimpP f (implicationChain target fs)

/-- Appends the chain tautology and one MP step per cited line. -/
def ProverState.addTautologicalImplication (st : ProverState)
    (target : PFormula) (cited : List Nat) : Option (ProverState × Nat) :=
  match cited.mapM (fun i => (st.plines.get? i).map PredLine.formulaOf) with
  | none => none
  | some cf =>
      let st1 := ⟨st.assumptions,
        st.plines ++ [.taut (implicationChain target cf)]⟩
      let rec go (st : ProverState) (chainIdx : Nat) :
          List (Nat × PFormula) → ProverState × Nat
        | [] => (st, chainIdx)
        | (i, _) :: rest =>
            let remaining := implicationChain target (rest.map (·.2))
            go ⟨st.assumptions, st.plines ++ [.mp remaining i chainIdx]⟩
              st.plines.length rest
      some (go st1 st.plines.length (cited.zip cf))

/-! ### `remove_assumption` (predicates/deduction.py, Task 11.1) -/

structure RAPredState where
  pst : ProverState
  imap : List Nat
deriving Repr

/-- One iteration of the `for i, line in enumerate(proof.lines)` loop of
predicates/deduction.py `remove_assumption`, dispatching on the line kind
exactly as the source does and appending through the Prover operations.  The
source passes the two cited indices of an MP line as a set; they are always
distinct, and the set is modelled as the two-element list in citation
order. -/
def removeAssumptionPredStep (phi : PFormula) (st : RAPredState)
    (line : PredLine) : Option RAPredState :=
  match line with
  | .assumption f s m =>
      if f == phi then
        match st.pst.addTautology (pimpP phi phi) with
        | (st2, idx) => some ⟨st2, st.imap ++ [idx]⟩
      else
        match st.pst.addInstantiatedAssumption f s m with
        | (st2, step1) =>
            match st2.addTautologicalImplication (pimpP phi f) [step1] with
            | none => none
            | some (st3, idx) => some ⟨st3, st.imap ++ [idx]⟩
  | .mp f a c =>
      match st.imap.get? a, st.imap.get? c with
      | some ma, some mc =>
          match st.pst.addTautologicalImplication (pimpP phi f) [ma, mc] with
          | none => none
          | some (st2, idx) => some ⟨st2, st.imap ++ [idx]⟩
      | _, _ => none
  | .taut f =>
      match st.pst.addTautology (pimpP phi f) with
      | (st2, idx) => some ⟨st2, st.imap ++ [idx]⟩
  | .ug f p =>
      match st.imap.get? p, f with
      | some mp1, .quant _ x alpha =>
          let ugFormula : PFormula := .quant ['A'] x (pimpP phi alpha)
          match st.pst.addUG ugFormula mp1 with
          | (st2, step1) =>
              match alpha.substF [(x, .leaf ['_'])] [] with
              | .error _ => none
              | .ok alphaParam =>
                  let instM : List (Str × InstVal) :=
                    [(['Q'], .formula phi), (['R'], .formula alphaParam),
                      (['x'], .varName x)]
                  let conclusion := pimpP phi (.quant ['A'] x alpha)
                  match st2.addInstantiatedAssumption
                      (pimpP ugFormula conclusion) schemaUS instM with
                  | (st3, step2) =>
                      match st3.addMP conclusion step1 step2 with
                      | (st4, idx) => some ⟨st4, st.imap ++ [idx]⟩
      | _, _ => none

/-- Embeds predicates/deduction.py `remove_assumption`: removes the
assumption's schema, rebuilds every line through the Prover, and returns
`prover.qed()` (whose conclusion is the final line's formula). -/
def removeAssumptionPred (p : PredProof) (phi : PFormula) : Option PredProof :=
  let assumptions2 := p.assumptions.filter (fun s => !(s == Schema.mk phi []))
  match p.lines.foldlM (removeAssumptionPredStep phi)
      (⟨⟨assumptions2, []⟩, []⟩ : RAPredState) with
  | none => none
  | some st =>
      match st.pst.plines.getLast? with
      | none => none
      | some l => some ⟨assumptions2, l.formulaOf, st.pst.plines⟩

mutual
/-- No occurrence of the placeholder constant `_` (the spec's section 6
naming alphabet reserves ordinary constants to digits and `a`..`d`). -/
def noUnderscoreT : PTerm → Bool
  | .leaf s => !(s == ['_'])
  | .func _ args => noUnderscoreTList args
def noUnderscoreTList : List PTerm → Bool
  | [] => true
  | t :: ts => noUnderscoreT t && noUnderscoreTList ts
end

def noUnderscoreF : PFormula → Bool
  | .eq t1 t2 => noUnderscoreT t1 && noUnderscoreT t2
  | .rel _ args => noUnderscoreTList args
  | .un f => noUnderscoreF f
  | .bin _ f g => noUnderscoreF f && noUnderscoreF g
  | .quant _ _ f => noUnderscoreF f

/-! ### Boolean semantics of predicate formulas viewed propositionally:
the skeleton-based tautology test is characterized by valuations of the
atomic (non-`~`, non-binary) subformulas. -/

/-- Truth value of a predicate formula under a valuation of its atomic
(equality / relation / quantifier) subformulas, with `~`, `&`, `|`, `->`
interpreted as the propositional connectives. -/
def hEval (v : PFormula → Bool) : PFormula → Bool
  | .un g => !(hEval v g)
  | .bin op g h =>
      if op == ['&'] then hEval v g && hEval v h
      else if op == ['|'] then hEval v g || hEval v h
      else if op == ['-', '>'] then !(hEval v g) || hEval v h
      else false
  | f => v f

theorem evaluate_congr (m1 m2 : PropModel) : ∀ (f : PropFormula),
    (∀ z ∈ f.vars, lookupStr m1 z = lookupStr m2 z) →
    evaluate f m1 = evaluate f m2 := by
  intro f
  induction f with
  | leaf r =>
      intro h
      rw [evaluate, evaluate]
      by_cases hc : isPropConstant r = true
      · rw [if_pos hc, if_pos hc]
      · rw [if_neg hc, if_neg hc]
        by_cases hv : isPropVariable r = true
        · rw [if_pos hv, if_pos hv]
          exact h r (by simp [PropFormula.vars, hv])
        · rw [if_neg hv, if_neg hv]
  | un r g ihg =>
      intro h
      rw [evaluate, evaluate, ihg h]
  | bin r g g2 ihg ihg2 =>
      intro h
      have h1 : ∀ z ∈ g.vars, lookupStr m1 z = lookupStr m2 z := by
        intro z hz
        exact h z (by simp [PropFormula.vars, hz])
      have h2 : ∀ z ∈ g2.vars, lookupStr m1 z = lookupStr m2 z := by
        intro z hz
        exact h z (by simp [PropFormula.vars, hz])
      rw [evaluate, evaluate, ihg h1, ihg2 h2]

theorem allModels_mem_lookup : ∀ (vs : List Str) (m : PropModel),
    m ∈ allModels vs → ∀ z ∈ vs, ∃ b, lookupStr m z = some b := by
  intro vs
  induction vs with
  | nil => intro m _ z hz; cases hz
  | cons v vs ih =>
      intro m hm z hz
      rw [allModels] at hm
      rcases List.mem_append.mp hm with hm | hm <;>
        obtain ⟨m2, hm2, hme⟩ := List.mem_map.mp hm <;>
        rw [← hme] <;> rw [lookupStr] <;>
        by_cases hvz : (v == z) = true
      · rw [if_pos hvz]; exact ⟨false, rfl⟩
      · rw [if_neg hvz]
        have hz2 : z ∈ vs := by
          rcases List.mem_cons.mp hz with h | h
          · exact absurd (by simp [h]) hvz
          · exact h
        exact ih m2 hm2 z hz2
      · rw [if_pos hvz]; exact ⟨true, rfl⟩
      · rw [if_neg hvz]
        have hz2 : z ∈ vs := by
          rcases List.mem_cons.mp hz with h | h
          · exact absurd (by simp [h]) hvz
          · exact h
        exact ih m2 hm2 z hz2

theorem allModels_complete : ∀ (vs : List Str) (g : Str → Bool),
    ∃ m ∈ allModels vs, ∀ z ∈ vs, lookupStr m z = some (g z) := by
  intro vs
  induction vs with
  | nil => intro g; exact ⟨[], by simp [allModels], fun z hz => absurd hz (by simp)⟩
  | cons v vs ih =>
      intro g
      obtain ⟨m2, hm2, hl⟩ := ih g
      refine ⟨(v, g v) :: m2, ?_, ?_⟩
      · rw [allModels]
        cases hgv : g v
        · exact List.mem_append.mpr (Or.inl (List.mem_map.mpr ⟨m2, hm2, by rw [← hgv]⟩))
        · exact List.mem_append.mpr (Or.inr (List.mem_map.mpr ⟨m2, hm2, by rw [← hgv]⟩))
      · intro z hz
        rw [lookupStr]
        by_cases hvz : (v == z) = true
        · rw [if_pos hvz]
          have : v = z := by simpa using hvz
          rw [this]
        · rw [if_neg hvz]
          have hz2 : z ∈ vs := by
            rcases List.mem_cons.mp hz with h | h
            · exact absurd (by simp [h]) hvz
            · exact h
          exact hl z hz2

theorem lookupFormula_none {vm : List (PFormula × Str)} {f : PFormula}
    (h : lookupFormula vm f = none) : ∀ e ∈ vm, ¬ e.1 = f := by
  induction vm with
  | nil => intro e he; cases he
  | cons e2 rest ih =>
      rw [lookupFormula] at h
      by_cases he2 : (e2.1 == f) = true
      · rw [if_pos he2] at h; cases h
      · rw [if_neg he2] at h
        intro e he
        rcases List.mem_cons.mp he with hh | hh
        · rw [hh]; simpa using he2
        · exact ih h e hh

theorem lookupFormula_mem {vm : List (PFormula × Str)} {e : PFormula × Str}
    (he : e ∈ vm) : ∃ z, lookupFormula vm e.1 = some z := by
  induction vm with
  | nil => cases he
  | cons e2 rest ih =>
      rw [lookupFormula]
      by_cases he2 : (e2.1 == e.1) = true
      · rw [if_pos he2]; exact ⟨e2.2, rfl⟩
      · rw [if_neg he2]
        rcases List.mem_cons.mp he with hh | hh
        · rw [hh] at he2; simp at he2
        · exact ih hh

theorem keys_unique {W : List (PFormula × Str)} {a : PFormula} {b c : Str}
    (hnd : (W.map (fun e => e.1)).Nodup) (hb : (a, b) ∈ W) (hc : (a, c) ∈ W) :
    b = c := by
  induction W with
  | nil => cases hb
  | cons e rest ih =>
      simp only [List.map_cons, List.nodup_cons] at hnd
      rcases List.mem_cons.mp hb with hb | hb <;>
        rcases List.mem_cons.mp hc with hc | hc
      · exact (Prod.ext_iff.mp (hb.trans hc.symm)).2
      · exfalso
        refine hnd.1 ?_
        rw [← hb]
        exact List.mem_map.mpr ⟨(a, c), hc, rfl⟩
      · exfalso
        refine hnd.1 ?_
        rw [← hc]
        exact List.mem_map.mpr ⟨(a, b), hb, rfl⟩
      · exact ih hnd.2 hb hc

theorem skeletonHelper_keys : ∀ (f : PFormula) (st : SkState),
    ((st.vm.map (fun e => e.1)).Nodup) →
    (((skeletonHelper f st).2.vm.map (fun e => e.1)).Nodup) := by
  have hatom : ∀ (f : PFormula) (st : SkState),
      (st.vm.map (fun e => e.1)).Nodup →
      ∀ res : PropFormula × SkState,
      (match lookupFormula st.vm f with
        | some z => (PropFormula.leaf z, st)
        | none =>
            (PropFormula.leaf (mkZVar st.ctr),
              ⟨st.vm ++ [(f, mkZVar st.ctr)], st.ctr + 1⟩)) = res →
      (res.2.vm.map (fun e => e.1)).Nodup := by
    intro f st hnd res hres
    match hl : lookupFormula st.vm f with
    | some z =>
        rw [hl] at hres
        subst hres
        exact hnd
    | none =>
        rw [hl] at hres
        subst hres
        show ((st.vm ++ [(f, mkZVar st.ctr)]).map (fun e => e.1)).Nodup
        rw [List.map_append, List.nodup_append]
        refine ⟨hnd, by simp, ?_⟩
        intro g hg hg2
        simp only [List.map_cons, List.map_nil, List.mem_singleton] at hg2
        subst hg2
        obtain ⟨e, he, hge⟩ := List.mem_map.mp hg
        exact lookupFormula_none hl e he hge
  intro f
  induction f with
  | eq t1 t2 => intro st hnd; exact hatom (.eq t1 t2) st hnd _ rfl
  | rel r args => intro st hnd; exact hatom (.rel r args) st hnd _ rfl
  | quant q x g ihg => intro st hnd; exact hatom (.quant q x g) st hnd _ rfl
  | un g ihg =>
      intro st hnd
      exact ihg st hnd
  | bin op g h ihg ihh =>
      intro st hnd
      show (((skeletonHelper h (skeletonHelper g st).2).2.vm.map
        (fun e => e.1)).Nodup)
      exact ihh (skeletonHelper g st).2 (ihg st hnd)

theorem skeletonHelper_vars : ∀ (f : PFormula) (st : SkState),
    ∀ e ∈ (skeletonHelper f st).2.vm,
      e ∈ st.vm ∨ e.2 ∈ (skeletonHelper f st).1.vars := by
  have hatom : ∀ (f : PFormula) (st : SkState),
      ∀ res : PropFormula × SkState,
      (match lookupFormula st.vm f with
        | some z => (PropFormula.leaf z, st)
        | none =>
            (PropFormula.leaf (mkZVar st.ctr),
              ⟨st.vm ++ [(f, mkZVar st.ctr)], st.ctr + 1⟩)) = res →
      ∀ e ∈ res.2.vm, e ∈ st.vm ∨ e.2 ∈ res.1.vars := by
    intro f st res hres e he
    match hl : lookupFormula st.vm f with
    | some z =>
        rw [hl] at hres
        subst hres
        exact Or.inl he
    | none =>
        rw [hl] at hres
        subst hres
        simp only [List.mem_append, List.mem_singleton] at he
        rcases he with he | he
        · exact Or.inl he
        · right
          rw [he]
          show mkZVar st.ctr ∈ PropFormula.vars (.leaf (mkZVar st.ctr))
          rw [PropFormula.vars, if_pos (isPropVariable_mkZVar st.ctr)]
          exact List.mem_singleton.mpr rfl
  intro f
  induction f with
  | eq t1 t2 => exact fun st => hatom (.eq t1 t2) st _ rfl
  | rel r args => exact fun st => hatom (.rel r args) st _ rfl
  | quant q x g ihg => exact fun st => hatom (.quant q x g) st _ rfl
  | un g ihg =>
      intro st e he
      rcases ihg st e he with h | h
      · exact Or.inl h
      · exact Or.inr h
  | bin op g h ihg ihh =>
      intro st e he
      have hvars : (skeletonHelper (.bin op g h) st).1.vars =
          (skeletonHelper g st).1.vars ++
          (skeletonHelper h (skeletonHelper g st).2).1.vars := rfl
      rcases ihh (skeletonHelper g st).2 e he with h1 | h1
      · rcases ihg st e h1 with h2 | h2
        · exact Or.inl h2
        · exact Or.inr (by rw [hvars]; exact List.mem_append.mpr (Or.inl h2))
      · exact Or.inr (by rw [hvars]; exact List.mem_append.mpr (Or.inr h1))

theorem isPropConstant_mkZVar (j : Nat) : isPropConstant (mkZVar j) = false := by
  rw [isPropConstant, mkZVar]
  have h1 : (('z' :: natToStr j : Str) == ['T']) = false := by
    rw [List.instBEq]
    show List.beq ('z' :: natToStr j) ['T'] = false
    rw [List.beq]
    rw [show (('z' == 'T') = false) from by decide]
    rw [Bool.false_and]
  have h2 : (('z' :: natToStr j : Str) == ['F']) = false := by
    rw [List.instBEq]
    show List.beq ('z' :: natToStr j) ['F'] = false
    rw [List.beq]
    rw [show (('z' == 'F') = false) from by decide]
    rw [Bool.false_and]
  rw [h1, h2]
  rfl

theorem skeletonHelper_eval (v : PFormula → Bool) (m : PropModel) :
    ∀ (f : PFormula) (st : SkState), f.wfF = true → SkInv st →
    (∀ e ∈ (skeletonHelper f st).2.vm, lookupStr m e.2 = some (v e.1)) →
    evaluate (skeletonHelper f st).1 m = some (hEval v f) := by
  have hatom : ∀ (f : PFormula) (st : SkState), SkInv st →
      hEval v f = v f →
      ∀ res : PropFormula × SkState,
      (match lookupFormula st.vm f with
        | some z => (PropFormula.leaf z, st)
        | none =>
            (PropFormula.leaf (mkZVar st.ctr),
              ⟨st.vm ++ [(f, mkZVar st.ctr)], st.ctr + 1⟩)) = res →
      (∀ e ∈ res.2.vm, lookupStr m e.2 = some (v e.1)) →
      evaluate res.1 m = some (hEval v f) := by
    intro f st hinv hv res hres hcompat
    match hl : lookupFormula st.vm f with
    | some z =>
        rw [hl] at hres
        subst hres
        have hmem : (f, z) ∈ st.vm := lookupFormula_some hl
        obtain ⟨j, _, hj⟩ := hinv.1 (f, z) hmem
        have hlk := hcompat (f, z) hmem
        rw [evaluate]
        show (if isPropConstant z = true then some (z == ['T'])
          else if isPropVariable z = true then lookupStr m z else none) =
          some (hEval v f)
        rw [show z = mkZVar j from hj]
        rw [if_neg (by rw [isPropConstant_mkZVar]; exact Bool.false_ne_true),
          if_pos (isPropVariable_mkZVar j)]
        rw [show (mkZVar j : Str) = z from hj.symm]
        rw [hlk, hv]
    | none =>
        rw [hl] at hres
        subst hres
        have hmem : (f, mkZVar st.ctr) ∈ st.vm ++ [(f, mkZVar st.ctr)] := by
          simp
        have hlk := hcompat (f, mkZVar st.ctr) hmem
        rw [evaluate]
        show (if isPropConstant (mkZVar st.ctr) = true
            then some (mkZVar st.ctr == ['T'])
          else if isPropVariable (mkZVar st.ctr) = true
            then lookupStr m (mkZVar st.ctr) else none) =
          some (hEval v f)
        rw [if_neg (by rw [isPropConstant_mkZVar]; exact Bool.false_ne_true),
          if_pos (isPropVariable_mkZVar st.ctr)]
        rw [hlk, hv]
  intro f
  induction f with
  | eq t1 t2 =>
      intro st _ hinv hcompat
      exact hatom (.eq t1 t2) st hinv rfl _ rfl hcompat
  | rel r args =>
      intro st _ hinv hcompat
      exact hatom (.rel r args) st hinv rfl _ rfl hcompat
  | quant q x g ihg =>
      intro st _ hinv hcompat
      exact hatom (.quant q x g) st hinv rfl _ rfl hcompat
  | un g ihg =>
      intro st hwf hinv hcompat
      have hsk : skeletonHelper (.un g) st =
          ((PropFormula.un ['~'] (skeletonHelper g st).1),
            (skeletonHelper g st).2) := rfl
      rw [hsk] at hcompat ⊢
      have hwf2 : g.wfF = true := by rwa [PFormula.wfF] at hwf
      have h1 := ihg st hwf2 hinv hcompat
      rw [evaluate]
      simp only [h1]
      rfl
  | bin op g h ihg ihh =>
      intro st hwf hinv hcompat
      have hwf2 : isBinaryPred op = true ∧ g.wfF = true ∧ h.wfF = true := by
        rw [PFormula.wfF] at hwf
        simpa [Bool.and_eq_true, and_assoc] using hwf
      have hst1 := skeletonHelper_state g st hinv
      have hst2 := skeletonHelper_state h (skeletonHelper g st).2 hst1.1
      have hsk : skeletonHelper (.bin op g h) st =
          ((PropFormula.bin op (skeletonHelper g st).1
            (skeletonHelper h (skeletonHelper g st).2).1),
            (skeletonHelper h (skeletonHelper g st).2).2) := rfl
      rw [hsk] at hcompat ⊢
      have hc1 : ∀ e ∈ (skeletonHelper g st).2.vm,
          lookupStr m e.2 = some (v e.1) := by
        intro e he
        refine hcompat e ?_
        obtain ⟨ext, hext⟩ := hst2.2.2
        rw [hext]
        exact List.mem_append.mpr (Or.inl he)
      have h1 := ihg st hwf2.2.1 hinv hc1
      have h2 := ihh (skeletonHelper g st).2 hwf2.2.2 hst1.1 hcompat
      rw [evaluate]
      simp only [h1, h2]
      have hop : op = ['&'] ∨ op = ['|'] ∨ op = ['-', '>'] := by
        have := hwf2.1
        rw [isBinaryPred] at this
        have h9 : (op = ['&'] ∨ op = ['|']) ∨ op = ['-', '>'] := by
          simpa using this
        tauto
      rcases hop with hop | hop | hop <;> subst hop <;> simp [hEval]

/-- Completeness direction of the skeleton-based tautology test: a formula
true under every valuation of its atomic subformulas has a tautological
skeleton. -/
theorem isPredTautology_complete (f : PFormula) (hwf : f.wfF = true)
    (h : ∀ v : PFormula → Bool, hEval v f = true) :
    isPredTautology f = true := by
  rw [isPredTautology]
  show isTautology (skeletonHelper f ⟨[], 1⟩).1 = true
  rw [isTautology, List.all_eq_true]
  intro m hm
  have hinv0 : SkInv ⟨[], 1⟩ :=
    ⟨fun e he => absurd he (List.not_mem_nil e), by simp⟩
  have hst := skeletonHelper_state f ⟨[], 1⟩ hinv0
  have hkeys := skeletonHelper_keys f ⟨[], 1⟩ (by simp)
  let vv : PFormula → Bool := fun g =>
    match lookupFormula (skeletonHelper f ⟨[], 1⟩).2.vm g with
    | some z => (lookupStr m z).getD false
    | none => false
  have hcompat : ∀ e ∈ (skeletonHelper f ⟨[], 1⟩).2.vm,
      lookupStr m e.2 = some (vv e.1) := by
    intro e he
    obtain ⟨z', hz'⟩ := lookupFormula_mem he
    have hmem' : (e.1, z') ∈ (skeletonHelper f ⟨[], 1⟩).2.vm :=
      lookupFormula_some hz'
    have hz'e : z' = e.2 := keys_unique hkeys hmem' (Prod.mk.eta ▸ he)
    have hv2 : e.2 ∈ (skeletonHelper f ⟨[], 1⟩).1.vars := by
      rcases skeletonHelper_vars f ⟨[], 1⟩ e he with h9 | h9
      · exact absurd h9 (List.not_mem_nil e)
      · exact h9
    obtain ⟨b, hb⟩ := allModels_mem_lookup _ m hm e.2 (List.mem_dedup.mpr hv2)
    rw [hb]
    show some b = some
      (match lookupFormula (skeletonHelper f ⟨[], 1⟩).2.vm e.1 with
        | some z => (lookupStr m z).getD false
        | none => false)
    simp only [hz']
    rw [hz'e, hb]
    rfl
  have heval := skeletonHelper_eval vv m f ⟨[], 1⟩ hwf hinv0 hcompat
  have hfin := h vv
  rw [evalTruthy, heval, hfin]
  rfl

/-- Soundness direction: a formula with a tautological skeleton is true under
every valuation of its atomic subformulas. -/
theorem isPredTautology_sound (f : PFormula) (hwf : f.wfF = true)
    (h : isPredTautology f = true) (v : PFormula → Bool) :
    hEval v f = true := by
  rw [isPredTautology] at h
  have hps : (propositionalSkeleton f 1).1 = (skeletonHelper f ⟨[], 1⟩).1 := rfl
  rw [hps] at h
  have hinv0 : SkInv ⟨[], 1⟩ :=
    ⟨fun e he => absurd he (List.not_mem_nil e), by simp⟩
  have hst := skeletonHelper_state f ⟨[], 1⟩ hinv0
  let g : Str → Bool := fun z =>
    match lookupStr ((skeletonHelper f ⟨[], 1⟩).2.vm.map
        (fun e => (e.2, e.1))) z with
    | some fa => v fa
    | none => false
  obtain ⟨m, hm, hlk⟩ :=
    allModels_complete ((skeletonHelper f ⟨[], 1⟩).1.vars.dedup) g
  have hcompat : ∀ e ∈ (skeletonHelper f ⟨[], 1⟩).2.vm,
      lookupStr m e.2 = some (v e.1) := by
    intro e he
    have hv2 : e.2 ∈ (skeletonHelper f ⟨[], 1⟩).1.vars := by
      rcases skeletonHelper_vars f ⟨[], 1⟩ e he with h9 | h9
      · exact absurd h9 (List.not_mem_nil e)
      · exact h9
    have hl2 := hlk e.2 (List.mem_dedup.mpr hv2)
    rw [hl2]
    have hpair : (e.1, e.2) ∈ (skeletonHelper f ⟨[], 1⟩).2.vm := by
      rw [Prod.mk.eta]
      exact he
    have hinvrt := lookup_invert hpair hst.1.2
    show some
      (match lookupStr ((skeletonHelper f ⟨[], 1⟩).2.vm.map
          (fun e => (e.2, e.1))) e.2 with
        | some fa => v fa
        | none => false) = some (v e.1)
    simp only [hinvrt]
  have heval := skeletonHelper_eval v m f ⟨[], 1⟩ hwf hinv0 hcompat
  rw [isTautology, List.all_eq_true] at h
  have h2 := h m hm
  rw [evalTruthy, heval] at h2
  simpa using h2

theorem hEval_imp (v : PFormula → Bool) (a b : PFormula) :
    hEval v (pimpP a b) = (!(hEval v a) || hEval v b) := by
  rw [pimpP]
  simp [hEval]

theorem wfF_imp {a b : PFormula} (ha : a.wfF = true) (hb : b.wfF = true) :
    (pimpP a b).wfF = true := by
  rw [pimpP, PFormula.wfF]
  simp [ha, hb, isBinaryPred]

/-- The tautology `(φ→φ)` used for the matching assumption line. -/
theorem predTaut_self (phi : PFormula) (hwf : phi.wfF = true) :
    isPredTautology (pimpP phi phi) = true := by
  refine isPredTautology_complete _ (wfF_imp hwf hwf) ?_
  intro v
  rw [hEval_imp]
  cases hEval v phi <;> rfl

/-- The tautology `(f→(φ→f))` used for the non-matching assumption lines. -/
theorem predTaut_K (phi f : PFormula) (hp : phi.wfF = true)
    (hf : f.wfF = true) : isPredTautology (pimpP f (pimpP phi f)) = true := by
  refine isPredTautology_complete _ (wfF_imp hf (wfF_imp hp hf)) ?_
  intro v
  rw [hEval_imp, hEval_imp]
  cases hEval v phi <;> cases hEval v f <;> rfl

/-- Weakening a tautology by any antecedent, used for the tautology lines. -/
theorem predTaut_weaken (phi f : PFormula) (hp : phi.wfF = true)
    (hf : f.wfF = true) (ht : isPredTautology f = true) :
    isPredTautology (pimpP phi f) = true := by
  refine isPredTautology_complete _ (wfF_imp hp hf) ?_
  intro v
  rw [hEval_imp, isPredTautology_sound f hf ht v]
  cases hEval v phi <;> rfl

/-- The two-antecedent implication chain
`((φ→a)→((φ→(a→b))→(φ→b)))` used for the MP lines. -/
theorem predTaut_mp2 (phi a b : PFormula) (hp : phi.wfF = true)
    (ha : a.wfF = true) (hb : b.wfF = true) :
    isPredTautology (pimpP (pimpP phi a)
      (pimpP (pimpP phi (pimpP a b)) (pimpP phi b))) = true := by
  refine isPredTautology_complete _
    (wfF_imp (wfF_imp hp ha)
      (wfF_imp (wfF_imp hp (wfF_imp ha hb)) (wfF_imp hp hb))) ?_
  intro v
  simp only [hEval_imp]
  cases hEval v phi <;> cases hEval v a <;> cases hEval v b <;> rfl

/-! ### Validity bookkeeping for Prover-built line lists -/

theorem predLineValidAt_append (A : List Schema) (ls ext : List PredLine)
    {i : Nat} (hi : i < ls.length) :
    predLineValidAt A (ls ++ ext) i = predLineValidAt A ls i := by
  rw [predLineValidAt, predLineValidAt, List.get?_append hi]
  match ls.get? i with
  | none => rfl
  | some l =>
      cases l with
      | assumption f s m => rfl
      | taut f => rfl
      | mp f a c =>
          by_cases ha : a < i
          · by_cases hc : c < i
            · have ha2 : a < ls.length := lt_trans ha hi
              have hc2 : c < ls.length := lt_trans hc hi
              simp only [predLineValid,
                List.get?_append ha2, List.get?_append hc2]
            · simp [predLineValid, hc]
          · simp [predLineValid, ha]
      | ug f p =>
          by_cases hp : p < i
          · have hp2 : p < ls.length := lt_trans hp hi
            simp only [predLineValid, List.get?_append hp2]
          · simp [predLineValid, hp]

theorem predLineValidAt_snoc (A : List Schema) (ls : List PredLine)
    (l : PredLine) (h : predLineValid A (ls ++ [l]) ls.length l = true) :
    predLineValidAt A (ls ++ [l]) ls.length = true := by
  rw [predLineValidAt, List.get?_concat_length]
  exact h

theorem allValid_snoc {A : List Schema} {ls : List PredLine} {l : PredLine}
    (hall : ∀ j < ls.length, predLineValidAt A ls j = true)
    (hnew : predLineValid A (ls ++ [l]) ls.length l = true) :
    ∀ j < (ls ++ [l]).length, predLineValidAt A (ls ++ [l]) j = true := by
  intro j hj
  rw [List.length_append, List.length_singleton] at hj
  by_cases hjl : j < ls.length
  · rw [predLineValidAt_append A ls [l] hjl]
    exact hall j hjl
  · have hje : j = ls.length := by omega
    rw [hje]
    exact predLineValidAt_snoc A ls l hnew

theorem mapM_get_spec : ∀ (cited : List Nat) (cf : List PFormula)
    (pl : List PredLine),
    cited.mapM (fun i => (pl.get? i).map PredLine.formulaOf) = some cf →
    cf.length = cited.length ∧
    ∀ p ∈ cited.zip cf, (pl.get? p.1).map PredLine.formulaOf = some p.2 := by
  intro cited
  induction cited with
  | nil =>
      intro cf pl h
      simp only [List.mapM_nil, pure, Option.some.injEq] at h
      subst h
      exact ⟨rfl, fun p hp => absurd hp (by simp)⟩
  | cons i rest ih =>
      intro cf pl h
      rw [List.mapM_cons] at h
      cases hfi : (pl.get? i).map PredLine.formulaOf with
      | none => rw [hfi] at h; simp at h
      | some fi =>
          rw [hfi] at h
          cases hrest : rest.mapM
              (fun i => (pl.get? i).map PredLine.formulaOf) with
          | none => rw [hrest] at h; simp at h
          | some cfs =>
              rw [hrest] at h
              simp only [Option.bind_eq_bind, Option.some_bind, pure,
                Option.some.injEq] at h
              subst h
              obtain ⟨hlen, hmem⟩ := ih cfs pl hrest
              refine ⟨by simp [hlen], ?_⟩
              intro p hp
              rw [List.zip_cons_cons] at hp
              rcases List.mem_cons.mp hp with hp | hp
              · rw [hp]; exact hfi
              · exact hmem p hp

theorem addTautImpl_go_ok (target : PFormula) :
    ∀ (pairs : List (Nat × PFormula)) (st : ProverState) (ci : Nat),
    (∀ j < st.plines.length,
      predLineValidAt st.assumptions st.plines j = true) →
    ci < st.plines.length →
    (st.plines.get? ci).map PredLine.formulaOf =
      some (implicationChain target (pairs.map (·.2))) →
    (∀ pr ∈ pairs, pr.1 < st.plines.length ∧
      (st.plines.get? pr.1).map PredLine.formulaOf = some pr.2) →
    (ProverState.addTautologicalImplication.go target st ci pairs).1.assumptions
      = st.assumptions ∧
    (∃ ext, (ProverState.addTautologicalImplication.go target st ci
      pairs).1.plines = st.plines ++ ext) ∧
    (∀ j < (ProverState.addTautologicalImplication.go target st ci
        pairs).1.plines.length,
      predLineValidAt st.assumptions
        (ProverState.addTautologicalImplication.go target st ci
          pairs).1.plines j = true) ∧
    (ProverState.addTautologicalImplication.go target st ci pairs).2 <
      (ProverState.addTautologicalImplication.go target st ci
        pairs).1.plines.length ∧
    ((ProverState.addTautologicalImplication.go target st ci pairs).1.plines.get?
      (ProverState.addTautologicalImplication.go target st ci pairs).2).map
        PredLine.formulaOf = some target ∧
    (ci + 1 = st.plines.length →
      (ProverState.addTautologicalImplication.go target st ci pairs).2 + 1 =
        (ProverState.addTautologicalImplication.go target st ci
          pairs).1.plines.length) := by
  intro pairs
  induction pairs with
  | nil =>
      intro st ci hall hci hcf _
      rw [show ProverState.addTautologicalImplication.go target st ci [] =
        (st, ci) from rfl]
      rw [show List.map (·.2) ([] : List (Nat × PFormula)) = [] from rfl,
        implicationChain] at hcf
      exact ⟨rfl, ⟨[], by simp⟩, hall, hci, hcf, fun h => h⟩
  | cons pr rest ih =>
      intro st ci hall hci hcf hprs
      obtain ⟨i, fi⟩ := pr
      have hgo : ProverState.addTautologicalImplication.go target st ci
          ((i, fi) :: rest) =
          ProverState.addTautologicalImplication.go target
            ⟨st.assumptions, st.plines ++
              [.mp (implicationChain target (rest.map (·.2))) i ci]⟩
            st.plines.length rest := rfl
      rw [hgo]
      have hpri := hprs (i, fi) (List.mem_cons_self _ _)
      have hchain : implicationChain target (((i, fi) :: rest).map (·.2)) =
          pimpP fi (implicationChain target (rest.map (·.2))) := rfl
      rw [hchain] at hcf
      have hnew : predLineValid st.assumptions
          (st.plines ++ [.mp (implicationChain target (rest.map (·.2))) i ci])
          st.plines.length
          (.mp (implicationChain target (rest.map (·.2))) i ci) = true := by
        simp only [predLineValid, List.get?_append hpri.1,
          List.get?_append hci]
        have h1 : (decide (i < st.plines.length)) = true := by
          simp [hpri.1]
        have h2 : (decide (ci < st.plines.length)) = true := by
          simp [hci]
        rw [h1, h2]
        cases hgi : (st.plines.get? i).map PredLine.formulaOf with
        | none => rw [hgi] at hpri; cases hpri.2
        | some fa =>
            have hfa : fa = fi := by
              rw [hgi] at hpri
              simpa using hpri.2
            cases hgc : (st.plines.get? ci).map PredLine.formulaOf with
            | none => rw [hgc] at hcf; cases hcf
            | some fc =>
                have hfc : fc = pimpP fi
                    (implicationChain target (rest.map (·.2))) := by
                  rw [hgc] at hcf
                  simpa using hcf
                simp [hfa, hfc]
      have hih := ih ⟨st.assumptions, st.plines ++
          [.mp (implicationChain target (rest.map (·.2))) i ci]⟩
          st.plines.length
          (allValid_snoc hall hnew)
          (by simp)
          (by
            show ((st.plines ++
              [PredLine.mp (implicationChain target (rest.map (·.2))) i ci]).get?
                st.plines.length).map PredLine.formulaOf =
              some (implicationChain target (rest.map (·.2)))
            rw [List.get?_concat_length]
            rfl)
          (by
            intro pr2 hpr2
            have h3 := hprs pr2 (List.mem_cons_of_mem _ hpr2)
            refine ⟨by simp; omega, ?_⟩
            rw [List.get?_append h3.1]
            exact h3.2)
      refine ⟨hih.1, ?_, hih.2.2.1, hih.2.2.2.1, hih.2.2.2.2.1,
        fun _ => hih.2.2.2.2.2 (by simp)⟩
      obtain ⟨ext2, hext2⟩ := hih.2.1
      exact ⟨[PredLine.mp (implicationChain target (rest.map (·.2))) i ci]
        ++ ext2, by rw [hext2]; simp⟩

/-- Specification of `add_tautological_implication` (spec, section 4.6):
when the implication chain through the cited formulas is a tautology, the
call succeeds, only appends lines, keeps every line valid, and the returned
index carries the target formula. -/
theorem addTautologicalImplication_ok (st : ProverState) (target : PFormula)
    (cited : List Nat) (cf : List PFormula)
    (hall : ∀ j < st.plines.length,
      predLineValidAt st.assumptions st.plines j = true)
    (hcf : cited.mapM (fun i => (st.plines.get? i).map PredLine.formulaOf) =
      some cf)
    (htaut : isPredTautology (implicationChain target cf) = true) :
    ∃ st2 idx, st.addTautologicalImplication target cited = some (st2, idx) ∧
      st2.assumptions = st.assumptions ∧
      (∃ ext, st2.plines = st.plines ++ ext) ∧
      (∀ j < st2.plines.length,
        predLineValidAt st2.assumptions st2.plines j = true) ∧
      idx < st2.plines.length ∧
      (st2.plines.get? idx).map PredLine.formulaOf = some target ∧
      idx + 1 = st2.plines.length := by
  obtain ⟨hlen, hmem⟩ := mapM_get_spec cited cf st.plines hcf
  have hzip : (cited.zip cf).map (·.2) = cf := by
    show (cited.zip cf).map Prod.snd = cf
    exact List.map_snd_zip cited cf (by omega)
  have hdom : ∀ pr ∈ cited.zip cf, pr.1 < st.plines.length ∧
      (st.plines.get? pr.1).map PredLine.formulaOf = some pr.2 := by
    intro pr hpr
    by_cases h1 : pr.1 < st.plines.length
    · exact ⟨h1, hmem pr hpr⟩
    · exfalso
      have h2 := hmem pr hpr
      rw [List.get?_eq_none.mpr (by omega)] at h2
      cases h2
  rw [ProverState.addTautologicalImplication]
  simp only [hcf]
  have hnew : predLineValid st.assumptions
      (st.plines ++ [.taut (implicationChain target cf)])
      st.plines.length (.taut (implicationChain target cf)) = true := by
    rw [predLineValid]
    exact htaut
  have hgo := addTautImpl_go_ok target (cited.zip cf)
      ⟨st.assumptions, st.plines ++ [.taut (implicationChain target cf)]⟩
      st.plines.length
      (allValid_snoc hall hnew)
      (by simp)
      (by
        show ((st.plines ++
          [PredLine.taut (implicationChain target cf)]).get?
            st.plines.length).map PredLine.formulaOf =
          some (implicationChain target ((cited.zip cf).map (·.2)))
        rw [List.get?_concat_length, hzip]
        rfl)
      (by
        intro pr hpr
        have h3 := hdom pr hpr
        refine ⟨by simp [Nat.lt_succ_of_lt h3.1], ?_⟩
        show ((st.plines ++
          [PredLine.taut (implicationChain target cf)]).get? pr.1).map
            PredLine.formulaOf = some pr.2
        rw [List.get?_append h3.1]
        exact h3.2)
  refine ⟨_, _, rfl, hgo.1, ?_, ?_, hgo.2.2.2.1, hgo.2.2.2.2.1,
    hgo.2.2.2.2.2 (by simp)⟩
  · obtain ⟨ext2, hext2⟩ := hgo.2.1
    exact ⟨[PredLine.taut (implicationChain target cf)] ++ ext2,
      by rw [hext2]; simp⟩
  · intro j hj
    rw [hgo.1]
    exact hgo.2.2.1 j hj

/-! ### Identity instantiation for template-free schemas -/

theorem substT_nil_aux : ∀ n : Nat,
    (∀ t : PTerm, t.sizeT ≤ n → ∀ F : List Str,
      PTerm.substT [] F t = .ok t) ∧
    (∀ ts : List PTerm, sizeTList ts ≤ n → ∀ F : List Str,
      substTList [] F ts = .ok ts) := by
  intro n
  induction n with
  | zero =>
      constructor
      · intro t hsz
        have := sizeT_pos t
        omega
      · intro ts hsz F
        match ts with
        | [] => rfl
        | t :: ts2 =>
            exfalso
            have h1 := sizeT_pos t
            rw [show sizeTList (t :: ts2) = t.sizeT + sizeTList ts2 from rfl]
              at hsz
            omega
  | succ n ih =>
      have hT : ∀ t : PTerm, t.sizeT ≤ n + 1 → ∀ F : List Str,
          PTerm.substT [] F t = .ok t := by
        intro t hsz F
        match t with
        | .leaf s => rfl
        | .func f args =>
            rw [PTerm.substT]
            have hsz2 : sizeTList args ≤ n := by
              rw [show (PTerm.func f args).sizeT = 1 + sizeTList args from rfl]
                at hsz
              omega
            rw [ih.2 args hsz2 F]
      refine ⟨hT, ?_⟩
      intro ts hsz F
      match ts with
      | [] => rfl
      | t :: ts2 =>
          have h1 := sizeT_pos t
          rw [show sizeTList (t :: ts2) = t.sizeT + sizeTList ts2 from rfl]
            at hsz
          rw [substTList, hT t (by omega) F, ih.2 ts2 (by omega) F]

theorem substT_nil (t : PTerm) (F : List Str) : PTerm.substT [] F t = .ok t :=
  (substT_nil_aux t.sizeT).1 t (le_refl _) F

theorem substTList_nil (ts : List PTerm) (F : List Str) :
    substTList [] F ts = .ok ts :=
  (substT_nil_aux (sizeTList ts)).2 ts (le_refl _) F

theorem instTermMap_nil : instTermMap [] = [] := rfl

theorem instantiateHelper_nil : ∀ (f : PFormula) (B : List Str),
    instantiateHelper [] f B = .ok f := by
  intro f
  induction f with
  | eq t1 t2 =>
      intro B
      rw [instantiateHelper, instTermMap_nil, substT_nil, substT_nil]
  | rel r args =>
      intro B
      rw [instantiateHelper]
      rw [show lookupStr ([] : List (Str × InstVal)) r = none from rfl]
      rw [instTermMap_nil, substTList_nil]
  | un g ihg =>
      intro B
      rw [instantiateHelper, ihg B]
  | bin op g h ihg ihh =>
      intro B
      rw [instantiateHelper, ihg B, ihh B]
  | quant q x g ihg =>
      intro B
      rw [instantiateHelper]
      rw [show lookupStr ([] : List (Str × InstVal)) x = none from rfl]
      rw [ihg (B ++ [x])]

theorem instMapKeysOk_nil_schema {phi : PFormula} {m : List (Str × InstVal)}
    (h : instMapKeysOk (Schema.mk phi []) m = true) : m = [] := by
  match m with
  | [] => rfl
  | e :: rest =>
      exfalso
      rw [instMapKeysOk, List.all_cons] at h
      rw [show (Schema.mk phi []).templates.contains e.1 = false from rfl] at h
      cases h

/-! ### The `alpha[x:='_'][_:=x]` round trip behind the US instantiation of
`remove_assumption`'s UG branch -/

theorem contains_false_of_not_mem {B : List Str} {a : Str} (h : a ∉ B) :
    B.contains a = false := by
  cases h9 : B.contains a
  · rfl
  · exact absurd (List.mem_of_elem_eq_true h9) h

theorem substT_underscore_rt_aux (x : Str) (hx : isPredVariable x = true) :
    ∀ n : Nat,
    (∀ t : PTerm, t.sizeT ≤ n → ∀ B : List Str,
      noUnderscoreT t = true → ['_'] ∉ B →
      ∃ t', PTerm.substT [(x, .leaf ['_'])] B t = .ok t' ∧
        PTerm.substT [(['_'], .leaf x)] B t' = .ok t) ∧
    (∀ ts : List PTerm, sizeTList ts ≤ n → ∀ B : List Str,
      noUnderscoreTList ts = true → ['_'] ∉ B →
      ∃ ts', substTList [(x, .leaf ['_'])] B ts = .ok ts' ∧
        substTList [(['_'], .leaf x)] B ts' = .ok ts) := by
  have hne : x ≠ ['_'] := by
    intro h
    rw [h] at hx
    exact absurd hx (by decide)
  have hxu : (x == (['_'] : Str)) = false := beq_eq_false_iff_ne.mpr hne
  have hux : ((['_'] : Str) == x) = false :=
    beq_eq_false_iff_ne.mpr (Ne.symm hne)
  intro n
  induction n with
  | zero =>
      constructor
      · intro t hsz
        have := sizeT_pos t
        omega
      · intro ts hsz B hno hB
        match ts with
        | [] => exact ⟨[], rfl, rfl⟩
        | t :: ts2 =>
            exfalso
            have h1 := sizeT_pos t
            rw [show sizeTList (t :: ts2) = t.sizeT + sizeTList ts2 from rfl]
              at hsz
            omega
  | succ n ih =>
      have hT : ∀ t : PTerm, t.sizeT ≤ n + 1 → ∀ B : List Str,
          noUnderscoreT t = true → ['_'] ∉ B →
          ∃ t', PTerm.substT [(x, .leaf ['_'])] B t = .ok t' ∧
            PTerm.substT [(['_'], .leaf x)] B t' = .ok t := by
        intro t hsz B hno hB
        match t with
        | .leaf s =>
            have hsu : (s == (['_'] : Str)) = false := by
              rw [noUnderscoreT] at hno
              simpa using hno
            have hus : ((['_'] : Str) == s) = false := by
              refine beq_eq_false_iff_ne.mpr (Ne.symm ?_)
              exact beq_eq_false_iff_ne.mp hsu
            rw [PTerm.substT]
            by_cases hxs : (x == s) = true
            · have hsx : s = x := (eq_of_beq hxs).symm
              have hlk : lookupStr [(x, PTerm.leaf ['_'])] s =
                  some (PTerm.leaf ['_']) := by
                rw [lookupStr, if_pos hxs]
              simp only [hlk]
              by_cases hBs : B.contains s = true
              · rw [if_pos hBs]
                refine ⟨.leaf s, rfl, ?_⟩
                rw [PTerm.substT]
                have hlk2 : lookupStr [((['_'] : Str), PTerm.leaf x)] s =
                    none := by
                  rw [lookupStr, if_neg ?_, lookupStr]
                  rw [hus]
                  exact Bool.false_ne_true
                simp only [hlk2]
              · rw [if_neg hBs]
                have hfind : B.find? (fun k =>
                    (PTerm.leaf ['_']).variablesT.contains k) = none := by
                  refine List.find?_eq_none.mpr ?_
                  intro k _
                  rw [show (PTerm.leaf ['_']).variablesT = [] from rfl]
                  simp
                simp only [hfind]
                refine ⟨.leaf ['_'], rfl, ?_⟩
                rw [PTerm.substT]
                have hlk2 : lookupStr [((['_'] : Str), PTerm.leaf x)]
                    (['_'] : Str) = some (PTerm.leaf x) := by
                  rw [lookupStr]
                  rw [if_pos (by rfl)]
                simp only [hlk2]
                rw [if_neg (by rw [contains_false_of_not_mem hB]; exact
                  Bool.false_ne_true)]
                have hvarx : (PTerm.leaf x).variablesT = [x] := by
                  rw [PTerm.variablesT, PTerm.collect, if_pos hx]
                have hfind2 : B.find? (fun k =>
                    (PTerm.leaf x).variablesT.contains k) = none := by
                  refine List.find?_eq_none.mpr ?_
                  intro k hk
                  rw [hvarx]
                  show ¬ List.contains [x] k = true
                  intro h9
                  have h10 : k ∈ [x] := List.mem_of_elem_eq_true h9
                  have h11 : k = x := by simpa using h10
                  rw [h11] at hk
                  have h12 := List.elem_eq_true_of_mem hk
                  rw [hsx] at hBs
                  exact hBs (by exact h12)
                simp only [hfind2]
                rw [hsx]
            · have hxs2 : (x == s) = false := by simpa using hxs
              have hlk : lookupStr [(x, PTerm.leaf ['_'])] s = none := by
                rw [lookupStr, if_neg (by rw [hxs2]; exact Bool.false_ne_true),
                  lookupStr]
              simp only [hlk]
              refine ⟨.leaf s, rfl, ?_⟩
              rw [PTerm.substT]
              have hlk2 : lookupStr [((['_'] : Str), PTerm.leaf x)] s =
                  none := by
                rw [lookupStr, if_neg (by rw [hus]; exact Bool.false_ne_true),
                  lookupStr]
              simp only [hlk2]
        | .func f args =>
            have hsz2 : sizeTList args ≤ n := by
              rw [show (PTerm.func f args).sizeT = 1 + sizeTList args from rfl]
                at hsz
              omega
            have hnoargs : noUnderscoreTList args = true := by
              rwa [noUnderscoreT] at hno
            obtain ⟨ts', h1, h2⟩ := ih.2 args hsz2 B hnoargs hB
            refine ⟨.func f ts', ?_, ?_⟩
            · rw [PTerm.substT, h1]
            · rw [PTerm.substT, h2]
      refine ⟨hT, ?_⟩
      intro ts hsz B hno hB
      match ts with
      | [] => exact ⟨[], rfl, rfl⟩
      | t :: ts2 =>
          have h1 := sizeT_pos t
          rw [show sizeTList (t :: ts2) = t.sizeT + sizeTList ts2 from rfl]
            at hsz
          rw [noUnderscoreTList, Bool.and_eq_true] at hno
          obtain ⟨t', ht1, ht2⟩ := hT t (by omega) B hno.1 hB
          obtain ⟨ts2', hts1, hts2⟩ := ih.2 ts2 (by omega) B hno.2 hB
          refine ⟨t' :: ts2', ?_, ?_⟩
          · rw [substTList, ht1, hts1]
          · rw [substTList, ht2, hts2]

theorem substF_underscore_rt (x : Str) (hx : isPredVariable x = true) :
    ∀ (f : PFormula) (B : List Str), f.wfF = true → noUnderscoreF f = true →
      ['_'] ∉ B →
      ∃ f', PFormula.substF [(x, .leaf ['_'])] B f = .ok f' ∧
        PFormula.substF [(['_'], .leaf x)] B f' = .ok f := by
  have hT := fun t B hno hB =>
    ((substT_underscore_rt_aux x hx t.sizeT).1 t (le_refl _) B hno hB)
  have hL := fun ts B hno hB =>
    ((substT_underscore_rt_aux x hx (sizeTList ts)).2 ts (le_refl _) B hno hB)
  intro f
  induction f with
  | eq t1 t2 =>
      intro B hwf hno hB
      rw [noUnderscoreF, Bool.and_eq_true] at hno
      obtain ⟨t1', h11, h12⟩ := hT t1 B hno.1 hB
      obtain ⟨t2', h21, h22⟩ := hT t2 B hno.2 hB
      refine ⟨.eq t1' t2', ?_, ?_⟩
      · rw [PFormula.substF, h11, h21]
      · rw [PFormula.substF, h12, h22]
  | rel r args =>
      intro B hwf hno hB
      rw [noUnderscoreF] at hno
      obtain ⟨args', h1, h2⟩ := hL args B hno hB
      refine ⟨.rel r args', ?_, ?_⟩
      · rw [PFormula.substF, h1]
      · rw [PFormula.substF, h2]
  | un g ihg =>
      intro B hwf hno hB
      rw [PFormula.wfF] at hwf
      rw [noUnderscoreF] at hno
      obtain ⟨g', h1, h2⟩ := ihg B hwf hno hB
      refine ⟨.un g', ?_, ?_⟩
      · rw [PFormula.substF, h1]
      · rw [PFormula.substF, h2]
  | bin op g h ihg ihh =>
      intro B hwf hno hB
      rw [PFormula.wfF, Bool.and_eq_true, Bool.and_eq_true] at hwf
      rw [noUnderscoreF, Bool.and_eq_true] at hno
      obtain ⟨g', h11, h12⟩ := ihg B hwf.1.2 hno.1 hB
      obtain ⟨h', h21, h22⟩ := ihh B hwf.2 hno.2 hB
      refine ⟨.bin op g' h', ?_, ?_⟩
      · rw [PFormula.substF, h11, h21]
      · rw [PFormula.substF, h12, h22]
  | quant q y g ihg =>
      intro B hwf hno hB
      rw [PFormula.wfF, Bool.and_eq_true, Bool.and_eq_true] at hwf
      rw [noUnderscoreF] at hno
      have hy : isPredVariable y = true := hwf.1.2
      have hyne : y ≠ ['_'] := by
        intro h9
        rw [h9] at hy
        exact absurd hy (by decide)
      have hB2 : ['_'] ∉ B ++ [y] := by
        rw [List.mem_append]
        rintro (h9 | h9)
        · exact hB h9
        · have h10 : ['_'] = y := by simpa using h9
          exact hyne h10.symm
      obtain ⟨g', h1, h2⟩ := ihg (B ++ [y]) hwf.2 hno hB2
      refine ⟨.quant q y g', ?_, ?_⟩
      · rw [PFormula.substF, h1]
      · rw [PFormula.substF, h2]


theorem isPredVariable_false_of_func {f : Str} (hf : isPredFunction f = true) :
    isPredVariable f = false := by
  match f with
  | [] => cases hf
  | c :: rest =>
      rw [isPredFunction] at hf
      have h1 : ('f' ≤ c) ∧ (c ≤ 't') := by
        simp only [Bool.and_eq_true, decide_eq_true_eq] at hf
        exact ⟨hf.1.1, hf.1.2⟩
      rw [isPredVariable]
      have hu : ('u' ≤ c : Bool) = false := by
        simp only [decide_eq_false_iff_not]
        intro hu
        exact absurd (le_trans hu h1.2) (by decide)
      simp [hu]

theorem substT_underscore_vars_aux (x : Str) : ∀ n : Nat,
    (∀ t : PTerm, t.sizeT ≤ n → t.wfT = true →
      ∀ (B : List Str) (t' : PTerm),
      PTerm.substT [(x, .leaf ['_'])] B t = .ok t' →
      ∀ v ∈ t'.variablesT, v ∈ t.variablesT ∧ (v = x → x ∈ B)) ∧
    (∀ ts : List PTerm, sizeTList ts ≤ n → wfTList ts = true →
      ∀ (B : List Str) (ts' : List PTerm),
      substTList [(x, .leaf ['_'])] B ts = .ok ts' →
      ∀ v ∈ collectList isPredVariable ts',
        v ∈ collectList isPredVariable ts ∧ (v = x → x ∈ B)) := by
  intro n
  induction n with
  | zero =>
      constructor
      · intro t hsz
        have := sizeT_pos t
        omega
      · intro ts hsz hwf B ts' h v hv
        match ts, h with
        | [], h =>
            have h2 : ts' = [] := by
              rw [show substTList [(x, PTerm.leaf ['_'])] B [] = .ok [] from
                rfl] at h
              simpa using h
            rw [h2] at hv
            exact absurd hv (by simp [collectList])
        | t :: ts2, h =>
            exfalso
            have h1 := sizeT_pos t
            rw [show sizeTList (t :: ts2) = t.sizeT + sizeTList ts2 from rfl]
              at hsz
            omega
  | succ n ih =>
      have hT : ∀ t : PTerm, t.sizeT ≤ n + 1 → t.wfT = true →
          ∀ (B : List Str) (t' : PTerm),
          PTerm.substT [(x, .leaf ['_'])] B t = .ok t' →
          ∀ v ∈ t'.variablesT, v ∈ t.variablesT ∧ (v = x → x ∈ B) := by
        intro t hsz hwf B t' h v hv
        match t, h with
        | .leaf s, h =>
            rw [PTerm.substT] at h
            by_cases hxs : (x == s) = true
            · have hsx : s = x := (eq_of_beq hxs).symm
              have hlk : lookupStr [(x, PTerm.leaf ['_'])] s =
                  some (PTerm.leaf ['_']) := by
                rw [lookupStr, if_pos hxs]
              simp only [hlk] at h
              by_cases hBs : B.contains s = true
              · rw [if_pos hBs] at h
                have ht' : t' = .leaf s := by simpa using h.symm
                rw [ht'] at hv
                refine ⟨hv, fun _ => ?_⟩
                rw [← hsx]
                exact List.mem_of_elem_eq_true hBs
              · rw [if_neg hBs] at h
                have hfind : B.find? (fun k =>
                    (PTerm.leaf ['_']).variablesT.contains k) = none := by
                  refine List.find?_eq_none.mpr ?_
                  intro k _
                  rw [show (PTerm.leaf ['_']).variablesT = [] from rfl]
                  simp
                simp only [hfind] at h
                have ht' : t' = .leaf ['_'] := by simpa using h.symm
                rw [ht'] at hv
                rw [show (PTerm.leaf ['_']).variablesT = [] from rfl] at hv
                exact absurd hv (by simp)
            · have hxs2 : (x == s) = false := by simpa using hxs
              have hlk : lookupStr [(x, PTerm.leaf ['_'])] s = none := by
                rw [lookupStr, if_neg (by rw [hxs2]; exact Bool.false_ne_true),
                  lookupStr]
              simp only [hlk] at h
              have ht' : t' = .leaf s := by simpa using h.symm
              rw [ht'] at hv
              refine ⟨hv, fun hvx => ?_⟩
              exfalso
              rw [PTerm.variablesT, PTerm.collect] at hv
              by_cases hps : isPredVariable s = true
              · rw [if_pos hps] at hv
                have hvs : v = s := by simpa using hv
                rw [hvs] at hvx
                rw [hvx] at hxs2
                simp at hxs2
              · rw [if_neg hps] at hv
                exact absurd hv (by simp)
        | .func f args, h =>
            rw [PTerm.substT] at h
            have hsz2 : sizeTList args ≤ n := by
              rw [show (PTerm.func f args).sizeT = 1 + sizeTList args from rfl]
                at hsz
              omega
            rw [PTerm.wfT] at hwf
            simp only [Bool.and_eq_true] at hwf
            have hwfargs : wfTList args = true := hwf.2
            have hffalse : isPredVariable f = false :=
              isPredVariable_false_of_func hwf.1.1
            match hargs : substTList [(x, PTerm.leaf ['_'])] B args with
            | .error k => rw [hargs] at h; cases h
            | .ok args2 =>
                simp only [hargs] at h
                have ht' : t' = .func f args2 := by simpa using h.symm
                rw [ht'] at hv
                rw [PTerm.variablesT, PTerm.collect, List.mem_append] at hv
                rcases hv with hv | hv
                · exfalso
                  rw [if_neg (by rw [hffalse]; exact Bool.false_ne_true)]
                    at hv
                  exact absurd hv (by simp)
                · have h9 := ih.2 args hsz2 hwfargs B args2 hargs v hv
                  refine ⟨?_, h9.2⟩
                  rw [PTerm.variablesT, PTerm.collect, List.mem_append]
                  exact Or.inr h9.1
      refine ⟨hT, ?_⟩
      intro ts hsz hwf B ts' h v hv
      match ts, h with
      | [], h =>
          have h2 : ts' = [] := by
            rw [show substTList [(x, PTerm.leaf ['_'])] B [] = .ok [] from
              rfl] at h
            simpa using h
          rw [h2] at hv
          exact absurd hv (by simp [collectList])
      | t :: ts2, h =>
          have h1 := sizeT_pos t
          rw [show sizeTList (t :: ts2) = t.sizeT + sizeTList ts2 from rfl]
            at hsz
          rw [wfTList, Bool.and_eq_true] at hwf
          rw [substTList] at h
          match ht : PTerm.substT [(x, PTerm.leaf ['_'])] B t with
          | .error k => rw [ht] at h; cases h
          | .ok t2 =>
              simp only [ht] at h
              match hts : substTList [(x, PTerm.leaf ['_'])] B ts2 with
              | .error k => rw [hts] at h; cases h
              | .ok ts3 =>
                  simp only [hts] at h
                  have hts' : ts' = t2 :: ts3 := by simpa using h.symm
                  rw [hts'] at hv
                  rw [show collectList isPredVariable (t2 :: ts3) =
                    t2.variablesT ++ collectList isPredVariable ts3 from rfl,
                    List.mem_append] at hv
                  rw [show collectList isPredVariable (t :: ts2) =
                    t.variablesT ++ collectList isPredVariable ts2 from rfl,
                    List.mem_append]
                  rcases hv with hv | hv
                  · have h9 := hT t (by omega) hwf.1 B t2 ht v hv
                    exact ⟨Or.inl h9.1, h9.2⟩
                  · have h9 := ih.2 ts2 (by omega) hwf.2 B ts3 hts v hv
                    exact ⟨Or.inr h9.1, h9.2⟩

theorem substF_underscore_vars (x : Str) :
    ∀ (f : PFormula) (B : List Str) (f' : PFormula), f.wfF = true →
    PFormula.substF [(x, .leaf ['_'])] B f = .ok f' →
    ∀ v ∈ f'.freeVarsF, v ∈ f.freeVarsF ∧ (v = x → x ∈ B) := by
  have hT := fun t B t' hwf h =>
    (substT_underscore_vars_aux x t.sizeT).1 t (le_refl _) hwf B t' h
  have hL := fun ts B ts' hwf h =>
    (substT_underscore_vars_aux x (sizeTList ts)).2 ts (le_refl _) hwf B ts' h
  intro f
  induction f with
  | eq t1 t2 =>
      intro B f' hwf h v hv
      rw [PFormula.wfF, Bool.and_eq_true] at hwf
      rw [PFormula.substF] at h
      match h1 : PTerm.substT [(x, PTerm.leaf ['_'])] B t1 with
      | .error k => rw [h1] at h; cases h
      | .ok u1 =>
          simp only [h1] at h
          match h2 : PTerm.substT [(x, PTerm.leaf ['_'])] B t2 with
          | .error k => rw [h2] at h; cases h
          | .ok u2 =>
              simp only [h2] at h
              have hf' : f' = .eq u1 u2 := by simpa using h.symm
              rw [hf'] at hv
              rw [PFormula.freeVarsF, List.mem_append] at hv
              rw [PFormula.freeVarsF, List.mem_append]
              rcases hv with hv | hv
              · have h9 := hT t1 B u1 hwf.1 h1 v hv
                exact ⟨Or.inl h9.1, h9.2⟩
              · have h9 := hT t2 B u2 hwf.2 h2 v hv
                exact ⟨Or.inr h9.1, h9.2⟩
  | rel r args =>
      intro B f' hwf h v hv
      rw [PFormula.wfF, Bool.and_eq_true] at hwf
      have hwfargs : wfTList args = true := by
        rw [wfTList_eq_all]
        exact hwf.2
      rw [PFormula.substF] at h
      match h1 : substTList [(x, PTerm.leaf ['_'])] B args with
      | .error k => rw [h1] at h; cases h
      | .ok args2 =>
          simp only [h1] at h
          have hf' : f' = .rel r args2 := by simpa using h.symm
          rw [hf'] at hv
          rw [PFormula.freeVarsF] at hv
          rw [PFormula.freeVarsF]
          exact hL args B args2 hwfargs h1 v hv
  | un g ihg =>
      intro B f' hwf h v hv
      rw [PFormula.wfF] at hwf
      rw [PFormula.substF] at h
      match h1 : PFormula.substF [(x, PTerm.leaf ['_'])] B g with
      | .error k => rw [h1] at h; cases h
      | .ok g2 =>
          simp only [h1] at h
          have hf' : f' = .un g2 := by simpa using h.symm
          rw [hf'] at hv
          rw [PFormula.freeVarsF] at hv
          rw [PFormula.freeVarsF]
          exact ihg B g2 hwf h1 v hv
  | bin op g h2 ihg ihh =>
      intro B f' hwf h v hv
      rw [PFormula.wfF, Bool.and_eq_true, Bool.and_eq_true] at hwf
      rw [PFormula.substF] at h
      match h1 : PFormula.substF [(x, PTerm.leaf ['_'])] B g with
      | .error k => rw [h1] at h; cases h
      | .ok ga =>
          simp only [h1] at h
          match h3 : PFormula.substF [(x, PTerm.leaf ['_'])] B h2 with
          | .error k => rw [h3] at h; cases h
          | .ok hb =>
              simp only [h3] at h
              have hf' : f' = .bin op ga hb := by simpa using h.symm
              rw [hf'] at hv
              rw [PFormula.freeVarsF, List.mem_append] at hv
              rw [PFormula.freeVarsF, List.mem_append]
              rcases hv with hv | hv
              · have h9 := ihg B ga hwf.1.2 h1 v hv
                exact ⟨Or.inl h9.1, h9.2⟩
              · have h9 := ihh B hb hwf.2 h3 v hv
                exact ⟨Or.inr h9.1, h9.2⟩
  | quant q y g ihg =>
      intro B f' hwf h v hv
      rw [PFormula.wfF, Bool.and_eq_true, Bool.and_eq_true] at hwf
      rw [PFormula.substF] at h
      match h1 : PFormula.substF [(x, PTerm.leaf ['_'])] (B ++ [y]) g with
      | .error k => rw [h1] at h; cases h
      | .ok g2 =>
          simp only [h1] at h
          have hf' : f' = .quant q y g2 := by simpa using h.symm
          rw [hf'] at hv
          rw [PFormula.freeVarsF, List.mem_filter] at hv
          have h9 := ihg (B ++ [y]) g2 hwf.2 h1 v hv.1
          rw [PFormula.freeVarsF, List.mem_filter]
          refine ⟨⟨h9.1, hv.2⟩, fun hvx => ?_⟩
          have h10 := h9.2 hvx
          rw [List.mem_append] at h10
          rcases h10 with h10 | h10
          · exact h10
          · exfalso
            have h11 : x = y := by simpa using h10
            have h12 : (v == y) = false := by simpa using hv.2
            rw [hvx, h11] at h12
            simp at h12

/-- The US-schema instantiation computed by `remove_assumption`'s UG branch:
with `Q:=φ`, `R:=α[x:='_']`, `x:=x`, instantiating `US` yields
`(Ax[(φ→α)]→(φ→Ax[α]))`, using the `'_'` round trip to recover α. -/
theorem instantiate_US_ok (phi alpha alphaParam : PFormula) (x : Str)
    (hx : isPredVariable x = true) (hwfa : alpha.wfF = true)
    (hua : noUnderscoreF alpha = true)
    (hsub : alpha.substF [(x, .leaf ['_'])] [] = .ok alphaParam)
    (hfree : x ∉ PFormula.freeVarsF phi) :
    Schema.instantiate schemaUS
      [(['Q'], .formula phi), (['R'], .formula alphaParam),
        (['x'], .varName x)] =
      .ok (pimpP (.quant ['A'] x (pimpP phi alpha))
        (pimpP phi (.quant ['A'] x alpha))) := by
  obtain ⟨fp, hrt1, hrt2⟩ := substF_underscore_rt x hx alpha [] hwfa hua
    (by simp)
  have hfp : fp = alphaParam := by
    have h9 := hrt1.symm.trans hsub
    simpa using h9
  subst hfp
  have hvarsA : ∀ v ∈ PFormula.freeVarsF fp, (v == x) = false := by
    intro v hv
    have h9 := substF_underscore_vars x alpha [] fp hwfa hrt1 v hv
    refine beq_eq_false_iff_ne.mpr ?_
    intro hvx
    exact absurd (h9.2 hvx) (by simp)
  have hvarsP : ∀ v ∈ PFormula.freeVarsF phi, (v == x) = false := by
    intro v hv
    refine beq_eq_false_iff_ne.mpr ?_
    intro hvx
    rw [hvx] at hv
    exact hfree hv
  have hcontains : ∀ v : Str, (v == x) = false → ([x].contains v) = false := by
    intro v hv
    simp [List.contains, List.elem, hv]
  have hfQx : (PFormula.freeVarsF phi).find?
      (fun v => !(v == ['_']) && ([x] : List Str).contains v) = none := by
    refine List.find?_eq_none.mpr ?_
    intro v hv
    rw [hcontains v (hvarsP v hv), Bool.and_false]
    exact Bool.false_ne_true
  have hfQn : (PFormula.freeVarsF phi).find?
      (fun v => !(v == ['_']) && ([] : List Str).contains v) = none := by
    refine List.find?_eq_none.mpr ?_
    intro v hv
    rw [show (([] : List Str).contains v) = false from rfl, Bool.and_false]
    exact Bool.false_ne_true
  have hfRx : (PFormula.freeVarsF fp).find?
      (fun v => !(v == ['_']) && ([x] : List Str).contains v) = none := by
    refine List.find?_eq_none.mpr ?_
    intro v hv
    rw [hcontains v (hvarsA v hv), Bool.and_false]
    exact Bool.false_ne_true
  have hlkQ : lookupStr [((['Q'] : Str), InstVal.formula phi),
      (['R'], InstVal.formula fp), (['x'], InstVal.varName x)] ['Q'] =
      some (InstVal.formula phi) := rfl
  have hlkR : lookupStr [((['Q'] : Str), InstVal.formula phi),
      (['R'], InstVal.formula fp), (['x'], InstVal.varName x)] ['R'] =
      some (InstVal.formula fp) := rfl
  have hlkX : lookupStr [((['Q'] : Str), InstVal.formula phi),
      (['R'], InstVal.formula fp), (['x'], InstVal.varName x)] ['x'] =
      some (InstVal.varName x) := rfl
  have hsub1 : PTerm.substT (instTermMap
      [((['Q'] : Str), InstVal.formula phi), (['R'], InstVal.formula fp),
        (['x'], InstVal.varName x)]) [] (.leaf ['x']) = .ok (.leaf x) := rfl
  show instantiateHelper
      [((['Q'] : Str), InstVal.formula phi), (['R'], InstVal.formula fp),
        (['x'], InstVal.varName x)]
      (.bin ['-', '>']
        (.quant ['A'] ['x'] (.bin ['-', '>'] (.rel ['Q'] [])
          (.rel ['R'] [.leaf ['x']])))
        (.bin ['-', '>'] (.rel ['Q'] [])
          (.quant ['A'] ['x'] (.rel ['R'] [.leaf ['x']])))) [] =
    .ok (.bin ['-', '>'] (.quant ['A'] x (.bin ['-', '>'] phi alpha))
      (.bin ['-', '>'] phi (.quant ['A'] x alpha)))
  simp only [instantiateHelper, instRel, hlkQ, hlkR, hlkX, List.nil_append,
    hfQx, hfQn, hfRx, hsub1, hrt2]

/-! ### The `remove_assumption` loop invariant (predicate logic) -/

def RAPredInv (p : PredProof) (phi : PFormula) (A2 : List Schema) (k : Nat)
    (st : RAPredState) : Prop :=
  st.pst.assumptions = A2 ∧
  st.imap.length = k ∧
  (∀ j < k, ∃ mj fj, st.imap.get? j = some mj ∧
    mj < st.pst.plines.length ∧
    (p.lines.get? j).map PredLine.formulaOf = some fj ∧
    (st.pst.plines.get? mj).map PredLine.formulaOf = some (pimpP phi fj)) ∧
  (∀ i < st.pst.plines.length,
    predLineValidAt A2 st.pst.plines i = true) ∧
  (1 ≤ k → st.imap.get? (k - 1) = some (st.pst.plines.length - 1))

theorem schemaUS_ne_simple (phi : PFormula) :
    (schemaUS == Schema.mk phi []) = false := by
  refine beq_eq_false_iff_ne.mpr ?_
  intro h
  rw [schemaUS] at h
  have h2 := congrArg Schema.templates h
  simp at h2

theorem mem_filter_A2 {S : List Schema} {phi : PFormula} {s : Schema}
    (hmem : s ∈ S) (hne : (s == Schema.mk phi []) = false) :
    (S.filter (fun s2 => !(s2 == Schema.mk phi []))).contains s = true := by
  refine List.elem_eq_true_of_mem ?_
  refine List.mem_filter.mpr ⟨hmem, ?_⟩
  rw [hne]
  rfl

theorem inv3_preserved {p : PredProof} {phi : PFormula} {A2 : List Schema}
    {k : Nat} {st : RAPredState} (hinv : RAPredInv p phi A2 k st)
    (ext : List PredLine) (newIdx : Nat) :
    ∀ j < k, ∃ mj fj, (st.imap ++ [newIdx]).get? j = some mj ∧
      mj < (st.pst.plines ++ ext).length ∧
      (p.lines.get? j).map PredLine.formulaOf = some fj ∧
      ((st.pst.plines ++ ext).get? mj).map PredLine.formulaOf =
        some (pimpP phi fj) := by
  intro j hj
  obtain ⟨mj, fj, h1, h2, h3, h4⟩ := hinv.2.2.1 j hj
  refine ⟨mj, fj, ?_, ?_, h3, ?_⟩
  · rw [List.get?_append (by rw [hinv.2.1]; exact hj)]
    exact h1
  · rw [List.length_append]
    omega
  · rw [List.get?_append h2]
    exact h4

theorem removeAssumptionPredStep_tautline_inv
    {p : PredProof} {phi : PFormula} {A2 : List Schema} {k : Nat}
    {st : RAPredState} {fj g : PFormula}
    (hg : isPredTautology g = true)
    (hlk : (p.lines.get? k).map PredLine.formulaOf = some fj)
    (hgf : g = pimpP phi fj)
    (hinv : RAPredInv p phi A2 k st) :
    RAPredInv p phi A2 (k + 1)
      ⟨⟨st.pst.assumptions, st.pst.plines ++ [.taut g]⟩,
        st.imap ++ [st.pst.plines.length]⟩ := by
  have hnew : predLineValid A2
      (st.pst.plines ++ [.taut g]) st.pst.plines.length
      (.taut g) = true := by
    rw [predLineValid]
    exact hg
  refine ⟨hinv.1, by simp [hinv.2.1], ?_, ?_, ?_⟩
  · intro j hj
    by_cases hjk : j < k
    · exact inv3_preserved hinv [PredLine.taut g]
        st.pst.plines.length j hjk
    · have hje : j = k := by omega
      subst hje
      refine ⟨st.pst.plines.length, fj, ?_, by simp, hlk, ?_⟩
      · rw [show j = st.imap.length from hinv.2.1.symm]
        exact List.get?_concat_length _ _
      · rw [List.get?_concat_length, ← hgf]
        rfl
  · show ∀ i < (st.pst.plines ++ [PredLine.taut g]).length,
      predLineValidAt A2 (st.pst.plines ++ [PredLine.taut g])
        i = true
    exact allValid_snoc hinv.2.2.2.1 hnew
  · intro _
    show (st.imap ++ [st.pst.plines.length]).get? (k + 1 - 1) = _
    rw [show k + 1 - 1 = st.imap.length from by rw [hinv.2.1]; omega,
      List.get?_concat_length]
    simp

theorem RAPredInv_after_impl
    {p : PredProof} {phi : PFormula} {A2 : List Schema} {k : Nat}
    {st : RAPredState} {st3 : ProverState} {idx : Nat} {fj : PFormula}
    (hinv : RAPredInv p phi A2 k st)
    (hassum : st3.assumptions = A2)
    (hlines : ∃ ext, st3.plines = st.pst.plines ++ ext)
    (hvalid3 : ∀ j < st3.plines.length,
      predLineValidAt st3.assumptions st3.plines j = true)
    (hidx : idx < st3.plines.length)
    (hform : (st3.plines.get? idx).map PredLine.formulaOf =
      some (pimpP phi fj))
    (hlast : idx + 1 = st3.plines.length)
    (hlk : (p.lines.get? k).map PredLine.formulaOf = some fj) :
    RAPredInv p phi A2 (k + 1) ⟨st3, st.imap ++ [idx]⟩ := by
  obtain ⟨ext, hext⟩ := hlines
  refine ⟨hassum, by simp [hinv.2.1], ?_, ?_, ?_⟩
  · intro j hj
    by_cases hjk : j < k
    · have h9 := inv3_preserved hinv ext idx j hjk
      rw [← hext] at h9
      exact h9
    · have hje : j = k := by omega
      subst hje
      refine ⟨idx, fj, ?_, hidx, hlk, hform⟩
      rw [show j = st.imap.length from hinv.2.1.symm]
      exact List.get?_concat_length _ _
  · intro i hi
    rw [← hassum]
    exact hvalid3 i hi
  · intro _
    show (st.imap ++ [idx]).get? (k + 1 - 1) = some (st3.plines.length - 1)
    rw [show k + 1 - 1 = st.imap.length from by rw [hinv.2.1]; omega,
      List.get?_concat_length]
    congr 1
    omega

/-- One loop iteration of predicates/deduction.py `remove_assumption`
succeeds on a valid line and preserves the invariant. -/
theorem removeAssumptionPredStep_ok
    {p : PredProof} {phi : PFormula} {A2 : List Schema} {k : Nat}
    {st : RAPredState} {l : PredLine}
    (hA2 : A2 = p.assumptions.filter (fun s => !(s == Schema.mk phi [])))
    (hax : schemaUS ∈ p.assumptions)
    (hwfphi : phi.wfF = true)
    (hwfl : ∀ l2 ∈ p.lines, (PredLine.formulaOf l2).wfF = true)
    (hnou : ∀ l2 ∈ p.lines, noUnderscoreF (PredLine.formulaOf l2) = true)
    (hug : ∀ l2 ∈ p.lines, ∀ q x g pi2, l2 = .ug (.quant q x g) pi2 →
      x ∉ PFormula.freeVarsF phi)
    (hlk : p.lines.get? k = some l)
    (hvl : predLineValid p.assumptions p.lines k l = true)
    (hinv : RAPredInv p phi A2 k st) :
    ∃ st2, removeAssumptionPredStep phi st l = some st2 ∧
      RAPredInv p phi A2 (k + 1) st2 := by
  have hmem : l ∈ p.lines := List.get?_mem hlk
  have hlkf : (p.lines.get? k).map PredLine.formulaOf =
      some l.formulaOf := by rw [hlk]; rfl
  cases l with
  | taut f =>
      rw [predLineValid] at hvl
      refine ⟨⟨⟨st.pst.assumptions,
        st.pst.plines ++ [PredLine.taut (pimpP phi f)]⟩,
        st.imap ++ [st.pst.plines.length]⟩, rfl, ?_⟩
      exact removeAssumptionPredStep_tautline_inv
        (predTaut_weaken phi f hwfphi (hwfl _ hmem) hvl) hlkf rfl hinv
  | assumption f s m =>
      rw [predLineValid] at hvl
      simp only [Bool.and_eq_true] at hvl
      obtain ⟨⟨hs1, hs2⟩, hs3⟩ := hvl
      by_cases hfeq : (f == phi) = true
      · have hfp : f = phi := eq_of_beq hfeq
        refine ⟨⟨⟨st.pst.assumptions,
          st.pst.plines ++ [PredLine.taut (pimpP phi phi)]⟩,
          st.imap ++ [st.pst.plines.length]⟩, ?_, ?_⟩
        · rw [removeAssumptionPredStep, if_pos hfeq]
          rfl
        · refine removeAssumptionPredStep_tautline_inv
            (predTaut_self phi hwfphi) hlkf ?_ hinv
          show pimpP phi phi = pimpP phi f
          rw [hfp]
      · have hfeq2 : (f == phi) = false := by simpa using hfeq
        have hne : (s == Schema.mk phi []) = false := by
          cases h9 : s == Schema.mk phi []
          · rfl
          · exfalso
            have hseq : s = Schema.mk phi [] := eq_of_beq h9
            subst hseq
            have hm := instMapKeysOk_nil_schema hs2
            subst hm
            rw [show Schema.instantiate (Schema.mk phi []) [] = .ok phi from
              instantiateHelper_nil phi []] at hs3
            have h10 : phi = f := eq_of_beq hs3
            rw [← h10] at hfeq2
            simp at hfeq2
        obtain ⟨f2, h91, h92⟩ : ∃ f2, Schema.instantiate s m = .ok f2 ∧
            (f2 == f) = true := by
          match h9 : Schema.instantiate s m with
          | .ok f2 =>
              simp only [h9] at hs3
              exact ⟨f2, rfl, hs3⟩
          | .error e =>
              simp only [h9] at hs3
              cases hs3
        have hasm_new : predLineValid A2
            (st.pst.plines ++ [.assumption f s m]) st.pst.plines.length
            (.assumption f s m) = true := by
          rw [predLineValid, hA2]
          rw [mem_filter_A2 (List.mem_of_elem_eq_true hs1) hne, hs2]
          simp only [h91, h92]
          rfl
        have hall2 := allValid_snoc hinv.2.2.2.1 hasm_new
        have hcf : ([st.pst.plines.length] : List Nat).mapM
            (fun i => ((st.pst.plines ++ [PredLine.assumption f s m]).get?
              i).map PredLine.formulaOf) = some [f] := by
          have hget : (st.pst.plines ++
              [PredLine.assumption f s m])[st.pst.plines.length]? =
              some (PredLine.assumption f s m) :=
            List.getElem?_concat_length _ _
          simp [List.mapM_cons, List.mapM_nil, List.mapM, List.mapM.loop,
            hget, PredLine.formulaOf]
        have htaut2 : isPredTautology
            (implicationChain (pimpP phi f) [f]) = true := by
          show isPredTautology (pimpP f (pimpP phi f)) = true
          exact predTaut_K phi f hwfphi (hwfl _ hmem)
        have hok := addTautologicalImplication_ok
          ⟨st.pst.assumptions, st.pst.plines ++
            [PredLine.assumption f s m]⟩
          (pimpP phi f) [st.pst.plines.length] [f]
          (by
            intro j hj
            show predLineValidAt st.pst.assumptions
              (st.pst.plines ++ [PredLine.assumption f s m]) j = true
            rw [hinv.1]
            exact hall2 j hj)
          hcf htaut2
        obtain ⟨st3, idx, hcall, hassum3, hlines3, hvalid3, hidx3, hform3,
          hlast3⟩ := hok
        refine ⟨⟨st3, st.imap ++ [idx]⟩, ?_, ?_⟩
        · rw [removeAssumptionPredStep,
            if_neg (by rw [hfeq2]; exact Bool.false_ne_true)]
          show (match (⟨st.pst.assumptions,
              st.pst.plines ++ [PredLine.assumption f s m]⟩ :
                ProverState).addTautologicalImplication (pimpP phi f)
                [st.pst.plines.length] with
            | none => none
            | some (st3, idx) =>
                some (⟨st3, st.imap ++ [idx]⟩ : RAPredState)) =
            some (⟨st3, st.imap ++ [idx]⟩ : RAPredState)
          simp only [hcall]
        · refine RAPredInv_after_impl hinv (hassum3.trans hinv.1) ?_
            hvalid3 hidx3 hform3 hlast3 hlkf
          obtain ⟨ext, hext⟩ := hlines3
          exact ⟨[PredLine.assumption f s m] ++ ext,
            by rw [hext, List.append_assoc]⟩
  | mp f a c =>
      rw [predLineValid] at hvl
      simp only [Bool.and_eq_true, decide_eq_true_eq] at hvl
      obtain ⟨⟨ha, hc⟩, hmatch⟩ := hvl
      cases h9a : (p.lines.get? a).map PredLine.formulaOf with
      | none => simp only [h9a] at hmatch; cases hmatch
      | some fa =>
      cases h9c : (p.lines.get? c).map PredLine.formulaOf with
      | none => simp only [h9a, h9c] at hmatch; cases hmatch
      | some fc =>
      simp only [h9a, h9c] at hmatch
      have hfc : fc = pimpP fa f := eq_of_beq hmatch
      obtain ⟨ma, fa', hia1, hia2, hia3, hia4⟩ := hinv.2.2.1 a ha
      have hfa' : fa = fa' := by
        rw [h9a] at hia3
        simpa using hia3
      subst hfa'
      obtain ⟨mc, fc', hic1, hic2, hic3, hic4⟩ := hinv.2.2.1 c hc
      have hfc' : fc = fc' := by
        rw [h9c] at hic3
        simpa using hic3
      subst hfc'
      have hwff : f.wfF = true := hwfl _ hmem
      have hwfa : fa.wfF = true := by
        cases hga : p.lines.get? a with
        | none => rw [hga] at h9a; cases h9a
        | some la =>
            have h10 : la.formulaOf = fa := by
              rw [hga] at h9a
              simpa using h9a
            rw [← h10]
            exact hwfl _ (List.get?_mem hga)
      have hcf : ([ma, mc] : List Nat).mapM
          (fun i => (st.pst.plines.get? i).map PredLine.formulaOf) =
          some [pimpP phi fa, pimpP phi fc] := by
        have hga : (st.pst.plines[ma]?).map PredLine.formulaOf =
            some (pimpP phi fa) := by
          rw [← List.get?_eq_getElem?]
          exact hia4
        have hgc : (st.pst.plines[mc]?).map PredLine.formulaOf =
            some (pimpP phi fc) := by
          rw [← List.get?_eq_getElem?]
          exact hic4
        simp [List.mapM, List.mapM.loop, hga, hgc]
      have htaut3 : isPredTautology
          (implicationChain (pimpP phi f) [pimpP phi fa, pimpP phi fc])
          = true := by
        show isPredTautology (pimpP (pimpP phi fa)
          (pimpP (pimpP phi fc) (pimpP phi f))) = true
        rw [hfc]
        exact predTaut_mp2 phi fa f hwfphi hwfa hwff
      have hok := addTautologicalImplication_ok st.pst (pimpP phi f)
        [ma, mc] [pimpP phi fa, pimpP phi fc]
        (by
          intro j hj
          rw [hinv.1]
          exact hinv.2.2.2.1 j hj)
        hcf htaut3
      obtain ⟨st3, idx, hcall, hassum3, hlines3, hvalid3, hidx3, hform3,
        hlast3⟩ := hok
      refine ⟨⟨st3, st.imap ++ [idx]⟩, ?_, ?_⟩
      · rw [removeAssumptionPredStep]
        simp only [hia1, hic1]
        simp only [hcall]
      · exact RAPredInv_after_impl hinv (hassum3.trans hinv.1) hlines3
          hvalid3 hidx3 hform3 hlast3 hlkf
  | ug f pidx =>
      rw [predLineValid] at hvl
      simp only [Bool.and_eq_true, decide_eq_true_eq] at hvl
      obtain ⟨hp, hmatch⟩ := hvl
      cases h9p : (p.lines.get? pidx).map PredLine.formulaOf with
      | none => simp only [h9p] at hmatch; cases hmatch
      | some fp =>
      simp only [h9p] at hmatch
      cases f with
      | eq t1 t2 => simp at hmatch
      | rel r args => simp at hmatch
      | un g => simp at hmatch
      | bin op g h => simp at hmatch
      | quant q x alpha =>
      have hmatch2 : (q == (['A'] : Str) && alpha == fp) = true := hmatch
      rw [Bool.and_eq_true] at hmatch2
      have hq : q = ['A'] := eq_of_beq hmatch2.1
      subst hq
      have halpha : fp = alpha := (eq_of_beq hmatch2.2).symm
      have hwfF2 : (PFormula.quant ['A'] x alpha).wfF = true := hwfl _ hmem
      rw [PFormula.wfF] at hwfF2
      simp only [Bool.and_eq_true] at hwfF2
      have hx : isPredVariable x = true := hwfF2.1.2
      have hwfalpha : alpha.wfF = true := hwfF2.2
      have hnoa : noUnderscoreF alpha = true := hnou _ hmem
      have hxfree : x ∉ PFormula.freeVarsF phi :=
        hug _ hmem ['A'] x alpha pidx rfl
      obtain ⟨fp', hrt1, hrt2x⟩ :=
        substF_underscore_rt x hx alpha [] hwfalpha hnoa (by simp)
      have hinst := instantiate_US_ok phi alpha fp' x hx hwfalpha hnoa
        hrt1 hxfree
      obtain ⟨mpi, fpi, hip1, hip2, hip3, hip4⟩ := hinv.2.2.1 pidx hp
      have hfpi : alpha = fpi := by
        rw [h9p] at hip3
        have h12 : fp = fpi := by simpa using hip3
        exact halpha.symm.trans h12
      subst hfpi
      have hv1 : predLineValid A2
          (st.pst.plines ++
            [PredLine.ug (PFormula.quant ['A'] x (pimpP phi alpha)) mpi])
          st.pst.plines.length
          (PredLine.ug (PFormula.quant ['A'] x (pimpP phi alpha)) mpi)
          = true := by
        rw [predLineValid]
        have h11 : (decide (mpi < st.pst.plines.length)) = true := by
          simp [hip2]
        rw [h11, Bool.true_and]
        rw [List.get?_append hip2]
        simp only [hip4]
        show ((['A'] : Str) == ['A'] &&
          (pimpP phi alpha == pimpP phi alpha)) = true
        simp
      have hall1 := allValid_snoc hinv.2.2.2.1 hv1
      have hv2 : predLineValid A2
          ((st.pst.plines ++
            [PredLine.ug (PFormula.quant ['A'] x (pimpP phi alpha)) mpi]) ++
            [PredLine.assumption
              (pimpP (PFormula.quant ['A'] x (pimpP phi alpha))
                (pimpP phi (PFormula.quant ['A'] x alpha)))
              schemaUS
              [(['Q'], InstVal.formula phi), (['R'], InstVal.formula fp'),
                (['x'], InstVal.varName x)]])
          (st.pst.plines ++
            [PredLine.ug (PFormula.quant ['A'] x (pimpP phi alpha))
              mpi]).length
          (PredLine.assumption
            (pimpP (PFormula.quant ['A'] x (pimpP phi alpha))
              (pimpP phi (PFormula.quant ['A'] x alpha)))
            schemaUS
            [(['Q'], InstVal.formula phi), (['R'], InstVal.formula fp'),
              (['x'], InstVal.varName x)]) = true := by
        rw [predLineValid, hA2]
        rw [mem_filter_A2 hax (schemaUS_ne_simple phi)]
        rw [show instMapKeysOk schemaUS
          [(['Q'], InstVal.formula phi), (['R'], InstVal.formula fp'),
            (['x'], InstVal.varName x)] = true from rfl]
        simp only [hinst]
        simp
      have hall2 := allValid_snoc hall1 hv2
      have hv3 : predLineValid A2
          (((st.pst.plines ++
            [PredLine.ug (PFormula.quant ['A'] x (pimpP phi alpha)) mpi]) ++
            [PredLine.assumption
              (pimpP (PFormula.quant ['A'] x (pimpP phi alpha))
                (pimpP phi (PFormula.quant ['A'] x alpha)))
              schemaUS
              [(['Q'], InstVal.formula phi), (['R'], InstVal.formula fp'),
                (['x'], InstVal.varName x)]]) ++
            [PredLine.mp (pimpP phi (PFormula.quant ['A'] x alpha))
              st.pst.plines.length
              (st.pst.plines ++
                [PredLine.ug (PFormula.quant ['A'] x (pimpP phi alpha))
                  mpi]).length])
          ((st.pst.plines ++
            [PredLine.ug (PFormula.quant ['A'] x (pimpP phi alpha)) mpi]) ++
            [PredLine.assumption
              (pimpP (PFormula.quant ['A'] x (pimpP phi alpha))
                (pimpP phi (PFormula.quant ['A'] x alpha)))
              schemaUS
              [(['Q'], InstVal.formula phi), (['R'], InstVal.formula fp'),
                (['x'], InstVal.varName x)]]).length
          (PredLine.mp (pimpP phi (PFormula.quant ['A'] x alpha))
            st.pst.plines.length
            (st.pst.plines ++
              [PredLine.ug (PFormula.quant ['A'] x (pimpP phi alpha))
                mpi]).length) = true := by
        rw [predLineValid]
        have hb1 : (decide (st.pst.plines.length <
            ((st.pst.plines ++
              [PredLine.ug (PFormula.quant ['A'] x (pimpP phi alpha))
                mpi]) ++
              [PredLine.assumption
                (pimpP (PFormula.quant ['A'] x (pimpP phi alpha))
                  (pimpP phi (PFormula.quant ['A'] x alpha)))
                schemaUS
                [(['Q'], InstVal.formula phi), (['R'], InstVal.formula fp'),
                  (['x'], InstVal.varName x)]]).length)) = true := by
          simp
        have hb2 : (decide ((st.pst.plines ++
            [PredLine.ug (PFormula.quant ['A'] x (pimpP phi alpha))
              mpi]).length <
            ((st.pst.plines ++
              [PredLine.ug (PFormula.quant ['A'] x (pimpP phi alpha))
                mpi]) ++
              [PredLine.assumption
                (pimpP (PFormula.quant ['A'] x (pimpP phi alpha))
                  (pimpP phi (PFormula.quant ['A'] x alpha)))
                schemaUS
                [(['Q'], InstVal.formula phi), (['R'], InstVal.formula fp'),
                  (['x'], InstVal.varName x)]]).length)) = true := by
          simp
        rw [hb1, hb2, Bool.true_and, Bool.true_and]
        have hg1 : (((st.pst.plines ++
            [PredLine.ug (PFormula.quant ['A'] x (pimpP phi alpha)) mpi]) ++
            [PredLine.assumption
              (pimpP (PFormula.quant ['A'] x (pimpP phi alpha))
                (pimpP phi (PFormula.quant ['A'] x alpha)))
              schemaUS
              [(['Q'], InstVal.formula phi), (['R'], InstVal.formula fp'),
                (['x'], InstVal.varName x)]]) ++
            [PredLine.mp (pimpP phi (PFormula.quant ['A'] x alpha))
              st.pst.plines.length
              (st.pst.plines ++
                [PredLine.ug (PFormula.quant ['A'] x (pimpP phi alpha))
                  mpi]).length]).get? st.pst.plines.length =
            some (PredLine.ug (PFormula.quant ['A'] x (pimpP phi alpha))
              mpi) := by
          rw [List.get?_append (by simp), List.get?_append (by simp),
            List.get?_concat_length]
        have hg2 : (((st.pst.plines ++
            [PredLine.ug (PFormula.quant ['A'] x (pimpP phi alpha)) mpi]) ++
            [PredLine.assumption
              (pimpP (PFormula.quant ['A'] x (pimpP phi alpha))
                (pimpP phi (PFormula.quant ['A'] x alpha)))
              schemaUS
              [(['Q'], InstVal.formula phi), (['R'], InstVal.formula fp'),
                (['x'], InstVal.varName x)]]) ++
            [PredLine.mp (pimpP phi (PFormula.quant ['A'] x alpha))
              st.pst.plines.length
              (st.pst.plines ++
                [PredLine.ug (PFormula.quant ['A'] x (pimpP phi alpha))
                  mpi]).length]).get?
              (st.pst.plines ++
                [PredLine.ug (PFormula.quant ['A'] x (pimpP phi alpha))
                  mpi]).length =
            some (PredLine.assumption
              (pimpP (PFormula.quant ['A'] x (pimpP phi alpha))
                (pimpP phi (PFormula.quant ['A'] x alpha)))
              schemaUS
              [(['Q'], InstVal.formula phi), (['R'], InstVal.formula fp'),
                (['x'], InstVal.varName x)]) := by
          rw [List.get?_append (by simp), List.get?_concat_length]
        simp only [hg1, hg2, Option.map_some]
        show ((pimpP (PFormula.quant ['A'] x (pimpP phi alpha))
            (pimpP phi (PFormula.quant ['A'] x alpha))) ==
          (pimpP (PFormula.quant ['A'] x (pimpP phi alpha))
            (pimpP phi (PFormula.quant ['A'] x alpha)))) = true
        simp
      have hall3 := allValid_snoc hall2 hv3
      refine ⟨⟨⟨st.pst.assumptions,
        ((st.pst.plines ++
          [PredLine.ug (PFormula.quant ['A'] x (pimpP phi alpha)) mpi]) ++
          [PredLine.assumption
            (pimpP (PFormula.quant ['A'] x (pimpP phi alpha))
              (pimpP phi (PFormula.quant ['A'] x alpha)))
            schemaUS
            [(['Q'], InstVal.formula phi), (['R'], InstVal.formula fp'),
              (['x'], InstVal.varName x)]]) ++
          [PredLine.mp (pimpP phi (PFormula.quant ['A'] x alpha))
            st.pst.plines.length
            (st.pst.plines ++
              [PredLine.ug (PFormula.quant ['A'] x (pimpP phi alpha))
                mpi]).length]⟩,
        st.imap ++ [((st.pst.plines ++
          [PredLine.ug (PFormula.quant ['A'] x (pimpP phi alpha)) mpi]) ++
          [PredLine.assumption
            (pimpP (PFormula.quant ['A'] x (pimpP phi alpha))
              (pimpP phi (PFormula.quant ['A'] x alpha)))
            schemaUS
            [(['Q'], InstVal.formula phi), (['R'], InstVal.formula fp'),
              (['x'], InstVal.varName x)]]).length]⟩, ?_, ?_⟩
      · unfold removeAssumptionPredStep
        simp only [hip1, hrt1]
        rfl
      · refine RAPredInv_after_impl hinv hinv.1
          ⟨[PredLine.ug (PFormula.quant ['A'] x (pimpP phi alpha)) mpi] ++
            [PredLine.assumption
              (pimpP (PFormula.quant ['A'] x (pimpP phi alpha))
                (pimpP phi (PFormula.quant ['A'] x alpha)))
              schemaUS
              [(['Q'], InstVal.formula phi), (['R'], InstVal.formula fp'),
                (['x'], InstVal.varName x)]] ++
            [PredLine.mp (pimpP phi (PFormula.quant ['A'] x alpha))
              st.pst.plines.length
              (st.pst.plines ++
                [PredLine.ug (PFormula.quant ['A'] x (pimpP phi alpha))
                  mpi]).length], by simp⟩
          ?_ ?_ ?_ ?_ hlkf
        · intro j hj
          have h20 := hall3 j hj
          rw [← hinv.1] at h20
          exact h20
        · simp
        · rw [List.get?_concat_length]
          rfl
        · simp

theorem removeAssumptionPred_fold
    {p : PredProof} {phi : PFormula} {A2 : List Schema}
    (hA2 : A2 = p.assumptions.filter (fun s => !(s == Schema.mk phi [])))
    (hax : schemaUS ∈ p.assumptions)
    (hwfphi : phi.wfF = true)
    (hwfl : ∀ l2 ∈ p.lines, (PredLine.formulaOf l2).wfF = true)
    (hnou : ∀ l2 ∈ p.lines, noUnderscoreF (PredLine.formulaOf l2) = true)
    (hug : ∀ l2 ∈ p.lines, ∀ q x g pi2, l2 = .ug (.quant q x g) pi2 →
      x ∉ PFormula.freeVarsF phi)
    (hvalid : ∀ i < p.lines.length,
      predLineValidAt p.assumptions p.lines i = true) :
    ∀ (suffix : List PredLine) (k : Nat) (st : RAPredState),
    (∀ j, suffix.get? j = p.lines.get? (k + j)) →
    suffix.length + k = p.lines.length →
    RAPredInv p phi A2 k st →
    ∃ st2, suffix.foldlM (removeAssumptionPredStep phi) st = some st2 ∧
      RAPredInv p phi A2 p.lines.length st2 := by
  intro suffix
  induction suffix with
  | nil =>
      intro k st hsuf hlen hinv
      have hk : k = p.lines.length := by simpa using hlen
      subst hk
      exact ⟨st, rfl, hinv⟩
  | cons l rest ih =>
      intro k st hsuf hlen hinv
      have hlk : p.lines.get? k = some l := by
        have h9 := hsuf 0
        simpa using h9.symm
      have hkl : k < p.lines.length := by
        simp only [List.length_cons] at hlen
        omega
      have hvl : predLineValid p.assumptions p.lines k l = true := by
        have h9 := hvalid k hkl
        rw [predLineValidAt, hlk] at h9
        exact h9
      obtain ⟨st2, hstep, hinv2⟩ := removeAssumptionPredStep_ok hA2 hax
        hwfphi hwfl hnou hug hlk hvl hinv
      simp only [List.foldlM_cons, hstep, Option.bind_eq_bind,
        Option.some_bind]
      refine ih (k + 1) st2 ?_ ?_ hinv2
      · intro j
        have h9 := hsuf (j + 1)
        rw [show k + (j + 1) = k + 1 + j from by omega] at h9
        simpa using h9
      · simp only [List.length_cons] at hlen
        omega

/-- `remove_assumption` (predicates/deduction.py, Task 11.1), general
specification: on a valid proof, a well-formed `'_'`-free assumption set-up
satisfying the documented preconditions, it returns a valid proof of
`(φ→conclusion)` from the assumptions without `Schema(φ)`. -/
theorem removeAssumptionPred_ok
    {p : PredProof} {phi : PFormula}
    (hv : p.isValid = true)
    (hax : schemaUS ∈ p.assumptions)
    (hwfphi : phi.wfF = true)
    (hwfl : ∀ l2 ∈ p.lines, (PredLine.formulaOf l2).wfF = true)
    (hnou : ∀ l2 ∈ p.lines, noUnderscoreF (PredLine.formulaOf l2) = true)
    (hug : ∀ l2 ∈ p.lines, ∀ q x g pi2, l2 = .ug (.quant q x g) pi2 →
      x ∉ PFormula.freeVarsF phi) :
    ∃ q2, removeAssumptionPred p phi = some q2 ∧ q2.isValid = true ∧
      q2.assumptions =
        p.assumptions.filter (fun s => !(s == Schema.mk phi [])) ∧
      q2.conclusion = pimpP phi p.conclusion := by
  rw [PredProof.isValid, Bool.and_eq_true] at hv
  obtain ⟨hv1, hv2⟩ := hv
  have hvalid : ∀ i < p.lines.length,
      predLineValidAt p.assumptions p.lines i = true := by
    intro i hi
    rw [List.all_eq_true] at hv1
    exact hv1 i (List.mem_range.mpr hi)
  obtain ⟨lastl, hlast⟩ : ∃ l2, p.lines.getLast? = some l2 := by
    match h9 : p.lines.getLast? with
    | some l2 => exact ⟨l2, rfl⟩
    | none => rw [h9] at hv2; cases hv2
  have hconc : lastl.formulaOf = p.conclusion := by
    rw [hlast] at hv2
    exact eq_of_beq hv2
  have hN : 1 ≤ p.lines.length := by
    cases h9 : p.lines with
    | nil => rw [h9] at hlast; cases hlast
    | cons a as => simp [h9]
  have hinv0 : RAPredInv p phi
      (p.assumptions.filter (fun s => !(s == Schema.mk phi []))) 0
      ⟨⟨p.assumptions.filter (fun s => !(s == Schema.mk phi [])), []⟩,
        []⟩ := by
    refine ⟨rfl, rfl, ?_, ?_, ?_⟩
    · intro j hj
      omega
    · intro i hi
      simp at hi
    · intro h9
      omega
  obtain ⟨stF, hfold, hinvF⟩ := removeAssumptionPred_fold rfl hax hwfphi
    hwfl hnou hug hvalid p.lines 0
    ⟨⟨p.assumptions.filter (fun s => !(s == Schema.mk phi [])), []⟩, []⟩
    (fun j => by simp) (by simp) hinv0
  obtain ⟨mN, fN, hm1, hm2, hm3, hm4⟩ := hinvF.2.2.1 (p.lines.length - 1)
    (by omega)
  have hfN : fN = p.conclusion := by
    rw [List.getLast?_eq_getElem?, ← List.get?_eq_getElem?] at hlast
    rw [hlast] at hm3
    have h9 : lastl.formulaOf = fN := by simpa using hm3
    rw [← h9, hconc]
  have hmN : mN = stF.pst.plines.length - 1 := by
    have h9 := hinvF.2.2.2.2 (by omega)
    rw [hm1] at h9
    exact Option.some.inj h9
  have hlen1 : 1 ≤ stF.pst.plines.length := by omega
  obtain ⟨lastq, hlastq⟩ : ∃ l2, stF.pst.plines.getLast? = some l2 := by
    match h9 : stF.pst.plines.getLast? with
    | some l2 => exact ⟨l2, rfl⟩
    | none =>
        exfalso
        rw [List.getLast?_eq_getElem?] at h9
        have h10 := List.getElem?_eq_none_iff.mp h9
        omega
  have hlastf : lastq.formulaOf = pimpP phi p.conclusion := by
    have h9 : stF.pst.plines.get? mN = some lastq := by
      rw [hmN, List.get?_eq_getElem?, ← List.getLast?_eq_getElem?]
      exact hlastq
    rw [h9] at hm4
    have h10 : lastq.formulaOf = pimpP phi fN := by simpa using hm4
    rw [h10, hfN]
  refine ⟨⟨p.assumptions.filter (fun s => !(s == Schema.mk phi [])),
    lastq.formulaOf, stF.pst.plines⟩, ?_, ?_, rfl, ?_⟩
  · rw [removeAssumptionPred]
    simp only [hfold, hlastq]
  · rw [PredProof.isValid, Bool.and_eq_true]
    constructor
    · rw [List.all_eq_true]
      intro i hi
      exact hinvF.2.2.2.1 i (List.mem_range.mp hi)
    · show (match stF.pst.plines.getLast? with
        | some l2 => l2.formulaOf == lastq.formulaOf
        | none => false) = true
      rw [hlastq]
      simp
  · exact hlastf

/-- C5: `remove_assumption` converts a valid proof of ψ with designated
assumption φ into a valid proof of `(φ→ψ)` from the remaining assumptions.
Propositional logic (propositions/deduction.py): φ the last assumption,
every non-MP rule assumptionless; the result proves `(φ→ψ)` from the
other assumptions via the rules extended with MP, I0, I1, D.  Predicate
logic (predicates/deduction.py): φ a well-formed `'_'`-free template-free
assumption, the proof's lines well-formed and `'_'`-free with the US axiom
among the assumptions (Prover.AXIOMS ⊆ assumptions), and no UG line over a
variable free in φ; the result proves `(φ→ψ)` from the assumptions without
`Schema(φ)`.  Concretely, removing `'(p->q)'` from a proof of `'q'` from
`['p', '(p->q)']` yields a valid proof of `'((p->q)->q)'` from `['p']`. -/
theorem remove_assumption_ok :
    (∀ (p : PProof) (phi : PropFormula),
      p.isValid = true →
      (∀ r ∈ p.rules, r = AX.MP ∨ r.assumptions = []) →
      p.statement.assumptions.getLast? = some phi →
      ∃ q, removeAssumption p = some q ∧ q.isValid = true ∧
        q.statement = ⟨p.statement.assumptions.dropLast,
          pimp phi p.statement.conclusion⟩ ∧
        q.rules = unionRules p.rules [AX.MP, AX.I0, AX.I1, AX.D]) ∧
    (∀ (p : PredProof) (phi : PFormula),
      p.isValid = true →
      Schema.mk phi [] ∈ p.assumptions →
      schemaUS ∈ p.assumptions →
      phi.wfF = true →
      (∀ l2 ∈ p.lines, (PredLine.formulaOf l2).wfF = true) →
      (∀ l2 ∈ p.lines, noUnderscoreF (PredLine.formulaOf l2) = true) →
      (∀ l2 ∈ p.lines, ∀ q x g pi2, l2 = .ug (.quant q x g) pi2 →
        x ∉ PFormula.freeVarsF phi) →
      ∃ q2, removeAssumptionPred p phi = some q2 ∧ q2.isValid = true ∧
        q2.assumptions =
          p.assumptions.filter (fun s => !(s == Schema.mk phi [])) ∧
        q2.conclusion = pimpP phi p.conclusion) ∧
    ((match removeAssumption
        ⟨⟨[.leaf ['p'], pimp (.leaf ['p']) (.leaf ['q'])], .leaf ['q']⟩,
          [AX.MP],
          [assumptionLine (.leaf ['p']),
            assumptionLine (pimp (.leaf ['p']) (.leaf ['q'])),
            ruleLine (some (.leaf ['q'])) AX.MP [0, 1]]⟩ with
      | some q2 => q2.isValid &&
          (q2.statement == ⟨[.leaf ['p']],
            pimp (pimp (.leaf ['p']) (.leaf ['q'])) (.leaf ['q'])⟩)
      | none => false) = true) := by
  refine ⟨?_, ?_, ?_⟩
  · intro p phi hv hrules hphi
    exact removeAssumption_ok hv hrules hphi
  · intro p phi hv _ hax hwfphi hwfl hnou hug
    exact removeAssumptionPred_ok hv hax hwfphi hwfl hnou hug
  · decide

theorem remove_assumption_ok_witness :
    (∃ q, removeAssumption
        ⟨⟨[.leaf ['p'], pimp (.leaf ['p']) (.leaf ['q'])], .leaf ['q']⟩,
          [AX.MP],
          [assumptionLine (.leaf ['p']),
            assumptionLine (pimp (.leaf ['p']) (.leaf ['q'])),
            ruleLine (some (.leaf ['q'])) AX.MP [0, 1]]⟩ = some q ∧
      q.isValid = true ∧
      q.statement = ⟨([PropFormula.leaf ['p'],
          pimp (.leaf ['p']) (.leaf ['q'])] : List PropFormula).dropLast,
        pimp (pimp (.leaf ['p']) (.leaf ['q'])) (.leaf ['q'])⟩ ∧
      q.rules = unionRules [AX.MP] [AX.MP, AX.I0, AX.I1, AX.D]) ∧
    (∃ q2, removeAssumptionPred
        ⟨[Schema.mk (.rel ['P'] []) [], schemaUS], .rel ['P'] [],
          [.assumption (.rel ['P'] []) (Schema.mk (.rel ['P'] []) []) []]⟩
        (.rel ['P'] []) = some q2 ∧
      q2.isValid = true ∧
      q2.assumptions = ([Schema.mk (.rel ['P'] []) [], schemaUS] :
        List Schema).filter
          (fun s => !(s == Schema.mk (.rel ['P'] []) [])) ∧
      q2.conclusion = pimpP (.rel ['P'] []) (.rel ['P'] [])) := by
  constructor
  · exact remove_assumption_ok.1
      ⟨⟨[.leaf ['p'], pimp (.leaf ['p']) (.leaf ['q'])], .leaf ['q']⟩,
        [AX.MP],
        [assumptionLine (.leaf ['p']),
          assumptionLine (pimp (.leaf ['p']) (.leaf ['q'])),
          ruleLine (some (.leaf ['q'])) AX.MP [0, 1]]⟩
      (pimp (.leaf ['p']) (.leaf ['q']))
      (by decide) (by decide) rfl
  · exact remove_assumption_ok.2.1
      ⟨[Schema.mk (.rel ['P'] []) [], schemaUS], .rel ['P'] [],
        [.assumption (.rel ['P'] []) (Schema.mk (.rel ['P'] []) []) []]⟩
      (.rel ['P'] [])
      (by decide) (by decide) (by decide) (by decide) (by decide)
      (by decide)
      (by
        intro l2 hl2 q x g pi2 heq
        rw [List.mem_singleton] at hl2
        rw [hl2] at heq
        simp at heq)

/-! ### Predicate model semantics.  predicates/semantics.py is not among the
sources; term/formula evaluation is modelled from the spec, sections 3 and
4.1: terms evaluate through the constant/function meanings and the variable
assignment, `=` compares universe elements, a relation applies its meaning
set, quantifiers range over the universe.  A missing meaning (Python
`KeyError`) is `none`.  The source recursion is structural on the formula;
it is modelled with a fuel parameter (any fuel above the quantifier depth
computes the same result, and `evalFormulaTop` supplies it). -/

def lookupTuple {α : Type} (m : List (List Str × α)) (k : List Str) :
    Option α :=
  match m with
  | [] => none
  | (k', v) :: rest => if k' == k then some v else lookupTuple rest k

mutual
def evalTermM (M : PredModel) (asg : List (Str × Str)) : PTerm → Option Str
  | .leaf s =>
      if isPredVariable s then lookupStr asg s
      else lookupStr M.constantMeanings s
  | .func f args =>
      match evalTermListM M asg args with
      | none => none
      | some vals =>
          match lookupStr M.functionMeanings f with
          | none => none
          | some fm => lookupTuple fm vals
def evalTermListM (M : PredModel) (asg : List (Str × Str)) :
    List PTerm → Option (List Str)
  | [] => some []
  | t :: ts =>
      match evalTermM M asg t with
      | none => none
      | some v =>
          match evalTermListM M asg ts with
          | none => none
          | some vs => some (v :: vs)
end

def quantEvalList (ev : Str → Option Bool) : List Str → Option (List Bool)
  | [] => some []
  | e :: es =>
      match ev e with
      | none => none
      | some b =>
          match quantEvalList ev es with
          | none => none
          | some bs => some (b :: bs)

def PFormula.depthF : PFormula → Nat
  | .eq _ _ => 1
  | .rel _ _ => 1
  | .un f => f.depthF + 1
  | .bin _ f g => max f.depthF g.depthF + 1
  | .quant _ _ f => f.depthF + 1

def evalFormulaM (M : PredModel) : Nat → List (Str × Str) → PFormula →
    Option Bool
  | 0, _, _ => none
  | _ + 1, asg, .eq t1 t2 =>
      (match evalTermM M asg t1, evalTermM M asg t2 with
        | some v1, some v2 => some (v1 == v2)
        | _, _ => none)
  | _ + 1, asg, .rel r args =>
      (match evalTermListM M asg args with
        | none => none
        | some vals =>
            match lookupStr M.relationMeanings r with
            | none => none
            | some tuples => some (tuples.contains vals))
  | fuel + 1, asg, .un f =>
      (match evalFormulaM M fuel asg f with
        | none => none
        | some b => some (!b))
  | fuel + 1, asg, .bin op f g =>
      (match evalFormulaM M fuel asg f, evalFormulaM M fuel asg g with
        | some a, some b =>
            if op == ['&'] then some (a && b)
            else if op == ['|'] then some (a || b)
            else if op == ['-', '>'] then some (!a || b)
            else none
        | _, _ => none)
  | fuel + 1, asg, .quant q x f =>
      (match quantEvalList
          (fun e => evalFormulaM M fuel (asg ++ [(x, e)]) f) M.univ with
        | none => none
        | some bs =>
            if q == ['A'] then some (bs.all id) else some (bs.any id))

/-- `Model.evaluate_formula` on a sentence (empty assignment). -/
def evalFormulaTop (M : PredModel) (f : PFormula) : Option Bool :=
  evalFormulaM M f.depthF [] f

/-! ### predicates/completeness.py -/

/-- Embeds `Formula.constants` (predicates/syntax.py, Task 7.6.1), as a list
used through membership. -/
def PFormula.constantsF : PFormula → List Str
  | .eq t1 t2 => t1.constantsT ++ t2.constantsT
  | .rel _ args => collectList isPredConstant args
  | .un f => f.constantsF
  | .bin _ f g => f.constantsF ++ g.constantsF
  | .quant _ _ f => f.constantsF

/-- Embeds `get_constants` (predicates/completeness.py); the Python set is a
list used through membership. -/
def getConstants (sentences : List PFormula) : List Str :=
  (sentences.map PFormula.constantsF).flatten

/-- Embeds `Formula.relations` (predicates/syntax.py): relation names with
arities. -/
def PFormula.relationsF : PFormula → List (Str × Nat)
  | .eq _ _ => []
  | .rel r args => [(r, args.length)]
  | .un f => f.relationsF
  | .bin _ f g => f.relationsF ++ g.relationsF
  | .quant _ _ f => f.relationsF

/-- `itertools.product(constants, repeat=n)`: all length-`n` tuples. -/
def allTuples (elems : List PTerm) : Nat → List (List PTerm)
  | 0 => [[]]
  | n + 1 => (elems.map (fun e => (allTuples elems n).map (e :: ·))).flatten

/-- Embeds `is_primitively_closed` (predicates/completeness.py,
Task 12.1.1): every relation of the sentences, applied to every tuple of
constants of the sentences, appears (as `(root, arguments)`) among the
primitives collected from the sentences (one `~` stripped). -/
def isPrimitivelyClosed (sentences : List PFormula) : Bool :=
  let constants := (getConstants sentences).map PTerm.leaf
  let relations := (sentences.map PFormula.relationsF).flatten
  let primitives := sentences.filterMap (fun s =>
    match (match s with | .un f => f | _ => s) with
    | .rel r args => some (r, args)
    | _ => none)
  relations.all (fun r => (allTuples constants r.2).all
    (fun args => primitives.contains (r.1, args)))

/-- Embeds `is_universally_closed` (predicates/completeness.py): every
`A`-sentence has every constant instantiation of its predicate among the
sentences.  (`substitute` with a constant image cannot raise; the error arm
is unreachable and conservatively yields `false`.) -/
def isUniversallyClosed (sentences : List PFormula) : Bool :=
  let constants := (getConstants sentences).map PTerm.leaf
  let preds := sentences.filterMap (fun s =>
    match s with
    | .quant q x f => if q == ['A'] then some (x, f) else none
    | _ => none)
  preds.all (fun pr => constants.all (fun c =>
    match pr.2.substF [(pr.1, c)] [] with
    | .ok f2 => sentences.contains f2
    | .error _ => false))

/-- Embeds `is_existentially_closed` (predicates/completeness.py,
Task 12.1.3). -/
def isExistentiallyClosed (sentences : List PFormula) : Bool :=
  let constants := (getConstants sentences).map PTerm.leaf
  let preds := sentences.filterMap (fun s =>
    match s with
    | .quant q x f => if q == ['E'] then some (x, f) else none
    | _ => none)
  preds.all (fun pr => constants.any (fun c =>
    match pr.2.substF [(pr.1, c)] [] with
    | .ok f2 => sentences.contains f2
    | .error _ => false))

/-- Embeds `is_closed` (predicates/completeness.py). -/
def isClosed (sentences : List PFormula) : Bool :=
  isPrimitivelyClosed sentences && isUniversallyClosed sentences &&
    isExistentiallyClosed sentences

/-- Embeds `is_quantifier_free` (predicates/prenex.py, Task 11.3.1). -/
def isQuantifierFree : PFormula → Bool
  | .eq _ _ => true
  | .rel _ _ => true
  | .quant _ _ _ => false
  | .bin _ f g => isQuantifierFree f && isQuantifierFree g
  | .un f => isQuantifierFree f

/-- Embeds `is_in_prenex_normal_form` (predicates/prenex.py, Task 11.3.2). -/
def isInPrenexNormalForm : PFormula → Bool
  | .quant _ _ f => isInPrenexNormalForm f
  | f => isQuantifierFree f

/-- The `for constant in model.universe` loop of
`find_unsatisfied_quantifier_free_sentence`; falling off the loop is the
source's implicit `return None`. -/
def findUnsatLoop (step : PFormula → Option PFormula) (M : PredModel)
    (sentences : List PFormula) (x : Str) (f : PFormula) :
    List Str → Option PFormula
  | [] => none
  | c :: rest =>
      match f.substF [(x, .leaf c)] [] with
      | .error _ => none
      | .ok sub =>
          if sentences.contains sub then
            match evalFormulaTop M sub with
            | none => none
            | some false => step sub
            | some true => findUnsatLoop step M sentences x f rest
          else findUnsatLoop step M sentences x f rest

/-- Embeds `find_unsatisfied_quantifier_free_sentence`
(predicates/completeness.py, Task 12.2); the source recursion descends one
quantifier per step, modelled with fuel (the quantifier depth suffices). -/
def findUnsatisfied (M : PredModel) (sentences : List PFormula) :
    Nat → PFormula → Option PFormula
  | 0, _ => none
  | fuel + 1, unsat =>
      match unsat with
      | .quant _ x f =>
          findUnsatLoop (findUnsatisfied M sentences fuel) M sentences x f
            M.univ
      | _ => some unsat

/-- Embeds `get_primitives` (predicates/completeness.py, Task 12.3.1): the
dispatch covers only `~`, binary and relation roots; an equality root falls
off the end of the function and returns Python `None`. -/
def getPrimitives : PFormula → Option (List PFormula)
  | .un f => getPrimitives f
  | .bin _ f g =>
      (match getPrimitives f, getPrimitives g with
        | some a, some b => some (a ++ b)
        | _, _ => none)
  | .rel r args => some [.rel r args]
  | .eq _ _ => none
  | .quant _ _ _ => none

/-- Embeds `_is_primitive_or_its_negation` (predicates/completeness.py). -/
def isPrimitiveOrNeg : PFormula → Bool
  | .un (.rel _ _) => true
  | .un _ => false
  | .rel _ _ => true
  | _ => false

/-- The `relation_meanings.setdefault(root, set()).add(tuple)` update. -/
def addRelMeaning (rm : List (Str × List (List Str))) (r : Str)
    (tup : List Str) : List (Str × List (List Str)) :=
  match lookupStr rm r with
  | none => rm ++ [(r, [tup])]
  | some _ => rm.map (fun e =>
      if e.1 == r then
        (e.1, if e.2.contains tup then e.2 else e.2 ++ [tup])
      else e)

def buildRelMeanings (primitives : List PFormula) :
    List (Str × List (List Str)) :=
  primitives.foldl (fun rm pr =>
    match pr with
    | .rel r args => addRelMeaning rm r (args.map PTerm.reprT)
    | _ => rm) []

/-- The contradiction-proof branch of `model_or_inconsistency`: a Prover
over AXIOMS ∪ primitives ∪ {unsat}, one assumption line per formula, then
`add_tautological_implication` of `(unsat & ~unsat)`. -/
def moiProof (primitives : List PFormula) (unsat : PFormula)
    (prims : List PFormula) : Option PredProof :=
  let unsatPrims := prims.map (fun f =>
    if primitives.contains f then f else .un f)
  let assumptions := proverAXIOMS ++ [Schema.mk unsat []] ++
    unsatPrims.map (fun f => Schema.mk f [])
  let st0 : ProverState := ⟨assumptions, []⟩
  match st0.addInstantiatedAssumption unsat (Schema.mk unsat []) [] with
  | (st1, i0) =>
      let stLines := unsatPrims.foldl (fun acc f =>
        match acc.1.addInstantiatedAssumption f (Schema.mk f []) [] with
        | (st2, i) => (st2, acc.2 ++ [i])) (st1, [i0])
      match stLines.1.addTautologicalImplication
          (.bin ['&'] unsat (.un unsat)) stLines.2 with
      | none => none
      | some (stF, _) =>
          match stF.plines.getLast? with
          | none => none
          | some l => some ⟨assumptions, l.formulaOf, stF.plines⟩

/-- The `for s in sentences` loop of `model_or_inconsistency`; every Python
crash along the way (a `KeyError` from evaluation, the implicit `None` of
`find_unsatisfied`, and above all iterating the `None` returned by
`get_primitives` on an equality sentence) is `none`. -/
def moiLoop (M : PredModel) (sentences primitives : List PFormula) :
    List PFormula → Option (PredModel ⊕ PredProof)
  | [] => some (.inl M)
  | s :: rest =>
      match evalFormulaTop M s with
      | none => none
      | some true => moiLoop M sentences primitives rest
      | some false =>
          match findUnsatisfied M sentences (s.depthF + 1) s with
          | none => none
          | some unsat =>
              match getPrimitives unsat with
              | none => none
              | some prims =>
                  match moiProof primitives unsat prims with
                  | none => none
                  | some pr => some (.inr pr)

/-- Embeds `model_or_inconsistency` (predicates/completeness.py,
Task 12.3.2). -/
def modelOrInconsistency (sentences : List PFormula) :
    Option (PredModel ⊕ PredProof) :=
  let primitives := sentences.filter isPrimitiveOrNeg
  let uni := getConstants sentences
  let M : PredModel := ⟨uni, uni.map (fun c => (c, c)),
    buildRelMeanings primitives, []⟩
  moiLoop M sentences primitives sentences

/-- C3: `model_or_inconsistency` crashes on a closed set containing an
equality sentence instead of returning a model or a proof.  The set
`{'c=d'}` consists of one well-formed quantifier-free (hence
prenex-normal-form) sentence without free variables and is closed by the
code's own `is_closed` (it has no relations and no quantifiers, so all
three closure conditions hold vacuously); the claim then requires a model
of the set or a valid proof of a contradiction.  The code instead builds
the candidate model with universe `{'c','d'}`, finds `'c=d'` falsified,
walks down to the quantifier-free `'c=d'`, and calls `get_primitives` on
it — whose dispatch has arms only for `~`, binary and relation roots, so
an equality root falls off the end and returns Python `None`; iterating
that `None` to build the assumption set raises a `TypeError`
(`modelOrInconsistency = none`), which is neither of the two permitted
return values. -/
theorem model_or_inconsistency_eq_crash :
    ((PFormula.eq (.leaf ['c']) (.leaf ['d'])).wfF = true ∧
      isInPrenexNormalForm (.eq (.leaf ['c']) (.leaf ['d'])) = true ∧
      PFormula.freeVarsF (.eq (.leaf ['c']) (.leaf ['d'])) = [] ∧
      isClosed [.eq (.leaf ['c']) (.leaf ['d'])] = true) ∧
    modelOrInconsistency [.eq (.leaf ['c']) (.leaf ['d'])] = none := by
  exact ⟨⟨by decide, by decide, by decide, by decide⟩, by decide⟩

/-! ### Prenex normal form (predicates/prenex.py).  The additional
quantification axioms are reproduced from the source as data; the fresh
variable generator is the threaded counter of logic_utils (spec, section
5). -/

/-- Embeds `equivalence_of` (predicates/prenex.py). -/
def equivalenceOf (f g : PFormula) : PFormula :=
  .bin ['&'] (pimpP f g) (pimpP g f)

def rxT : PFormula := .rel ['R'] [.leaf ['x']]
def qxT : PFormula := .rel ['Q'] [.leaf ['x']]
def qyT : PFormula := .rel ['Q'] [.leaf ['y']]
def q0T : PFormula := .rel ['Q'] []
def qAll (v : Str) (f : PFormula) : PFormula := .quant ['A'] v f
def qEx (v : Str) (f : PFormula) : PFormula := .quant ['E'] v f

/-- `ADDITIONAL_QUANTIFICATION_AXIOMS`, in source order. -/
def AQ0 : Schema :=
  ⟨equivalenceOf (.un (qAll ['x'] rxT)) (qEx ['x'] (.un rxT)),
    [['x'], ['R']]⟩
def AQ1 : Schema :=
  ⟨equivalenceOf (.un (qEx ['x'] rxT)) (qAll ['x'] (.un rxT)),
    [['x'], ['R']]⟩
def AQ2 : Schema :=
  ⟨equivalenceOf (.bin ['&'] (qAll ['x'] rxT) q0T)
    (qAll ['x'] (.bin ['&'] rxT q0T)), [['x'], ['R'], ['Q']]⟩
def AQ3 : Schema :=
  ⟨equivalenceOf (.bin ['&'] (qEx ['x'] rxT) q0T)
    (qEx ['x'] (.bin ['&'] rxT q0T)), [['x'], ['R'], ['Q']]⟩
def AQ4 : Schema :=
  ⟨equivalenceOf (.bin ['&'] q0T (qAll ['x'] rxT))
    (qAll ['x'] (.bin ['&'] q0T rxT)), [['x'], ['R'], ['Q']]⟩
def AQ5 : Schema :=
  ⟨equivalenceOf (.bin ['&'] q0T (qEx ['x'] rxT))
    (qEx ['x'] (.bin ['&'] q0T rxT)), [['x'], ['R'], ['Q']]⟩
def AQ6 : Schema :=
  ⟨equivalenceOf (.bin ['|'] (qAll ['x'] rxT) q0T)
    (qAll ['x'] (.bin ['|'] rxT q0T)), [['x'], ['R'], ['Q']]⟩
def AQ7 : Schema :=
  ⟨equivalenceOf (.bin ['|'] (qEx ['x'] rxT) q0T)
    (qEx ['x'] (.bin ['|'] rxT q0T)), [['x'], ['R'], ['Q']]⟩
def AQ8 : Schema :=
  ⟨equivalenceOf (.bin ['|'] q0T (qAll ['x'] rxT))
    (qAll ['x'] (.bin ['|'] q0T rxT)), [['x'], ['R'], ['Q']]⟩
def AQ9 : Schema :=
  ⟨equivalenceOf (.bin ['|'] q0T (qEx ['x'] rxT))
    (qEx ['x'] (.bin ['|'] q0T rxT)), [['x'], ['R'], ['Q']]⟩
def AQ10 : Schema :=
  ⟨equivalenceOf (pimpP (qAll ['x'] rxT) q0T)
    (qEx ['x'] (pimpP rxT q0T)), [['x'], ['R'], ['Q']]⟩
def AQ11 : Schema :=
  ⟨equivalenceOf (pimpP (qEx ['x'] rxT) q0T)
    (qAll ['x'] (pimpP rxT q0T)), [['x'], ['R'], ['Q']]⟩
def AQ12 : Schema :=
  ⟨equivalenceOf (pimpP q0T (qAll ['x'] rxT))
    (qAll ['x'] (pimpP q0T rxT)), [['x'], ['R'], ['Q']]⟩
def AQ13 : Schema :=
  ⟨equivalenceOf (pimpP q0T (qEx ['x'] rxT))
    (qEx ['x'] (pimpP q0T rxT)), [['x'], ['R'], ['Q']]⟩
def AQ14 : Schema :=
  ⟨pimpP (equivalenceOf rxT qxT)
    (equivalenceOf (qAll ['x'] rxT) (qAll ['y'] qyT)),
    [['x'], ['y'], ['R'], ['Q']]⟩
def AQ15 : Schema :=
  ⟨pimpP (equivalenceOf rxT qxT)
    (equivalenceOf (qEx ['x'] rxT) (qEx ['y'] qyT)),
    [['x'], ['y'], ['R'], ['Q']]⟩

def additionalQuantificationAxioms : List Schema :=
  [AQ0, AQ1, AQ2, AQ3, AQ4, AQ5, AQ6, AQ7, AQ8, AQ9, AQ10, AQ11, AQ12,
    AQ13, AQ14, AQ15]

/-- `ALL_AXIOMS = Prover.AXIOMS.union(ADDITIONAL_QUANTIFICATION_AXIOMS)`. -/
def allAxioms : List Schema :=
  proverAXIOMS ++ additionalQuantificationAxioms

/-- The citation shift of `Prover.add_proof` (spec, section 4.6: splices the
lines of a finished proof in with index offsets). -/
def PredLine.shift (offset : Nat) : PredLine → PredLine
  | .assumption f s m => .assumption f s m
  | .mp f a c => .mp f (a + offset) (c + offset)
  | .ug f p => .ug f (p + offset)
  | .taut f => .taut f

def ProverState.addProof (st : ProverState) (pr : PredProof) :
    ProverState × Nat :=
  (⟨st.assumptions, st.plines ++ pr.lines.map (PredLine.shift st.plines.length)⟩,
    st.plines.length + pr.lines.length - 1)

/-- `Prover.qed()`: the proof built so far, concluding with the final
line's formula (`none` on an empty line list). -/
def mkQed (st : ProverState) : Option PredProof :=
  match st.plines.getLast? with
  | none => none
  | some l => some ⟨st.assumptions, l.formulaOf, st.plines⟩

def swapQ (q : Str) : Str :=
  if q == ['A'] then ['E'] else ['A']

/-- Embeds `_uniquely_rename_quantified_variables` (predicates/prenex.py,
Task 11.5), with the fresh-name counter threaded; every raising path
(an illegal substitution or instantiation) is `none`. -/
def uniquelyRename : Nat → PFormula → Option (PFormula × PredProof × Nat)
  | ctr, .un f =>
      (match uniquelyRename ctr f with
        | none => none
        | some (f2, pr, ctr2) =>
            match (⟨allAxioms, []⟩ : ProverState).addProof pr with
            | (st1, step) =>
                match st1.addTautologicalImplication
                    (equivalenceOf (.un f) (.un f2)) [step] with
                | none => none
                | some (st2, _) =>
                    match mkQed st2 with
                    | none => none
                    | some pr2 => some (.un f2, pr2, ctr2))
  | ctr, .bin op f g =>
      (match uniquelyRename ctr f with
        | none => none
        | some (f2, pr1, ctr2) =>
            match uniquelyRename ctr2 g with
            | none => none
            | some (g2, pr2, ctr3) =>
                match (⟨allAxioms, []⟩ : ProverState).addProof pr1 with
                | (st1, step1) =>
                    match st1.addProof pr2 with
                    | (st2, step2) =>
                        match st2.addTautologicalImplication
                            (equivalenceOf (.bin op f g) (.bin op f2 g2))
                            [step1, step2] with
                        | none => none
                        | some (st3, _) =>
                            match mkQed st3 with
                            | none => none
                            | some pr3 => some (.bin op f2 g2, pr3, ctr3))
  | ctr, .quant q x phi =>
      (match uniquelyRename ctr phi with
        | none => none
        | some (zphi, pr, ctr2) =>
            match (⟨allAxioms, []⟩ : ProverState).addProof pr with
            | (st1, s1) =>
                match zphi.substF [(x, .leaf (mkZVar ctr2))] [] with
                | .error _ => none
                | .ok zphiz =>
                    match phi.substF [(x, .leaf ['_'])] [],
                        zphiz.substF [(mkZVar ctr2, .leaf ['_'])] [] with
                    | .ok rIm, .ok qIm =>
                        let ax := if q == ['A'] then AQ14 else AQ15
                        let instM : List (Str × InstVal) :=
                          [(['x'], .varName x),
                            (['y'], .varName (mkZVar ctr2)),
                            (['R'], .formula rIm), (['Q'], .formula qIm)]
                        let fret := PFormula.quant q (mkZVar ctr2) zphiz
                        let conclusion :=
                          equivalenceOf (.quant q x phi) fret
                        match Schema.instantiate ax instM with
                        | .error _ => none
                        | .ok inst1 =>
                            if inst1 == pimpP pr.conclusion conclusion then
                              match st1.addInstantiatedAssumption
                                  (pimpP pr.conclusion conclusion) ax
                                  instM with
                              | (st2, s2) =>
                                  match st2.addMP conclusion s1 s2 with
                                  | (st3, _) =>
                                      match mkQed st3 with
                                      | none => none
                                      | some pr2 =>
                                          some (fret, pr2, ctr2 + 1)
                            else none
                    | _, _ => none)
  | ctr, f =>
      (match (⟨allAxioms, []⟩ : ProverState).addTautologicalImplication
          (equivalenceOf f f) [] with
        | none => none
        | some (st1, _) =>
            match mkQed st1 with
            | none => none
            | some pr => some (f, pr, ctr))

/-- Embeds `__pull_out_quantifiers_across_all` (predicates/prenex.py): the
shared body of the three pull-out functions.  `f` is the whole formula,
`inner` its quantified side, `psi` the other side (`none` for negation),
`mkN` rebuilds the formula around the quantifier's predicate, and `recf` is
the calling function's recursive self. -/
def pullCore (f inner : PFormula) (psi : Option PFormula)
    (mkN : PFormula → PFormula) (swap : Str → Str) (axA axE : Schema)
    (recf : PFormula → Option (PFormula × PredProof)) :
    Option (PFormula × PredProof) :=
  match inner with
  | .quant q x pred =>
      let nPred := mkN pred
      let axiomS := if q == ['A'] then axA else axE
      let qt := swap q
      let equivAx := if qt == ['A'] then AQ14 else AQ15
      (match pred.substF [(x, .leaf ['_'])] [] with
        | .error _ => none
        | .ok rIm =>
            let axMap : List (Str × InstVal) :=
              [(['x'], .varName x), (['R'], .formula rIm)] ++
                (match psi with
                  | some ps => [(['Q'], InstVal.formula ps)]
                  | none => [])
            match Schema.instantiate axiomS axMap with
            | .error _ => none
            | .ok inst1 =>
                match (⟨allAxioms, []⟩ :
                    ProverState).addInstantiatedAssumption inst1 axiomS
                    axMap with
                | (st1, stepAxiom) =>
                    match recf nPred with
                    | none => none
                    | some (predPrime, ppr) =>
                        match st1.addProof ppr with
                        | (st2, step1) =>
                            match nPred.substF [(x, .leaf ['_'])] [],
                                predPrime.substF [(x, .leaf ['_'])] [] with
                            | .ok rIm2, .ok qIm2 =>
                                let eqMap : List (Str × InstVal) :=
                                  [(['x'], .varName x), (['y'], .varName x),
                                    (['R'], .formula rIm2),
                                    (['Q'], .formula qIm2)]
                                match Schema.instantiate equivAx eqMap with
                                | .error _ => none
                                | .ok inst2 =>
                                    match st2.addInstantiatedAssumption
                                        inst2 equivAx eqMap with
                                    | (st3, stepEquiv) =>
                                        match st3.addTautologicalImplication
                                            (equivalenceOf f
                                              (.quant qt x predPrime))
                                            [stepAxiom, step1,
                                              stepEquiv] with
                                        | none => none
                                        | some (st4, _) =>
                                            match mkQed st4 with
                                            | none => none
                                            | some pr =>
                                                some (.quant qt x predPrime,
                                                  pr)
                            | _, _ => none)
  | _ =>
      (match (⟨allAxioms, []⟩ : ProverState).addTautology
          (equivalenceOf f f) with
        | (st1, _) =>
            match mkQed st1 with
            | none => none
            | some pr => some (f, pr))

/-- Embeds `_pull_out_quantifications_across_negation`
(predicates/prenex.py, Task 11.6); the source recursion removes one leading
quantifier per step, modelled with fuel. -/
def pullNeg : Nat → PFormula → Option (PFormula × PredProof)
  | 0, _ => none
  | fuel + 1, f =>
      match f with
      | .un inner =>
          pullCore f inner none (fun p => .un p) swapQ AQ0 AQ1
            (pullNeg fuel)
      | _ => none

/-- Embeds `_pull_out_quantifications_from_left_across_binary_operator`
(predicates/prenex.py, Task 11.7.1). -/
def pullLeft : Nat → PFormula → Option (PFormula × PredProof)
  | 0, _ => none
  | fuel + 1, f =>
      match f with
      | .bin op inner psi =>
          if op == ['&'] then
            pullCore f inner (some psi) (fun p => .bin op p psi)
              (fun q => q) AQ2 AQ3 (pullLeft fuel)
          else if op == ['|'] then
            pullCore f inner (some psi) (fun p => .bin op p psi)
              (fun q => q) AQ6 AQ7 (pullLeft fuel)
          else if op == ['-', '>'] then
            pullCore f inner (some psi) (fun p => .bin op p psi)
              swapQ AQ10 AQ11 (pullLeft fuel)
          else none
      | _ => none

/-- Embeds `_pull_out_quantifications_from_right_across_binary_operator`
(predicates/prenex.py, Task 11.7.2). -/
def pullRight : Nat → PFormula → Option (PFormula × PredProof)
  | 0, _ => none
  | fuel + 1, f =>
      match f with
      | .bin op psi inner =>
          if op == ['&'] then
            pullCore f inner (some psi) (fun p => .bin op psi p)
              (fun q => q) AQ4 AQ5 (pullRight fuel)
          else if op == ['|'] then
            pullCore f inner (some psi) (fun p => .bin op psi p)
              (fun q => q) AQ8 AQ9 (pullRight fuel)
          else if op == ['-', '>'] then
            pullCore f inner (some psi) (fun p => .bin op psi p)
              (fun q => q) AQ12 AQ13 (pullRight fuel)
          else none
      | _ => none

/-- The leading-quantifier prefix, outermost first (the `while` loop of
`_pull_out_quantifications_across_binary_operator`). -/
def stripQuants : PFormula → List (Str × Str) × PFormula
  | .quant q x p =>
      let (qs, inner) := stripQuants p
      ((q, x) :: qs, inner)
  | f => ([], f)

/-- The re-quantification loop of
`_pull_out_quantifications_across_binary_operator`, processing the popped
quantifiers innermost-first. -/
def requantLoop : List (Str × Str) → ProverState → PFormula → PFormula →
    List Nat → Option (ProverState × PFormula × PFormula × List Nat)
  | [], st, rp, pd, lines => some (st, rp, pd, lines)
  | (q, x) :: rest, st, rp, pd, lines =>
      let ax := if q == ['A'] then AQ14 else AQ15
      match rp.substF [(x, .leaf ['_'])] [], pd.substF [(x, .leaf ['_'])] []
          with
      | .ok rIm, .ok qIm =>
          let m : List (Str × InstVal) :=
            [(['x'], .varName x), (['y'], .varName x), (['R'], .formula rIm),
              (['Q'], .formula qIm)]
          match Schema.instantiate ax m with
          | .error _ => none
          | .ok inst =>
              match st.addInstantiatedAssumption inst ax m with
              | (st2, idx) =>
                  requantLoop rest st2 (.quant q x rp) (.quant q x pd)
                    (lines ++ [idx])
      | _, _ => none

/-- Embeds `_pull_out_quantifications_across_binary_operator`
(predicates/prenex.py, Task 11.8). -/
def pullBinary (fuel : Nat) (f : PFormula) :
    Option (PFormula × PredProof) :=
  match pullLeft fuel f with
  | none => none
  | some (leftPull, leftProof) =>
      let (lq, pred0) := stripQuants leftPull
      match pullRight fuel pred0 with
      | none => none
      | some (rightPull0, rightProof) =>
          match (⟨allAxioms, []⟩ : ProverState).addProof leftProof with
          | (st1, leftStep) =>
              match st1.addProof rightProof with
              | (st2, rightStep) =>
                  match requantLoop lq.reverse st2 rightPull0 pred0 [] with
                  | none => none
                  | some (st3, rpF, _, qlines) =>
                      match st3.addTautologicalImplication
                          (equivalenceOf f rpF)
                          ([leftStep, rightStep] ++ qlines) with
                      | none => none
                      | some (st4, _) =>
                          match mkQed st4 with
                          | none => none
                          | some pr => some (rpF, pr)

/-- Embeds `_to_prenex_normal_form_from_uniquely_named_variables`
(predicates/prenex.py, Task 11.9). -/
def toPrenexUnique : PFormula → Option (PFormula × PredProof)
  | .un g =>
      (match toPrenexUnique g with
        | none => none
        | some (inner, iproof) =>
            match pullNeg (PFormula.un inner).depthF (.un inner) with
            | none => none
            | some (fp, fproof) =>
                match (⟨allAxioms, []⟩ : ProverState).addProof iproof with
                | (st1, s1) =>
                    match st1.addProof fproof with
                    | (st2, s2) =>
                        match st2.addTautologicalImplication
                            (equivalenceOf (.un g) fp) [s1, s2] with
                        | none => none
                        | some (st3, _) =>
                            match mkQed st3 with
                            | none => none
                            | some pr => some (fp, pr))
  | .bin op g h =>
      (match toPrenexUnique g with
        | none => none
        | some (i1, pr1) =>
            match toPrenexUnique h with
            | none => none
            | some (i2, pr2) =>
                match pullBinary (PFormula.bin op i1 i2).depthF
                    (.bin op i1 i2) with
                | none => none
                | some (fp, fproof) =>
                    match (⟨allAxioms, []⟩ : ProverState).addProof pr1 with
                    | (st1, s1) =>
                        match st1.addProof pr2 with
                        | (st2, s2) =>
                            match st2.addProof fproof with
                            | (st3, s3) =>
                                match st3.addTautologicalImplication
                                    (equivalenceOf (.bin op g h) fp)
                                    [s1, s2, s3] with
                                | none => none
                                | some (st4, _) =>
                                    match mkQed st4 with
                                    | none => none
                                    | some pr => some (fp, pr))
  | .quant q x p =>
      (match toPrenexUnique p with
        | none => none
        | some (np, nproof) =>
            let ax := if q == ['A'] then AQ14 else AQ15
            match p.substF [(x, .leaf ['_'])] [],
                np.substF [(x, .leaf ['_'])] [] with
            | .ok rIm, .ok qIm =>
                let m : List (Str × InstVal) :=
                  [(['x'], .varName x), (['y'], .varName x),
                    (['R'], .formula rIm), (['Q'], .formula qIm)]
                match Schema.instantiate ax m with
                | .error _ => none
                | .ok inst =>
                    match (⟨allAxioms, []⟩ :
                        ProverState).addInstantiatedAssumption inst ax m with
                    | (st1, s1) =>
                        match st1.addProof nproof with
                        | (st2, s2) =>
                            match st2.addTautologicalImplication
                                (equivalenceOf (.quant q x p)
                                  (.quant q x np)) [s1, s2] with
                            | none => none
                            | some (st3, _) =>
                                match mkQed st3 with
                                | none => none
                                | some pr => some (.quant q x np, pr)
            | _, _ => none)
  | f =>
      (match (⟨allAxioms, []⟩ : ProverState).addTautology
          (equivalenceOf f f) with
        | (st1, _) =>
            match mkQed st1 with
            | none => none
            | some pr => some (f, pr))

/-- Embeds `to_prenex_normal_form` (predicates/prenex.py, Task 11.10). -/
def toPrenexNormalForm (ctr : Nat) (f : PFormula) :
    Option (PFormula × PredProof × Nat) :=
  match uniquelyRename ctr f with
  | none => none
  | some (uf, uproof, ctr2) =>
      match toPrenexUnique uf with
      | none => none
      | some (pf, pproof) =>
          match (⟨allAxioms, []⟩ : ProverState).addProof uproof with
          | (st1, s1) =>
              match st1.addProof pproof with
              | (st2, s2) =>
                  match st2.addTautologicalImplication
                      (equivalenceOf f pf) [s1, s2] with
                  | none => none
                  | some (st3, _) =>
                      match mkQed st3 with
                      | none => none
                      | some pr => some (pf, pr, ctr2)

/-! ### Structural helpers for the prenex development -/

/-- Rebuild a quantifier prefix (inverse of `stripQuants`). -/
def wrapQuants : List (Str × Str) → PFormula → PFormula
  | [], f => f
  | (q, x) :: qs, f => .quant q x (wrapQuants qs f)

theorem stripQuants_wrap (f : PFormula) :
    wrapQuants (stripQuants f).1 (stripQuants f).2 = f := by
  induction f with
  | quant q x p ih =>
      rw [stripQuants]
      show PFormula.quant q x (wrapQuants (stripQuants p).1
        (stripQuants p).2) = PFormula.quant q x p
      rw [ih]
  | eq t1 t2 => rfl
  | rel r args => rfl
  | un g _ => rfl
  | bin op g h _ _ => rfl

theorem stripQuants_core_not_quant (f : PFormula) :
    ∀ q x p, (stripQuants f).2 ≠ .quant q x p := by
  induction f with
  | quant q2 x2 p2 ih =>
      rw [stripQuants]
      exact ih
  | eq t1 t2 => intro q x p h; cases h
  | rel r args => intro q x p h; cases h
  | un g _ => intro q x p h; cases h
  | bin op g h _ _ => intro q x p h; cases h

def PFormula.boundVarsF : PFormula → List Str
  | .eq _ _ => []
  | .rel _ _ => []
  | .un f => f.boundVarsF
  | .bin _ f g => f.boundVarsF ++ g.boundVarsF
  | .quant _ x f => x :: f.boundVarsF

/-- The uniquely-named-variables property actually used by the pull-out
phase: distinct bound names, none of which occurs free. -/
def UNF (f : PFormula) : Prop :=
  f.boundVarsF.Nodup ∧ ∀ x ∈ f.boundVarsF, x ∉ f.freeVarsF

theorem hEval_and (v : PFormula → Bool) (a b : PFormula) :
    hEval v (.bin ['&'] a b) = (hEval v a && hEval v b) := by
  simp [hEval]

theorem hEval_eqv (v : PFormula → Bool) (a b : PFormula) :
    hEval v (equivalenceOf a b) =
      ((!(hEval v a) || hEval v b) && (!(hEval v b) || hEval v a)) := by
  rw [equivalenceOf, hEval_and, hEval_imp, hEval_imp]

theorem hEval_implicationChain (v : PFormula → Bool) :
    ∀ (cf : List PFormula) (t : PFormula),
    hEval v (implicationChain t cf) = true ↔
      ((∀ c ∈ cf, hEval v c = true) → hEval v t = true) := by
  intro cf
  induction cf with
  | nil =>
      intro t
      rw [implicationChain]
      constructor
      · intro h _
        exact h
      · intro h
        exact h (fun c hc => absurd hc (List.not_mem_nil c))
  | cons c cf ih =>
      intro t
      rw [implicationChain]
      show hEval v (pimpP c (implicationChain t cf)) = true ↔ _
      rw [hEval_imp]
      constructor
      · intro h hall
        have hc := hall c (List.mem_cons_self c cf)
        rw [hc] at h
        simp only [Bool.not_true, Bool.false_or] at h
        exact (ih t).mp h fun c2 hc2 => hall c2 (List.mem_cons_of_mem c hc2)
      · intro h
        cases hc : hEval v c
        · simp
        · simp only [Bool.not_true, Bool.false_or]
          refine (ih t).mpr ?_
          intro hall
          refine h ?_
          intro c2 hc2
          rcases List.mem_cons.mp hc2 with h9 | h9
          · rw [h9]; exact hc
          · exact hall c2 h9

theorem wf_implicationChain {t : PFormula} {cf : List PFormula}
    (ht : t.wfF = true) (hcf : ∀ c ∈ cf, PFormula.wfF c = true) :
    (implicationChain t cf).wfF = true := by
  induction cf with
  | nil => exact ht
  | cons c cf ih =>
      rw [implicationChain]
      refine wfF_imp (hcf c (List.mem_cons_self c cf)) ?_
      exact ih fun c2 hc2 => hcf c2 (List.mem_cons_of_mem c hc2)

theorem wf_eqv {a b : PFormula} (ha : a.wfF = true) (hb : b.wfF = true) :
    (equivalenceOf a b).wfF = true := by
  rw [equivalenceOf, PFormula.wfF]
  simp [wfF_imp ha hb, wfF_imp hb ha, isBinaryPred]

/-- Reflexive-equivalence tautology (used by the base cases). -/
theorem predTaut_eqv_refl (f : PFormula) (hwf : f.wfF = true) :
    isPredTautology (equivalenceOf f f) = true := by
  refine isPredTautology_complete _ (wf_eqv hwf hwf) ?_
  intro v
  rw [hEval_eqv]
  cases hEval v f <;> rfl

/-! ### Prover.add_proof: splicing a finished proof preserves validity -/

theorem formulaOf_shift (n : Nat) (l : PredLine) :
    (PredLine.shift n l).formulaOf = l.formulaOf := by
  cases l <;> rfl

theorem predLineValid_shift (A : List Schema) (base ls : List PredLine)
    (i : Nat) (l : PredLine)
    (h : predLineValid A ls i l = true) :
    predLineValid A (base ++ ls.map (PredLine.shift base.length))
      (i + base.length) (PredLine.shift base.length l) = true := by
  have hget : ∀ a : Nat,
      ((base ++ ls.map (PredLine.shift base.length)).get?
        (a + base.length)).map PredLine.formulaOf =
      (ls.get? a).map PredLine.formulaOf := by
    intro a
    rw [List.get?_append_right (by omega)]
    have h1 : a + base.length - base.length = a := by omega
    rw [h1, List.get?_map, Option.map_map]
    congr 1
    funext x
    exact formulaOf_shift base.length x
  cases l with
  | assumption f s m => exact h
  | taut f => exact h
  | mp f a c =>
      rw [predLineValid] at h
      simp only [Bool.and_eq_true, decide_eq_true_eq] at h
      obtain ⟨⟨ha, hc⟩, hm⟩ := h
      rw [PredLine.shift, predLineValid]
      simp only [Bool.and_eq_true, decide_eq_true_eq]
      refine ⟨⟨by omega, by omega⟩, ?_⟩
      rw [hget a, hget c]
      exact hm
  | ug f p =>
      rw [predLineValid] at h
      simp only [Bool.and_eq_true, decide_eq_true_eq] at h
      obtain ⟨hp, hm⟩ := h
      rw [PredLine.shift, predLineValid]
      simp only [Bool.and_eq_true, decide_eq_true_eq]
      refine ⟨by omega, ?_⟩
      rw [hget p]
      exact hm

theorem addProof_ok (st : ProverState) (pr : PredProof)
    (hall : ∀ j < st.plines.length,
      predLineValidAt st.assumptions st.plines j = true)
    (hA : pr.assumptions = st.assumptions)
    (hv : pr.isValid = true) :
    (st.addProof pr).1.assumptions = st.assumptions ∧
    (st.addProof pr).1.plines =
      st.plines ++ pr.lines.map (PredLine.shift st.plines.length) ∧
    (∀ j < (st.addProof pr).1.plines.length,
      predLineValidAt (st.addProof pr).1.assumptions
        (st.addProof pr).1.plines j = true) ∧
    (st.addProof pr).2 + 1 = (st.addProof pr).1.plines.length ∧
    ((st.addProof pr).1.plines.get? (st.addProof pr).2).map
      PredLine.formulaOf = some pr.conclusion := by
  rw [PredProof.isValid] at hv
  simp only [Bool.and_eq_true] at hv
  obtain ⟨hv1, hv2⟩ := hv
  have hvalid : ∀ j < pr.lines.length,
      predLineValidAt pr.assumptions pr.lines j = true := by
    intro j hj
    exact List.all_eq_true.mp hv1 j (List.mem_range.mpr hj)
  cases hlast : pr.lines.getLast? with
  | none => rw [hlast] at hv2; cases hv2
  | some lastL =>
      rw [hlast] at hv2
      have hconc : lastL.formulaOf = pr.conclusion := by
        exact eq_of_beq hv2
      have hne : pr.lines ≠ [] := by
        intro h0
        rw [h0] at hlast
        cases hlast
      have hL : 1 ≤ pr.lines.length := by
        cases hpl : pr.lines with
        | nil => exact absurd hpl hne
        | cons a as => simp
      refine ⟨rfl, rfl, ?_, ?_, ?_⟩
      · intro j hj
        show predLineValidAt st.assumptions
          (st.plines ++ pr.lines.map (PredLine.shift st.plines.length))
            j = true
        have hjlen : j < st.plines.length + pr.lines.length := by
          have : (st.addProof pr).1.plines.length =
              st.plines.length + pr.lines.length := by
            show (st.plines ++ pr.lines.map
              (PredLine.shift st.plines.length)).length = _
            rw [List.length_append, List.length_map]
          omega
        by_cases hjN : j < st.plines.length
        · rw [predLineValidAt_append st.assumptions st.plines _ hjN]
          exact hall j hjN
        · have hieq : j = (j - st.plines.length) + st.plines.length := by
            omega
          have hi : j - st.plines.length < pr.lines.length := by omega
          cases hgi : pr.lines.get? (j - st.plines.length) with
          | none =>
              exfalso
              rw [List.get?_eq_none] at hgi
              omega
          | some li =>
              have hvi := hvalid (j - st.plines.length) hi
              rw [predLineValidAt, hgi] at hvi
              rw [predLineValidAt, hieq, List.get?_append_right (by omega)]
              have h1 : j - st.plines.length + st.plines.length -
                  st.plines.length = j - st.plines.length := by omega
              rw [h1, List.get?_map, hgi]
              show predLineValid st.assumptions _ _
                (PredLine.shift st.plines.length li) = true
              rw [hA] at hvi
              exact predLineValid_shift st.assumptions st.plines pr.lines
                (j - st.plines.length) li hvi
      · show st.plines.length + pr.lines.length - 1 + 1 =
          (st.plines ++ pr.lines.map
            (PredLine.shift st.plines.length)).length
        rw [List.length_append, List.length_map]
        omega
      · show ((st.plines ++ pr.lines.map
            (PredLine.shift st.plines.length)).get?
          (st.plines.length + pr.lines.length - 1)).map
            PredLine.formulaOf = some pr.conclusion
        rw [List.get?_append_right (by omega)]
        have h1 : st.plines.length + pr.lines.length - 1 -
            st.plines.length = pr.lines.length - 1 := by omega
        rw [h1, List.get?_map]
        have h2 : pr.lines.get? (pr.lines.length - 1) = some lastL := by
          rw [List.get?_eq_getElem?, ← List.getLast?_eq_getElem?]
          exact hlast
        rw [h2]
        show some (PredLine.shift st.plines.length lastL).formulaOf =
          some pr.conclusion
        rw [formulaOf_shift, hconc]

/-! ### Preservation facts for substitution -/

theorem lookupStr_mem {α : Type} : ∀ (m : List (Str × α)) (k : Str) (v : α),
    lookupStr m k = some v → (k, v) ∈ m := by
  intro m
  induction m with
  | nil => intro k v h; cases h
  | cons e rest ih =>
      intro k v h
      rw [lookupStr] at h
      by_cases he : e.1 == k
      · rw [if_pos he] at h
        have h1 : e.1 = k := eq_of_beq he
        have h2 : e.2 = v := Option.some.inj h
        rw [List.mem_cons]
        left
        rw [← h1, ← h2]
      · rw [if_neg he] at h
        exact List.mem_cons_of_mem e (ih k v h)

theorem substT_pres_aux : ∀ n : Nat,
    (∀ t : PTerm, t.sizeT ≤ n →
      ∀ (m : List (Str × PTerm)) (B : List Str) (t' : PTerm),
      PTerm.substT m B t = .ok t' →
      ((t.wfT = true → (∀ p ∈ m, (p.2).wfT = true) → t'.wfT = true) ∧
       (noUnderscoreT t = true → (∀ p ∈ m, noUnderscoreT p.2 = true) →
         noUnderscoreT t' = true) ∧
       (∀ v ∈ t'.variablesT, v ∈ t.variablesT ∨
         ∃ p ∈ m, v ∈ (p.2).variablesT))) ∧
    (∀ ts : List PTerm, sizeTList ts ≤ n →
      ∀ (m : List (Str × PTerm)) (B : List Str) (ts' : List PTerm),
      substTList m B ts = .ok ts' →
      ((wfTList ts = true → (∀ p ∈ m, (p.2).wfT = true) →
         wfTList ts' = true) ∧
       (noUnderscoreTList ts = true → (∀ p ∈ m, noUnderscoreT p.2 = true) →
         noUnderscoreTList ts' = true) ∧
       (ts'.length = ts.length) ∧
       (∀ v ∈ collectList isPredVariable ts',
         v ∈ collectList isPredVariable ts ∨
           ∃ p ∈ m, v ∈ (p.2).variablesT))) := by
  intro n
  induction n with
  | zero =>
      constructor
      · intro t hsz
        have := sizeT_pos t
        omega
      · intro ts hsz m B ts' h
        match ts with
        | [] =>
            have hts : ts' = [] := by
              rw [substTList] at h
              exact (Except.ok.inj h).symm
            subst hts
            exact ⟨fun _ _ => rfl, fun _ _ => rfl, rfl,
              fun v hv => absurd hv (by simp [collectList])⟩
        | t :: ts2 =>
            exfalso
            have h1 := sizeT_pos t
            rw [show sizeTList (t :: ts2) = t.sizeT + sizeTList ts2 from rfl]
              at hsz
            omega
  | succ n ih =>
      have hT : ∀ t : PTerm, t.sizeT ≤ n + 1 →
          ∀ (m : List (Str × PTerm)) (B : List Str) (t' : PTerm),
          PTerm.substT m B t = .ok t' →
          ((t.wfT = true → (∀ p ∈ m, (p.2).wfT = true) → t'.wfT = true) ∧
           (noUnderscoreT t = true →
             (∀ p ∈ m, noUnderscoreT p.2 = true) →
             noUnderscoreT t' = true) ∧
           (∀ v ∈ t'.variablesT, v ∈ t.variablesT ∨
             ∃ p ∈ m, v ∈ (p.2).variablesT)) := by
        intro t hsz m B t' h
        match t with
        | .leaf s =>
            rw [PTerm.substT] at h
            cases hlk : lookupStr m s with
            | none =>
                simp only [hlk] at h
                have ht' : t' = .leaf s := (Except.ok.inj h).symm
                subst ht'
                exact ⟨fun hw _ => hw, fun hn _ => hn, fun v hv => Or.inl hv⟩
            | some temp =>
                simp only [hlk] at h
                by_cases hc : B.contains s
                · rw [if_pos hc] at h
                  have ht' : t' = .leaf s := (Except.ok.inj h).symm
                  subst ht'
                  exact ⟨fun hw _ => hw, fun hn _ => hn,
                    fun v hv => Or.inl hv⟩
                · rw [if_neg hc] at h
                  cases hf : B.find? (fun k => temp.variablesT.contains k)
                      with
                  | some k => rw [hf] at h; cases h
                  | none =>
                      rw [hf] at h
                      have ht' : t' = temp := (Except.ok.inj h).symm
                      have hmem : (s, temp) ∈ m := lookupStr_mem m s temp hlk
                      rw [ht']
                      refine ⟨fun _ hmw => hmw (s, temp) hmem,
                        fun _ hmn => hmn (s, temp) hmem,
                        fun v hv => Or.inr ⟨(s, temp), hmem, hv⟩⟩
        | .func fn args =>
            rw [PTerm.substT] at h
            match hargs : substTList m B args with
            | .error k => rw [hargs] at h; cases h
            | .ok args2 =>
                rw [hargs] at h
                have ht' : t' = .func fn args2 := (Except.ok.inj h).symm
                subst ht'
                have hsz2 : sizeTList args ≤ n := by
                  rw [show (PTerm.func fn args).sizeT =
                    1 + sizeTList args from rfl] at hsz
                  omega
                obtain ⟨hw, hn, hlen, hv⟩ := ih.2 args hsz2 m B args2 hargs
                refine ⟨?_, ?_, ?_⟩
                · intro hwf hmw
                  rw [PTerm.wfT] at hwf ⊢
                  simp only [Bool.and_eq_true] at hwf ⊢
                  refine ⟨⟨hwf.1.1, ?_⟩, hw hwf.2 hmw⟩
                  have h9 : args ≠ [] := by
                    intro h0
                    rw [h0] at hwf
                    simpa using hwf.1.2
                  have h10 : args2 ≠ [] := by
                    intro h0
                    rw [h0] at hlen
                    exact h9 (List.length_eq_zero.mp hlen.symm)
                  simpa [List.isEmpty_iff] using h10
                · intro hnu hmn
                  rw [noUnderscoreT] at hnu ⊢
                  exact hn hnu hmn
                · intro v hv2
                  rw [PTerm.variablesT, PTerm.collect, List.mem_append]
                    at hv2
                  rw [PTerm.variablesT, PTerm.collect, List.mem_append]
                  rcases hv2 with h9 | h9
                  · exact Or.inl (Or.inl h9)
                  · rcases hv v h9 with h10 | h10
                    · exact Or.inl (Or.inr h10)
                    · exact Or.inr h10
      refine ⟨hT, ?_⟩
      intro ts hsz m B ts' h
      match ts with
      | [] =>
          have hts : ts' = [] := by
            rw [substTList] at h
            exact (Except.ok.inj h).symm
          subst hts
          exact ⟨fun _ _ => rfl, fun _ _ => rfl, rfl,
            fun v hv => absurd hv (by simp [collectList])⟩
      | t :: ts2 =>
          rw [substTList] at h
          match h1 : PTerm.substT m B t with
          | .error k => rw [h1] at h; cases h
          | .ok t2 =>
              rw [h1] at h
              match h2 : substTList m B ts2 with
              | .error k => rw [h2] at h; cases h
              | .ok ts2' =>
                  rw [h2] at h
                  have ht' : ts' = t2 :: ts2' := (Except.ok.inj h).symm
                  subst ht'
                  have hszt : t.sizeT ≤ n + 1 := by
                    rw [show sizeTList (t :: ts2) =
                      t.sizeT + sizeTList ts2 from rfl] at hsz
                    have := sizeT_pos t
                    omega
                  have hszl : sizeTList ts2 ≤ n := by
                    rw [show sizeTList (t :: ts2) =
                      t.sizeT + sizeTList ts2 from rfl] at hsz
                    have := sizeT_pos t
                    omega
                  obtain ⟨hw1, hn1, hv1⟩ := hT t hszt m B t2 h1
                  obtain ⟨hw2, hn2, hlen2, hv2⟩ := ih.2 ts2 hszl m B ts2' h2
                  refine ⟨?_, ?_, ?_, ?_⟩
                  · intro hwf hmw
                    rw [wfTList] at hwf ⊢
                    simp only [Bool.and_eq_true] at hwf ⊢
                    exact ⟨hw1 hwf.1 hmw, hw2 hwf.2 hmw⟩
                  · intro hnu hmn
                    rw [noUnderscoreTList] at hnu ⊢
                    simp only [Bool.and_eq_true] at hnu ⊢
                    exact ⟨hn1 hnu.1 hmn, hn2 hnu.2 hmn⟩
                  · simp [hlen2]
                  · intro v hv
                    rw [collectList, List.mem_append] at hv ⊢
                    rcases hv with h9 | h9
                    · rcases hv1 v h9 with h10 | h10
                      · exact Or.inl (Or.inl h10)
                      · exact Or.inr h10
                    · rcases hv2 v h9 with h10 | h10
                      · exact Or.inl (Or.inr h10)
                      · exact Or.inr h10

theorem substF_pres :
    ∀ (f : PFormula) (m : List (Str × PTerm)) (B : List Str) (f' : PFormula),
    PFormula.substF m B f = .ok f' →
    ((f.wfF = true → (∀ p ∈ m, (p.2).wfT = true) → f'.wfF = true) ∧
     (noUnderscoreF f = true → (∀ p ∈ m, noUnderscoreT p.2 = true) →
       noUnderscoreF f' = true) ∧
     f'.boundVarsF = f.boundVarsF ∧
     (∀ v ∈ f'.variablesF, v ∈ f.variablesF ∨
       ∃ p ∈ m, v ∈ (p.2).variablesT) ∧
     (∀ v ∈ f'.freeVarsF, v ∈ f.freeVarsF ∨
       ∃ p ∈ m, v ∈ (p.2).variablesT)) := by
  have hT := fun t m B t' h =>
    (substT_pres_aux t.sizeT).1 t (le_refl _) m B t' h
  have hL := fun ts m B ts' h =>
    (substT_pres_aux (sizeTList ts)).2 ts (le_refl _) m B ts' h
  intro f
  induction f with
  | eq t1 t2 =>
      intro m B f' h
      rw [PFormula.substF] at h
      match h1 : PTerm.substT m B t1 with
      | .error k => rw [h1] at h; cases h
      | .ok u1 =>
          rw [h1] at h
          match h2 : PTerm.substT m B t2 with
          | .error k => rw [h2] at h; cases h
          | .ok u2 =>
              rw [h2] at h
              have hf' : f' = .eq u1 u2 := (Except.ok.inj h).symm
              subst hf'
              obtain ⟨hw1, hn1, hv1⟩ := hT t1 m B u1 h1
              obtain ⟨hw2, hn2, hv2⟩ := hT t2 m B u2 h2
              refine ⟨?_, ?_, rfl, ?_, ?_⟩
              · intro hwf hmw
                rw [PFormula.wfF, Bool.and_eq_true] at hwf ⊢
                exact ⟨hw1 hwf.1 hmw, hw2 hwf.2 hmw⟩
              · intro hnu hmn
                rw [noUnderscoreF, Bool.and_eq_true] at hnu ⊢
                exact ⟨hn1 hnu.1 hmn, hn2 hnu.2 hmn⟩
              · intro v hv
                rw [PFormula.variablesF, List.mem_append] at hv ⊢
                rcases hv with h9 | h9
                · rcases hv1 v h9 with h10 | h10
                  · exact Or.inl (Or.inl h10)
                  · exact Or.inr h10
                · rcases hv2 v h9 with h10 | h10
                  · exact Or.inl (Or.inr h10)
                  · exact Or.inr h10
              · intro v hv
                rw [PFormula.freeVarsF, List.mem_append] at hv ⊢
                rcases hv with h9 | h9
                · rcases hv1 v h9 with h10 | h10
                  · exact Or.inl (Or.inl h10)
                  · exact Or.inr h10
                · rcases hv2 v h9 with h10 | h10
                  · exact Or.inl (Or.inr h10)
                  · exact Or.inr h10
  | rel r args =>
      intro m B f' h
      rw [PFormula.substF] at h
      match h1 : substTList m B args with
      | .error k => rw [h1] at h; cases h
      | .ok args2 =>
          rw [h1] at h
          have hf' : f' = .rel r args2 := (Except.ok.inj h).symm
          subst hf'
          obtain ⟨hw1, hn1, hlen, hv1⟩ := hL args m B args2 h1
          refine ⟨?_, ?_, rfl, ?_, ?_⟩
          · intro hwf hmw
            rw [PFormula.wfF, Bool.and_eq_true] at hwf ⊢
            refine ⟨hwf.1, ?_⟩
            have h9 : wfTList args = true := by
              rw [wfTList_eq_all]
              exact hwf.2
            rw [← wfTList_eq_all]
            exact hw1 h9 hmw
          · intro hnu hmn
            rw [noUnderscoreF] at hnu ⊢
            exact hn1 hnu hmn
          · intro v hv
            rw [PFormula.variablesF] at hv ⊢
            exact hv1 v hv
          · intro v hv
            rw [PFormula.freeVarsF] at hv ⊢
            exact hv1 v hv
  | un g ihg =>
      intro m B f' h
      rw [PFormula.substF] at h
      match h1 : PFormula.substF m B g with
      | .error k => rw [h1] at h; cases h
      | .ok g2 =>
          rw [h1] at h
          have hf' : f' = .un g2 := (Except.ok.inj h).symm
          subst hf'
          obtain ⟨hw1, hn1, hb1, hv1, hfr1⟩ := ihg m B g2 h1
          exact ⟨hw1, hn1, hb1, hv1, hfr1⟩
  | bin op g g2 ihg ihg2 =>
      intro m B f' h
      rw [PFormula.substF] at h
      match h1 : PFormula.substF m B g with
      | .error k => rw [h1] at h; cases h
      | .ok u1 =>
          rw [h1] at h
          match h2 : PFormula.substF m B g2 with
          | .error k => rw [h2] at h; cases h
          | .ok u2 =>
              rw [h2] at h
              have hf' : f' = .bin op u1 u2 := (Except.ok.inj h).symm
              subst hf'
              obtain ⟨hw1, hn1, hb1, hv1, hfr1⟩ := ihg m B u1 h1
              obtain ⟨hw2, hn2, hb2, hv2, hfr2⟩ := ihg2 m B u2 h2
              refine ⟨?_, ?_, ?_, ?_, ?_⟩
              · intro hwf hmw
                rw [PFormula.wfF, Bool.and_eq_true, Bool.and_eq_true]
                  at hwf ⊢
                exact ⟨⟨hwf.1.1, hw1 hwf.1.2 hmw⟩, hw2 hwf.2 hmw⟩
              · intro hnu hmn
                rw [noUnderscoreF, Bool.and_eq_true] at hnu ⊢
                exact ⟨hn1 hnu.1 hmn, hn2 hnu.2 hmn⟩
              · rw [PFormula.boundVarsF]
                rw [show (PFormula.bin op g g2).boundVarsF =
                  g.boundVarsF ++ g2.boundVarsF from rfl, hb1, hb2]
              · intro v hv
                rw [PFormula.variablesF, List.mem_append] at hv ⊢
                rcases hv with h9 | h9
                · rcases hv1 v h9 with h10 | h10
                  · exact Or.inl (Or.inl h10)
                  · exact Or.inr h10
                · rcases hv2 v h9 with h10 | h10
                  · exact Or.inl (Or.inr h10)
                  · exact Or.inr h10
              · intro v hv
                rw [PFormula.freeVarsF, List.mem_append] at hv ⊢
                rcases hv with h9 | h9
                · rcases hfr1 v h9 with h10 | h10
                  · exact Or.inl (Or.inl h10)
                  · exact Or.inr h10
                · rcases hfr2 v h9 with h10 | h10
                  · exact Or.inl (Or.inr h10)
                  · exact Or.inr h10
  | quant q x g ihg =>
      intro m B f' h
      rw [PFormula.substF] at h
      match h1 : PFormula.substF m (B ++ [x]) g with
      | .error k => rw [h1] at h; cases h
      | .ok g2 =>
          rw [h1] at h
          have hf' : f' = .quant q x g2 := (Except.ok.inj h).symm
          subst hf'
          obtain ⟨hw1, hn1, hb1, hv1, hfr1⟩ := ihg m (B ++ [x]) g2 h1
          refine ⟨?_, ?_, ?_, ?_, ?_⟩
          · intro hwf hmw
            rw [PFormula.wfF, Bool.and_eq_true, Bool.and_eq_true] at hwf ⊢
            exact ⟨⟨hwf.1.1, hwf.1.2⟩, hw1 hwf.2 hmw⟩
          · intro hnu hmn
            rw [noUnderscoreF] at hnu ⊢
            exact hn1 hnu hmn
          · rw [PFormula.boundVarsF]
            rw [show (PFormula.quant q x g).boundVarsF =
              x :: g.boundVarsF from rfl, hb1]
          · intro v hv
            rw [PFormula.variablesF, List.mem_append] at hv ⊢
            rcases hv with h9 | h9
            · rcases hv1 v h9 with h10 | h10
              · exact Or.inl (Or.inl h10)
              · exact Or.inr h10
            · exact Or.inl (Or.inr h9)
          · intro v hv
            rw [PFormula.freeVarsF, List.mem_filter] at hv ⊢
            rcases hfr1 v hv.1 with h10 | h10
            · exact Or.inl ⟨h10, hv.2⟩
            · exact Or.inr h10

/-! ### Quantifier-prefix structure lemmas -/

theorem isQuantifierStr_cases {q : Str} (h : isQuantifierStr q = true) :
    q = ['A'] ∨ q = ['E'] := by
  rw [isQuantifierStr, Bool.or_eq_true] at h
  rcases h with h | h
  · exact Or.inl (eq_of_beq h)
  · exact Or.inr (eq_of_beq h)

theorem isBinaryPred_cases {op : Str} (h : isBinaryPred op = true) :
    op = ['&'] ∨ op = ['|'] ∨ op = ['-', '>'] := by
  rw [isBinaryPred, Bool.or_eq_true, Bool.or_eq_true] at h
  rcases h with (h | h) | h
  · exact Or.inl (eq_of_beq h)
  · exact Or.inr (Or.inl (eq_of_beq h))
  · exact Or.inr (Or.inr (eq_of_beq h))

theorem isQuantifierStr_swapQ {q : Str} (h : isQuantifierStr q = true) :
    isQuantifierStr (swapQ q) = true := by
  rcases isQuantifierStr_cases h with h | h <;> subst h <;> rfl

theorem isPredVariable_ne_underscore {x : Str}
    (hx : isPredVariable x = true) : x ≠ ['_'] := by
  intro h
  rw [h] at hx
  exact absurd hx (by decide)

/-- The number of leading quantifiers. -/
def leadQ : PFormula → Nat
  | .quant _ _ p => leadQ p + 1
  | _ => 0

theorem leadQ_lt_depthF (f : PFormula) : leadQ f < f.depthF := by
  induction f with
  | quant q x p ih =>
      rw [leadQ, PFormula.depthF]
      omega
  | eq t1 t2 =>
      rw [show leadQ (PFormula.eq t1 t2) = 0 from rfl, PFormula.depthF]
      omega
  | rel r args =>
      rw [show leadQ (PFormula.rel r args) = 0 from rfl, PFormula.depthF]
      omega
  | un g ih =>
      rw [show leadQ (PFormula.un g) = 0 from rfl, PFormula.depthF]
      omega
  | bin op g h ihg ihh =>
      rw [show leadQ (PFormula.bin op g h) = 0 from rfl, PFormula.depthF]
      omega

theorem wrapQuants_wf (qs : List (Str × Str)) (m : PFormula) :
    (wrapQuants qs m).wfF =
      (qs.all (fun p => isQuantifierStr p.1 && isPredVariable p.2) &&
        m.wfF) := by
  induction qs with
  | nil => rw [wrapQuants]; simp
  | cons p qs ih =>
      rw [wrapQuants]
      show (isQuantifierStr p.1 && isPredVariable p.2 &&
        (wrapQuants qs m).wfF) = _
      rw [ih, List.all_cons]
      cases isQuantifierStr p.1 <;> cases isPredVariable p.2 <;>
        cases List.all qs (fun p => isQuantifierStr p.1 &&
          isPredVariable p.2) <;> cases m.wfF <;> rfl

theorem wrapQuants_noU (qs : List (Str × Str)) (m : PFormula) :
    noUnderscoreF (wrapQuants qs m) = noUnderscoreF m := by
  induction qs with
  | nil => rw [wrapQuants]
  | cons p qs ih =>
      rw [wrapQuants]
      show noUnderscoreF (wrapQuants qs m) = _
      exact ih

theorem wrapQuants_bound (qs : List (Str × Str)) (m : PFormula) :
    (wrapQuants qs m).boundVarsF = qs.map Prod.snd ++ m.boundVarsF := by
  induction qs with
  | nil => rw [wrapQuants]; rfl
  | cons p qs ih =>
      rw [wrapQuants]
      show p.2 :: (wrapQuants qs m).boundVarsF = _
      rw [ih]
      rfl

theorem wrapQuants_free (qs : List (Str × Str)) (m : PFormula) (v : Str) :
    v ∈ (wrapQuants qs m).freeVarsF ↔
      v ∈ m.freeVarsF ∧ v ∉ qs.map Prod.snd := by
  induction qs with
  | nil =>
      rw [wrapQuants]
      simp
  | cons p qs ih =>
      rw [wrapQuants]
      show v ∈ (wrapQuants qs m).freeVarsF.filter (fun u => !(u == p.2)) ↔ _
      rw [List.mem_filter, ih, List.map_cons, List.mem_cons]
      constructor
      · rintro ⟨⟨h1, h2⟩, h3⟩
        refine ⟨h1, ?_⟩
        rintro (h4 | h4)
        · rw [h4] at h3
          simp at h3
        · exact h2 h4
      · rintro ⟨h1, h2⟩
        refine ⟨⟨h1, fun h4 => h2 (Or.inr h4)⟩, ?_⟩
        have h5 : v ≠ p.2 := fun h4 => h2 (Or.inl h4)
        simpa using h5

theorem wrapQuants_vars (qs : List (Str × Str)) (m : PFormula) (v : Str) :
    v ∈ (wrapQuants qs m).variablesF ↔
      v ∈ m.variablesF ∨ v ∈ qs.map Prod.snd := by
  induction qs with
  | nil =>
      rw [wrapQuants]
      simp
  | cons p qs ih =>
      rw [wrapQuants]
      show v ∈ (wrapQuants qs m).variablesF ++ [p.2] ↔ _
      rw [List.mem_append, ih, List.map_cons]
      simp only [List.mem_cons, List.not_mem_nil]
      tauto

theorem wrapQuants_pnf (qs : List (Str × Str)) (m : PFormula)
    (hm : isInPrenexNormalForm m = true) :
    isInPrenexNormalForm (wrapQuants qs m) = true := by
  induction qs with
  | nil => rw [wrapQuants]; exact hm
  | cons p qs ih =>
      rw [wrapQuants]
      show isInPrenexNormalForm (wrapQuants qs m) = true
      exact ih

theorem qfree_pnf {f : PFormula} (h : isQuantifierFree f = true) :
    isInPrenexNormalForm f = true := by
  match f with
  | .eq t1 t2 => rfl
  | .rel r args => rfl
  | .un g => exact h
  | .bin op g g2 => exact h
  | .quant q x g => cases h

theorem pnf_not_quant_qfree {f : PFormula}
    (h : isInPrenexNormalForm f = true)
    (hq : ∀ q x p, f ≠ .quant q x p) : isQuantifierFree f = true := by
  match f with
  | .eq t1 t2 => rfl
  | .rel r args => rfl
  | .un g => exact h
  | .bin op g g2 => exact h
  | .quant q x g => exact absurd rfl (hq q x g)

theorem stripQuants_qfree {f : PFormula}
    (h : isInPrenexNormalForm f = true) :
    isQuantifierFree (stripQuants f).2 = true := by
  induction f with
  | quant q x p ih =>
      rw [stripQuants]
      exact ih h
  | eq t1 t2 => rfl
  | rel r args => rfl
  | un g ih => exact h
  | bin op g g2 ihg ihg2 => exact h

theorem stripQuants_prefix_wf {f : PFormula} (h : f.wfF = true) :
    ((stripQuants f).1.all
      (fun p => isQuantifierStr p.1 && isPredVariable p.2)) = true ∧
    (stripQuants f).2.wfF = true := by
  have h1 := stripQuants_wrap f
  rw [← h1, wrapQuants_wf, Bool.and_eq_true] at h
  exact h

theorem stripQuants_len_leadQ (f : PFormula) :
    (stripQuants f).1.length = leadQ f := by
  induction f with
  | quant q x p ih =>
      rw [stripQuants, leadQ]
      show ((q, x) :: (stripQuants p).1).length = leadQ p + 1
      rw [List.length_cons, ih]
  | eq t1 t2 => rfl
  | rel r args => rfl
  | un g ih => rfl
  | bin op g g2 ihg ihg2 => rfl

theorem mkZVar_head (k : Nat) : ∃ rest, mkZVar k = 'z' :: rest :=
  ⟨natToStr k, rfl⟩

/-! ### Renaming round trip: substituting a fresh variable z for x, then
replacing z by the placeholder, then the placeholder by x recovers the
original. -/

theorem substT_rename_rt_aux (x z : Str) (hx : isPredVariable x = true)
    (hz : isPredVariable z = true) (hxz : x ≠ z) :
    ∀ n : Nat,
    (∀ t : PTerm, t.sizeT ≤ n → ∀ B : List Str,
      noUnderscoreT t = true → z ∉ t.variablesT → z ∉ B → ['_'] ∉ B →
      ∃ t2 t3, PTerm.substT [(x, .leaf z)] B t = .ok t2 ∧
        PTerm.substT [(z, .leaf ['_'])] B t2 = .ok t3 ∧
        PTerm.substT [(['_'], .leaf x)] B t3 = .ok t) ∧
    (∀ ts : List PTerm, sizeTList ts ≤ n → ∀ B : List Str,
      noUnderscoreTList ts = true →
      z ∉ collectList isPredVariable ts → z ∉ B → ['_'] ∉ B →
      ∃ ts2 ts3, substTList [(x, .leaf z)] B ts = .ok ts2 ∧
        substTList [(z, .leaf ['_'])] B ts2 = .ok ts3 ∧
        substTList [(['_'], .leaf x)] B ts3 = .ok ts) := by
  have hxu : x ≠ ['_'] := isPredVariable_ne_underscore hx
  have hzu : z ≠ ['_'] := isPredVariable_ne_underscore hz
  have hvz : (PTerm.leaf z).variablesT = [z] := by
    rw [PTerm.variablesT, PTerm.collect, if_pos hz]
  have hvx : (PTerm.leaf x).variablesT = [x] := by
    rw [PTerm.variablesT, PTerm.collect, if_pos hx]
  have hvu : (PTerm.leaf (['_'] : Str)).variablesT = [] := by
    rw [PTerm.variablesT, PTerm.collect, if_neg (by decide)]
  intro n
  induction n with
  | zero =>
      constructor
      · intro t hsz
        have := sizeT_pos t
        omega
      · intro ts hsz B hno hzv hzB hB
        match ts with
        | [] => exact ⟨[], [], rfl, rfl, rfl⟩
        | t :: ts2 =>
            exfalso
            have h1 := sizeT_pos t
            rw [show sizeTList (t :: ts2) = t.sizeT + sizeTList ts2 from rfl]
              at hsz
            omega
  | succ n ih =>
      have hT : ∀ t : PTerm, t.sizeT ≤ n + 1 → ∀ B : List Str,
          noUnderscoreT t = true → z ∉ t.variablesT → z ∉ B → ['_'] ∉ B →
          ∃ t2 t3, PTerm.substT [(x, .leaf z)] B t = .ok t2 ∧
            PTerm.substT [(z, .leaf ['_'])] B t2 = .ok t3 ∧
            PTerm.substT [(['_'], .leaf x)] B t3 = .ok t := by
        intro t hsz B hno hzv hzB hB
        match t with
        | .leaf s =>
            have hsu : s ≠ ['_'] := by
              rw [noUnderscoreT] at hno
              exact fun h9 => absurd (beq_iff_eq.mpr h9) (by simpa using hno)
            have hsz9 : s ≠ z := by
              intro h9
              refine hzv ?_
              rw [PTerm.variablesT, PTerm.collect, if_pos (h9 ▸ hz)]
              rw [h9]
              exact List.mem_singleton.mpr rfl
            by_cases hxs : x = s
            · subst hxs
              rw [PTerm.substT]
              have hlk : lookupStr [(x, PTerm.leaf z)] x =
                  some (PTerm.leaf z) := by
                rw [lookupStr, if_pos (by simp)]
              simp only [hlk]
              by_cases hBs : B.contains x = true
              · rw [if_pos hBs]
                refine ⟨.leaf x, .leaf x, rfl, ?_, ?_⟩
                · rw [PTerm.substT]
                  have hlk2 : lookupStr [(z, PTerm.leaf ['_'])] x = none := by
                    rw [lookupStr,
                      if_neg (by simpa using fun h9 => hxz h9.symm),
                      lookupStr]
                  simp only [hlk2]
                · rw [PTerm.substT]
                  have hlk3 : lookupStr [((['_'] : Str), PTerm.leaf x)] x =
                      none := by
                    rw [lookupStr,
                      if_neg (by simpa using fun h9 => hxu h9.symm),
                      lookupStr]
                  simp only [hlk3]
              · rw [if_neg hBs]
                have hfind : B.find? (fun k =>
                    (PTerm.leaf z).variablesT.contains k) = none := by
                  refine List.find?_eq_none.mpr ?_
                  intro k hk
                  rw [hvz]
                  simp only [List.contains_eq_any_beq, List.any_eq_true]
                  rintro ⟨u, hu, hku⟩
                  have h9 : u = z := by simpa using hu
                  have h10 : k = u := eq_of_beq hku
                  exact hzB (by rw [← h9, ← h10] at hzB ⊢; exact hk)
                simp only [hfind]
                refine ⟨.leaf z, .leaf ['_'], rfl, ?_, ?_⟩
                · rw [PTerm.substT]
                  have hlk2 : lookupStr [(z, PTerm.leaf ['_'])] z =
                      some (PTerm.leaf ['_']) := by
                    rw [lookupStr, if_pos (by simp)]
                  simp only [hlk2]
                  rw [if_neg (by
                    rw [contains_false_of_not_mem hzB]
                    exact Bool.false_ne_true)]
                  have hfind2 : B.find? (fun k =>
                      (PTerm.leaf (['_'] : Str)).variablesT.contains k) =
                      none := by
                    refine List.find?_eq_none.mpr ?_
                    intro k hk
                    rw [hvu]
                    simp
                  simp only [hfind2]
                · rw [PTerm.substT]
                  have hlk3 : lookupStr [((['_'] : Str), PTerm.leaf x)]
                      (['_'] : Str) = some (PTerm.leaf x) := by
                    rw [lookupStr, if_pos (by simp)]
                  simp only [hlk3]
                  rw [if_neg (by
                    rw [contains_false_of_not_mem hB]
                    exact Bool.false_ne_true)]
                  have hfind3 : B.find? (fun k =>
                      (PTerm.leaf x).variablesT.contains k) = none := by
                    refine List.find?_eq_none.mpr ?_
                    intro k hk
                    rw [hvx]
                    simp only [List.contains_eq_any_beq, List.any_eq_true]
                    rintro ⟨u, hu, hku⟩
                    have h9 : u = x := by simpa using hu
                    have h10 : k = u := eq_of_beq hku
                    rw [h10, h9] at hk
                    exact hBs (List.elem_eq_true_of_mem hk)
                  simp only [hfind3]
            · rw [PTerm.substT]
              have hlk : lookupStr [(x, PTerm.leaf z)] s = none := by
                rw [lookupStr, if_neg (by simpa using hxs), lookupStr]
              simp only [hlk]
              refine ⟨.leaf s, .leaf s, rfl, ?_, ?_⟩
              · rw [PTerm.substT]
                have hlk2 : lookupStr [(z, PTerm.leaf ['_'])] s = none := by
                  rw [lookupStr,
                    if_neg (by simpa using fun h9 => hsz9 h9.symm),
                    lookupStr]
                simp only [hlk2]
              · rw [PTerm.substT]
                have hlk3 : lookupStr [((['_'] : Str), PTerm.leaf x)] s =
                    none := by
                  rw [lookupStr,
                    if_neg (by simpa using fun h9 => hsu h9.symm),
                    lookupStr]
                simp only [hlk3]
        | .func fn args =>
            have hsz2 : sizeTList args ≤ n := by
              rw [show (PTerm.func fn args).sizeT = 1 + sizeTList args
                from rfl] at hsz
              omega
            have hnoargs : noUnderscoreTList args = true := by
              rwa [noUnderscoreT] at hno
            have hzargs : z ∉ collectList isPredVariable args := by
              intro h9
              refine hzv ?_
              rw [PTerm.variablesT, PTerm.collect, List.mem_append]
              exact Or.inr h9
            obtain ⟨ts2, ts3, h1, h2, h3⟩ :=
              ih.2 args hsz2 B hnoargs hzargs hzB hB
            refine ⟨.func fn ts2, .func fn ts3, ?_, ?_, ?_⟩
            · rw [PTerm.substT, h1]
            · rw [PTerm.substT, h2]
            · rw [PTerm.substT, h3]
      refine ⟨hT, ?_⟩
      intro ts hsz B hno hzv hzB hB
      match ts with
      | [] => exact ⟨[], [], rfl, rfl, rfl⟩
      | t :: ts2 =>
          have h1 := sizeT_pos t
          rw [show sizeTList (t :: ts2) = t.sizeT + sizeTList ts2 from rfl]
            at hsz
          rw [noUnderscoreTList, Bool.and_eq_true] at hno
          have hzt : z ∉ t.variablesT := by
            intro h9
            refine hzv ?_
            rw [collectList, List.mem_append]
            exact Or.inl h9
          have hzts : z ∉ collectList isPredVariable ts2 := by
            intro h9
            refine hzv ?_
            rw [collectList, List.mem_append]
            exact Or.inr h9
          obtain ⟨t2, t3, ht1, ht2, ht3⟩ :=
            hT t (by omega) B hno.1 hzt hzB hB
          obtain ⟨ts2', ts3', hts1, hts2, hts3⟩ :=
            ih.2 ts2 (by omega) B hno.2 hzts hzB hB
          refine ⟨t2 :: ts2', t3 :: ts3', ?_, ?_, ?_⟩
          · rw [substTList, ht1, hts1]
          · rw [substTList, ht2, hts2]
          · rw [substTList, ht3, hts3]

theorem substF_rename_rt (x z : Str) (hx : isPredVariable x = true)
    (hz : isPredVariable z = true) (hxz : x ≠ z) :
    ∀ (f : PFormula) (B : List Str), f.wfF = true → noUnderscoreF f = true →
      z ∉ f.variablesF → z ∉ B → ['_'] ∉ B →
      ∃ f2 f3, PFormula.substF [(x, .leaf z)] B f = .ok f2 ∧
        PFormula.substF [(z, .leaf ['_'])] B f2 = .ok f3 ∧
        PFormula.substF [(['_'], .leaf x)] B f3 = .ok f := by
  have hT := fun t B hno hzv hzB hB =>
    ((substT_rename_rt_aux x z hx hz hxz t.sizeT).1 t (le_refl _) B hno hzv
      hzB hB)
  have hL := fun ts B hno hzv hzB hB =>
    ((substT_rename_rt_aux x z hx hz hxz (sizeTList ts)).2 ts (le_refl _) B
      hno hzv hzB hB)
  intro f
  induction f with
  | eq t1 t2 =>
      intro B hwf hno hzv hzB hB
      rw [noUnderscoreF, Bool.and_eq_true] at hno
      rw [PFormula.variablesF] at hzv
      have hz1 : z ∉ t1.variablesT := fun h9 =>
        hzv (List.mem_append.mpr (Or.inl h9))
      have hz2 : z ∉ t2.variablesT := fun h9 =>
        hzv (List.mem_append.mpr (Or.inr h9))
      obtain ⟨u2, u3, h11, h12, h13⟩ := hT t1 B hno.1 hz1 hzB hB
      obtain ⟨w2, w3, h21, h22, h23⟩ := hT t2 B hno.2 hz2 hzB hB
      refine ⟨.eq u2 w2, .eq u3 w3, ?_, ?_, ?_⟩
      · rw [PFormula.substF, h11, h21]
      · rw [PFormula.substF, h12, h22]
      · rw [PFormula.substF, h13, h23]
  | rel r args =>
      intro B hwf hno hzv hzB hB
      rw [noUnderscoreF] at hno
      rw [PFormula.variablesF] at hzv
      obtain ⟨ts2, ts3, h1, h2, h3⟩ := hL args B hno hzv hzB hB
      refine ⟨.rel r ts2, .rel r ts3, ?_, ?_, ?_⟩
      · rw [PFormula.substF, h1]
      · rw [PFormula.substF, h2]
      · rw [PFormula.substF, h3]
  | un g ihg =>
      intro B hwf hno hzv hzB hB
      rw [PFormula.wfF] at hwf
      rw [noUnderscoreF] at hno
      rw [PFormula.variablesF] at hzv
      obtain ⟨g2, g3, h1, h2, h3⟩ := ihg B hwf hno hzv hzB hB
      refine ⟨.un g2, .un g3, ?_, ?_, ?_⟩
      · rw [PFormula.substF, h1]
      · rw [PFormula.substF, h2]
      · rw [PFormula.substF, h3]
  | bin op g h ihg ihh =>
      intro B hwf hno hzv hzB hB
      rw [PFormula.wfF, Bool.and_eq_true, Bool.and_eq_true] at hwf
      rw [noUnderscoreF, Bool.and_eq_true] at hno
      rw [PFormula.variablesF] at hzv
      have hz1 : z ∉ g.variablesF := fun h9 =>
        hzv (List.mem_append.mpr (Or.inl h9))
      have hz2 : z ∉ h.variablesF := fun h9 =>
        hzv (List.mem_append.mpr (Or.inr h9))
      obtain ⟨g2, g3, h11, h12, h13⟩ := ihg B hwf.1.2 hno.1 hz1 hzB hB
      obtain ⟨u2, u3, h21, h22, h23⟩ := ihh B hwf.2 hno.2 hz2 hzB hB
      refine ⟨.bin op g2 u2, .bin op g3 u3, ?_, ?_, ?_⟩
      · rw [PFormula.substF, h11, h21]
      · rw [PFormula.substF, h12, h22]
      · rw [PFormula.substF, h13, h23]
  | quant q y g ihg =>
      intro B hwf hno hzv hzB hB
      rw [PFormula.wfF, Bool.and_eq_true, Bool.and_eq_true] at hwf
      rw [noUnderscoreF] at hno
      rw [PFormula.variablesF] at hzv
      have hy : isPredVariable y = true := hwf.1.2
      have hzg : z ∉ g.variablesF := fun h9 =>
        hzv (List.mem_append.mpr (Or.inl h9))
      have hyz : y ≠ z := by
        intro h9
        exact hzv (List.mem_append.mpr (Or.inr (by
          rw [h9]; exact List.mem_singleton.mpr rfl)))
      have hzB2 : z ∉ B ++ [y] := by
        rw [List.mem_append]
        rintro (h9 | h9)
        · exact hzB h9
        · exact hyz (by have h10 : z = y := by simpa using h9
                        exact h10.symm)
      have hB2 : ['_'] ∉ B ++ [y] := by
        rw [List.mem_append]
        rintro (h9 | h9)
        · exact hB h9
        · refine isPredVariable_ne_underscore hy ?_
          have h10 : (['_'] : Str) = y := by simpa using h9
          exact h10.symm
      obtain ⟨g2, g3, h1, h2, h3⟩ := ihg (B ++ [y]) hwf.2 hno hzg hzB2 hB2
      refine ⟨.quant q y g2, .quant q y g3, ?_, ?_, ?_⟩
      · rw [PFormula.substF, h1]
      · rw [PFormula.substF, h2]
      · rw [PFormula.substF, h3]

/-! ### Computation of the additional-quantification-axiom instances -/

theorem find?_free_single (fs : List Str) (x : Str)
    (h : ∀ v ∈ fs, ¬(v = x)) :
    fs.find? (fun v => !(v == ['_']) && ([x] : List Str).contains v) =
      none := by
  refine List.find?_eq_none.mpr ?_
  intro v hv
  have h1 : ([x] : List Str).contains v = false := by
    simp only [List.contains_eq_any_beq, List.any_cons, List.any_nil,
      Bool.or_false]
    exact beq_eq_false_iff_ne.mpr (h v hv)
  rw [h1, Bool.and_false]
  exact Bool.false_ne_true

theorem find?_free_nil (fs : List Str) :
    fs.find? (fun v => !(v == ['_']) && ([] : List Str).contains v) =
      none := by
  refine List.find?_eq_none.mpr ?_
  intro v hv
  rw [show (([] : List Str).contains v) = false from rfl, Bool.and_false]
  exact Bool.false_ne_true

theorem inst_AQneg (qc qd x' : Str) (rIm pred : PFormula)
    (hfr : ∀ v ∈ rIm.freeVarsF, ¬(v = x'))
    (hback : rIm.substF [(['_'], .leaf x')] [] = .ok pred) :
    Schema.instantiate
      ⟨equivalenceOf (.un (.quant qc ['x'] rxT)) (.quant qd ['x'] (.un rxT)),
        [['x'], ['R']]⟩
      [(['x'], .varName x'), (['R'], .formula rIm)] =
      .ok (equivalenceOf (.un (.quant qc x' pred))
        (.quant qd x' (.un pred))) := by
  have hlkX : lookupStr [((['x'] : Str), InstVal.varName x'),
      (['R'], InstVal.formula rIm)] ['x'] = some (InstVal.varName x') := rfl
  have hlkR : lookupStr [((['x'] : Str), InstVal.varName x'),
      (['R'], InstVal.formula rIm)] ['R'] = some (InstVal.formula rIm) := rfl
  have hsubX : PTerm.substT (instTermMap
      [((['x'] : Str), InstVal.varName x'), (['R'], InstVal.formula rIm)])
      [] (.leaf ['x']) = .ok (.leaf x') := rfl
  have hfRx := find?_free_single rIm.freeVarsF x' hfr
  simp only [Schema.instantiate, equivalenceOf, pimpP, rxT]
  simp only [instantiateHelper, instRel, hlkX, hlkR, List.nil_append,
    hsubX, hfRx, hback]

theorem inst_AQleft (qc qd op x' : Str) (rIm pred psi : PFormula)
    (hfr : ∀ v ∈ rIm.freeVarsF, ¬(v = x'))
    (hfq : ∀ v ∈ psi.freeVarsF, ¬(v = x'))
    (hback : rIm.substF [(['_'], .leaf x')] [] = .ok pred) :
    Schema.instantiate
      ⟨equivalenceOf (.bin op (.quant qc ['x'] rxT) q0T)
        (.quant qd ['x'] (.bin op rxT q0T)), [['x'], ['R'], ['Q']]⟩
      [(['x'], .varName x'), (['R'], .formula rIm), (['Q'], .formula psi)] =
      .ok (equivalenceOf (.bin op (.quant qc x' pred) psi)
        (.quant qd x' (.bin op pred psi))) := by
  have hlkX : lookupStr [((['x'] : Str), InstVal.varName x'),
      (['R'], InstVal.formula rIm), (['Q'], InstVal.formula psi)] ['x'] =
      some (InstVal.varName x') := rfl
  have hlkR : lookupStr [((['x'] : Str), InstVal.varName x'),
      (['R'], InstVal.formula rIm), (['Q'], InstVal.formula psi)] ['R'] =
      some (InstVal.formula rIm) := rfl
  have hlkQ : lookupStr [((['x'] : Str), InstVal.varName x'),
      (['R'], InstVal.formula rIm), (['Q'], InstVal.formula psi)] ['Q'] =
      some (InstVal.formula psi) := rfl
  have hsubX : PTerm.substT (instTermMap
      [((['x'] : Str), InstVal.varName x'), (['R'], InstVal.formula rIm),
        (['Q'], InstVal.formula psi)]) [] (.leaf ['x']) =
      .ok (.leaf x') := rfl
  have hfRx := find?_free_single rIm.freeVarsF x' hfr
  have hfQx := find?_free_single psi.freeVarsF x' hfq
  have hfQn := find?_free_nil psi.freeVarsF
  simp only [Schema.instantiate, equivalenceOf, pimpP, rxT, q0T]
  simp only [instantiateHelper, instRel, hlkX, hlkR, hlkQ, List.nil_append,
    hsubX, hfRx, hfQx, hfQn, hback]

theorem inst_AQright (qc qd op x' : Str) (rIm pred psi : PFormula)
    (hfr : ∀ v ∈ rIm.freeVarsF, ¬(v = x'))
    (hfq : ∀ v ∈ psi.freeVarsF, ¬(v = x'))
    (hback : rIm.substF [(['_'], .leaf x')] [] = .ok pred) :
    Schema.instantiate
      ⟨equivalenceOf (.bin op q0T (.quant qc ['x'] rxT))
        (.quant qd ['x'] (.bin op q0T rxT)), [['x'], ['R'], ['Q']]⟩
      [(['x'], .varName x'), (['R'], .formula rIm), (['Q'], .formula psi)] =
      .ok (equivalenceOf (.bin op psi (.quant qc x' pred))
        (.quant qd x' (.bin op psi pred))) := by
  have hlkX : lookupStr [((['x'] : Str), InstVal.varName x'),
      (['R'], InstVal.formula rIm), (['Q'], InstVal.formula psi)] ['x'] =
      some (InstVal.varName x') := rfl
  have hlkR : lookupStr [((['x'] : Str), InstVal.varName x'),
      (['R'], InstVal.formula rIm), (['Q'], InstVal.formula psi)] ['R'] =
      some (InstVal.formula rIm) := rfl
  have hlkQ : lookupStr [((['x'] : Str), InstVal.varName x'),
      (['R'], InstVal.formula rIm), (['Q'], InstVal.formula psi)] ['Q'] =
      some (InstVal.formula psi) := rfl
  have hsubX : PTerm.substT (instTermMap
      [((['x'] : Str), InstVal.varName x'), (['R'], InstVal.formula rIm),
        (['Q'], InstVal.formula psi)]) [] (.leaf ['x']) =
      .ok (.leaf x') := rfl
  have hfRx := find?_free_single rIm.freeVarsF x' hfr
  have hfQx := find?_free_single psi.freeVarsF x' hfq
  have hfQn := find?_free_nil psi.freeVarsF
  simp only [Schema.instantiate, equivalenceOf, pimpP, rxT, q0T]
  simp only [instantiateHelper, instRel, hlkX, hlkR, hlkQ, List.nil_append,
    hsubX, hfRx, hfQx, hfQn, hback]

theorem inst_AQequiv (qc x' y' : Str) (rIm qIm A Bf Cf : PFormula)
    (hfr : ∀ v ∈ rIm.freeVarsF, ¬(v = x'))
    (hfq : ∀ v ∈ qIm.freeVarsF, ¬(v = y'))
    (h1 : rIm.substF [(['_'], .leaf x')] [] = .ok A)
    (h2 : qIm.substF [(['_'], .leaf x')] [] = .ok Bf)
    (h3 : qIm.substF [(['_'], .leaf y')] [] = .ok Cf) :
    Schema.instantiate
      ⟨pimpP (equivalenceOf rxT qxT)
        (equivalenceOf (.quant qc ['x'] rxT) (.quant qc ['y'] qyT)),
        [['x'], ['y'], ['R'], ['Q']]⟩
      [(['x'], .varName x'), (['y'], .varName y'), (['R'], .formula rIm),
        (['Q'], .formula qIm)] =
      .ok (pimpP (equivalenceOf A Bf)
        (equivalenceOf (.quant qc x' A) (.quant qc y' Cf))) := by
  have hlkX : lookupStr [((['x'] : Str), InstVal.varName x'),
      (['y'], InstVal.varName y'), (['R'], InstVal.formula rIm),
      (['Q'], InstVal.formula qIm)] ['x'] = some (InstVal.varName x') := rfl
  have hlkY : lookupStr [((['x'] : Str), InstVal.varName x'),
      (['y'], InstVal.varName y'), (['R'], InstVal.formula rIm),
      (['Q'], InstVal.formula qIm)] ['y'] = some (InstVal.varName y') := rfl
  have hlkR : lookupStr [((['x'] : Str), InstVal.varName x'),
      (['y'], InstVal.varName y'), (['R'], InstVal.formula rIm),
      (['Q'], InstVal.formula qIm)] ['R'] = some (InstVal.formula rIm) := rfl
  have hlkQ : lookupStr [((['x'] : Str), InstVal.varName x'),
      (['y'], InstVal.varName y'), (['R'], InstVal.formula rIm),
      (['Q'], InstVal.formula qIm)] ['Q'] = some (InstVal.formula qIm) := rfl
  have hsubX : PTerm.substT (instTermMap
      [((['x'] : Str), InstVal.varName x'), (['y'], InstVal.varName y'),
        (['R'], InstVal.formula rIm), (['Q'], InstVal.formula qIm)])
      [] (.leaf ['x']) = .ok (.leaf x') := rfl
  have hsubY : PTerm.substT (instTermMap
      [((['x'] : Str), InstVal.varName x'), (['y'], InstVal.varName y'),
        (['R'], InstVal.formula rIm), (['Q'], InstVal.formula qIm)])
      [] (.leaf ['y']) = .ok (.leaf y') := rfl
  have hfRx := find?_free_single rIm.freeVarsF x' hfr
  have hfQy := find?_free_single qIm.freeVarsF y' hfq
  have hfRn := find?_free_nil rIm.freeVarsF
  have hfQn := find?_free_nil qIm.freeVarsF
  simp only [Schema.instantiate, equivalenceOf, pimpP, rxT, qxT, qyT]
  simp only [instantiateHelper, instRel, hlkX, hlkY, hlkR, hlkQ,
    List.nil_append, hsubX, hsubY, hfRx, hfQy, hfRn, hfQn, h1, h2, h3]

/-! ### Prover-state bookkeeping predicates and chain tautologies -/

theorem hEval_not (v : PFormula → Bool) (a : PFormula) :
    hEval v (.un a) = !(hEval v a) := by
  rw [hEval]

def StOk (st : ProverState) : Prop :=
  st.assumptions = allAxioms ∧
  ∀ j < st.plines.length, predLineValidAt st.assumptions st.plines j = true

def StAt (st : ProverState) (i : Nat) (f : PFormula) : Prop :=
  i < st.plines.length ∧
  (st.plines.get? i).map PredLine.formulaOf = some f

theorem StAt_ext {st st2 : ProverState} {i : Nat} {f : PFormula}
    (h : StAt st i f) (hext : ∃ ext, st2.plines = st.plines ++ ext) :
    StAt st2 i f := by
  obtain ⟨ext, hext⟩ := hext
  refine ⟨?_, ?_⟩
  · have h1 := h.1
    rw [hext, List.length_append]
    omega
  · rw [hext, List.get?_append h.1]
    exact h.2

theorem addTaut_ok (st : ProverState) (f : PFormula) (hok : StOk st)
    (ht : isPredTautology f = true) :
    StOk (st.addTautology f).1 ∧
    StAt (st.addTautology f).1 (st.addTautology f).2 f ∧
    (st.addTautology f).1.plines = st.plines ++ [PredLine.taut f] ∧
    (st.addTautology f).2 + 1 = (st.addTautology f).1.plines.length := by
  have hnew : predLineValid st.assumptions (st.plines ++ [PredLine.taut f])
      st.plines.length (.taut f) = true := by
    rw [predLineValid]
    exact ht
  refine ⟨⟨hok.1, ?_⟩, ⟨?_, ?_⟩, rfl, ?_⟩
  · exact allValid_snoc hok.2 hnew
  · show st.plines.length < (st.plines ++ [PredLine.taut f]).length
    rw [List.length_append]
    simp
  · show ((st.plines ++ [PredLine.taut f]).get? st.plines.length).map
      PredLine.formulaOf = some f
    rw [List.get?_concat_length]
    rfl
  · show st.plines.length + 1 = (st.plines ++ [PredLine.taut f]).length
    rw [List.length_append]
    rfl

theorem addInst_ok (st : ProverState) (f : PFormula) (s : Schema)
    (m : List (Str × InstVal)) (hok : StOk st)
    (hc : allAxioms.contains s = true) (hk : instMapKeysOk s m = true)
    (hi : Schema.instantiate s m = .ok f) :
    StOk (st.addInstantiatedAssumption f s m).1 ∧
    StAt (st.addInstantiatedAssumption f s m).1
      (st.addInstantiatedAssumption f s m).2 f ∧
    (st.addInstantiatedAssumption f s m).1.plines =
      st.plines ++ [PredLine.assumption f s m] ∧
    (st.addInstantiatedAssumption f s m).2 + 1 =
      (st.addInstantiatedAssumption f s m).1.plines.length := by
  have hnew : predLineValid st.assumptions (st.plines ++ [PredLine.assumption f s m])
      st.plines.length (.assumption f s m) = true := by
    rw [predLineValid]
    rw [hok.1, hc, hk, hi]
    simp
  refine ⟨⟨hok.1, ?_⟩, ⟨?_, ?_⟩, rfl, ?_⟩
  · exact allValid_snoc hok.2 hnew
  · show st.plines.length < (st.plines ++ [PredLine.assumption f s m]).length
    rw [List.length_append]
    simp
  · show ((st.plines ++ [PredLine.assumption f s m]).get? st.plines.length).map
      PredLine.formulaOf = some f
    rw [List.get?_concat_length]
    rfl
  · show st.plines.length + 1 = (st.plines ++ [PredLine.assumption f s m]).length
    rw [List.length_append]
    rfl

theorem addMP_ok (st : ProverState) (f fa : PFormula) (a c : Nat)
    (hok : StOk st) (ha : StAt st a fa) (hc : StAt st c (pimpP fa f)) :
    StOk (st.addMP f a c).1 ∧
    StAt (st.addMP f a c).1 (st.addMP f a c).2 f ∧
    (st.addMP f a c).1.plines = st.plines ++ [PredLine.mp f a c] ∧
    (st.addMP f a c).2 + 1 = (st.addMP f a c).1.plines.length := by
  have hnew : predLineValid st.assumptions (st.plines ++ [PredLine.mp f a c])
      st.plines.length (.mp f a c) = true := by
    rw [predLineValid]
    have h1 : (st.plines ++ [PredLine.mp f a c]).get? a = st.plines.get? a :=
      List.get?_append ha.1
    have h2 : (st.plines ++ [PredLine.mp f a c]).get? c = st.plines.get? c :=
      List.get?_append hc.1
    simp only [Bool.and_eq_true, decide_eq_true_eq]
    refine ⟨⟨ha.1, hc.1⟩, ?_⟩
    rw [h1, h2]
    rw [show (st.plines.get? a).map PredLine.formulaOf = some fa from ha.2,
      show (st.plines.get? c).map PredLine.formulaOf = some (pimpP fa f)
        from hc.2]
    simp
  refine ⟨⟨hok.1, ?_⟩, ⟨?_, ?_⟩, rfl, ?_⟩
  · exact allValid_snoc hok.2 hnew
  · show st.plines.length < (st.plines ++ [PredLine.mp f a c]).length
    rw [List.length_append]
    simp
  · show ((st.plines ++ [PredLine.mp f a c]).get? st.plines.length).map
      PredLine.formulaOf = some f
    rw [List.get?_concat_length]
    rfl
  · show st.plines.length + 1 = (st.plines ++ [PredLine.mp f a c]).length
    rw [List.length_append]
    rfl

theorem mkQed_ok (st : ProverState) (idx : Nat) (target : PFormula)
    (hok : StOk st) (hidx : idx + 1 = st.plines.length)
    (hf : StAt st idx target) :
    ∃ pr, mkQed st = some pr ∧ pr.assumptions = allAxioms ∧
      pr.conclusion = target ∧ pr.lines = st.plines ∧ pr.isValid = true := by
  have hget : st.plines.get? idx = st.plines.getLast? := by
    rw [List.getLast?_eq_getElem?, ← List.get?_eq_getElem?, ← hidx]
    rfl
  cases hlast : st.plines.getLast? with
  | none =>
      have hf2 := hf.2
      rw [hlast] at hget
      rw [hget] at hf2
      exact absurd hf2 (by simp)
  | some l =>
      have hf2 := hf.2
      rw [hlast] at hget
      rw [hget] at hf2
      have hform : l.formulaOf = target := by simpa using hf2
      refine ⟨⟨st.assumptions, l.formulaOf, st.plines⟩, ?_, ?_, ?_, rfl, ?_⟩
      · rw [mkQed, hlast]
      · exact hok.1
      · exact hform
      · rw [PredProof.isValid]
        simp only [Bool.and_eq_true]
        constructor
        · rw [List.all_eq_true]
          intro j hj
          exact hok.2 j (List.mem_range.mp hj)
        · rw [hlast]
          simp

theorem addProof_ok2 (st : ProverState) (pr : PredProof) (hok : StOk st)
    (hA : pr.assumptions = allAxioms) (hv : pr.isValid = true) :
    StOk (st.addProof pr).1 ∧
    StAt (st.addProof pr).1 (st.addProof pr).2 pr.conclusion ∧
    (∃ ext, (st.addProof pr).1.plines = st.plines ++ ext) ∧
    (st.addProof pr).2 + 1 = (st.addProof pr).1.plines.length := by
  obtain ⟨h1, h2, h3, h4, h5⟩ := addProof_ok st pr hok.2
    (hA.trans hok.1.symm) hv
  exact ⟨⟨h1.trans hok.1, h3⟩, ⟨by omega, h5⟩, ⟨_, h2⟩, h4⟩

theorem addTautImpl_ok2 (st : ProverState) (target : PFormula)
    (cited : List Nat) (cf : List PFormula) (hok : StOk st)
    (hcf : cited.mapM (fun i => (st.plines.get? i).map PredLine.formulaOf) =
      some cf)
    (htaut : isPredTautology (implicationChain target cf) = true) :
    ∃ st2 idx, st.addTautologicalImplication target cited = some (st2, idx) ∧
      StOk st2 ∧ StAt st2 idx target ∧
      (∃ ext, st2.plines = st.plines ++ ext) ∧
      idx + 1 = st2.plines.length := by
  obtain ⟨st2, idx, h1, h2, h3, h4, h5, h6, h7⟩ :=
    addTautologicalImplication_ok st target cited cf hok.2 hcf htaut
  refine ⟨st2, idx, h1, ⟨h2.trans hok.1, ?_⟩, ⟨h5, h6⟩, h3, h7⟩
  intro j hj
  exact h4 j hj

/-! ### Chain tautologies used by the prenex construction -/

theorem predTaut_chain_un (f f2 : PFormula) (hwf : f.wfF = true)
    (hwf2 : f2.wfF = true) :
    isPredTautology (implicationChain (equivalenceOf (.un f) (.un f2))
      [equivalenceOf f f2]) = true := by
  refine isPredTautology_complete _ ?_ ?_
  · refine wf_implicationChain (wf_eqv hwf hwf2) ?_
    intro c hc
    have hc2 : c = equivalenceOf f f2 := by simpa using hc
    rw [hc2]
    exact wf_eqv hwf hwf2
  · intro v
    rw [hEval_implicationChain]
    intro hall
    have h1 := hall (equivalenceOf f f2) (by simp)
    rw [hEval_eqv] at h1 ⊢
    rw [hEval_not, hEval_not]
    cases hf : hEval v f <;> cases hf2 : hEval v f2 <;> simp_all
